import Mathlib

/-!
# The buffer replacement algorithm of `buf/buf0lru.c`

A shallow embedding of the LRU list maintenance of the InnoDB plugin
(`storage/innodb_plugin/buf/buf0lru.c`) and proofs about it.

Conventions of the embedding:

* a descriptor pointer (`buf_page_t*`) is a natural number, `NULL` is `none`;
* the descriptor memory is the map `blocks` from addresses to records;
* an intrusive `UT_LIST` is the list of the addresses it links, head first;
* a failed `ut_a`, a `ut_error` or a `NULL` dereference is the result `none`;
* mutexes are not modelled: every function runs as one atomic step;
* list lengths and counters of type `ulint` are natural numbers; the one
  subtraction that can wrap is written with `ulint_sub`.
-/

namespace BufLRU

/-! ## Data model -/

/-- States of a control block, `enum buf_page_state`. -/
inductive buf_page_state where
  | BUF_BLOCK_ZIP_FREE
  | BUF_BLOCK_ZIP_PAGE
  | BUF_BLOCK_ZIP_DIRTY
  | BUF_BLOCK_NOT_USED
  | BUF_BLOCK_READY_FOR_USE
  | BUF_BLOCK_FILE_PAGE
  | BUF_BLOCK_MEMORY
  | BUF_BLOCK_REMOVE_HASH
  deriving DecidableEq, Repr

/-- Pending I/O of a block, `enum buf_io_fix`. -/
inductive buf_io_fix where
  | BUF_IO_NONE
  | BUF_IO_READ
  | BUF_IO_WRITE
  deriving DecidableEq, Repr

/-- The page type stored in the uncompressed frame, as read by
`fil_page_get_type`; `FIL_PAGE_TYPE_OTHER` stands for every value that
`buf_LRU_block_remove_hashed_page` does not list. -/
inductive fil_page_type where
  | FIL_PAGE_INDEX
  | FIL_PAGE_TYPE_ALLOCATED
  | FIL_PAGE_INODE
  | FIL_PAGE_IBUF_BITMAP
  | FIL_PAGE_TYPE_FSP_HDR
  | FIL_PAGE_TYPE_XDES
  | FIL_PAGE_TYPE_ZBLOB
  | FIL_PAGE_TYPE_ZBLOB2
  | FIL_PAGE_TYPE_OTHER
  deriving DecidableEq, Repr

/-- The fields of `buf_page_t` (and of the enclosing `buf_block_t`) that
`buf0lru.c` reads or writes. `zip_data` is the pointer `zip.data`,
`zip_size` the value of `page_zip_get_size`, `frame_type` the page type
found in the uncompressed frame, `index` tells whether `block->index` is
set (the block carries an adaptive hash index), `access_time` is the time
of the first access, 0 when the page was never accessed. -/
structure buf_page_t where
  space : Nat
  offset : Nat
  state : buf_page_state
  buf_fix_count : Nat
  io_fix : buf_io_fix
  sticky : Bool
  oldest_modification : Nat
  old : Bool
  freed_page_clock : Nat
  zip_data : Option Nat
  zip_size : Nat
  frame_type : fil_page_type
  modify_clock : Nat
  index : Bool
  access_time : Nat
  deriving DecidableEq, Repr

/-- The buffer pool `buf_pool` together with the module variable
`buf_LRU_old_ratio`. -/
structure buf_pool_t where
  blocks : Nat → buf_page_t
  LRU : List Nat
  unzip_LRU : List Nat
  free : List Nat
  flush_list : List Nat
  page_hash : List Nat
  LRU_old : Option Nat
  LRU_old_len : Nat
  freed_page_clock : Nat
  n_pages_made_young : Nat
  buf_LRU_old_ratio : Nat
  curr_size : Nat
  LRU_flush_ended : Nat
  n_ra_pages_evicted : Nat

/-- The constants of `buf0lru.h` that `buf0lru.c` uses; the header is not
part of the sources, so they are parameters. -/
structure buf_LRU_consts where
  BUF_LRU_OLD_MIN_LEN : Nat
  BUF_LRU_OLD_RATIO_MIN : Nat
  BUF_LRU_OLD_RATIO_MAX : Nat

/-- Tolerance of the old sublist length, `#define BUF_LRU_OLD_TOLERANCE 20`. -/
def BUF_LRU_OLD_TOLERANCE : Nat := 20

/-- Minimum number of non-old blocks, `#define BUF_LRU_NON_OLD_MIN_LEN 5`. -/
def BUF_LRU_NON_OLD_MIN_LEN : Nat := 5

/-- Denominator of `buf_LRU_old_ratio`; the spec gives `OLD_RATIO_DIV = 1024`. -/
def BUF_LRU_OLD_RATIO_DIV : Nat := 1024

/-- The two `#error` checks of `buf0lru.c` on the constants, and the order
`RATIO_MIN <= RATIO_MAX <= RATIO_DIV` of the ratio bounds. -/
def consts_ok (c : buf_LRU_consts) : Prop :=
  BUF_LRU_NON_OLD_MIN_LEN < c.BUF_LRU_OLD_MIN_LEN ∧
  BUF_LRU_OLD_RATIO_DIV * (BUF_LRU_OLD_TOLERANCE + 5)
    < c.BUF_LRU_OLD_RATIO_MIN * c.BUF_LRU_OLD_MIN_LEN ∧
  c.BUF_LRU_OLD_RATIO_MIN ≤ c.BUF_LRU_OLD_RATIO_MAX ∧
  c.BUF_LRU_OLD_RATIO_MAX ≤ BUF_LRU_OLD_RATIO_DIV

instance (c : buf_LRU_consts) : Decidable (consts_ok c) := by
  unfold consts_ok; infer_instance

/-- Subtraction of two `ulint` values on a 64-bit word. -/
def ulint_sub (a b : Nat) : Nat :=
  if b ≤ a then a - b else a + 2 ^ 64 - b

/-! ## The list macros of `ut0lst.h` -/

/-- Modelled from the spec: `UT_LIST_GET_NEXT` of `ut0lst.h` (not in the
sources), the successor of node `a` in the doubly linked list. -/
def UT_LIST_GET_NEXT : List Nat → Nat → Option Nat
  | [], _ => none
  | x :: rest, a => if x = a then rest.head? else UT_LIST_GET_NEXT rest a

/-- Modelled from the spec: `UT_LIST_GET_PREV` of `ut0lst.h` (not in the
sources), the predecessor of node `a` in the doubly linked list. -/
def UT_LIST_GET_PREV : List Nat → Nat → Option Nat
  | [], _ => none
  | [_], _ => none
  | x :: y :: rest, a =>
    if x = a then none
    else if y = a then some x
    else UT_LIST_GET_PREV (y :: rest) a

/-- Modelled from the spec: `UT_LIST_ADD_FIRST`, the node becomes the head. -/
def UT_LIST_ADD_FIRST (l : List Nat) (x : Nat) : List Nat := x :: l

/-- Modelled from the spec: `UT_LIST_ADD_LAST`, the node becomes the tail. -/
def UT_LIST_ADD_LAST (l : List Nat) (x : Nat) : List Nat := l ++ [x]

/-- Modelled from the spec: `UT_LIST_INSERT_AFTER`, node `x` is linked
right behind node `a`. -/
def UT_LIST_INSERT_AFTER : List Nat → Nat → Nat → List Nat
  | [], _, _ => []
  | y :: rest, a, x =>
    if y = a then y :: x :: rest else y :: UT_LIST_INSERT_AFTER rest a x

/-- Modelled from the spec: `UT_LIST_REMOVE`, the node is unlinked. -/
def UT_LIST_REMOVE (l : List Nat) (x : Nat) : List Nat := l.erase x

/-! ## Inline helpers of `buf0buf.ic` -/

/-- Modelled from the spec: `buf_page_in_file` (buf0buf.ic, not in the
sources): the block holds a file page, its state is `FILE_PAGE`,
`ZIP_PAGE` or `ZIP_DIRTY`. -/
def buf_page_in_file (bp : buf_page_t) : Bool :=
  match bp.state with
  | .BUF_BLOCK_ZIP_PAGE => true
  | .BUF_BLOCK_ZIP_DIRTY => true
  | .BUF_BLOCK_FILE_PAGE => true
  | _ => false

/-- Modelled from the spec: `buf_page_can_relocate` (buf0buf.ic, not in the
sources): relocation is permitted only when
`buf_fix_count == 0`, `io_fix == NONE` and the block is not sticky. -/
def buf_page_can_relocate (bp : buf_page_t) : Bool :=
  decide (bp.io_fix = .BUF_IO_NONE) && decide (bp.buf_fix_count = 0) && !bp.sticky

/-- Modelled from the spec: `buf_page_belongs_to_unzip_LRU` (buf0buf.ic, not
in the sources): a `FILE_PAGE` that carries a compressed frame. -/
def buf_page_belongs_to_unzip_LRU (bp : buf_page_t) : Bool :=
  bp.zip_data.isSome && decide (bp.state = .BUF_BLOCK_FILE_PAGE)

/-- Store into one descriptor of the pool. -/
def set_block (p : buf_pool_t) (a : Nat) (v : buf_page_t) : buf_pool_t :=
  { p with blocks := Function.update p.blocks a v }

/-- Modelled from the spec: `buf_page_set_old` (buf0buf.ic, not in the
sources) stores the old flag of a descriptor. -/
def buf_page_set_old (p : buf_pool_t) (bpage : Nat) (old : Bool) : buf_pool_t :=
  set_block p bpage { p.blocks bpage with old := old }

/-- Modelled from the spec: `buf_page_is_old` (buf0buf.ic, not in the
sources) reads the old flag of a descriptor. -/
def buf_page_is_old (p : buf_pool_t) (bpage : Nat) : Bool :=
  (p.blocks bpage).old

/-- Modelled from the spec: `buf_page_hash_get` (buf0buf.ic, not in the
sources), the contract `hash_lookup(space, page)`: the first descriptor in
the page hash with this identity. -/
def buf_page_hash_get (p : buf_pool_t) (space offset : Nat) : Option Nat :=
  p.page_hash.find? (fun x =>
    decide ((p.blocks x).space = space) && decide ((p.blocks x).offset = offset))

/-- The loops `bpage->old = v` over a whole list, in the order given. -/
def set_old_all (v : Bool) : List Nat → (Nat → buf_page_t) → (Nat → buf_page_t)
  | [], blocks => blocks
  | x :: rest, blocks =>
    set_old_all v rest (Function.update blocks x { blocks x with old := v })

/-! ## The old sublist -/

/-- The target length of the old sublist computed by
`buf_LRU_old_adjust_len` and by `buf_LRU_validate`:
`ut_min(len * buf_LRU_old_ratio / BUF_LRU_OLD_RATIO_DIV,
len - (BUF_LRU_OLD_TOLERANCE + BUF_LRU_NON_OLD_MIN_LEN))`. -/
def LRU_new_len (p : buf_pool_t) : Nat :=
  min (p.LRU.length * p.buf_LRU_old_ratio / BUF_LRU_OLD_RATIO_DIV)
    (ulint_sub p.LRU.length (BUF_LRU_OLD_TOLERANCE + BUF_LRU_NON_OLD_MIN_LEN))

/-- The `for (;;)` loop of `buf_LRU_old_adjust_len`, with the number of
remaining iterations as first argument. The local `old_len` of the source
always equals `buf_pool->LRU_old_len`, which is used here. -/
def buf_LRU_old_adjust_len_loop (new_len : Nat) : Nat → buf_pool_t → Option buf_pool_t
  | 0, _ => none
  | fuel + 1, p =>
    match p.LRU_old with
    | none => none
    | some LRU_old =>
      if p.LRU_old_len + BUF_LRU_OLD_TOLERANCE < new_len then
        match UT_LIST_GET_PREV p.LRU LRU_old with
        | none => none
        | some prev =>
          buf_LRU_old_adjust_len_loop new_len fuel
            (buf_page_set_old
              { p with LRU_old := some prev, LRU_old_len := p.LRU_old_len + 1 } prev true)
      else if p.LRU_old_len > new_len + BUF_LRU_OLD_TOLERANCE then
        buf_LRU_old_adjust_len_loop new_len fuel
          (buf_page_set_old
            { p with LRU_old := UT_LIST_GET_NEXT p.LRU LRU_old,
                     LRU_old_len := p.LRU_old_len - 1 } LRU_old false)
      else some p

/-- `buf_LRU_old_adjust_len`: moves the `LRU_old` pointer so that the length
of the old blocks list is inside the allowed limits. Every iteration moves
`LRU_old_len` one step towards `new_len`, so `LRU_old_len + new_len + 1`
iterations are always enough. -/
def buf_LRU_old_adjust_len (p : buf_pool_t) : Option buf_pool_t :=
  match p.LRU_old with
  | none => none
  | some _ =>
    buf_LRU_old_adjust_len_loop (LRU_new_len p) (p.LRU_old_len + LRU_new_len p + 1) p

/-- `buf_LRU_old_init`: marks every block old, points `LRU_old` to the head
and adjusts. -/
def buf_LRU_old_init (c : buf_LRU_consts) (p : buf_pool_t) : Option buf_pool_t :=
  if p.LRU.length = c.BUF_LRU_OLD_MIN_LEN then
    buf_LRU_old_adjust_len
      { p with blocks := set_old_all true p.LRU.reverse p.blocks,
               LRU_old := p.LRU.head?,
               LRU_old_len := p.LRU.length }
  else none

/-- `buf_unzip_LRU_remove_block_if_needed`. -/
def buf_unzip_LRU_remove_block_if_needed (p : buf_pool_t) (bpage : Nat) : buf_pool_t :=
  if buf_page_belongs_to_unzip_LRU (p.blocks bpage) then
    { p with unzip_LRU := UT_LIST_REMOVE p.unzip_LRU bpage }
  else p

/-- `buf_LRU_remove_block`: removes a block from the LRU list. -/
def buf_LRU_remove_block (c : buf_LRU_consts) (p : buf_pool_t) (bpage : Nat) :
    Option buf_pool_t :=
  if buf_page_in_file (p.blocks bpage) then
    let p1 : Option buf_pool_t :=
      if p.LRU_old = some bpage then
        match UT_LIST_GET_PREV p.LRU bpage with
        | none => none
        | some prev_bpage =>
          some (let q := buf_page_set_old { p with LRU_old := some prev_bpage } prev_bpage true
                { q with LRU_old_len := q.LRU_old_len + 1 })
      else some p
    match p1 with
    | none => none
    | some p1 =>
      let p2 := buf_unzip_LRU_remove_block_if_needed
        { p1 with LRU := UT_LIST_REMOVE p1.LRU bpage } bpage
      if p2.LRU.length < c.BUF_LRU_OLD_MIN_LEN then
        some { p2 with blocks := set_old_all false p2.LRU p2.blocks,
                       LRU_old := none,
                       LRU_old_len := 0 }
      else
        buf_LRU_old_adjust_len
          (if buf_page_is_old p2 bpage then { p2 with LRU_old_len := p2.LRU_old_len - 1 }
           else p2)
  else none

/-- `buf_unzip_LRU_add_block`: adds a block to the list of decompressed
zip pages, at the end when `old`, else at the start. -/
def buf_unzip_LRU_add_block (p : buf_pool_t) (block : Nat) (old : Bool) :
    Option buf_pool_t :=
  if buf_page_belongs_to_unzip_LRU (p.blocks block) then
    some (if old then { p with unzip_LRU := UT_LIST_ADD_LAST p.unzip_LRU block }
          else { p with unzip_LRU := UT_LIST_ADD_FIRST p.unzip_LRU block })
  else none

/-- The common tail of `buf_LRU_add_block_low` and
`buf_LRU_add_block_to_end_low`: a zipped block with a decompressed frame
is also put on the unzip_LRU list. -/
def add_to_unzip_LRU_if_needed (p : buf_pool_t) (bpage : Nat) (old : Bool) :
    Option buf_pool_t :=
  if buf_page_belongs_to_unzip_LRU (p.blocks bpage) then
    buf_unzip_LRU_add_block p bpage old
  else some p

/-- `buf_LRU_add_block_to_end_low`: adds a block to the LRU list end. -/
def buf_LRU_add_block_to_end_low (c : buf_LRU_consts) (p : buf_pool_t) (bpage : Nat) :
    Option buf_pool_t :=
  if buf_page_in_file (p.blocks bpage) then
    let p1 := { p with LRU := UT_LIST_ADD_LAST p.LRU bpage }
    let p2 : Option buf_pool_t :=
      if p1.LRU.length > c.BUF_LRU_OLD_MIN_LEN then
        let q := buf_page_set_old p1 bpage true
        buf_LRU_old_adjust_len { q with LRU_old_len := q.LRU_old_len + 1 }
      else if p1.LRU.length = c.BUF_LRU_OLD_MIN_LEN then
        buf_LRU_old_init c p1
      else
        some (buf_page_set_old p1 bpage p1.LRU_old.isSome)
    match p2 with
    | none => none
    | some p2 => add_to_unzip_LRU_if_needed p2 bpage true
  else none

/-- `buf_LRU_add_block_low`: adds a block to the LRU list, behind `LRU_old`
when `old` is set and the list is long enough, else at the start. -/
def buf_LRU_add_block_low (c : buf_LRU_consts) (p : buf_pool_t) (bpage : Nat) (old : Bool) :
    Option buf_pool_t :=
  if buf_page_in_file (p.blocks bpage) then
    let p1 : Option buf_pool_t :=
      if !old || decide (p.LRU.length < c.BUF_LRU_OLD_MIN_LEN) then
        some (set_block { p with LRU := UT_LIST_ADD_FIRST p.LRU bpage } bpage
          { p.blocks bpage with freed_page_clock := p.freed_page_clock })
      else
        match p.LRU_old with
        | none => none
        | some LRU_old =>
          some { p with LRU := UT_LIST_INSERT_AFTER p.LRU LRU_old bpage,
                        LRU_old_len := p.LRU_old_len + 1 }
    match p1 with
    | none => none
    | some p1 =>
      let p2 : Option buf_pool_t :=
        if p1.LRU.length > c.BUF_LRU_OLD_MIN_LEN then
          buf_LRU_old_adjust_len (buf_page_set_old p1 bpage old)
        else if p1.LRU.length = c.BUF_LRU_OLD_MIN_LEN then
          buf_LRU_old_init c p1
        else
          some (buf_page_set_old p1 bpage p1.LRU_old.isSome)
      match p2 with
      | none => none
      | some p2 => add_to_unzip_LRU_if_needed p2 bpage old
  else none

/-- `buf_LRU_add_block`. -/
def buf_LRU_add_block (c : buf_LRU_consts) (p : buf_pool_t) (bpage : Nat) (old : Bool) :
    Option buf_pool_t :=
  buf_LRU_add_block_low c p bpage old

/-- `buf_LRU_make_block_young`: moves a block to the start of the LRU list. -/
def buf_LRU_make_block_young (c : buf_LRU_consts) (p : buf_pool_t) (bpage : Nat) :
    Option buf_pool_t :=
  let p0 := if (p.blocks bpage).old then
      { p with n_pages_made_young := (p.n_pages_made_young + 1) % 2 ^ 64 }
    else p
  match buf_LRU_remove_block c p0 bpage with
  | none => none
  | some p1 => buf_LRU_add_block_low c p1 bpage false

/-- `buf_LRU_make_block_old`: moves a block to the end of the LRU list. -/
def buf_LRU_make_block_old (c : buf_LRU_consts) (p : buf_pool_t) (bpage : Nat) :
    Option buf_pool_t :=
  match buf_LRU_remove_block c p bpage with
  | none => none
  | some p1 => buf_LRU_add_block_to_end_low c p1 bpage

/-! ## Freeing blocks -/

/-- `buf_LRU_block_free_non_file_page`: puts a block back to the free list.
`buf_buddy_free` returns the compressed frame to the buddy allocator, which
is outside this module. -/
def buf_LRU_block_free_non_file_page (p : buf_pool_t) (block : Nat) : Option buf_pool_t :=
  match (p.blocks block).state with
  | .BUF_BLOCK_MEMORY | .BUF_BLOCK_READY_FOR_USE =>
    let p1 := set_block p block { p.blocks block with state := .BUF_BLOCK_NOT_USED }
    let p2 := match (p1.blocks block).zip_data with
      | some _ => set_block p1 block { p1.blocks block with zip_data := none, zip_size := 0 }
      | none => p1
    some { p2 with free := UT_LIST_ADD_FIRST p2.free block }
  | _ => none

/-- `buf_LRU_block_free_hashed_page`: puts a file page that has no hash
index to the free list. -/
def buf_LRU_block_free_hashed_page (p : buf_pool_t) (block : Nat) : Option buf_pool_t :=
  buf_LRU_block_free_non_file_page
    (set_block p block { p.blocks block with state := .BUF_BLOCK_MEMORY }) block

/-- The first `switch` of `buf_LRU_block_remove_hashed_page`: the checks on
the block that is taken out, by state. -/
def remove_hashed_page_check (p : buf_pool_t) (bpage : Nat) (zip : Bool) : Option buf_pool_t :=
  match (p.blocks bpage).state with
  | .BUF_BLOCK_FILE_PAGE =>
    let p1 := set_block p bpage
      { p.blocks bpage with modify_clock := ((p.blocks bpage).modify_clock + 1) % 2 ^ 64 }
    match (p1.blocks bpage).zip_data with
    | some _ =>
      if !zip || decide ((p1.blocks bpage).oldest_modification = 0) then
        match (p1.blocks bpage).frame_type with
        | .FIL_PAGE_TYPE_OTHER => none
        | _ => some p1
      else none
    | none =>
      if (p1.blocks bpage).oldest_modification = 0 then some p1 else none
  | .BUF_BLOCK_ZIP_PAGE =>
    if (p.blocks bpage).oldest_modification = 0 then some p else none
  | _ => none

/-- `buf_LRU_block_remove_hashed_page`: takes a block out of the LRU list
and page hash table; returns the new state of the block. The descriptor of
a compressed-only page is freed (`buf_page_free_descriptor`), its last state
is `BUF_BLOCK_ZIP_FREE`. -/
def buf_LRU_block_remove_hashed_page (c : buf_LRU_consts) (p : buf_pool_t) (bpage : Nat)
    (zip : Bool) : Option (buf_page_state × buf_pool_t) :=
  if (p.blocks bpage).io_fix = .BUF_IO_NONE ∧ (p.blocks bpage).buf_fix_count = 0 then
    match buf_LRU_remove_block c p bpage with
    | none => none
    | some p1 =>
      let p2 := { p1 with freed_page_clock := (p1.freed_page_clock + 1) % 2 ^ 64 }
      match remove_hashed_page_check p2 bpage zip with
      | none => none
      | some p3 =>
        if buf_page_hash_get p3 (p3.blocks bpage).space (p3.blocks bpage).offset
            = some bpage then
          let p4 := { p3 with page_hash := p3.page_hash.erase bpage }
          match (p4.blocks bpage).state with
          | .BUF_BLOCK_ZIP_PAGE =>
            if (p4.blocks bpage).zip_data.isSome ∧ (p4.blocks bpage).zip_size ≠ 0 then
              some (.BUF_BLOCK_ZIP_FREE,
                set_block p4 bpage { p4.blocks bpage with state := .BUF_BLOCK_ZIP_FREE })
            else none
          | .BUF_BLOCK_FILE_PAGE =>
            let p5 := set_block p4 bpage
              { p4.blocks bpage with state := .BUF_BLOCK_REMOVE_HASH }
            let p6 :=
              if zip && (p5.blocks bpage).zip_data.isSome then
                set_block p5 bpage { p5.blocks bpage with zip_data := none, zip_size := 0 }
              else p5
            some (.BUF_BLOCK_REMOVE_HASH, p6)
          | _ => none
        else none
  else none

/-- Modelled from the spec: `buf_flush_relocate_on_flush_list` (buf0flu.c,
not in the sources), the contract `flush_relocate(old, new)`: the new
descriptor takes the place of the old one in the flush list. -/
def buf_flush_relocate_on_flush_list (p : buf_pool_t) (bpage b : Nat) : buf_pool_t :=
  { p with flush_list := p.flush_list.map (fun x => if x = bpage then b else x) }

/-- The part of `buf_LRU_free_block` that links the copy `b` behind
`prev_b` and accounts for it in the old sublist: `UT_LIST_INSERT_AFTER`,
and for an old `b` the increment of `LRU_old_len` and the move of `LRU_old`
onto `b` when `LRU_old` is the successor of `b`. -/
def free_block_insert_after (p : buf_pool_t) (prev_b b : Nat) : buf_pool_t :=
  let p1 := { p with LRU := UT_LIST_INSERT_AFTER p.LRU prev_b b }
  if buf_page_is_old p1 b then
    let q := { p1 with LRU_old_len := p1.LRU_old_len + 1 }
    if q.LRU_old = UT_LIST_GET_NEXT q.LRU b then { q with LRU_old := some b } else q
  else p1

/-- The part of `buf_LRU_free_block` that links the copy `b` into the LRU
list where `bpage` was; `prev_b` is the predecessor that `b` inherited
from `bpage`. -/
def free_block_relink (c : buf_LRU_consts) (p : buf_pool_t) (prev_b : Option Nat) (b : Nat) :
    Option buf_pool_t :=
  match prev_b with
  | some prev_b =>
    let p2 := free_block_insert_after p prev_b b
    if p2.LRU.length > c.BUF_LRU_OLD_MIN_LEN then
      buf_LRU_old_adjust_len p2
    else if p2.LRU.length = c.BUF_LRU_OLD_MIN_LEN then
      buf_LRU_old_init c p2
    else some p2
  | none => buf_LRU_add_block_low c p b (buf_page_is_old p b)

/-- `buf_LRU_free_block`: tries to free a block. The result is the return
value, the value stored in `*removed`, and the pool. The argument `b` is
the address that `buf_page_alloc_descriptor` returns if it is called.
The adaptive hash index and the checksum of the compressed frame are
outside this model. -/
def buf_LRU_free_block (c : buf_LRU_consts) (p : buf_pool_t) (bpage : Nat) (zip : Bool)
    (b : Nat) : Option (Bool × Bool × buf_pool_t) :=
  if !buf_page_can_relocate (p.blocks bpage) then
    some (false, false, p)
  else
    let dirty : Bool := decide ((p.blocks bpage).oldest_modification ≠ 0)
    let file_page : Bool := decide ((p.blocks bpage).state = .BUF_BLOCK_FILE_PAGE)
    if (zip || (p.blocks bpage).zip_data.isNone) && dirty then
      some (false, false, p)
    else if !(zip || (p.blocks bpage).zip_data.isNone) && dirty && !file_page then
      some (false, false, p)
    else
      let alloc : Bool := !(zip || (p.blocks bpage).zip_data.isNone) && file_page
      let prev_b := UT_LIST_GET_PREV p.LRU bpage
      let p0 := if alloc then set_block p b (p.blocks bpage) else p
      match buf_LRU_block_remove_hashed_page c p0 bpage zip with
      | none => none
      | some (.BUF_BLOCK_ZIP_FREE, p1) => some (true, true, p1)
      | some (_, p1) =>
        if (p1.blocks bpage).buf_fix_count = 0 then
          if alloc then
            if buf_page_hash_get p1 (p1.blocks bpage).space (p1.blocks bpage).offset
                = none then
              let p2 := set_block p1 b
                { p1.blocks b with
                  state := if (p1.blocks b).oldest_modification ≠ 0
                           then .BUF_BLOCK_ZIP_DIRTY else .BUF_BLOCK_ZIP_PAGE }
              let p3 := { p2 with page_hash := p2.page_hash ++ [b] }
              match free_block_relink c p3 prev_b b with
              | none => none
              | some p4 =>
                let p5 :=
                  if (p4.blocks b).state = .BUF_BLOCK_ZIP_PAGE then p4
                  else buf_flush_relocate_on_flush_list p4 bpage b
                let p6 := set_block p5 bpage
                  { p5.blocks bpage with zip_data := none, zip_size := 0 }
                let p7 := set_block p6 b { p6.blocks b with sticky := true }
                let p8 := set_block p7 b { p7.blocks b with sticky := false }
                match buf_LRU_block_free_hashed_page p8 bpage with
                | none => none
                | some p9 => some (true, false, p9)
            else none
          else
            match buf_LRU_block_free_hashed_page p1 bpage with
            | none => none
            | some p2 => some (true, true, p2)
        else none

/-- `buf_LRU_free_one_page`: removes one page from the LRU list and puts it
to the free list. -/
def buf_LRU_free_one_page (c : buf_LRU_consts) (p : buf_pool_t) (bpage : Nat) :
    Option buf_pool_t :=
  match buf_LRU_block_remove_hashed_page c p bpage true with
  | none => none
  | some (.BUF_BLOCK_ZIP_FREE, p1) => some p1
  | some (_, p1) => buf_LRU_block_free_hashed_page p1 bpage

/-- `buf_LRU_old_ratio_update`: updates `buf_LRU_old_ratio`; the result is
the returned percentage and the pool. The arithmetic on `uint` is modulo
`2 ^ 32`; the returned value `(uint) (ratio * 100 / (double) 1024 + 0.5)`
is exact, the divisor being a power of two. -/
def buf_LRU_old_ratio_update (c : buf_LRU_consts) (p : buf_pool_t) (old_pct : Nat)
    (adjust : Bool) : Option (Nat × buf_pool_t) :=
  let ratio0 := (old_pct * BUF_LRU_OLD_RATIO_DIV) % 2 ^ 32 / 100
  let ratio :=
    if ratio0 < c.BUF_LRU_OLD_RATIO_MIN then c.BUF_LRU_OLD_RATIO_MIN
    else if ratio0 > c.BUF_LRU_OLD_RATIO_MAX then c.BUF_LRU_OLD_RATIO_MAX
    else ratio0
  let p1 : Option buf_pool_t :=
    if adjust then
      if ratio ≠ p.buf_LRU_old_ratio then
        let q := { p with buf_LRU_old_ratio := ratio }
        if q.LRU.length ≥ c.BUF_LRU_OLD_MIN_LEN then buf_LRU_old_adjust_len q
        else some q
      else some p
    else some { p with buf_LRU_old_ratio := ratio }
  match p1 with
  | none => none
  | some p1 => some ((ratio * 100 * 2 + BUF_LRU_OLD_RATIO_DIV) / (2 * BUF_LRU_OLD_RATIO_DIV), p1)

/-- The pool right after `buf_pool_init` as far as this module sees it:
all lists empty, no old sublist. -/
def empty_pool (blocks : Nat → buf_page_t) (ratio : Nat) : buf_pool_t :=
  { blocks := blocks, LRU := [], unzip_LRU := [], free := [], flush_list := [],
    page_hash := [], LRU_old := none, LRU_old_len := 0, freed_page_clock := 0,
    n_pages_made_young := 0, buf_LRU_old_ratio := ratio, curr_size := 0,
    LRU_flush_ended := 0, n_ra_pages_evicted := 0 }

/-! ## The predicates checked by `buf_LRU_validate` -/

/-- The block `LRU_old` points to and all of its successors in the LRU
list; empty when `LRU_old` is `NULL`. -/
def old_blocks (p : buf_pool_t) : List Nat :=
  match p.LRU_old with
  | none => []
  | some o => p.LRU.dropWhile (fun x => decide (x ≠ o))

/-- The old-sublist predicate: `LRU_old` is defined exactly when the list
has `BUF_LRU_OLD_MIN_LEN` blocks and then points into the list, the blocks
with the old flag are `LRU_old` and its successors, and `LRU_old_len`
counts the old blocks. -/
def old_sublist (c : buf_LRU_consts) (p : buf_pool_t) : Prop :=
  ((p.LRU_old = none ∧ p.LRU.length < c.BUF_LRU_OLD_MIN_LEN) ∨
    (∃ o ∈ p.LRU, p.LRU_old = some o ∧ c.BUF_LRU_OLD_MIN_LEN ≤ p.LRU.length)) ∧
  (∀ x ∈ p.LRU, (p.blocks x).old = true ↔ x ∈ old_blocks p) ∧
  p.LRU_old_len = p.LRU.countP (fun x => (p.blocks x).old)

instance (c : buf_LRU_consts) (p : buf_pool_t) : Decidable (old_sublist c p) := by
  unfold old_sublist; infer_instance

/-- The tolerance check of `buf_LRU_validate` with the target length
written out: for a list of at least `BUF_LRU_OLD_MIN_LEN` blocks,
`new_len - 20 <= LRU_old_len <= new_len + 20` where
`new_len = min(len * ratio / 1024, len - 25)`. -/
def old_len_in_tolerance (c : buf_LRU_consts) (p : buf_pool_t) : Prop :=
  c.BUF_LRU_OLD_MIN_LEN ≤ p.LRU.length →
    min (p.LRU.length * p.buf_LRU_old_ratio / 1024) (p.LRU.length - (20 + 5))
        ≤ p.LRU_old_len + 20 ∧
    p.LRU_old_len
      ≤ min (p.LRU.length * p.buf_LRU_old_ratio / 1024) (p.LRU.length - (20 + 5)) + 20

instance (c : buf_LRU_consts) (p : buf_pool_t) : Decidable (old_len_in_tolerance c p) := by
  unfold old_len_in_tolerance; infer_instance

/-- The state of the LRU list that `buf_LRU_validate` accepts: a proper
list (no block linked twice), the old-sublist predicate and the tolerance
of the old sublist length. -/
def LRU_valid (c : buf_LRU_consts) (p : buf_pool_t) : Prop :=
  p.LRU.Nodup ∧ old_sublist c p ∧ old_len_in_tolerance c p

instance (c : buf_LRU_consts) (p : buf_pool_t) : Decidable (LRU_valid c p) := by
  unfold LRU_valid; infer_instance

/-- Two descriptors name the same page. -/
def same_page (a b : buf_page_t) : Prop :=
  a.space = b.space ∧ a.offset = b.offset

instance (a b : buf_page_t) : Decidable (same_page a b) := by
  unfold same_page; infer_instance

/-- What `buf_LRU_block_remove_hashed_page` requires of the block it takes
out ("must contain a file page and be in a state where it can be freed"):
it is in the LRU list, the page hash finds it under its identity and holds
no second descriptor of that page, a `ZIP_DIRTY` block is dirty, a
compressed-only block has its compressed frame, and the frame of a
compressed file page has a known page type. -/
def page_freeable (p : buf_pool_t) (bpage : Nat) : Prop :=
  bpage ∈ p.LRU ∧
  buf_page_in_file (p.blocks bpage) = true ∧
  buf_page_hash_get p (p.blocks bpage).space (p.blocks bpage).offset = some bpage ∧
  (∀ x ∈ p.page_hash.erase bpage, ¬ same_page (p.blocks x) (p.blocks bpage)) ∧
  ((p.blocks bpage).state = .BUF_BLOCK_ZIP_DIRTY → (p.blocks bpage).oldest_modification ≠ 0) ∧
  ((p.blocks bpage).state ≠ .BUF_BLOCK_FILE_PAGE →
    (p.blocks bpage).zip_data.isSome = true ∧ (p.blocks bpage).zip_size ≠ 0) ∧
  ((p.blocks bpage).state = .BUF_BLOCK_FILE_PAGE → (p.blocks bpage).zip_data.isSome = true →
    (p.blocks bpage).frame_type ≠ .FIL_PAGE_TYPE_OTHER)

instance (p : buf_pool_t) (bpage : Nat) : Decidable (page_freeable p bpage) := by
  unfold page_freeable; infer_instance

/-- The address `b` is not in use: `buf_page_alloc_descriptor` returns
memory that no list and no hash chain links. -/
def fresh_descriptor (p : buf_pool_t) (b : Nat) : Prop :=
  b ∉ p.LRU ∧ b ∉ p.unzip_LRU ∧ b ∉ p.free ∧ b ∉ p.flush_list ∧ b ∉ p.page_hash

instance (p : buf_pool_t) (b : Nat) : Decidable (fresh_descriptor p b) := by
  unfold fresh_descriptor; infer_instance

/-- The sequence of page identities `(space, offset)` along the LRU list,
head first. -/
def LRU_pages (p : buf_pool_t) : List (Nat × Nat) :=
  p.LRU.map (fun x => ((p.blocks x).space, (p.blocks x).offset))

/-- The old sublist written as a split of the LRU list: `ys` are the young
blocks, `zs` the old ones, `LRU_old` is the head of `zs`. -/
def old_split (p : buf_pool_t) (ys zs : List Nat) : Prop :=
  p.LRU = ys ++ zs ∧ p.LRU_old = zs.head? ∧ p.LRU_old_len = zs.length ∧
  (∀ x ∈ ys, (p.blocks x).old = false) ∧ (∀ x ∈ zs, (p.blocks x).old = true)

/-- The length `buf_LRU_old_adjust_len` leaves in `LRU_old_len`: the
length `v` moved into the band of width `BUF_LRU_OLD_TOLERANCE` around
`new_len`. -/
def adjusted_len (new_len v : Nat) : Nat :=
  if v + BUF_LRU_OLD_TOLERANCE < new_len then new_len - BUF_LRU_OLD_TOLERANCE
  else if v > new_len + BUF_LRU_OLD_TOLERANCE then new_len + BUF_LRU_OLD_TOLERANCE
  else v

/-- The pool `q` differs from `p` at most in old flags of blocks of the
list `l`, in `LRU_old` and in `LRU_old_len`. -/
def old_frame (l : List Nat) (p q : buf_pool_t) : Prop :=
  { q with blocks := p.blocks, LRU_old := p.LRU_old, LRU_old_len := p.LRU_old_len } = p ∧
  (∀ x, x ∉ l → q.blocks x = p.blocks x) ∧
  (∀ x, { q.blocks x with old := false } = { p.blocks x with old := false })

/-- The descriptor that `buf_LRU_block_remove_hashed_page` leaves behind
for a block it could take out: a compressed-only descriptor ends in
`ZIP_FREE`; a file page ends in `REMOVE_HASH` with its modify clock
advanced and, when `zip` is set, without its compressed frame. -/
def page_after_remove (bp : buf_page_t) (zip : Bool) : buf_page_t :=
  if bp.state = .BUF_BLOCK_ZIP_PAGE then { bp with state := .BUF_BLOCK_ZIP_FREE }
  else
    { bp with
      state := .BUF_BLOCK_REMOVE_HASH,
      modify_clock := (bp.modify_clock + 1) % 2 ^ 64,
      zip_data := if zip then none else bp.zip_data,
      zip_size := if zip && bp.zip_data.isSome then 0 else bp.zip_size }

/-- The descriptor that `buf_LRU_block_free_hashed_page` puts on the free
list: state `NOT_USED`, no compressed frame. -/
def page_after_free (bp : buf_page_t) : buf_page_t :=
  { bp with
    state := .BUF_BLOCK_NOT_USED,
    zip_data := none,
    zip_size := if bp.zip_data.isSome then 0 else bp.zip_size }

/-! ## Concrete pools used to evaluate the code -/

/-- The constants as `buf0lru.h` of the InnoDB plugin defines them:
`BUF_LRU_OLD_MIN_LEN = 512`, `BUF_LRU_OLD_RATIO_MIN = 51`,
`BUF_LRU_OLD_RATIO_MAX = 1024`. -/
def plugin_consts : buf_LRU_consts :=
  { BUF_LRU_OLD_MIN_LEN := 512, BUF_LRU_OLD_RATIO_MIN := 51, BUF_LRU_OLD_RATIO_MAX := 1024 }

/-- A clean, unpinned file page of space 0 without a compressed frame. -/
def plain_page (offset : Nat) : buf_page_t :=
  { space := 0, offset := offset, state := .BUF_BLOCK_FILE_PAGE, buf_fix_count := 0,
    io_fix := .BUF_IO_NONE, sticky := false, oldest_modification := 0, old := false,
    freed_page_clock := 0, zip_data := none, zip_size := 0,
    frame_type := .FIL_PAGE_INDEX, modify_clock := 0, index := false, access_time := 0 }

/-- A pool of three resident pages 1, 2, 3 (head first), all hashed;
descriptor `a` holds page number `a`. Page 2 carries the record `pg`. -/
def small_pool (pg : buf_page_t) : buf_pool_t :=
  { empty_pool (fun a => if a = 2 then pg else plain_page a) 384 with
    LRU := [1, 2, 3], page_hash := [1, 2, 3], curr_size := 8 }

/-- The flags around `LRU_old` that the claims spell out: the block
`LRU_old` points to is old, its predecessor (if any) is not old and its
successor (if any) is old. -/
def LRU_old_neighbours (p : buf_pool_t) : Prop :=
  match p.LRU_old with
  | none => True
  | some o =>
    (p.blocks o).old = true ∧
    (match UT_LIST_GET_PREV p.LRU o with
     | none => True
     | some y => (p.blocks y).old = false) ∧
    (match UT_LIST_GET_NEXT p.LRU o with
     | none => True
     | some z => (p.blocks z).old = true)

instance (p : buf_pool_t) : Decidable (LRU_old_neighbours p) := by
  unfold LRU_old_neighbours
  cases p.LRU_old with
  | none => exact isTrue trivial
  | some o =>
    simp only
    cases UT_LIST_GET_PREV p.LRU o <;> cases UT_LIST_GET_NEXT p.LRU o <;> simp only <;>
      infer_instance

/-- A pool whose LRU list holds the descriptors `1 .. n`, head first, the
last `k` of them old; descriptor `a` holds page number `a` of space 0. -/
def big_pool (n k ratio : Nat) : buf_pool_t :=
  { empty_pool (fun a => { plain_page a with old := decide (n - k < a ∧ a ≤ n) }) ratio with
    LRU := List.range' 1 n, page_hash := List.range' 1 n,
    LRU_old := if k = 0 then none else some (n - k + 1), LRU_old_len := k,
    curr_size := 2 * n }

/-- The list-membership checks of `buf_LRU_validate`: the free list and
the unzip_LRU list are proper lists (`UT_LIST_VALIDATE`); a block in the
LRU list holds a file page, and if its state is `FILE_PAGE` it is in the
unzip_LRU list iff it carries a compressed frame; a block in the free list
has state `NOT_USED`; a block in the unzip_LRU list is in the LRU list and
carries both frames. -/
def lists_valid (p : buf_pool_t) : Prop :=
  p.free.Nodup ∧ p.unzip_LRU.Nodup ∧
  (∀ x ∈ p.LRU, buf_page_in_file (p.blocks x) = true) ∧
  (∀ x ∈ p.LRU, (p.blocks x).state = .BUF_BLOCK_FILE_PAGE →
    (x ∈ p.unzip_LRU ↔ buf_page_belongs_to_unzip_LRU (p.blocks x) = true)) ∧
  (∀ x ∈ p.free, (p.blocks x).state = .BUF_BLOCK_NOT_USED) ∧
  (∀ x ∈ p.unzip_LRU, x ∈ p.LRU ∧ buf_page_belongs_to_unzip_LRU (p.blocks x) = true)

instance (p : buf_pool_t) : Decidable (lists_valid p) := by
  unfold lists_valid; infer_instance

/-- A compressed file page with page number `offset` of space 0: state
`FILE_PAGE`, a compressed frame, an index page in the frame. -/
def zip_page (offset : Nat) : buf_page_t :=
  { plain_page offset with zip_data := some 77, zip_size := 8192 }

/-- The three-page pool with page 2 compressed and linked in the unzip_LRU
list. -/
def zip_pool (pg : buf_page_t) : buf_pool_t :=
  { small_pool pg with unzip_LRU := [2] }

/-! ## Sequences of LRU operations -/

/-- The operations on the LRU list that the claims speak of, with their
arguments. -/
inductive LRU_op where
  | add_block (bpage : Nat) (old : Bool)
  | remove_block (bpage : Nat)
  | make_block_young (bpage : Nat)
  | make_block_old (bpage : Nat)
  | free_block (bpage : Nat) (zip : Bool) (b : Nat)
  | free_one_page (bpage : Nat)
  | old_ratio_update (old_pct : Nat)
  deriving DecidableEq, Repr

/-- What the caller of an operation has to provide: a page that is added
is not in the LRU list and holds a file page; a page that is removed or
moved is in the list; a page that is freed is hashed under its identity,
and the descriptor allocated for a relocation is linked nowhere;
`buf_LRU_free_one_page` is called for a clean page that is neither pinned
nor I/O-fixed. -/
def op_pre (p : buf_pool_t) : LRU_op → Prop
  | .add_block bpage _ => bpage ∉ p.LRU ∧ buf_page_in_file (p.blocks bpage) = true
  | .remove_block bpage => bpage ∈ p.LRU ∧ buf_page_in_file (p.blocks bpage) = true
  | .make_block_young bpage => bpage ∈ p.LRU ∧ buf_page_in_file (p.blocks bpage) = true
  | .make_block_old bpage => bpage ∈ p.LRU ∧ buf_page_in_file (p.blocks bpage) = true
  | .free_block bpage _ b => page_freeable p bpage ∧ fresh_descriptor p b
  | .free_one_page bpage =>
    page_freeable p bpage ∧ (p.blocks bpage).io_fix = .BUF_IO_NONE ∧
    (p.blocks bpage).buf_fix_count = 0 ∧ (p.blocks bpage).oldest_modification = 0
  | .old_ratio_update _ => True

instance (p : buf_pool_t) (o : LRU_op) : Decidable (op_pre p o) := by
  cases o <;> unfold op_pre <;> infer_instance

/-- The pool after one operation; `none` if the code fails an assertion. -/
def op_apply (c : buf_LRU_consts) (p : buf_pool_t) : LRU_op → Option buf_pool_t
  | .add_block bpage old => buf_LRU_add_block c p bpage old
  | .remove_block bpage => buf_LRU_remove_block c p bpage
  | .make_block_young bpage => buf_LRU_make_block_young c p bpage
  | .make_block_old bpage => buf_LRU_make_block_old c p bpage
  | .free_block bpage zip b => (buf_LRU_free_block c p bpage zip b).map (fun r => r.2.2)
  | .free_one_page bpage => buf_LRU_free_one_page c p bpage
  | .old_ratio_update old_pct =>
    (buf_LRU_old_ratio_update c p old_pct true).map (fun r => r.2)

/-- The pool after a sequence of operations, first operation first. -/
def run_ops (c : buf_LRU_consts) : buf_pool_t → List LRU_op → Option buf_pool_t
  | p, [] => some p
  | p, o :: os =>
    match op_apply c p o with
    | none => none
    | some q => run_ops c q os

/-- The caller meets `op_pre` at every operation of the sequence. -/
def ops_pre (c : buf_LRU_consts) : buf_pool_t → List LRU_op → Bool
  | _, [] => true
  | p, o :: os =>
    decide (op_pre p o) &&
    (match op_apply c p o with
     | none => true
     | some q => ops_pre c q os)

/-- `buf_LRU_old_ratio` lies between `BUF_LRU_OLD_RATIO_MIN` and
`BUF_LRU_OLD_RATIO_MAX`, as `buf_LRU_old_ratio_update` leaves it. -/
def ratio_ok (c : buf_LRU_consts) (p : buf_pool_t) : Prop :=
  c.BUF_LRU_OLD_RATIO_MIN ≤ p.buf_LRU_old_ratio ∧ p.buf_LRU_old_ratio ≤ c.BUF_LRU_OLD_RATIO_MAX

instance (c : buf_LRU_consts) (p : buf_pool_t) : Decidable (ratio_ok c p) := by
  unfold ratio_ok; infer_instance

/-- Insertions and removals in turn: each triple `(bpage, old, x)` stands
for `buf_LRU_add_block(bpage, old)` followed by `buf_LRU_remove_block(x)`. -/
def toggle_ops : List (Nat × Bool × Nat) → List LRU_op
  | [] => []
  | (bpage, old, x) :: rest => .add_block bpage old :: .remove_block x :: toggle_ops rest

/-! ## Finding a free block -/

/-- What the searches for a free block read from outside this file: the
recovery flag, `srv_fast_free_list`, the constant `BUF_LRU_FREE_SEARCH_LEN`
of the header, and the outcome of `buf_LRU_evict_from_unzip_LRU`, which is
computed in floating point from the I/O statistics. -/
structure LRU_params where
  recv_recovery_on : Bool
  srv_fast_free_list : Bool
  BUF_LRU_FREE_SEARCH_LEN : Nat
  evict_from_unzip_LRU : buf_pool_t → Bool

/-- `buf_LRU_get_free_only`: takes the first block off the free list; the
result is the block, or `none` for `NULL`, and the pool. -/
def buf_LRU_get_free_only (p : buf_pool_t) : Option (Option Nat × buf_pool_t) :=
  match p.free.head? with
  | none => some (none, p)
  | some block =>
    if buf_page_in_file (p.blocks block) then none
    else
      let p1 := { p with free := UT_LIST_REMOVE p.free block }
      some (some block,
        set_block p1 block { p1.blocks block with state := .BUF_BLOCK_READY_FOR_USE })

/-- `buf_LRU_prepare_free_block`: clears the compressed-page descriptor of
the block. -/
def buf_LRU_prepare_free_block (p : buf_pool_t) (block : Nat) : buf_pool_t :=
  set_block p block { p.blocks block with zip_data := none, zip_size := 0 }

/-- The `for` loop of `buf_LRU_free_from_unzip_LRU_list`: `distance` is
the first argument, the block to try the second. The trace lists the
blocks handed to `buf_LRU_free_block` with the value it returned. -/
def unzip_LRU_scan (c : buf_LRU_consts) (b : Nat) :
    Nat → Option Nat → buf_pool_t → List (Nat × Bool) →
    Option (Bool × List (Nat × Bool) × buf_pool_t)
  | 0, _, p, tr => some (false, tr, p)
  | _ + 1, none, p, tr => some (false, tr, p)
  | distance + 1, some block, p, tr =>
    match buf_LRU_free_block c p block false b with
    | none => none
    | some (freed, _, q) =>
      if freed then some (true, tr ++ [(block, true)], q)
      else unzip_LRU_scan c b distance (UT_LIST_GET_PREV q.unzip_LRU block) q
        (tr ++ [(block, false)])

/-- `buf_LRU_free_from_unzip_LRU_list`: tries to free an uncompressed
frame from the tail of the unzip_LRU list. `evict` is the value of
`buf_LRU_evict_from_unzip_LRU()`. -/
def buf_LRU_free_from_unzip_LRU_list (c : buf_LRU_consts) (evict : Bool) (p : buf_pool_t)
    (n_iterations b : Nat) : Option (Bool × List (Nat × Bool) × buf_pool_t) :=
  if n_iterations ≥ 5 ∨ evict = false then some (false, [], p)
  else
    unzip_LRU_scan c b ((100 + (n_iterations * p.unzip_LRU.length) % 2 ^ 64 / 5) % 2 ^ 64)
      p.unzip_LRU.getLast? p []

/-- The `for` loop of `buf_LRU_free_from_common_LRU_list`; the arguments
are `init_distance`, `distance` and the block to try. The result is the
return value, `*space_id` (`none` for `ULINT_UNDEFINED`), `*nsearched`, the
trace of the calls of `buf_LRU_free_block`, and the pool. -/
def common_LRU_scan (c : buf_LRU_consts) (b : Nat) (init_distance : Nat) :
    Nat → Option Nat → buf_pool_t → List (Nat × Bool) →
    Option (Bool × Option Nat × Nat × List (Nat × Bool) × buf_pool_t)
  | 0, _, p, tr => some (false, none, (init_distance + 1) % 2 ^ 64, tr, p)
  | distance + 1, none, p, tr =>
    some (false, none, (init_distance - (distance + 1) + 1) % 2 ^ 64, tr, p)
  | distance + 1, some bpage, p, tr =>
    match buf_LRU_free_block c p bpage true b with
    | none => none
    | some (freed, removed, q) =>
      if freed then
        some (true,
          if removed then some (p.blocks bpage).space else none,
          (init_distance - (distance + 1) + 1) % 2 ^ 64,
          tr ++ [(bpage, true)],
          if (p.blocks bpage).access_time = 0 then
            { q with n_ra_pages_evicted := (q.n_ra_pages_evicted + 1) % 2 ^ 64 }
          else q)
      else common_LRU_scan c b init_distance distance (UT_LIST_GET_PREV q.LRU bpage) q
        (tr ++ [(bpage, false)])

/-- `buf_LRU_free_from_common_LRU_list`: tries to free a clean page from
the tail of the LRU list. -/
def buf_LRU_free_from_common_LRU_list (c : buf_LRU_consts) (p : buf_pool_t)
    (n_iterations limit b : Nat) :
    Option (Bool × Option Nat × Nat × List (Nat × Bool) × buf_pool_t) :=
  let distance :=
    if limit = 0 then (100 + (n_iterations * p.curr_size) % 2 ^ 64 / 10) % 2 ^ 64 else limit
  common_LRU_scan c b distance distance p.LRU.getLast? p []

/-- The `limit` that `buf_LRU_search_and_free_block` hands to
`buf_LRU_free_from_common_LRU_list`; `want_block` says that the argument
`block` is not `NULL`. -/
def search_limit (P : LRU_params) (n_iterations : Nat) (want_block : Bool) : Nat :=
  if want_block && P.srv_fast_free_list && decide (n_iterations = 1) then
    P.BUF_LRU_FREE_SEARCH_LEN
  else 0

/-- `buf_LRU_search_and_free_block`: the result is the return value,
`*block`, `*nsearched` and the pool. `fil_change_lru_count` is outside this
file. -/
def buf_LRU_search_and_free_block (c : buf_LRU_consts) (P : LRU_params) (p : buf_pool_t)
    (n_iterations : Nat) (want_block : Bool) (b : Nat) :
    Option (Bool × Option Nat × Nat × buf_pool_t) :=
  match buf_LRU_free_from_unzip_LRU_list c (P.evict_from_unzip_LRU p) p n_iterations b with
  | none => none
  | some (freed1, _, p1) =>
    let r : Option (Bool × Nat × buf_pool_t) :=
      if freed1 then some (true, 0, p1)
      else
        match buf_LRU_free_from_common_LRU_list c p1 n_iterations
            (search_limit P n_iterations want_block) b with
        | none => none
        | some (freed, _, nsearched, _, p2) => some (freed, nsearched, p2)
    match r with
    | none => none
    | some (freed, nsearched, p2) =>
      if freed then
        let p3 :=
          if p2.LRU_flush_ended > 0 then { p2 with LRU_flush_ended := p2.LRU_flush_ended - 1 }
          else p2
        if want_block then
          match buf_LRU_get_free_only p3 with
          | none => none
          | some (block, p4) => some (true, block, nsearched, p4)
        else some (true, none, nsearched, p3)
      else some (false, none, nsearched, { p2 with LRU_flush_ended := 0 })

/-- `buf_LRU_get_free_block`: returns a free block and the pool. The first
argument bounds the number of passes through `loop:`. Between a pass that
found nothing and the next one the mutex is free: `env` stands for what
`buf_flush_free_margin`, `buf_LRU_try_free_flushed_blocks` and the other
threads do to the pool then; `b k` is the descriptor address available in
pass `k`. -/
def buf_LRU_get_free_block (c : buf_LRU_consts) (P : LRU_params)
    (env : Nat → buf_pool_t → buf_pool_t) (b : Nat → Nat) :
    Nat → Nat → buf_pool_t → Option (Nat × buf_pool_t)
  | 0, _, _ => none
  | fuel + 1, n_iterations, p =>
    if !P.recv_recovery_on && decide (p.free.length + p.LRU.length < p.curr_size / 20) then
      none
    else
      match buf_LRU_get_free_only p with
      | none => none
      | some (some block, q) => some (block, buf_LRU_prepare_free_block q block)
      | some (none, q) =>
        match buf_LRU_search_and_free_block c P q n_iterations true (b n_iterations) with
        | none => none
        | some (freed, some block, _, q2) =>
          if freed then some (block, buf_LRU_prepare_free_block q2 block) else none
        | some (freed, none, _, q2) =>
          if freed then buf_LRU_get_free_block c P env b fuel n_iterations (env n_iterations q2)
          else buf_LRU_get_free_block c P env b fuel (n_iterations + 1) (env n_iterations q2)

/-- The state in which the searches are entered: the LRU list and the
other lists pass `buf_LRU_validate`, every page of the LRU list can be
found in the page hash, and the descriptor address `b` is unused. -/
def pool_ok (c : buf_LRU_consts) (p : buf_pool_t) (b : Nat) : Prop :=
  LRU_valid c p ∧ lists_valid p ∧ (∀ x ∈ p.LRU, page_freeable p x) ∧ fresh_descriptor p b

instance (c : buf_LRU_consts) (p : buf_pool_t) (b : Nat) : Decidable (pool_ok c p b) := by
  unfold pool_ok; infer_instance

/-- No block is in both the free list and the LRU list. -/
def lists_disjoint (p : buf_pool_t) : Prop :=
  ∀ x ∈ p.free, x ∉ p.LRU

instance (p : buf_pool_t) : Decidable (lists_disjoint p) := by
  unfold lists_disjoint; infer_instance

/-- The three-page pool with the compressed page 2 and the free blocks 5
and 6. -/
def free_pool : buf_pool_t :=
  { zip_pool (zip_page 2) with
    free := [5, 6],
    blocks := fun a =>
      if a = 5 ∨ a = 6 then { plain_page a with state := .BUF_BLOCK_NOT_USED }
      else (zip_pool (zip_page 2)).blocks a }

/-! ## Removing the pages of a tablespace -/

/-- Modelled from the spec: `buf_flush_remove` (buf0flu.c, not in the
sources) drops a dirty page from the flush list without writing it: the
page is unlinked from the flush list, `oldest_modification` is set to 0, a
`ZIP_DIRTY` descriptor becomes `ZIP_PAGE`; other states than `FILE_PAGE`
and `ZIP_DIRTY` are an error. -/
def buf_flush_remove (p : buf_pool_t) (bpage : Nat) : Option buf_pool_t :=
  match (p.blocks bpage).state with
  | .BUF_BLOCK_ZIP_DIRTY =>
    some (set_block { p with flush_list := UT_LIST_REMOVE p.flush_list bpage } bpage
      { p.blocks bpage with state := .BUF_BLOCK_ZIP_PAGE, oldest_modification := 0 })
  | .BUF_BLOCK_FILE_PAGE =>
    some (set_block { p with flush_list := UT_LIST_REMOVE p.flush_list bpage } bpage
      { p.blocks bpage with oldest_modification := 0 })
  | _ => none

/-- `buf_flush_try_yield` with `buf_flush_yield`: after
`BUF_LRU_DROP_SEARCH_SIZE` pages the mutexes are released and taken again
around a thread yield; the page is made sticky before and not sticky
after. The result is the return value and the pool. -/
def buf_flush_try_yield (p : buf_pool_t) (bpage : Option Nat) (processed : Nat) :
    Bool × buf_pool_t :=
  match bpage with
  | none => (false, p)
  | some bpage =>
    if processed ≥ 1024 ∧ (p.blocks bpage).io_fix = .BUF_IO_NONE then
      (true, set_block p bpage { p.blocks bpage with sticky := false })
    else (false, p)

/-- `buf_flush_or_remove_page`: removes a single page from the flush
list; the result says whether it was removed. -/
def buf_flush_or_remove_page (p : buf_pool_t) (bpage : Nat) : Option (Bool × buf_pool_t) :=
  if (p.blocks bpage).io_fix ≠ .BUF_IO_NONE then some (false, p)
  else if (p.blocks bpage).buf_fix_count = 0 then
    match buf_flush_remove p bpage with
    | none => none
    | some q => some (true, q)
  else some (false, p)

/-- The `for` loop of `buf_flush_or_remove_pages`; the first argument
bounds the number of iterations, the others are `bpage`, the pool,
`all_freed` and `processed`. -/
def flush_or_remove_loop (id : Nat) :
    Nat → Option Nat → buf_pool_t → Bool → Nat → Option (Bool × buf_pool_t)
  | _, none, p, all_freed, _ => some (all_freed, p)
  | 0, some _, _, _, _ => none
  | fuel + 1, some bpage, p, all_freed, processed =>
    if buf_page_in_file (p.blocks bpage) then
      let prev := UT_LIST_GET_PREV p.flush_list bpage
      let r : Option (Bool × buf_pool_t) :=
        if (p.blocks bpage).space ≠ id then some (all_freed, p)
        else
          match buf_flush_or_remove_page p bpage with
          | none => none
          | some (removed, q) => some (all_freed && removed, q)
      match r with
      | none => none
      | some (all_freed, q) =>
        let y := buf_flush_try_yield q prev (processed + 1)
        flush_or_remove_loop id fuel prev y.2 all_freed (if y.1 then 0 else processed + 1)
    else none

/-- `buf_flush_or_remove_pages`: one pass over the flush list from its
end, removing the dirty pages of tablespace `id`; every iteration moves one
block towards the head, so the length of the list bounds their number. The
result is `all_freed` and the pool. -/
def buf_flush_or_remove_pages (p : buf_pool_t) (id : Nat) : Option (Bool × buf_pool_t) :=
  flush_or_remove_loop id p.flush_list.length p.flush_list.getLast? p true 0

/-- The flush list is a proper list of dirty file pages: no block twice,
every block in state `FILE_PAGE` or `ZIP_DIRTY`. -/
def flush_valid (p : buf_pool_t) : Prop :=
  p.flush_list.Nodup ∧
  ∀ x ∈ p.flush_list, (p.blocks x).state = .BUF_BLOCK_FILE_PAGE ∨
    (p.blocks x).state = .BUF_BLOCK_ZIP_DIRTY

instance (p : buf_pool_t) : Decidable (flush_valid p) := by
  unfold flush_valid; infer_instance

/-- The test of `buf_flush_or_remove_page` and `buf_LRU_remove_all_pages`
for a page of tablespace `id` that can be dropped now: not I/O-fixed and
not buffer-fixed. -/
def droppable (id : Nat) (bp : buf_page_t) : Bool :=
  decide (bp.space = id) && decide (bp.io_fix = .BUF_IO_NONE) && decide (bp.buf_fix_count = 0)

/-- The three-page pool with the pages 1, 2 and 3 dirty and on the flush
list; pages 1 and 2 belong to space 4, page 2 is buffer-fixed. -/
def dirty_pool : buf_pool_t :=
  { small_pool (plain_page 2) with
    flush_list := [3, 2, 1],
    blocks := fun a =>
      if a = 1 then { plain_page 1 with space := 4, oldest_modification := 11 }
      else if a = 2 then
        { plain_page 2 with space := 4, oldest_modification := 12, buf_fix_count := 1 }
      else { plain_page a with oldest_modification := 13 } }

/-! ## The I/O statistics -/

/-- `buf_LRU_stat_t`: the counters of I/O operations and of page
decompressions, both `ulint`. -/
structure buf_LRU_stat_t where
  io : Nat
  unzip : Nat
  deriving DecidableEq, Repr

/-- The statistics variables of the file: `buf_LRU_stat_arr`,
`buf_LRU_stat_arr_ind`, `buf_LRU_stat_cur` and `buf_LRU_stat_sum`. -/
structure buf_LRU_stats where
  buf_LRU_stat_arr : List buf_LRU_stat_t
  buf_LRU_stat_arr_ind : Nat
  buf_LRU_stat_cur : buf_LRU_stat_t
  buf_LRU_stat_sum : buf_LRU_stat_t
  deriving DecidableEq, Repr

/-- `BUF_LRU_STAT_N_INTERVAL`: the number of intervals that are kept. -/
def BUF_LRU_STAT_N_INTERVAL : Nat := 50

/-- The statistics as the zero-initialised static storage holds them. -/
def stats_zero : buf_LRU_stats :=
  { buf_LRU_stat_arr := List.replicate BUF_LRU_STAT_N_INTERVAL ⟨0, 0⟩,
    buf_LRU_stat_arr_ind := 0,
    buf_LRU_stat_cur := ⟨0, 0⟩,
    buf_LRU_stat_sum := ⟨0, 0⟩ }

/-- The statement `sum += cur - item` on `ulint` values. -/
def ulint_add_diff (sum cur item : Nat) : Nat :=
  (sum + ulint_sub cur item % 2 ^ 64) % 2 ^ 64

/-- `buf_LRU_stat_update`: moves the current counters into the circular
array and the running sum, unless no page has been evicted yet, and clears
them. The first argument is `buf_pool->freed_page_clock`. -/
def buf_LRU_stat_update (freed_page_clock : Nat) (s : buf_LRU_stats) : buf_LRU_stats :=
  if freed_page_clock = 0 then
    { s with buf_LRU_stat_cur := ⟨0, 0⟩ }
  else
    let item := s.buf_LRU_stat_arr.getD s.buf_LRU_stat_arr_ind ⟨0, 0⟩
    let cur_stat := s.buf_LRU_stat_cur
    { buf_LRU_stat_arr := s.buf_LRU_stat_arr.set s.buf_LRU_stat_arr_ind cur_stat,
      buf_LRU_stat_arr_ind := (s.buf_LRU_stat_arr_ind + 1) % 2 ^ 64 % BUF_LRU_STAT_N_INTERVAL,
      buf_LRU_stat_cur := ⟨0, 0⟩,
      buf_LRU_stat_sum :=
        ⟨ulint_add_diff s.buf_LRU_stat_sum.io cur_stat.io item.io,
         ulint_add_diff s.buf_LRU_stat_sum.unzip cur_stat.unzip item.unzip⟩ }

/-- A run of the statistics: before each call of `buf_LRU_stat_update` the
counters have been incremented to `ev.1` and `freed_page_clock` is `ev.2`. -/
def stat_run : buf_LRU_stats → List (buf_LRU_stat_t × Nat) → buf_LRU_stats
  | s, [] => s
  | s, ev :: rest => stat_run (buf_LRU_stat_update ev.2 { s with buf_LRU_stat_cur := ev.1 }) rest

/-- The snapshots that a run records: the counters of the calls with
`freed_page_clock != 0`, oldest first. -/
def snapshots (evs : List (buf_LRU_stat_t × Nat)) : List buf_LRU_stat_t :=
  (evs.filter (fun ev => decide (ev.2 ≠ 0))).map Prod.fst

/-- What a run of `buf_LRU_stat_update` keeps true, for the list `snaps`
of snapshots recorded so far (oldest first): the array has
`BUF_LRU_STAT_N_INTERVAL` entries, the cursor is the number of snapshots
modulo that, the sum is the sum of the entries modulo `2 ^ 64`, and going
back from the cursor the entries are the latest snapshots, newest first,
then zeros. -/
def stat_inv (s : buf_LRU_stats) (snaps : List buf_LRU_stat_t) : Prop :=
  s.buf_LRU_stat_arr.length = BUF_LRU_STAT_N_INTERVAL ∧
  s.buf_LRU_stat_arr_ind = snaps.length % BUF_LRU_STAT_N_INTERVAL ∧
  s.buf_LRU_stat_sum.io = (s.buf_LRU_stat_arr.map buf_LRU_stat_t.io).sum % 2 ^ 64 ∧
  s.buf_LRU_stat_sum.unzip = (s.buf_LRU_stat_arr.map buf_LRU_stat_t.unzip).sum % 2 ^ 64 ∧
  ∀ k, k < BUF_LRU_STAT_N_INTERVAL →
    s.buf_LRU_stat_arr.getD
        ((s.buf_LRU_stat_arr_ind + (BUF_LRU_STAT_N_INTERVAL - 1) - k) % BUF_LRU_STAT_N_INTERVAL)
        ⟨0, 0⟩
      = snaps.reverse.getD k ⟨0, 0⟩

/-! ## Dumping and restoring the LRU list -/

/-- The constant of `univ.i` that the dump and the restore use; the header
is not part of the sources, so it is a parameter. -/
structure univ_consts where
  UNIV_PAGE_SIZE_SHIFT : Nat

/-- The size of a page, `1 << UNIV_PAGE_SIZE_SHIFT`. -/
def UNIV_PAGE_SIZE (u : univ_consts) : Nat := 2 ^ u.UNIV_PAGE_SIZE_SHIFT

/-- What the code needs of the page size: a block holds at least one pair
of 4-byte words, and the shift by `32 - UNIV_PAGE_SIZE_SHIFT` is defined. -/
def univ_ok (u : univ_consts) : Prop :=
  3 ≤ u.UNIV_PAGE_SIZE_SHIFT ∧ u.UNIV_PAGE_SIZE_SHIFT ≤ 32

instance (u : univ_consts) : Decidable (univ_ok u) := by
  unfold univ_ok
  infer_instance

/-- The page size of the InnoDB plugin, 16384 bytes. -/
def plugin_univ : univ_consts := { UNIV_PAGE_SIZE_SHIFT := 14 }

/-- Modelled from the spec: `mach_write_to_4` of `mach0data.ic` stores the
four bytes of `n` at `b + pos`, the most significant byte first. -/
def mach_write_to_4 (b : List Nat) (pos n : Nat) : List Nat :=
  (((b.set pos (n / 2 ^ 24 % 256)).set (pos + 1) (n / 2 ^ 16 % 256)).set (pos + 2)
    (n / 2 ^ 8 % 256)).set (pos + 3) (n % 256)

/-- Modelled from the spec: `mach_read_from_4` of `mach0data.ic` reads four
bytes at `b + pos` as a number, the most significant byte first. -/
def mach_read_from_4 (b : List Nat) (pos : Nat) : Nat :=
  b.getD pos 0 % 256 * 2 ^ 24 + b.getD (pos + 1) 0 % 256 * 2 ^ 16
    + b.getD (pos + 2) 0 % 256 * 2 ^ 8 + b.getD (pos + 3) 0 % 256

/-- The file position that `os_file_write` and `os_file_read` are given for
block number `buffers`: the low 32 bits `(buffers << UNIV_PAGE_SIZE_SHIFT)
& 0xFFFFFFFF` and the high bits `buffers >> (32 - UNIV_PAGE_SIZE_SHIFT)`,
with `ulint` of 64 bits. -/
def block_position (u : univ_consts) (buffers : Nat) : Nat :=
  (buffers >>> (32 - u.UNIV_PAGE_SIZE_SHIFT)) * 2 ^ 32
    + (((buffers <<< u.UNIV_PAGE_SIZE_SHIFT) % 2 ^ 64) &&& 0xFFFFFFFF)

/-- Modelled from the spec: `os_file_write` of `os0file.c` stores `data` in
the file at byte position `pos`; a file is the list of its bytes. -/
def os_file_write (file : List Nat) (pos : Nat) (data : List Nat) : List Nat :=
  file.take pos ++ List.replicate (pos - file.length) 0 ++ data
    ++ file.drop (pos + data.length)

/-- Modelled from the spec: `os_file_read` of `os0file.c` delivers the `n`
bytes at byte position `pos`, and fails when the file does not hold them. -/
def os_file_read (file : List Nat) (pos n : Nat) : Option (List Nat) :=
  if pos + n ≤ file.length then some ((file.drop pos).take n) else none

/-- The surroundings of `buf_LRU_file_dump`: the setting
`srv_lru_dump_old_pages`, whether a data file name contains
`LRU_DUMP_FILE`, and the outcomes of the allocation and of the file
operations (`write_ok k` for the write of block number `k`). -/
structure dump_env where
  srv_lru_dump_old_pages : Bool
  name_in_use : Bool
  buffer_ok : Bool
  create_ok : Bool
  write_ok : Nat → Bool
  flush_ok : Bool
  rename_ok : Bool

/-- The walk of `buf_LRU_file_dump` over the LRU list from `bpage` (the head
of the list argument) on. The result is `success` (FALSE after a detected
cycle or a failed write, which jump to `end`), `buffer`, `buffers`,
`offset` and the temporary file. The pin `buf_fix_count++` on `next_bpage`
is undone before the pool mutex is released again and leaves no trace. -/
def dump_walk (u : univ_consts) (E : dump_env) (p : buf_pool_t) (first_bpage : Option Nat)
    (total_pages : Nat) :
    List Nat → List Nat → Nat → Nat → Nat → List Nat →
      Bool × List Nat × Nat × Nat × List Nat
  | [], buffer, buffers, offset, _, file => (true, buffer, buffers, offset, file)
  | bpage :: rest, buffer, buffers, offset, pages_written, file =>
    if (E.srv_lru_dump_old_pages || !buf_page_is_old p bpage)
        && decide (pages_written < total_pages) then
      if rest.head? = first_bpage then (false, buffer, buffers, offset, file)
      else
        let buffer1 := mach_write_to_4 buffer (offset * 4) (p.blocks bpage).space
        let buffer2 := mach_write_to_4 buffer1 ((offset + 1) * 4) (p.blocks bpage).offset
        if offset + 2 = UNIV_PAGE_SIZE u / 4 then
          if E.write_ok buffers then
            dump_walk u E p first_bpage total_pages rest
              (List.replicate (UNIV_PAGE_SIZE u) 0) (buffers + 1) 0 (pages_written + 1)
              (os_file_write file (block_position u buffers) buffer2)
          else (false, buffer2, buffers + 1, 0, file)
        else
          dump_walk u E p first_bpage total_pages rest buffer2 buffers (offset + 2)
            (pages_written + 1) file
    else (true, buffer, buffers, offset, file)

/-- The function `buf_LRU_file_dump`: the value returned and the bytes of
`LRU_DUMP_TEMP_FILE`, which is renamed to `LRU_DUMP_FILE` when TRUE is
returned. The paths that reach `end` before `success` is assigned (a data
file name in use, no buffer) read an uninitialised variable and have no
defined result, `none`. -/
def buf_LRU_file_dump (u : univ_consts) (E : dump_env) (p : buf_pool_t) :
    Option (Bool × List Nat) :=
  if E.name_in_use then none
  else if !E.buffer_ok then none
  else if !E.create_ok then some (false, [])
  else
    match dump_walk u E p p.LRU.head? p.LRU.length p.LRU
        (List.replicate (UNIV_PAGE_SIZE u) 0) 0 0 0 [] with
    | (false, _, _, _, file) => some (false, file)
    | (true, buffer, buffers, offset, file) =>
      let buffer1 := mach_write_to_4 buffer (offset * 4) 0xFFFFFFFF
      let buffer2 := mach_write_to_4 buffer1 ((offset + 1) * 4) 0xFFFFFFFF
      if E.write_ok buffers then
        let file1 := os_file_write file (block_position u buffers) buffer2
        if E.flush_ok then some (E.rename_ok, file1) else some (false, file1)
      else some (false, file)

/-- The pages that the walk of `buf_LRU_file_dump` passes: the whole LRU
list, or with `srv_lru_dump_old_pages` unset the pages in front of the
first old one. -/
def dumped_pages (E : dump_env) (p : buf_pool_t) : List Nat :=
  p.LRU.takeWhile (fun bpage => E.srv_lru_dump_old_pages || !buf_page_is_old p bpage)

/-- The record type `dump_record_t`. -/
structure dump_record_t where
  space_id : Nat
  page_no : Nat
  deriving DecidableEq, Repr

/-- The order `dump_record_cmp` that `qsort` and `bsearch` are given. -/
def dump_record_cmp (rec1 rec2 : dump_record_t) : Int :=
  if rec1.space_id < rec2.space_id then -1
  else if rec1.space_id > rec2.space_id then 1
  else if rec1.page_no < rec2.page_no then -1
  else if rec1.page_no > rec2.page_no then 1 else 0

/-- The four bytes `mach_write_to_4` stores for `n`. -/
def be4 (n : Nat) : List Nat :=
  [n / 2 ^ 24 % 256, n / 2 ^ 16 % 256, n / 2 ^ 8 % 256, n % 256]

/-- The record of a page descriptor: its space id and page number. -/
def page_record (p : buf_pool_t) (bpage : Nat) : dump_record_t :=
  { space_id := (p.blocks bpage).space, page_no := (p.blocks bpage).offset }

/-- The eight bytes of a record in the dump: the space id, then the page
number. -/
def record_bytes (r : dump_record_t) : List Nat :=
  be4 r.space_id ++ be4 r.page_no

/-- The bytes of a dump of `recs` as the format describes them: the pairs,
the terminator pair, and zero bytes up to the end of the block. -/
def dump_bytes (u : univ_consts) (recs : List dump_record_t) : List Nat :=
  (recs.map record_bytes).flatten
    ++ (be4 0xFFFFFFFF ++ be4 0xFFFFFFFF)
    ++ List.replicate (UNIV_PAGE_SIZE u - 8 - recs.length * 8 % UNIV_PAGE_SIZE u) 0

/-- The loop over one block of `buf_LRU_file_restore`, `offsets` being the
values of `offset` still to come: the flag `terminated` and `records`. -/
def restore_scan_block (buffer : List Nat) (size : Nat) :
    List Nat → List dump_record_t → Bool × List dump_record_t
  | [], records => (false, records)
  | offset :: offsets, records =>
    let space_id := mach_read_from_4 buffer (offset * 4)
    let page_no := mach_read_from_4 buffer ((offset + 1) * 4)
    if space_id = 0xFFFFFFFF ∨ page_no = 0xFFFFFFFF then (true, records)
    else if (records.length + 1) * 8 ≥ size then
      (true, records ++ [{ space_id := space_id, page_no := page_no }])
    else
      restore_scan_block buffer size offsets
        (records ++ [{ space_id := space_id, page_no := page_no }])

/-- The values `0, 2, 4, ...` below `UNIV_PAGE_SIZE / 4` that `offset` takes
in the loop over one block. -/
def block_offsets (u : univ_consts) : List Nat :=
  (List.range ((UNIV_PAGE_SIZE u / 4 + 1) / 2)).map (fun k => 2 * k)

/-- The loop `while (!terminated)` of `buf_LRU_file_restore` with a bound on
the number of blocks; `none` when the bound is used up. The result is the
success of the last `os_file_read`, `records` and `buffers`. -/
def restore_read_records (u : univ_consts) (file : List Nat) (size : Nat) :
    Nat → Nat → List dump_record_t → Option (Bool × List dump_record_t × Nat)
  | 0, _, _ => none
  | fuel + 1, buffers, records =>
    match os_file_read file (block_position u buffers) (UNIV_PAGE_SIZE u) with
    | none => some (false, records, buffers)
    | some buffer =>
      match restore_scan_block buffer size (block_offsets u) records with
      | (true, records1) => some (true, records1, buffers + 1)
      | (false, records1) => restore_read_records u file size fuel (buffers + 1) records1

/-- The surroundings of `buf_LRU_file_restore`: the setting
`srv_lru_load_max_entries`, the outcome of the allocations, the tablespace
functions `fil_space_get_zip_size` (`none` for `ULINT_UNDEFINED`) and
`fil_area_is_exist` (by space id and page number), and whether
`srv_shutdown_state >= SRV_SHUTDOWN_CLEANUP` holds at the check made in
pass `offset` of the outer loop at position `current_record`. -/
structure restore_env where
  srv_lru_load_max_entries : Nat
  alloc_ok : Bool
  fil_space_get_zip_size : Nat → Option Nat
  fil_area_is_exist : Nat → Nat → Bool
  shutdown : Nat → Nat → Bool

/-- The array that `qsort` with `dump_record_cmp` leaves: the ascending
arrangement of the records. -/
def qsort (records : List dump_record_t) : List dump_record_t :=
  records.insertionSort (fun a b => dump_record_cmp a b ≤ 0)

/-- The position `bsearch` with `dump_record_cmp` finds for `key`: an
element that compares equal, `none` for NULL. C leaves open which of several
equal elements is found; this definition takes the first of them, and
`binary_search` below is the search by halving. -/
def bsearch (key : dump_record_t) (base : List dump_record_t) : Option Nat :=
  if base.findIdx (fun r => decide (dump_record_cmp key r = 0)) < base.length then
    some (base.findIdx (fun r => decide (dump_record_cmp key r = 0)))
  else none

/-- The test that ends both walks along a run: the records at `i` and
`i + 1` are not consecutive pages of one space (`page_no + 1` in 32 bits). -/
def run_ends (a b : dump_record_t) : Bool :=
  decide (a.space_id ≠ b.space_id) || decide ((a.page_no + 1) % 2 ^ 32 ≠ b.page_no)

/-- The backward loop of `buf_LRU_file_restore`: the position of the start
of the run that `current_record` lies in. -/
def run_first (sorted_records : List dump_record_t) : Nat → Nat
  | 0 => 0
  | i + 1 =>
    if run_ends (sorted_records.getD i ⟨0, 0⟩) (sorted_records.getD (i + 1) ⟨0, 0⟩) then i + 1
    else run_first sorted_records i

/-- The forward loop of `buf_LRU_file_restore` from `current_record` (the
position `cur`, the list argument being the array from there on): FALSE for
a shutdown seen, then `records_loaded` and the requests made of
`buf_read_page_low`, the latest last. -/
def restore_run (E : restore_env) (offset space_id : Nat) :
    Nat → List dump_record_t → (Nat → Bool) → List dump_record_t →
      Bool × (Nat → Bool) × List dump_record_t
  | _, [], records_loaded, req => (true, records_loaded, req)
  | cur, r :: rest, records_loaded, req =>
    if E.shutdown offset cur then (false, records_loaded, req)
    else if E.fil_area_is_exist space_id r.page_no then
      match rest with
      | [] =>
        (true, Function.update records_loaded cur true,
          req ++ [{ space_id := space_id, page_no := r.page_no }])
      | next :: _ =>
        if run_ends r next then
          (true, Function.update records_loaded cur true,
            req ++ [{ space_id := space_id, page_no := r.page_no }])
        else
          restore_run E offset space_id (cur + 1) rest
            (Function.update records_loaded cur true)
            (req ++ [{ space_id := space_id, page_no := r.page_no }])
    else (true, Function.update records_loaded cur true, req)

/-- The loop of `buf_LRU_file_restore` over `records` in priority order, the
list argument being the records from `offset` up to the bound: FALSE for a
shutdown seen, and the requests; `none` when `bsearch` returns NULL. -/
def restore_requests (E : restore_env) (sorted_records : List dump_record_t) :
    Nat → List dump_record_t → (Nat → Bool) → List dump_record_t →
      Option (Bool × List dump_record_t)
  | _, [], _, req => some (true, req)
  | offset, r :: rest, records_loaded, req =>
    match E.fil_space_get_zip_size r.space_id with
    | none => restore_requests E sorted_records (offset + 1) rest records_loaded req
    | some _ =>
      match bsearch r sorted_records with
      | none => none
      | some cur =>
        if records_loaded cur then
          restore_requests E sorted_records (offset + 1) rest records_loaded req
        else
          match restore_run E offset r.space_id (run_first sorted_records cur)
              (sorted_records.drop (run_first sorted_records cur)) records_loaded req with
          | (false, _, req1) => some (false, req1)
          | (true, records_loaded1, req1) =>
            restore_requests E sorted_records (offset + 1) rest records_loaded1 req1

/-- What a call of `buf_LRU_file_restore` did: the value returned, the number
of blocks asked of `os_file_read`, the array `records[0..length)`, and the
pages requested of `buf_read_page_low` in the order of the calls (`req` is
their number). -/
structure restore_result where
  ret : Bool
  blocks_read : Nat
  records : List dump_record_t
  requests : List dump_record_t
  deriving DecidableEq, Repr

/-- The function `buf_LRU_file_restore` on the dump file (`none` when it
cannot be opened or sized). `os_file_get_size` gives the low 32 bits of the
length in `size` and the rest in `size_high`. The throttle only sleeps and
is left out. -/
def buf_LRU_file_restore (u : univ_consts) (E : restore_env) (dump_file : Option (List Nat)) :
    Option restore_result :=
  match dump_file with
  | none => some { ret := false, blocks_read := 0, records := [], requests := [] }
  | some file =>
    if file.length % 2 ^ 32 = 0 ∨ file.length / 2 ^ 32 > 0 ∨ file.length % 2 ^ 32 % 8 ≠ 0 then
      some { ret := false, blocks_read := 0, records := [], requests := [] }
    else if !E.alloc_ok then
      some { ret := false, blocks_read := 0, records := [], requests := [] }
    else
      match restore_read_records u file (file.length % 2 ^ 32) (file.length % 2 ^ 32) 0 [] with
      | none => none
      | some (false, records, buffers) =>
        some { ret := false, blocks_read := buffers + 1, records := records, requests := [] }
      | some (true, records, buffers) =>
        match restore_requests E (qsort records) 0
            (records.take (min records.length E.srv_lru_load_max_entries))
            (fun _ => false) [] with
        | none => none
        | some (ret, req) =>
          some { ret := ret, blocks_read := buffers, records := records, requests := req }

/-- A dump in which every step succeeds and old pages are included. -/
def dump_all_ok : dump_env :=
  { srv_lru_dump_old_pages := true, name_in_use := false, buffer_ok := true,
    create_ok := true, write_ok := fun _ => true, flush_ok := true, rename_ok := true }

/-- A dump in which every step succeeds and old pages are left out. -/
def dump_young_ok : dump_env :=
  { dump_all_ok with srv_lru_dump_old_pages := false }

/-- A restore with every tablespace known, of which the pages 0, 1 and 2
exist, with room for 100 entries and no shutdown. -/
def short_space_env : restore_env :=
  { srv_lru_load_max_entries := 100, alloc_ok := true,
    fil_space_get_zip_size := fun _ => some 0,
    fil_area_is_exist := fun _ page_no => decide (page_no < 3),
    shutdown := fun _ _ => false }

/-- A restore with every tablespace known and every page existing, with
`srv_lru_load_max_entries = 1` and no shutdown. -/
def one_entry_env : restore_env :=
  { srv_lru_load_max_entries := 1, alloc_ok := true,
    fil_space_get_zip_size := fun _ => some 0,
    fil_area_is_exist := fun _ _ => true,
    shutdown := fun _ _ => false }

/-- The record `r` is part of the contiguous run of the record `w` in the
dump: both are pages of one space, and every page number between theirs is
in the dump. -/
def in_run_of (records : List dump_record_t) (w r : dump_record_t) : Prop :=
  w.space_id = r.space_id ∧
  ∀ page_no, (w.page_no ≤ page_no ∧ page_no ≤ r.page_no)
      ∨ (r.page_no ≤ page_no ∧ page_no ≤ w.page_no) →
    ({ space_id := r.space_id, page_no := page_no } : dump_record_t) ∈ records

/-- A restore with `srv_lru_load_max_entries = 2` and no shutdown, in which
space 7 is unknown, space 0 has the pages 0, 1, 2 and every other space has
every page. -/
def mixed_env : restore_env :=
  { srv_lru_load_max_entries := 2, alloc_ok := true,
    fil_space_get_zip_size := fun space_id => if space_id = 7 then none else some 0,
    fil_area_is_exist := fun space_id page_no => decide (space_id ≠ 0 ∨ page_no < 3),
    shutdown := fun _ _ => false }

/-! ## The list `zip_clean` -/

/-- The loop `do b = UT_LIST_GET_NEXT(LRU, b); while (b && state != ZIP_PAGE)`
of `buf_LRU_insert_zip_clean`, entered at `b`: the first successor in state
`BUF_BLOCK_ZIP_PAGE`, `none` for `NULL`. The first argument bounds the
number of steps; the length of the LRU list is enough. -/
def zip_clean_successor (p : buf_pool_t) : Nat → Nat → Option Nat
  | 0, _ => none
  | fuel + 1, b =>
    match UT_LIST_GET_NEXT p.LRU b with
    | none => none
    | some next =>
      if (p.blocks next).state = .BUF_BLOCK_ZIP_PAGE then some next
      else zip_clean_successor p fuel next

/-- `buf_LRU_insert_zip_clean`: inserts `bpage` into the list
`buf_pool->zip_clean`, which is kept beside the pool; the result is the
list. -/
def buf_LRU_insert_zip_clean (p : buf_pool_t) (zip_clean : List Nat) (bpage : Nat) :
    List Nat :=
  match zip_clean_successor p p.LRU.length bpage with
  | some b =>
    match UT_LIST_GET_PREV zip_clean b with
    | some prev => UT_LIST_INSERT_AFTER zip_clean prev bpage
    | none => UT_LIST_ADD_FIRST zip_clean bpage
  | none => UT_LIST_ADD_FIRST zip_clean bpage

/-- The blocks of the LRU list in state `BUF_BLOCK_ZIP_PAGE`, in the order
of the LRU list. -/
def LRU_zip_pages (p : buf_pool_t) : List Nat :=
  p.LRU.filter (fun x => decide ((p.blocks x).state = .BUF_BLOCK_ZIP_PAGE))

/-- The three-page pool with the pages 1 and 3 compressed-only and clean
(state `ZIP_PAGE`) and page 2 an uncompressed file page. -/
def zip_clean_pool : buf_pool_t :=
  { small_pool (plain_page 2) with
    blocks := fun a =>
      if a = 2 then plain_page 2 else { zip_page a with state := .BUF_BLOCK_ZIP_PAGE } }

/-! ## Searching the sorted records -/

/-- The search that `bsearch` of the C library makes with `dump_record_cmp`
in `base[l..u)`: halving the range until the element in the middle
compares equal; `none` for `NULL`. The first argument bounds the number of
steps; the length of the array plus one is enough. -/
def binary_search (key : dump_record_t) (base : List dump_record_t) :
    Nat → Nat → Nat → Option Nat
  | 0, _, _ => none
  | fuel + 1, l, u =>
    if l < u then
      if dump_record_cmp key (base.getD ((l + u) / 2) ⟨0, 0⟩) < 0 then
        binary_search key base fuel l ((l + u) / 2)
      else if dump_record_cmp key (base.getD ((l + u) / 2) ⟨0, 0⟩) > 0 then
        binary_search key base fuel ((l + u) / 2 + 1) u
      else some ((l + u) / 2)
    else none

/-- The pairs of 4-byte words that a file holds, in order. -/
def file_pairs (file : List Nat) : List dump_record_t :=
  (List.range (file.length / 8)).map
    (fun i => { space_id := mach_read_from_4 file (8 * i),
                page_no := mach_read_from_4 file (8 * i + 4) })

/-- The three-page pool with the compressed page 2 dirty: its
`oldest_modification` is 7 and it is linked in the flush list. -/
def dirty_zip_pool : buf_pool_t :=
  { zip_pool { zip_page 2 with oldest_modification := 7 } with flush_list := [2] }

/-- The constants with `BUF_LRU_OLD_MIN_LEN = 80`, the value in the spec's
table of constants. `BUF_LRU_OLD_RATIO_MIN = 321` is the least value with
which the compile-time check of buf0lru.c
(`BUF_LRU_OLD_RATIO_MIN * BUF_LRU_OLD_MIN_LEN > BUF_LRU_OLD_RATIO_DIV * (BUF_LRU_OLD_TOLERANCE + 5)`)
passes for this length; the ratio 3/8 (384) lies within the limits. -/
def scan_consts : buf_LRU_consts :=
  { BUF_LRU_OLD_MIN_LEN := 80, BUF_LRU_OLD_RATIO_MIN := 321, BUF_LRU_OLD_RATIO_MAX := 1024 }

/-- The server parameters of the scenarios: no recovery, no fast free-list
search, and `buf_LRU_evict_from_unzip_LRU()` FALSE (it is FALSE whenever
the unzip_LRU list is empty). -/
def plain_params : LRU_params :=
  { recv_recovery_on := false, srv_fast_free_list := false, BUF_LRU_FREE_SEARCH_LEN := 0,
    evict_from_unzip_LRU := fun _ => false }

/-- An empty pool of `n` frames: the descriptors `1 .. n` are in the free
list in state `NOT_USED`, the LRU list is empty. -/
def frame_pool (n ratio : Nat) : buf_pool_t :=
  { empty_pool (fun _ => { plain_page 0 with state := .BUF_BLOCK_NOT_USED }) ratio with
    free := List.range' 1 n, curr_size := n }

/-- Modelled from the spec: `buf_page_init` of buf0buf.c (not in the
sources) as the read path uses it: the block obtained from
`buf_LRU_get_free_block` becomes a clean, unpinned file page
`(space, offset)` and is inserted into the page hash. -/
def buf_page_init (p : buf_pool_t) (space offset block : Nat) : buf_pool_t :=
  { set_block p block { plain_page offset with space := space } with
    page_hash := p.page_hash ++ [block] }

/-- A page fault as far as this module takes part in it:
`buf_LRU_get_free_block` (one thread, so nothing happens between two
passes), `buf_page_init`, and `buf_LRU_add_block(bpage, old)`. The page is
page `offset` of space 0. -/
def fault_in (c : buf_LRU_consts) (p : buf_pool_t) (offset : Nat) (old : Bool) :
    Option buf_pool_t :=
  match buf_LRU_get_free_block c plain_params (fun _ q => q) (fun _ => 0) 2 0 p with
  | none => none
  | some (block, q) => buf_LRU_add_block c (buf_page_init q 0 offset block) block old

/-- A sequence of page faults, first fault first; each entry is the page
number and the `old` argument of `buf_LRU_add_block`. -/
def fault_all (c : buf_LRU_consts) : buf_pool_t → List (Nat × Bool) → Option buf_pool_t
  | p, [] => some p
  | p, (offset, old) :: rest =>
    match fault_in c p offset old with
    | none => none
    | some q => fault_all c q rest

/-- The pages `H1 .. Hn`, page numbers `1 .. n`, inserted at the head of
the LRU list (`old = FALSE`). -/
def hot_pages (n : Nat) : List (Nat × Bool) := (List.range' 1 n).map (fun i => (i, false))

/-- The pages `Q1 .. Qn` (or `P1 .. Pn`), page numbers `1001 .. 1000 + n`,
inserted with the default placement (`old = TRUE`). -/
def scan_pages (n : Nat) : List (Nat × Bool) := (List.range' 1001 n).map (fun i => (i, true))

/-- A clean file page without a compressed frame that is neither pinned nor
I/O-fixed. -/
def clean_page (bp : buf_page_t) : Prop :=
  bp.state = .BUF_BLOCK_FILE_PAGE ∧ bp.zip_data = none ∧ bp.oldest_modification = 0 ∧
  bp.io_fix = .BUF_IO_NONE ∧ bp.buf_fix_count = 0 ∧ bp.sticky = false

/-- The states of the scenarios: the LRU list passes `buf_LRU_validate`,
its blocks hold clean uncompressed pages with distinct identities that are
exactly the blocks in the page hash, the free list holds unused blocks, and
every frame of the pool is in one of the two lists. Descriptor 0 is in no
list. -/
def fault_inv (c : buf_LRU_consts) (p : buf_pool_t) : Prop :=
  LRU_valid c p ∧ p.unzip_LRU = [] ∧ p.flush_list = [] ∧ p.free.Nodup ∧
  (∀ x ∈ p.free, x ∉ p.LRU ∧ x ≠ 0 ∧ buf_page_in_file (p.blocks x) = false) ∧
  (∀ x ∈ p.LRU, x ≠ 0 ∧ clean_page (p.blocks x)) ∧
  p.page_hash.Nodup ∧ (∀ x, x ∈ p.page_hash ↔ x ∈ p.LRU) ∧ (LRU_pages p).Nodup ∧
  p.free.length + p.LRU.length = p.curr_size ∧ 0 < p.curr_size

/-- How the `for` loop of `buf_LRU_remove_all_pages` is left: through
`goto scan_again` at a block that carries an adaptive hash index, or at the
head of the list with the value of `all_freed`. -/
inductive scan_end where
  | scan_again (bpage : Nat)
  | done (all_freed : Bool)
  deriving DecidableEq, Repr

/-- The `for` loop of `buf_LRU_remove_all_pages`; the first argument bounds
the number of iterations, the others are `bpage`, the pool and `all_freed`.
Every iteration goes on with `prev_bpage`, which is read before the block
is removed. -/
def remove_all_pages_loop (c : buf_LRU_consts) (id : Nat) :
    Nat → Option Nat → buf_pool_t → Bool → Option (scan_end × buf_pool_t)
  | _, none, p, all_freed => some (.done all_freed, p)
  | 0, some _, _, _ => none
  | fuel + 1, some bpage, p, all_freed =>
    if buf_page_in_file (p.blocks bpage) then
      let prev_bpage := UT_LIST_GET_PREV p.LRU bpage
      if (p.blocks bpage).space ≠ id then
        remove_all_pages_loop c id fuel prev_bpage p all_freed
      else if (p.blocks bpage).io_fix ≠ .BUF_IO_NONE then
        remove_all_pages_loop c id fuel prev_bpage p false
      else if (p.blocks bpage).buf_fix_count > 0 then
        remove_all_pages_loop c id fuel prev_bpage p false
      else if (p.blocks bpage).state = .BUF_BLOCK_FILE_PAGE ∧ (p.blocks bpage).index = true then
        some (.scan_again bpage, p)
      else
        let p1 : Option buf_pool_t :=
          if (p.blocks bpage).oldest_modification ≠ 0 then buf_flush_remove p bpage
          else some p
        match p1 with
        | none => none
        | some p1 =>
          match buf_LRU_block_remove_hashed_page c p1 bpage true with
          | none => none
          | some (.BUF_BLOCK_ZIP_FREE, p2) =>
            remove_all_pages_loop c id fuel prev_bpage p2 all_freed
          | some (_, p2) =>
            match buf_LRU_block_free_hashed_page p2 bpage with
            | none => none
            | some p3 => remove_all_pages_loop c id fuel prev_bpage p3 all_freed
    else none

/-- `buf_LRU_remove_all_pages`: passes over the LRU list from its end until
one of them ends with `all_freed` set. The first argument bounds the number
of passes. Before `scan_again` the mutex is free: `env` stands for what
`btr_search_drop_page_hash_when_freed` or, during the sleep, the other
threads do to the pool. -/
def buf_LRU_remove_all_pages (c : buf_LRU_consts) (id : Nat)
    (env : scan_end → buf_pool_t → buf_pool_t) : Nat → buf_pool_t → Option buf_pool_t
  | 0, _ => none
  | passes + 1, p =>
    match remove_all_pages_loop c id p.LRU.length p.LRU.getLast? p true with
    | none => none
    | some (.done true, q) => some q
    | some (e, q) => buf_LRU_remove_all_pages c id env passes (env e q)

/-- The state in which `buf_LRU_remove_all_pages` is entered: the LRU list
passes `buf_LRU_validate`, each of its pages is found in the page hash
under its identity, the flush list is a proper list of dirty pages of the
LRU list, a page in state `ZIP_PAGE` is clean, and every hashed descriptor
is in the LRU list. -/
def discard_ok (c : buf_LRU_consts) (p : buf_pool_t) : Prop :=
  LRU_valid c p ∧ (∀ x ∈ p.LRU, page_freeable p x) ∧ p.flush_list.Nodup ∧
  (∀ x ∈ p.flush_list, x ∈ p.LRU ∧ (p.blocks x).oldest_modification ≠ 0) ∧
  (∀ x ∈ p.LRU, (p.blocks x).state = .BUF_BLOCK_ZIP_PAGE →
    (p.blocks x).oldest_modification = 0) ∧
  (∀ x ∈ p.page_hash, x ∈ p.LRU)

instance (c : buf_LRU_consts) (p : buf_pool_t) : Decidable (discard_ok c p) := by
  unfold discard_ok; infer_instance

/-- Constants that pass both compile-time checks of buf0lru.c with a short
`BUF_LRU_OLD_MIN_LEN`: `5 < 30` and `900 * 30 > 1024 * (20 + 5)`. -/
def tiny_consts : buf_LRU_consts :=
  { BUF_LRU_OLD_MIN_LEN := 30, BUF_LRU_OLD_RATIO_MIN := 900, BUF_LRU_OLD_RATIO_MAX := 1024 }

/-- Thirty insertions at the head, of the pages 1 .. 30, and then 24 times
an insertion at the head (pages 101 .. 124) followed by the removal of the
block at the tail (pages 1 .. 24). -/
def drain_ops : List LRU_op :=
  (List.range' 1 30).map (fun i => LRU_op.add_block i false) ++
  (List.range' 1 24).flatMap
    (fun j => [LRU_op.add_block (100 + j) false, LRU_op.remove_block j])

/-- The part of the pool that the claims on dirty pages speak of: the free
list, the flush list, and `oldest_modification` of every descriptor. -/
def dirt (p : buf_pool_t) : List Nat × List Nat × (Nat → Nat) :=
  (p.free, p.flush_list, fun x => (p.blocks x).oldest_modification)

/-- The flush list holds dirty blocks only, as `buf_LRU_free_block` asserts
(`!bpage->in_flush_list == !bpage->oldest_modification`), and no block of
the free list is in the flush list. -/
def flush_clean (p : buf_pool_t) : Prop :=
  (∀ x ∈ p.flush_list, (p.blocks x).oldest_modification ≠ 0) ∧
  (∀ x ∈ p.free, x ∉ p.flush_list)

instance (p : buf_pool_t) : Decidable (flush_clean p) := by
  unfold flush_clean; infer_instance

/-- The uncompressed block `x` held a dirty page that `q` now keeps in the
compressed-only descriptor `b`: block `x` is in state `NOT_USED` with its
`oldest_modification` as it was in `p` (not 0), and `b` is in state
`ZIP_DIRTY` with the identity and `oldest_modification` that `x` had in `p`,
is in the LRU list, and is in the flush list if `x` was. -/
def relocated_dirty (p q : buf_pool_t) (x b : Nat) : Prop :=
  (p.blocks x).oldest_modification ≠ 0 ∧
  (q.blocks x).oldest_modification = (p.blocks x).oldest_modification ∧
  (q.blocks x).state = .BUF_BLOCK_NOT_USED ∧
  (q.blocks b).state = .BUF_BLOCK_ZIP_DIRTY ∧
  (q.blocks b).oldest_modification = (p.blocks x).oldest_modification ∧
  (q.blocks b).space = (p.blocks x).space ∧
  (q.blocks b).offset = (p.blocks x).offset ∧
  b ∈ q.LRU ∧ (x ∈ p.flush_list → b ∈ q.flush_list)

instance (p q : buf_pool_t) (x b : Nat) : Decidable (relocated_dirty p q x b) := by
  unfold relocated_dirty; infer_instance

/-! # Lemmas on the list macros -/

theorem next_of_split (ys zs : List Nat) (a : Nat) (h : a ∉ ys) :
    UT_LIST_GET_NEXT (ys ++ a :: zs) a = zs.head? := by
  induction ys with
  | nil => simp [UT_LIST_GET_NEXT]
  | cons y ys ih =>
    have hy : y ≠ a := fun e => h (by simp [e])
    have h2 : a ∉ ys := fun e => h (by simp [e])
    simp [UT_LIST_GET_NEXT, hy, ih h2]

theorem prev_of_split (ys zs : List Nat) (a : Nat) (h : a ∉ ys) :
    UT_LIST_GET_PREV (ys ++ a :: zs) a = ys.getLast? := by
  induction ys with
  | nil => cases zs <;> simp [UT_LIST_GET_PREV]
  | cons y ys ih =>
    have hy : y ≠ a := fun e => h (by simp [e])
    have h2 : a ∉ ys := fun e => h (by simp [e])
    cases ys with
    | nil => simp [UT_LIST_GET_PREV, hy]
    | cons y2 ys2 =>
      have hy2 : y2 ≠ a := fun e => h2 (by simp [e])
      have := ih h2
      simp only [List.cons_append] at this ⊢
      rw [UT_LIST_GET_PREV]
      simp [hy, hy2, this, List.getLast?_cons_cons]

theorem insert_after_of_split (ys zs : List Nat) (a x : Nat) (h : a ∉ ys) :
    UT_LIST_INSERT_AFTER (ys ++ a :: zs) a x = ys ++ a :: x :: zs := by
  induction ys with
  | nil => simp [UT_LIST_INSERT_AFTER]
  | cons y ys ih =>
    have hy : y ≠ a := fun e => h (by simp [e])
    have h2 : a ∉ ys := fun e => h (by simp [e])
    simp [UT_LIST_INSERT_AFTER, hy, ih h2]

theorem remove_of_split (ys zs : List Nat) (a : Nat) (h : a ∉ ys) :
    UT_LIST_REMOVE (ys ++ a :: zs) a = ys ++ zs := by
  unfold UT_LIST_REMOVE
  rw [List.erase_append_right _ h]
  simp

theorem split_of_mem_nodup (l : List Nat) (a : Nat) (h : a ∈ l) (hnd : l.Nodup) :
    ∃ ys zs, l = ys ++ a :: zs ∧ a ∉ ys ∧ a ∉ zs := by
  obtain ⟨ys, zs, rfl⟩ := List.append_of_mem h
  refine ⟨ys, zs, rfl, ?_, ?_⟩
  · intro hm
    have := (List.nodup_append.mp hnd).2.2
    exact this hm (by simp)
  · intro hm
    have := (List.nodup_append.mp hnd).2.1
    exact (List.nodup_cons.mp this).1 hm

theorem set_old_all_apply (v : Bool) (l : List Nat) (blocks : Nat → buf_page_t) (x : Nat) :
    set_old_all v l blocks x = if x ∈ l then { blocks x with old := v } else blocks x := by
  induction l generalizing blocks with
  | nil => simp [set_old_all]
  | cons y ys ih =>
    rw [set_old_all, ih]
    by_cases hxy : x = y
    · subst hxy
      simp [Function.update_same]
    · simp [Function.update_noteq hxy, hxy]

/-! # The old sublist as a split -/

theorem dropWhile_ne_of_split (ys zs : List Nat) (o : Nat) (h : o ∉ ys) :
    (ys ++ o :: zs).dropWhile (fun x => decide (x ≠ o)) = o :: zs := by
  induction ys with
  | nil => simp [List.dropWhile]
  | cons y ys ih =>
    have hy : y ≠ o := fun e => h (by simp [e])
    have h2 : o ∉ ys := fun e => h (by simp [e])
    have ih2 := ih h2
    simp only [List.cons_append, List.dropWhile, hy, ne_eq, not_false_eq_true, decide_True]
    exact ih2

theorem old_frame_refl (l : List Nat) (p : buf_pool_t) : old_frame l p p :=
  ⟨rfl, fun _ _ => rfl, fun _ => rfl⟩

theorem old_frame_trans (l : List Nat) (p q r : buf_pool_t)
    (h1 : old_frame l p q) (h2 : old_frame l q r) : old_frame l p r := by
  obtain ⟨a1, b1, c1⟩ := h1
  obtain ⟨a2, b2, c2⟩ := h2
  refine ⟨?_, fun x hx => (b2 x hx).trans (b1 x hx), fun x => (c2 x).trans (c1 x)⟩
  cases p; cases q; cases r
  simp only [buf_pool_t.mk.injEq] at a1 a2 ⊢
  obtain ⟨_, h1, h2, h3, h4, h5, _, _, h6, h7, h8, h9, h10, h11⟩ := a1
  obtain ⟨_, g1, g2, g3, g4, g5, _, _, g6, g7, g8, g9, g10, g11⟩ := a2
  subst h1 h2 h3 h4 h5 h6 h7 h8 h9 h10 h11 g1 g2 g3 g4 g5 g6 g7 g8 g9 g10 g11
  simp

theorem old_frame_mono (l l2 : List Nat) (p q : buf_pool_t) (hsub : ∀ x ∈ l, x ∈ l2)
    (h : old_frame l p q) : old_frame l2 p q :=
  ⟨h.1, fun x hx => h.2.1 x (fun hm => hx (hsub x hm)), h.2.2⟩

theorem old_frame_unzip (l u : List Nat) (p q : buf_pool_t) (h : old_frame l p q) :
    old_frame l { p with unzip_LRU := u } { q with unzip_LRU := u } := by
  obtain ⟨a, b, d⟩ := h
  refine ⟨?_, b, d⟩
  cases p; cases q
  simp only [buf_pool_t.mk.injEq] at a ⊢
  obtain ⟨_, h1, h2, h3, h4, h5, _, _, h6, h7, h8, h9, h10, h11⟩ := a
  subst h1 h2 h3 h4 h5 h6 h7 h8 h9 h10 h11
  simp

theorem countP_old_split (p : buf_pool_t) (ys zs : List Nat)
    (hy : ∀ x ∈ ys, (p.blocks x).old = false) (hz : ∀ x ∈ zs, (p.blocks x).old = true) :
    (ys ++ zs).countP (fun x => (p.blocks x).old) = zs.length := by
  rw [List.countP_append]
  have h1 : ys.countP (fun x => (p.blocks x).old) = 0 := by
    rw [List.countP_eq_zero]
    intro x hx
    simp [hy x hx]
  have h2 : zs.countP (fun x => (p.blocks x).old) = zs.length := by
    rw [List.countP_eq_length]
    intro x hx
    simp [hz x hx]
  omega

theorem split_of_old_sublist (c : buf_LRU_consts) (p : buf_pool_t) (hnd : p.LRU.Nodup)
    (h : old_sublist c p) :
    ∃ ys zs, old_split p ys zs ∧ (zs = [] ↔ p.LRU.length < c.BUF_LRU_OLD_MIN_LEN) := by
  obtain ⟨h1, h2, h3⟩ := h
  rcases h1 with ⟨hnone, hlt⟩ | ⟨o, ho, hsome, hge⟩
  · have hob : old_blocks p = [] := by simp [old_blocks, hnone]
    have hy : ∀ x ∈ p.LRU, (p.blocks x).old = false := by
      intro x hx
      have := h2 x hx
      rw [hob] at this
      cases hb : (p.blocks x).old
      · rfl
      · exact absurd (this.mp hb) (by simp)
    refine ⟨p.LRU, [], ⟨by simp, by simp [hnone], ?_, hy, by simp⟩, by simp [hlt]⟩
    have := countP_old_split p p.LRU [] hy (by simp)
    simp only [List.append_nil] at this
    rw [h3, this]
  · obtain ⟨ys, zs, hl, hys, hzs⟩ := split_of_mem_nodup p.LRU o ho hnd
    have hob : old_blocks p = o :: zs := by
      simp only [old_blocks, hsome, hl]
      exact dropWhile_ne_of_split ys zs o hys
    have hdisj : ∀ x ∈ ys, x ∉ o :: zs := by
      intro x hx hm
      rw [hl] at hnd
      exact (List.nodup_append.mp hnd).2.2 hx hm
    have hy : ∀ x ∈ ys, (p.blocks x).old = false := by
      intro x hx
      have := h2 x (by rw [hl]; simp [hx])
      rw [hob] at this
      cases hb : (p.blocks x).old
      · rfl
      · exact absurd (this.mp hb) (hdisj x hx)
    have hz : ∀ x ∈ o :: zs, (p.blocks x).old = true := by
      intro x hx
      have := h2 x (by rw [hl]; exact List.mem_append_right _ hx)
      rw [hob] at this
      exact this.mpr hx
    refine ⟨ys, o :: zs, ⟨hl, by simp [hsome], ?_, hy, hz⟩, ?_⟩
    · rw [h3, hl]
      exact countP_old_split p ys (o :: zs) hy hz
    · constructor
      · intro h; exact absurd h (by simp)
      · intro h; omega

theorem old_sublist_of_split (c : buf_LRU_consts) (p : buf_pool_t) (ys zs : List Nat)
    (hnd : p.LRU.Nodup) (h : old_split p ys zs)
    (hz : zs = [] ↔ p.LRU.length < c.BUF_LRU_OLD_MIN_LEN) : old_sublist c p := by
  obtain ⟨hl, ho, hlen, hy, hzo⟩ := h
  cases zs with
  | nil =>
    have hob : old_blocks p = [] := by simp [old_blocks, ho]
    refine ⟨Or.inl ⟨by simpa using ho, hz.mp rfl⟩, ?_, ?_⟩
    · intro x hx
      rw [hob]
      have : x ∈ ys := by simpa [hl] using hx
      simp [hy x this]
    · rw [hlen, hl]
      exact (countP_old_split p ys [] hy hzo).symm
  | cons o zs =>
    have hnd2 := hnd
    rw [hl] at hnd2
    have hoys : o ∉ ys := fun hm => (List.nodup_append.mp hnd2).2.2 hm (by simp)
    have hob : old_blocks p = o :: zs := by
      simp only [old_blocks, ho, hl, List.head?_cons]
      exact dropWhile_ne_of_split ys zs o hoys
    refine ⟨Or.inr ⟨o, by simp [hl], by simpa using ho, ?_⟩, ?_, ?_⟩
    · by_contra hlt
      have := hz.mpr (by omega)
      exact absurd this (by simp)
    · intro x hx
      rw [hob]
      rw [hl, List.mem_append] at hx
      rcases hx with hx | hx
      · have : x ∉ o :: zs := fun hm => (List.nodup_append.mp hnd2).2.2 hx hm
        simp only [hy x hx, this]
        simp
      · simp only [hzo x hx, hx]
    · rw [hlen, hl]
      exact (countP_old_split p ys (o :: zs) hy hzo).symm

/-! # `buf_LRU_old_adjust_len` -/

theorem old_frame_set_old (l : List Nat) (p : buf_pool_t) (a : Nat) (v : Bool)
    (o : Option Nat) (n : Nat) (ha : a ∈ l) :
    old_frame l p (buf_page_set_old { p with LRU_old := o, LRU_old_len := n } a v) := by
  refine ⟨rfl, ?_, ?_⟩
  · intro x hx
    have : x ≠ a := fun e => hx (e ▸ ha)
    simp [buf_page_set_old, set_block, Function.update_noteq this]
  · intro x
    by_cases hxa : x = a
    · subst hxa
      simp [buf_page_set_old, set_block]
    · simp [buf_page_set_old, set_block, Function.update_noteq hxa]

theorem adjusted_len_pos (new_len v : Nat) (hv : 0 < v) : 0 < adjusted_len new_len v := by
  unfold adjusted_len BUF_LRU_OLD_TOLERANCE
  split_ifs <;> omega

theorem adjust_loop_spec (new_len : Nat) : ∀ (fuel : Nat) (p : buf_pool_t) (ys zs : List Nat),
    (ys ++ zs).Nodup → old_split p ys zs → zs ≠ [] → new_len ≤ (ys ++ zs).length →
    (new_len - (zs.length + 20)) + (zs.length - (new_len + 20)) < fuel →
    ∃ q ys2 zs2, buf_LRU_old_adjust_len_loop new_len fuel p = some q ∧
      old_split q ys2 zs2 ∧ ys2 ++ zs2 = ys ++ zs ∧
      zs2.length = adjusted_len new_len zs.length ∧ zs2 ≠ [] ∧
      old_frame (ys ++ zs) p q := by
  intro fuel
  induction fuel with
  | zero => intro p ys zs _ _ _ _ hf; omega
  | succ fuel ih =>
    intro p ys zs hnd hs hne hnl hf
    obtain ⟨hl, ho, hlen, hy, hz⟩ := hs
    obtain ⟨o, zs0, rfl⟩ := List.exists_cons_of_ne_nil hne
    have hoys : o ∉ ys := fun hm => (List.nodup_append.mp hnd).2.2 hm (by simp)
    have ho2 : p.LRU_old = some o := by simpa using ho
    rw [buf_LRU_old_adjust_len_loop]
    simp only [ho2, hlen, BUF_LRU_OLD_TOLERANCE]
    by_cases hback : (o :: zs0).length + 20 < new_len
    · simp only [hback, if_true]
      have hysne : ys ≠ [] := by
        intro e
        subst e
        simp only [List.nil_append] at hnl
        omega
      obtain ⟨ys0, y, rfl⟩ : ∃ ys0 y, ys = ys0 ++ [y] := by
        rcases List.eq_nil_or_concat ys with h | ⟨a, b, h⟩
        · exact absurd h hysne
        · exact ⟨a, b, by simpa using h⟩
      have hprev : UT_LIST_GET_PREV p.LRU o = some y := by
        rw [hl, prev_of_split _ _ _ hoys]
        simp
      simp only [hprev]
      have hnd2 : (ys0 ++ y :: o :: zs0).Nodup := by simpa using hnd
      have hyys0 : y ∉ ys0 := fun hm => (List.nodup_append.mp hnd2).2.2 hm (by simp)
      have hyzs : y ∉ o :: zs0 := fun hm =>
        (List.nodup_cons.mp (List.nodup_append.mp hnd2).2.1).1 hm
      have hsplit : old_split
          (buf_page_set_old
            { p with LRU_old := some y, LRU_old_len := (o :: zs0).length + 1 } y true)
          ys0 (y :: o :: zs0) := by
        refine ⟨by simp [buf_page_set_old, set_block, hl], by simp [buf_page_set_old, set_block],
          by simp [buf_page_set_old, set_block], ?_, ?_⟩
        · intro x hx
          have hxy : x ≠ y := fun e => hyys0 (e ▸ hx)
          simp only [buf_page_set_old, set_block, Function.update_noteq hxy]
          exact hy x (by simp [hx])
        · intro x hx
          by_cases hxy : x = y
          · subst hxy
            simp [buf_page_set_old, set_block]
          · simp only [buf_page_set_old, set_block, Function.update_noteq hxy]
            have : x ∈ o :: zs0 := by
              rcases List.mem_cons.mp hx with h | h
              · exact absurd h hxy
              · exact h
            exact hz x this
      obtain ⟨q, ys2, zs2, hq, hqs, hqe, hql, hqne, hqf⟩ :=
        ih _ ys0 (y :: o :: zs0) hnd2 hsplit (by simp)
          (by simp only [List.length_append, List.length_cons, List.length_nil] at *; omega)
          (by simp only [List.length_append, List.length_cons, List.length_nil] at *; omega)
      refine ⟨q, ys2, zs2, hq, hqs, by simpa using hqe, ?_, hqne, ?_⟩
      · rw [hql]
        simp only [List.length_cons] at hback ⊢
        unfold adjusted_len BUF_LRU_OLD_TOLERANCE
        split_ifs <;> omega
      · have h1 := old_frame_set_old (ys0 ++ [y] ++ o :: zs0) p y true (some y)
          ((o :: zs0).length + 1) (by simp)
        have h2 : old_frame (ys0 ++ [y] ++ o :: zs0) _ q :=
          old_frame_mono _ _ _ _ (by intro x hx; simpa using hx) hqf
        exact old_frame_trans _ _ _ _ h1 h2
    · simp only [hback, if_false]
      by_cases hfwd : (o :: zs0).length > new_len + 20
      · simp only [hfwd, if_true]
        have hzne : zs0 ≠ [] := by
          intro e
          subst e
          simp at hfwd
        have hnext : UT_LIST_GET_NEXT p.LRU o = zs0.head? := by
          rw [hl, next_of_split _ _ _ hoys]
        simp only [hnext]
        have hnd2 : ((ys ++ [o]) ++ zs0).Nodup := by simpa using hnd
        have hozs : o ∉ zs0 := fun hm =>
          (List.nodup_cons.mp (List.nodup_append.mp hnd).2.1).1 hm
        have hsplit : old_split
            (buf_page_set_old
              { p with LRU_old := zs0.head?, LRU_old_len := (o :: zs0).length - 1 } o false)
            (ys ++ [o]) zs0 := by
          refine ⟨by simp [buf_page_set_old, set_block, hl], by simp [buf_page_set_old, set_block],
            by simp [buf_page_set_old, set_block], ?_, ?_⟩
          · intro x hx
            by_cases hxo : x = o
            · subst hxo
              simp [buf_page_set_old, set_block]
            · simp only [buf_page_set_old, set_block, Function.update_noteq hxo]
              have : x ∈ ys := by
                rcases List.mem_append.mp hx with h | h
                · exact h
                · exact absurd (by simpa using h) hxo
              exact hy x this
          · intro x hx
            have hxo : x ≠ o := fun e => hozs (e ▸ hx)
            simp only [buf_page_set_old, set_block, Function.update_noteq hxo]
            exact hz x (by simp [hx])
        obtain ⟨q, ys2, zs2, hq, hqs, hqe, hql, hqne, hqf⟩ :=
          ih _ (ys ++ [o]) zs0 hnd2 hsplit hzne
            (by simp only [List.length_append, List.length_cons, List.length_nil] at *; omega)
            (by simp only [List.length_append, List.length_cons, List.length_nil] at *; omega)
        refine ⟨q, ys2, zs2, hq, hqs, by simpa using hqe, ?_, hqne, ?_⟩
        · rw [hql]
          simp only [List.length_cons] at hfwd ⊢
          unfold adjusted_len BUF_LRU_OLD_TOLERANCE
          split_ifs <;> omega
        · have h1 := old_frame_set_old (ys ++ o :: zs0) p o false zs0.head?
            ((o :: zs0).length - 1) (by simp)
          have h2 : old_frame (ys ++ o :: zs0) _ q :=
            old_frame_mono _ _ _ _ (by intro x hx; simpa using hx) hqf
          exact old_frame_trans _ _ _ _ h1 h2
      · simp only [hfwd, if_false]
        refine ⟨p, ys, o :: zs0, rfl, ⟨hl, ho, hlen, hy, hz⟩, rfl, ?_, hne, old_frame_refl _ _⟩
        unfold adjusted_len BUF_LRU_OLD_TOLERANCE
        simp only [hback, hfwd, if_false]

theorem old_frame_fields (l : List Nat) (p q : buf_pool_t) (h : old_frame l p q) :
    q.LRU = p.LRU ∧ q.unzip_LRU = p.unzip_LRU ∧ q.free = p.free ∧
    q.flush_list = p.flush_list ∧ q.page_hash = p.page_hash ∧
    q.freed_page_clock = p.freed_page_clock ∧
    q.n_pages_made_young = p.n_pages_made_young ∧
    q.buf_LRU_old_ratio = p.buf_LRU_old_ratio := by
  have a1 := congrArg buf_pool_t.LRU h.1
  have a2 := congrArg buf_pool_t.unzip_LRU h.1
  have a3 := congrArg buf_pool_t.free h.1
  have a4 := congrArg buf_pool_t.flush_list h.1
  have a5 := congrArg buf_pool_t.page_hash h.1
  have a6 := congrArg buf_pool_t.freed_page_clock h.1
  have a7 := congrArg buf_pool_t.n_pages_made_young h.1
  have a8 := congrArg buf_pool_t.buf_LRU_old_ratio h.1
  exact ⟨a1, a2, a3, a4, a5, a6, a7, a8⟩

theorem LRU_new_len_eq (p : buf_pool_t) (h : 25 ≤ p.LRU.length) :
    LRU_new_len p = min (p.LRU.length * p.buf_LRU_old_ratio / 1024) (p.LRU.length - (20 + 5)) := by
  unfold LRU_new_len ulint_sub BUF_LRU_OLD_RATIO_DIV BUF_LRU_OLD_TOLERANCE
    BUF_LRU_NON_OLD_MIN_LEN
  simp [h]

theorem adjust_spec (p : buf_pool_t) (ys zs : List Nat) (hnd : p.LRU.Nodup)
    (hs : old_split p ys zs) (hne : zs ≠ []) (h25 : 25 ≤ p.LRU.length) :
    ∃ q ys2 zs2, buf_LRU_old_adjust_len p = some q ∧ old_split q ys2 zs2 ∧
      q.LRU = p.LRU ∧ zs2.length = adjusted_len (LRU_new_len p) zs.length ∧ zs2 ≠ [] ∧
      old_frame p.LRU p q := by
  have hl := hs.1
  obtain ⟨o, zs0, rfl⟩ := List.exists_cons_of_ne_nil hne
  have ho : p.LRU_old = some o := by simpa using hs.2.1
  have hlen := hs.2.2.1
  have hnl : LRU_new_len p ≤ (ys ++ o :: zs0).length := by
    rw [LRU_new_len_eq p h25, ← hl]
    omega
  obtain ⟨q, ys2, zs2, hq, hqs, hqe, hql, hqne, hqf⟩ :=
    adjust_loop_spec (LRU_new_len p) (p.LRU_old_len + LRU_new_len p + 1) p ys (o :: zs0)
      (hl ▸ hnd) hs hne hnl (by rw [hlen]; omega)
  refine ⟨q, ys2, zs2, ?_, hqs, ?_, hql, hqne, hl ▸ hqf⟩
  · unfold buf_LRU_old_adjust_len
    simp only [ho]
    exact hq
  · rw [hqs.1, hqe, hl]

theorem adjust_valid (c : buf_LRU_consts) (p : buf_pool_t) (ys zs : List Nat)
    (hM : 25 ≤ c.BUF_LRU_OLD_MIN_LEN) (hn : c.BUF_LRU_OLD_MIN_LEN ≤ p.LRU.length)
    (hnd : p.LRU.Nodup) (hs : old_split p ys zs) (hne : zs ≠ []) :
    ∃ q ys2 zs2, buf_LRU_old_adjust_len p = some q ∧ LRU_valid c q ∧ old_split q ys2 zs2 ∧
      q.LRU = p.LRU ∧ zs2.length = adjusted_len (LRU_new_len p) zs.length ∧ zs2 ≠ [] ∧
      old_frame p.LRU p q := by
  obtain ⟨q, ys2, zs2, hq, hqs, hql, hqlen, hqne, hqf⟩ :=
    adjust_spec p ys zs hnd hs hne (by omega)
  have hr := (old_frame_fields _ _ _ hqf).2.2.2.2.2.2.2
  refine ⟨q, ys2, zs2, hq, ⟨hql ▸ hnd, ?_, ?_⟩, hqs, hql, hqlen, hqne, hqf⟩
  · apply old_sublist_of_split c q ys2 zs2 (hql ▸ hnd) hqs
    constructor
    · intro h; exact absurd h hqne
    · intro h; rw [hql] at h; omega
  · intro _
    have h1 := LRU_new_len_eq p (by omega)
    rw [hql, hr, ← h1, hqs.2.2.1, hqlen]
    unfold adjusted_len BUF_LRU_OLD_TOLERANCE
    split_ifs <;> omega

theorem old_frame_set_old_all (l l2 : List Nat) (p : buf_pool_t) (v : Bool)
    (o : Option Nat) (n : Nat) (hsub : ∀ x ∈ l2, x ∈ l) :
    old_frame l p
      { p with blocks := set_old_all v l2 p.blocks, LRU_old := o, LRU_old_len := n } := by
  refine ⟨rfl, ?_, ?_⟩
  · intro x hx
    have : x ∉ l2 := fun hm => hx (hsub x hm)
    simp [set_old_all_apply, this]
  · intro x
    simp only [set_old_all_apply]
    split_ifs <;> rfl

/-! # `buf_LRU_old_init` -/

theorem old_init_spec (c : buf_LRU_consts) (p : buf_pool_t)
    (hM : 25 ≤ c.BUF_LRU_OLD_MIN_LEN) (hn : p.LRU.length = c.BUF_LRU_OLD_MIN_LEN)
    (hnd : p.LRU.Nodup) :
    ∃ q, buf_LRU_old_init c p = some q ∧ LRU_valid c q ∧ q.LRU = p.LRU ∧
      old_frame p.LRU p q := by
  have hne : p.LRU ≠ [] := by
    intro e
    rw [e] at hn
    simp at hn
    omega
  have hs : old_split
      { p with blocks := set_old_all true p.LRU.reverse p.blocks,
               LRU_old := p.LRU.head?, LRU_old_len := p.LRU.length } [] p.LRU := by
    refine ⟨by simp, rfl, rfl, by simp, ?_⟩
    intro x hx
    simp [set_old_all_apply, hx]
  obtain ⟨q, ys2, zs2, hq, hv, _, hql, _, _, hqf⟩ :=
    adjust_valid c { p with blocks := set_old_all true p.LRU.reverse p.blocks,
                            LRU_old := p.LRU.head?, LRU_old_len := p.LRU.length }
      [] p.LRU hM (by simp only; omega) hnd hs hne
  refine ⟨q, ?_, hv, hql, ?_⟩
  · unfold buf_LRU_old_init
    simp only [hn, if_true]
    rw [← hn]
    exact hq
  · exact old_frame_trans _ _ _ _
      (old_frame_set_old_all p.LRU p.LRU.reverse p true p.LRU.head? p.LRU.length
        (by intro x hx; simpa using hx)) hqf

/-! # `buf_LRU_remove_block` -/

theorem unzip_remove_eq (p : buf_pool_t) (bpage : Nat) :
    buf_unzip_LRU_remove_block_if_needed p bpage =
      { p with unzip_LRU :=
          if buf_page_belongs_to_unzip_LRU (p.blocks bpage) then
            UT_LIST_REMOVE p.unzip_LRU bpage
          else p.unzip_LRU } := by
  unfold buf_unzip_LRU_remove_block_if_needed
  split_ifs <;> rfl

theorem new_len_step (n r : Nat) (hn : 25 ≤ n) :
    min (n * r / 1024) (n - 25) ≤ min ((n + 1) * r / 1024) (n + 1 - 25) ∧
    min ((n + 1) * r / 1024) (n + 1 - 25) ≤ min (n * r / 1024) (n - 25) + 1 := by
  have h1 : (n + 1) * r = n * r + r := by ring
  rw [h1]
  by_cases hr : r ≤ 1024
  · constructor <;> omega
  · have h2 : n * 1024 ≤ n * r := Nat.mul_le_mul_left n (by omega)
    constructor <;> omega

/-- The end of `buf_LRU_remove_block`: short lists lose the old sublist,
longer ones are adjusted. -/
theorem remove_finish (c : buf_LRU_consts) (p : buf_pool_t) (ys zs : List Nat)
    (hM : 25 ≤ c.BUF_LRU_OLD_MIN_LEN) (hnd : p.LRU.Nodup) (hs : old_split p ys zs)
    (hz : c.BUF_LRU_OLD_MIN_LEN ≤ p.LRU.length → zs ≠ []) :
    ∃ q ys2 zs2,
      (if p.LRU.length < c.BUF_LRU_OLD_MIN_LEN then
          some { p with blocks := set_old_all false p.LRU p.blocks,
                        LRU_old := none, LRU_old_len := 0 }
        else buf_LRU_old_adjust_len p) = some q ∧
      LRU_valid c q ∧ q.LRU = p.LRU ∧ old_frame p.LRU p q ∧ old_split q ys2 zs2 ∧
      (c.BUF_LRU_OLD_MIN_LEN ≤ p.LRU.length →
        zs2.length = adjusted_len (LRU_new_len p) zs.length) := by
  by_cases h : p.LRU.length < c.BUF_LRU_OLD_MIN_LEN
  · simp only [h, if_true]
    have hsp : old_split
        { p with blocks := set_old_all false p.LRU p.blocks,
                 LRU_old := none, LRU_old_len := 0 } p.LRU [] := by
      refine ⟨by simp, rfl, rfl, ?_, by simp⟩
      intro x hx
      simp [set_old_all_apply, hx]
    refine ⟨_, p.LRU, [], rfl, ⟨hnd, ?_, ?_⟩, rfl, ?_, hsp, ?_⟩
    · exact old_sublist_of_split c _ p.LRU [] hnd hsp (by simp [h])
    · intro h2
      exact absurd h2 (by simpa using h)
    · exact old_frame_set_old_all p.LRU p.LRU p false none 0 (fun _ hx => hx)
    · intro h2
      omega
  · simp only [h, if_false]
    obtain ⟨q, ys2, zs2, hq, hv, hqs, hql, hqlen, _, hqf⟩ :=
      adjust_valid c p ys zs hM (by omega) hnd hs (hz (by omega))
    exact ⟨q, ys2, zs2, hq, hv, hql, hqf, hqs, fun _ => hqlen⟩

theorem split_cases (ys zs A B : List Nat) (b : Nat) (h : ys ++ zs = A ++ b :: B) :
    (∃ Y2, ys = A ++ b :: Y2 ∧ B = Y2 ++ zs) ∨ (ys = A ∧ zs = b :: B) ∨
    (∃ o C, zs = o :: C ++ b :: B ∧ A = ys ++ o :: C) := by
  rcases List.append_eq_append_iff.mp h with ⟨a, h1, h2⟩ | ⟨c, h1, h2⟩
  · cases a with
    | nil => right; left; simp at h1 h2; exact ⟨h1.symm, h2⟩
    | cons o C => right; right; exact ⟨o, C, by simpa using h2, h1⟩
  · cases c with
    | nil => right; left; simp at h1 h2; exact ⟨h1, h2.symm⟩
    | cons o C =>
      left
      simp only [List.cons_append, List.cons.injEq] at h2
      obtain ⟨rfl, rfl⟩ := h2
      exact ⟨C, h1, rfl⟩

theorem remove_block_eq_other (c : buf_LRU_consts) (p : buf_pool_t) (bpage : Nat)
    (hf : buf_page_in_file (p.blocks bpage) = true) (hne : p.LRU_old ≠ some bpage) :
    buf_LRU_remove_block c p bpage =
      (if (UT_LIST_REMOVE p.LRU bpage).length < c.BUF_LRU_OLD_MIN_LEN then
        some { p with
          LRU := UT_LIST_REMOVE p.LRU bpage,
          unzip_LRU := if buf_page_belongs_to_unzip_LRU (p.blocks bpage) then
              UT_LIST_REMOVE p.unzip_LRU bpage else p.unzip_LRU,
          blocks := set_old_all false (UT_LIST_REMOVE p.LRU bpage) p.blocks,
          LRU_old := none, LRU_old_len := 0 }
      else buf_LRU_old_adjust_len
        { p with
          LRU := UT_LIST_REMOVE p.LRU bpage,
          unzip_LRU := if buf_page_belongs_to_unzip_LRU (p.blocks bpage) then
              UT_LIST_REMOVE p.unzip_LRU bpage else p.unzip_LRU,
          LRU_old_len := if (p.blocks bpage).old then p.LRU_old_len - 1 else p.LRU_old_len }) := by
  unfold buf_LRU_remove_block
  simp only [hf, if_true, hne, if_false, unzip_remove_eq, buf_page_is_old]
  split_ifs <;> rfl

theorem remove_block_eq_ptr (c : buf_LRU_consts) (p : buf_pool_t) (bpage y : Nat)
    (hf : buf_page_in_file (p.blocks bpage) = true) (he : p.LRU_old = some bpage)
    (hprev : UT_LIST_GET_PREV p.LRU bpage = some y) (hy : y ≠ bpage)
    (hold : (p.blocks bpage).old = true) :
    buf_LRU_remove_block c p bpage =
      (if (UT_LIST_REMOVE p.LRU bpage).length < c.BUF_LRU_OLD_MIN_LEN then
        some { p with
          LRU := UT_LIST_REMOVE p.LRU bpage,
          unzip_LRU := if buf_page_belongs_to_unzip_LRU (p.blocks bpage) then
              UT_LIST_REMOVE p.unzip_LRU bpage else p.unzip_LRU,
          blocks := set_old_all false (UT_LIST_REMOVE p.LRU bpage)
            (Function.update p.blocks y { p.blocks y with old := true }),
          LRU_old := none, LRU_old_len := 0 }
      else buf_LRU_old_adjust_len
        { p with
          LRU := UT_LIST_REMOVE p.LRU bpage,
          unzip_LRU := if buf_page_belongs_to_unzip_LRU (p.blocks bpage) then
              UT_LIST_REMOVE p.unzip_LRU bpage else p.unzip_LRU,
          blocks := Function.update p.blocks y { p.blocks y with old := true },
          LRU_old := some y,
          LRU_old_len := p.LRU_old_len + 1 - 1 }) := by
  unfold buf_LRU_remove_block
  have hb : Function.update p.blocks y { p.blocks y with old := true } bpage = p.blocks bpage :=
    Function.update_noteq (Ne.symm hy) _ _
  simp only [hf, if_true, he, hprev, unzip_remove_eq, buf_page_is_old, buf_page_set_old,
    set_block, hb, hold]
theorem prefix_of_append_eq (ys zs A B : List Nat) (h : ys ++ zs = A ++ B)
    (hlen : zs.length ≤ B.length) : ∃ m, ys = A ++ m ∧ B = m ++ zs := by
  rcases List.append_eq_append_iff.mp h with ⟨a, h1, h2⟩ | ⟨c, h1, h2⟩
  · have : a = [] := by
      have := congrArg List.length h2
      simp only [List.length_append] at this
      exact List.length_eq_zero.mp (by omega)
    subst this
    exact ⟨[], by simpa using h1.symm, by simpa using h2.symm⟩
  · exact ⟨c, h1, h2⟩

theorem suffix_of_append_eq (ys zs A B : List Nat) (h : ys ++ zs = A ++ B)
    (hlen : B.length ≤ zs.length) : ∃ m, zs = m ++ B ∧ A = ys ++ m := by
  rcases List.append_eq_append_iff.mp h with ⟨a, h1, h2⟩ | ⟨c, h1, h2⟩
  · exact ⟨a, h2, h1⟩
  · have : c = [] := by
      have := congrArg List.length h2
      simp only [List.length_append] at this
      exact List.length_eq_zero.mp (by omega)
    subst this
    exact ⟨[], by simpa using h2.symm, by simpa using h1.symm⟩

theorem nodup_remove_middle (A B : List Nat) (b : Nat) (h : (A ++ b :: B).Nodup) :
    (A ++ B).Nodup ∧ b ∉ A ∧ b ∉ B := by
  have h1 := List.nodup_append.mp h
  refine ⟨List.nodup_append.mpr ⟨h1.1, (List.nodup_cons.mp h1.2.1).2,
    fun x hx hxB => h1.2.2 hx (List.mem_cons_of_mem _ hxB)⟩, ?_, ?_⟩
  · intro hm
    exact h1.2.2 hm (by simp)
  · exact (List.nodup_cons.mp h1.2.1).1

theorem remove_block_spec (c : buf_LRU_consts) (p : buf_pool_t) (A B : List Nat) (bpage : Nat)
    (hM : 25 ≤ c.BUF_LRU_OLD_MIN_LEN) (hv : LRU_valid c p) (hl : p.LRU = A ++ bpage :: B)
    (hf : buf_page_in_file (p.blocks bpage) = true) :
    ∃ q ys2 zs2, buf_LRU_remove_block c p bpage = some q ∧ LRU_valid c q ∧ q.LRU = A ++ B ∧
      old_frame (A ++ B)
        { p with LRU := A ++ B,
                 unzip_LRU := if buf_page_belongs_to_unzip_LRU (p.blocks bpage) then
                    UT_LIST_REMOVE p.unzip_LRU bpage else p.unzip_LRU } q ∧
      old_split q ys2 zs2 ∧
      (c.BUF_LRU_OLD_MIN_LEN ≤ (A ++ B).length →
        ((p.blocks bpage).old = false → ∃ m, ys2 = A ++ m) ∧
        ((p.blocks bpage).old = true → ∃ m, zs2 = m ++ B)) := by
  obtain ⟨hnd, hos, htol⟩ := hv
  obtain ⟨ys, zs, hs, hzs⟩ := split_of_old_sublist c p hnd hos
  obtain ⟨hndAB, hbA, hbB⟩ := nodup_remove_middle A B bpage (hl ▸ hnd)
  have hrem : UT_LIST_REMOVE p.LRU bpage = A ++ B := by rw [hl, remove_of_split _ _ _ hbA]
  have hn1 : p.LRU.length = (A ++ B).length + 1 := by
    rw [hl]; simp only [List.length_append, List.length_cons]; omega
  obtain ⟨hsl, hso, hslen, hsy, hsz⟩ := hs
  have hstep := new_len_step (A ++ B).length p.buf_LRU_old_ratio
  unfold old_len_in_tolerance at htol
  rw [hn1] at htol hzs
  rcases split_cases ys zs A B bpage (hsl.symm.trans hl) with
    ⟨Y2, hy1, hy2⟩ | ⟨ho1, ho2⟩ | ⟨o, C, hz1, hz2⟩
  · -- the block is young
    have hold : (p.blocks bpage).old = false := hsy bpage (by rw [hy1]; simp)
    have hne : p.LRU_old ≠ some bpage := by
      rw [hso]
      intro e
      have : bpage ∈ zs := List.mem_of_mem_head? e
      exact hbB (by rw [hy2]; simp [this])
    rw [remove_block_eq_other c p bpage hf hne, hrem]
    simp only [hold]
    have hsp : old_split
        { p with LRU := A ++ B,
                 unzip_LRU := if buf_page_belongs_to_unzip_LRU (p.blocks bpage) then
                    UT_LIST_REMOVE p.unzip_LRU bpage else p.unzip_LRU,
                 LRU_old_len := p.LRU_old_len } (A ++ Y2) zs := by
      refine ⟨by simp [hy2], hso, hslen, ?_, hsz⟩
      intro x hx
      exact hsy x (by rw [hy1]; simp only [List.mem_append, List.mem_cons] at hx ⊢; tauto)
    obtain ⟨q, ys2, zs2, hq, hqv, hql, hqf, hqs, hqlen⟩ :=
      remove_finish c _ (A ++ Y2) zs hM hndAB hsp
        (by intro h e; have := hzs.mp e; simp only at h; omega)
    refine ⟨q, ys2, zs2, hq, hqv, hql, hqf, hqs, ?_⟩
    intro hge
    refine ⟨fun _ => ?_, fun h => absurd h (by simp [hold])⟩
    have hlen2 := hqlen hge
    have hnl := LRU_new_len_eq
      { p with LRU := A ++ B,
               unzip_LRU := if buf_page_belongs_to_unzip_LRU (p.blocks bpage) then
                  UT_LIST_REMOVE p.unzip_LRU bpage else p.unzip_LRU,
               LRU_old_len := p.LRU_old_len }
      (by show 25 ≤ (A ++ B).length; omega)
    simp only at hnl
    rw [hnl] at hlen2
    have ht := htol (by omega)
    have hst := hstep (by omega)
    have hBlen : B.length = Y2.length + zs.length := by rw [hy2]; simp
    have : zs2.length ≤ B.length := by
      rw [hlen2, hBlen]
      unfold adjusted_len BUF_LRU_OLD_TOLERANCE
      split_ifs <;> omega
    obtain ⟨m, hm, _⟩ := prefix_of_append_eq ys2 zs2 A B (by rw [← hqs.1, hql]) this
    exact ⟨m, hm⟩
  · -- the block is `LRU_old`
    subst ho1
    have hold : (p.blocks bpage).old = true := hsz bpage (by rw [ho2]; simp)
    have he : p.LRU_old = some bpage := by rw [hso, ho2]; rfl
    have hn : c.BUF_LRU_OLD_MIN_LEN ≤ (ys ++ B).length + 1 := by
      by_contra hlt
      have := hzs.mpr (by omega)
      rw [ho2] at this
      exact absurd this (by simp)
    have ht := htol hn
    have hzl : p.LRU_old_len = B.length + 1 := by rw [hslen, ho2]; simp
    have hysne : ys ≠ [] := by
      intro e
      subst e
      simp only [List.nil_append] at ht hn
      omega
    obtain ⟨A0, y, rfl⟩ : ∃ A0 y, ys = A0 ++ [y] := by
      rcases List.eq_nil_or_concat ys with h | ⟨a, b, h⟩
      · exact absurd h hysne
      · exact ⟨a, b, by simpa using h⟩
    have hprev : UT_LIST_GET_PREV p.LRU bpage = some y := by
      rw [hl, prev_of_split _ _ _ hbA]
      simp
    have hyb : y ≠ bpage := fun e => hbA (by simp [e])
    rw [remove_block_eq_ptr c p bpage y hf he hprev hyb hold, hrem]
    have hnd3 : (A0 ++ y :: B).Nodup := by simpa using hndAB
    obtain ⟨_, hyA0, hyB⟩ := nodup_remove_middle A0 B y hnd3
    have hsp : old_split
        { p with LRU := A0 ++ [y] ++ B,
                 unzip_LRU := if buf_page_belongs_to_unzip_LRU (p.blocks bpage) then
                    UT_LIST_REMOVE p.unzip_LRU bpage else p.unzip_LRU,
                 blocks := Function.update p.blocks y { p.blocks y with old := true },
                 LRU_old := some y,
                 LRU_old_len := p.LRU_old_len + 1 - 1 } A0 (y :: B) := by
      refine ⟨by simp, rfl, by simp [hzl], ?_, ?_⟩
      · intro x hx
        have hxy : x ≠ y := fun e => hyA0 (e ▸ hx)
        simp only [Function.update_noteq hxy]
        exact hsy x (by simp [hx])
      · intro x hx
        by_cases hxy : x = y
        · subst hxy
          simp
        · simp only [Function.update_noteq hxy]
          have : x ∈ B := by
            rcases List.mem_cons.mp hx with h | h
            · exact absurd h hxy
            · exact h
          exact hsz x (by rw [ho2]; simp [this])
    obtain ⟨q, ys2, zs2, hq, hqv, hql, hqf, hqs, hqlen⟩ :=
      remove_finish c _ A0 (y :: B) hM hndAB hsp (by intro _; simp)
    have hfr : old_frame (A0 ++ [y] ++ B)
        { p with LRU := A0 ++ [y] ++ B,
                 unzip_LRU := if buf_page_belongs_to_unzip_LRU (p.blocks bpage) then
                    UT_LIST_REMOVE p.unzip_LRU bpage else p.unzip_LRU } q := by
      refine old_frame_trans _ _ _ _ ?_ hqf
      refine ⟨rfl, ?_, ?_⟩
      · intro x hx
        have hxy : x ≠ y := fun e => hx (by simp [e])
        simp [Function.update_noteq hxy]
      · intro x
        by_cases hxy : x = y
        · subst hxy
          simp
        · simp [Function.update_noteq hxy]
    refine ⟨q, ys2, zs2, hq, hqv, hql, hfr, hqs, ?_⟩
    intro hge
    refine ⟨fun h => absurd h (by simp [hold]), fun _ => ?_⟩
    have hlen2 := hqlen hge
    have hnl := LRU_new_len_eq
      { p with LRU := A0 ++ [y] ++ B,
               unzip_LRU := if buf_page_belongs_to_unzip_LRU (p.blocks bpage) then
                  UT_LIST_REMOVE p.unzip_LRU bpage else p.unzip_LRU,
               blocks := Function.update p.blocks y { p.blocks y with old := true },
               LRU_old := some y,
               LRU_old_len := p.LRU_old_len + 1 - 1 }
      (by show 25 ≤ (A0 ++ [y] ++ B).length; omega)
    simp only at hnl
    rw [hnl] at hlen2
    have hst := hstep (by omega)
    have : B.length ≤ zs2.length := by
      rw [hlen2]
      simp only [List.length_cons]
      unfold adjusted_len BUF_LRU_OLD_TOLERANCE
      split_ifs <;> omega
    obtain ⟨m, hm, _⟩ := suffix_of_append_eq ys2 zs2 (A0 ++ [y]) B (by rw [← hqs.1, hql]) this
    exact ⟨m, hm⟩
  · -- the block is old and behind `LRU_old`
    have hold : (p.blocks bpage).old = true := hsz bpage (by rw [hz1]; simp)
    have hob : o ≠ bpage := fun e => hbA (by rw [hz2, ← e]; simp)
    have hso2 : p.LRU_old = some o := by rw [hso, hz1]; rfl
    have hne : p.LRU_old ≠ some bpage := by
      rw [hso2]
      intro e
      exact hob (Option.some.inj e)
    have hn : c.BUF_LRU_OLD_MIN_LEN ≤ (A ++ B).length + 1 := by
      by_contra hlt
      have := hzs.mpr (by omega)
      rw [hz1] at this
      exact absurd this (by simp)
    have ht := htol hn
    have hzl : p.LRU_old_len = C.length + B.length + 2 := by
      rw [hslen, hz1]; simp only [List.length_append, List.length_cons]; omega
    rw [remove_block_eq_other c p bpage hf hne, hrem]
    simp only [hold, if_true]
    have hsp : old_split
        { p with LRU := A ++ B,
                 unzip_LRU := if buf_page_belongs_to_unzip_LRU (p.blocks bpage) then
                    UT_LIST_REMOVE p.unzip_LRU bpage else p.unzip_LRU,
                 LRU_old_len := p.LRU_old_len - 1 } ys (o :: C ++ B) := by
      refine ⟨by simp [hz2], hso2, ?_, hsy, ?_⟩
      · simp only [hzl, List.length_append, List.length_cons]; omega
      · intro x hx
        exact hsz x (by rw [hz1]; simp only [List.mem_append, List.mem_cons] at hx ⊢; tauto)
    obtain ⟨q, ys2, zs2, hq, hqv, hql, hqf, hqs, hqlen⟩ :=
      remove_finish c _ ys (o :: C ++ B) hM hndAB hsp (by intro _; simp)
    refine ⟨q, ys2, zs2, hq, hqv, hql, ?_, hqs, ?_⟩
    · refine old_frame_trans _ _ _ _ ?_ hqf
      exact ⟨rfl, fun _ _ => rfl, fun _ => rfl⟩
    intro hge
    refine ⟨fun h => absurd h (by simp [hold]), fun _ => ?_⟩
    have hlen2 := hqlen hge
    have hnl := LRU_new_len_eq
      { p with LRU := A ++ B,
               unzip_LRU := if buf_page_belongs_to_unzip_LRU (p.blocks bpage) then
                  UT_LIST_REMOVE p.unzip_LRU bpage else p.unzip_LRU,
               LRU_old_len := p.LRU_old_len - 1 }
      (by show 25 ≤ (A ++ B).length; omega)
    simp only at hnl
    rw [hnl] at hlen2
    have hst := hstep (by omega)
    have hzl2 : (o :: C ++ B).length = C.length + B.length + 1 := by
      simp only [List.length_append, List.length_cons]; omega
    have : B.length ≤ zs2.length := by
      rw [hlen2, hzl2]
      unfold adjusted_len BUF_LRU_OLD_TOLERANCE
      split_ifs <;> omega
    obtain ⟨m, hm, _⟩ := suffix_of_append_eq ys2 zs2 A B (by rw [← hqs.1, hql]) this
    exact ⟨m, hm⟩

/-! # `buf_LRU_add_block_low` -/

theorem unzip_add_eq (p : buf_pool_t) (bpage : Nat) (old : Bool) :
    add_to_unzip_LRU_if_needed p bpage old =
      some { p with unzip_LRU :=
        if buf_page_belongs_to_unzip_LRU (p.blocks bpage) then
          (if old then UT_LIST_ADD_LAST p.unzip_LRU bpage
           else UT_LIST_ADD_FIRST p.unzip_LRU bpage)
        else p.unzip_LRU } := by
  unfold add_to_unzip_LRU_if_needed buf_unzip_LRU_add_block
  by_cases h : buf_page_belongs_to_unzip_LRU (p.blocks bpage) = true
  · cases old <;> simp [h]
  · simp [h]

theorem belongs_of_frame (a b : buf_page_t)
    (h : { a with old := false } = { b with old := false }) :
    buf_page_belongs_to_unzip_LRU a = buf_page_belongs_to_unzip_LRU b := by
  have h1 := congrArg buf_page_t.zip_data h
  have h2 := congrArg buf_page_t.state h
  simp only at h1 h2
  unfold buf_page_belongs_to_unzip_LRU
  rw [h1, h2]

theorem LRU_valid_unzip (c : buf_LRU_consts) (p : buf_pool_t) (u : List Nat)
    (h : LRU_valid c p) : LRU_valid c { p with unzip_LRU := u } := h

theorem old_split_unzip (p : buf_pool_t) (u : List Nat) (ys zs : List Nat)
    (h : old_split p ys zs) : old_split { p with unzip_LRU := u } ys zs := h

theorem head_not_old (c : buf_LRU_consts) (p : buf_pool_t) (x : Nat) (l : List Nat)
    (hM : 25 ≤ c.BUF_LRU_OLD_MIN_LEN) (hv : LRU_valid c p) (hl : p.LRU = x :: l) :
    (p.blocks x).old = false := by
  obtain ⟨hnd, hos, htol⟩ := hv
  obtain ⟨ys, zs, hs, hzs⟩ := split_of_old_sublist c p hnd hos
  obtain ⟨hsl, hso, hslen, hsy, hsz⟩ := hs
  cases ys with
  | nil =>
    exfalso
    simp only [List.nil_append] at hsl
    by_cases hn : p.LRU.length < c.BUF_LRU_OLD_MIN_LEN
    · have := hzs.mpr hn
      rw [this] at hsl
      rw [hsl] at hl
      exact absurd hl (by simp)
    · have ht := htol (by omega)
      have hzl : zs.length = p.LRU.length := by rw [hsl]
      rw [hslen] at ht
      omega
  | cons y ys =>
    rw [hsl] at hl
    simp only [List.cons_append, List.cons.injEq] at hl
    exact hsy x (by rw [← hl.1]; simp)

theorem add_head_spec (c : buf_LRU_consts) (p : buf_pool_t) (bpage : Nat) (old : Bool)
    (hM : 25 ≤ c.BUF_LRU_OLD_MIN_LEN) (hv : LRU_valid c p) (hb : bpage ∉ p.LRU)
    (hf : buf_page_in_file (p.blocks bpage) = true)
    (hcond : old = false ∨ p.LRU.length < c.BUF_LRU_OLD_MIN_LEN) :
    ∃ q, buf_LRU_add_block_low c p bpage old = some q ∧ LRU_valid c q ∧
      q.LRU = bpage :: p.LRU ∧
      q.unzip_LRU =
        (if buf_page_belongs_to_unzip_LRU (p.blocks bpage) then
          (if old then UT_LIST_ADD_LAST p.unzip_LRU bpage
           else UT_LIST_ADD_FIRST p.unzip_LRU bpage)
         else p.unzip_LRU) ∧
      old_frame (bpage :: p.LRU)
        { p with LRU := bpage :: p.LRU, unzip_LRU := q.unzip_LRU,
                 blocks := Function.update p.blocks bpage
                   { p.blocks bpage with freed_page_clock := p.freed_page_clock } } q := by
  have hv0 := hv
  obtain ⟨hnd, hos, htol⟩ := hv
  obtain ⟨ys, zs, hs, hzs⟩ := split_of_old_sublist c p hnd hos
  obtain ⟨hsl, hso, hslen, hsy, hsz⟩ := hs
  have hnd1 : (bpage :: p.LRU).Nodup := List.nodup_cons.mpr ⟨hb, hnd⟩
  have hc : (!old || decide (p.LRU.length < c.BUF_LRU_OLD_MIN_LEN)) = true := by
    rcases hcond with h | h
    · simp [h]
    · simp [h]
  -- the pool after the block is linked at the head
  have key : ∃ p2,
      (if (bpage :: p.LRU).length > c.BUF_LRU_OLD_MIN_LEN then
          buf_LRU_old_adjust_len
            (buf_page_set_old
              (set_block { p with LRU := UT_LIST_ADD_FIRST p.LRU bpage } bpage
                { p.blocks bpage with freed_page_clock := p.freed_page_clock }) bpage old)
        else if (bpage :: p.LRU).length = c.BUF_LRU_OLD_MIN_LEN then
          buf_LRU_old_init c
            (set_block { p with LRU := UT_LIST_ADD_FIRST p.LRU bpage } bpage
              { p.blocks bpage with freed_page_clock := p.freed_page_clock })
        else
          some (buf_page_set_old
            (set_block { p with LRU := UT_LIST_ADD_FIRST p.LRU bpage } bpage
              { p.blocks bpage with freed_page_clock := p.freed_page_clock }) bpage
            p.LRU_old.isSome)) = some p2 ∧
      LRU_valid c p2 ∧ p2.LRU = bpage :: p.LRU ∧
      old_frame (bpage :: p.LRU)
        { p with LRU := bpage :: p.LRU,
                 blocks := Function.update p.blocks bpage
                   { p.blocks bpage with freed_page_clock := p.freed_page_clock } } p2 := by
    by_cases h1 : (bpage :: p.LRU).length > c.BUF_LRU_OLD_MIN_LEN
    · simp only [h1, if_true]
      have hge : c.BUF_LRU_OLD_MIN_LEN ≤ p.LRU.length := by
        simp only [List.length_cons] at h1; omega
      have hold : old = false := by
        rcases hcond with h | h
        · exact h
        · omega
      subst hold
      have hzne : zs ≠ [] := fun e => by have := hzs.mp e; omega
      have hsp : old_split
          (buf_page_set_old
            (set_block { p with LRU := UT_LIST_ADD_FIRST p.LRU bpage } bpage
              { p.blocks bpage with freed_page_clock := p.freed_page_clock }) bpage false)
          (bpage :: ys) zs := by
        refine ⟨by simp [buf_page_set_old, set_block, UT_LIST_ADD_FIRST, hsl], hso, hslen, ?_, ?_⟩
        · intro x hx
          by_cases hxb : x = bpage
          · subst hxb
            simp [buf_page_set_old, set_block]
          · have : x ∈ ys := by
              rcases List.mem_cons.mp hx with h | h
              · exact absurd h hxb
              · exact h
            simp only [buf_page_set_old, set_block, Function.update_noteq hxb]
            exact hsy x this
        · intro x hx
          have hxb : x ≠ bpage := fun e => hb (by rw [hsl, ← e]; simp [hx])
          simp only [buf_page_set_old, set_block, Function.update_noteq hxb]
          exact hsz x hx
      obtain ⟨q, ys2, zs2, hq, hqv, _, hql, _, _, hqf⟩ :=
        adjust_valid c
          (buf_page_set_old
            (set_block { p with LRU := UT_LIST_ADD_FIRST p.LRU bpage } bpage
              { p.blocks bpage with freed_page_clock := p.freed_page_clock }) bpage false)
          (bpage :: ys) zs hM
          (by show c.BUF_LRU_OLD_MIN_LEN ≤ (bpage :: p.LRU).length
              simp only [List.length_cons]; omega)
          hnd1 hsp hzne
      refine ⟨q, hq, hqv, hql, ?_⟩
      refine old_frame_trans _ _ _ _ ?_ hqf
      refine ⟨rfl, ?_, ?_⟩
      · intro x hx
        have hxb : x ≠ bpage := fun e => hx (by simp [e])
        simp [buf_page_set_old, set_block, Function.update_noteq hxb]
      · intro x
        by_cases hxb : x = bpage
        · subst hxb
          simp [buf_page_set_old, set_block]
        · simp [buf_page_set_old, set_block, Function.update_noteq hxb]
    · simp only [h1, if_false]
      by_cases h2 : (bpage :: p.LRU).length = c.BUF_LRU_OLD_MIN_LEN
      · simp only [h2, if_true]
        obtain ⟨q, hq, hqv, hql, hqf⟩ :=
          old_init_spec c
            (set_block { p with LRU := UT_LIST_ADD_FIRST p.LRU bpage } bpage
              { p.blocks bpage with freed_page_clock := p.freed_page_clock })
            hM h2 hnd1
        exact ⟨q, hq, hqv, hql, hqf⟩
      · simp only [h2, if_false]
        have hlt : p.LRU.length < c.BUF_LRU_OLD_MIN_LEN := by
          simp only [List.length_cons] at h1 h2; omega
        have hz0 : zs = [] := hzs.mpr hlt
        subst hz0
        have hnone : p.LRU_old = none := by simpa using hso
        have hsome : p.LRU_old.isSome = false := by simp [hnone]
        simp only [hsome]
        have hsp : old_split
            (buf_page_set_old
              (set_block { p with LRU := UT_LIST_ADD_FIRST p.LRU bpage } bpage
                { p.blocks bpage with freed_page_clock := p.freed_page_clock }) bpage false)
            (bpage :: p.LRU) [] := by
          refine ⟨by simp [buf_page_set_old, set_block, UT_LIST_ADD_FIRST],
            by simp [buf_page_set_old, set_block, hnone],
            by simpa [buf_page_set_old, set_block] using hslen, ?_, by simp⟩
          intro x hx
          by_cases hxb : x = bpage
          · subst hxb
            simp [buf_page_set_old, set_block]
          · have : x ∈ ys := by
              rcases List.mem_cons.mp hx with h | h
              · exact absurd h hxb
              · simpa [hsl] using h
            simp only [buf_page_set_old, set_block, Function.update_noteq hxb]
            exact hsy x this
        refine ⟨_, rfl, ⟨hnd1, ?_, ?_⟩, rfl, ?_⟩
        · exact old_sublist_of_split c _ (bpage :: p.LRU) [] hnd1 hsp
            (by simp only [true_iff]
                show (bpage :: p.LRU).length < c.BUF_LRU_OLD_MIN_LEN
                simp only [List.length_cons] at h1 h2 ⊢; omega)
        · intro hge
          exfalso
          have : c.BUF_LRU_OLD_MIN_LEN ≤ (bpage :: p.LRU).length := hge
          simp only [List.length_cons] at this h1 h2
          omega
        · refine ⟨rfl, ?_, ?_⟩
          · intro x hx
            have hxb : x ≠ bpage := fun e => hx (by simp [e])
            simp [buf_page_set_old, set_block, Function.update_noteq hxb]
          · intro x
            by_cases hxb : x = bpage
            · subst hxb
              simp [buf_page_set_old, set_block]
            · simp [buf_page_set_old, set_block, Function.update_noteq hxb]
  obtain ⟨p2, hp2, hv2, hl2, hf2⟩ := key
  have hbel : buf_page_belongs_to_unzip_LRU (p2.blocks bpage)
      = buf_page_belongs_to_unzip_LRU (p.blocks bpage) := by
    have h3 := hf2.2.2 bpage
    simp only [Function.update_same] at h3
    have e1 := congrArg buf_page_t.zip_data h3
    have e2 := congrArg buf_page_t.state h3
    simp only at e1 e2
    unfold buf_page_belongs_to_unzip_LRU
    rw [e1, e2]
  have hu2 : p2.unzip_LRU = p.unzip_LRU := (old_frame_fields _ _ _ hf2).2.1
  refine ⟨{ p2 with unzip_LRU :=
      if buf_page_belongs_to_unzip_LRU (p.blocks bpage) then
        (if old then UT_LIST_ADD_LAST p.unzip_LRU bpage
         else UT_LIST_ADD_FIRST p.unzip_LRU bpage)
      else p.unzip_LRU }, ?_, LRU_valid_unzip c p2 _ hv2, hl2, rfl, ?_⟩
  · unfold buf_LRU_add_block_low
    simp only [hf, if_true, hc]
    simp only [set_block, UT_LIST_ADD_FIRST] at hp2 ⊢
    simp only [hp2, unzip_add_eq, hbel, hu2]
    rfl
  · exact old_frame_unzip _ _ _ _ hf2

theorem add_old_spec (c : buf_LRU_consts) (p : buf_pool_t) (bpage : Nat)
    (hM : 25 ≤ c.BUF_LRU_OLD_MIN_LEN) (hv : LRU_valid c p) (hb : bpage ∉ p.LRU)
    (hf : buf_page_in_file (p.blocks bpage) = true)
    (hn : c.BUF_LRU_OLD_MIN_LEN ≤ p.LRU.length) :
    ∃ o q ys zs0, p.LRU_old = some o ∧ p.LRU = ys ++ o :: zs0 ∧
      buf_LRU_add_block_low c p bpage true = some q ∧ LRU_valid c q ∧
      q.LRU = ys ++ o :: bpage :: zs0 ∧
      q.LRU = UT_LIST_INSERT_AFTER p.LRU o bpage ∧
      (q.blocks bpage).old = true ∧
      q.unzip_LRU =
        (if buf_page_belongs_to_unzip_LRU (p.blocks bpage) then
          UT_LIST_ADD_LAST p.unzip_LRU bpage
         else p.unzip_LRU) ∧
      old_frame q.LRU { p with LRU := q.LRU, unzip_LRU := q.unzip_LRU } q ∧
      old_blocks p = o :: zs0 ∧
      (old_blocks q = o :: bpage :: zs0 ∨ old_blocks q = bpage :: zs0) := by
  obtain ⟨hnd, hos, htol⟩ := hv
  obtain ⟨ys, zs, hs, hzs⟩ := split_of_old_sublist c p hnd hos
  obtain ⟨hsl, hso, hslen, hsy, hsz⟩ := hs
  have hzne : zs ≠ [] := fun e => by have := hzs.mp e; omega
  obtain ⟨o, zs0, rfl⟩ := List.exists_cons_of_ne_nil hzne
  have ho : p.LRU_old = some o := by simpa using hso
  have hnd0 : (ys ++ o :: zs0).Nodup := hsl ▸ hnd
  have hoys : o ∉ ys := fun hm => (List.nodup_append.mp hnd0).2.2 hm (by simp)
  have hins : UT_LIST_INSERT_AFTER p.LRU o bpage = ys ++ o :: bpage :: zs0 := by
    rw [hsl, insert_after_of_split _ _ _ _ hoys]
  have hbys : bpage ∉ ys := fun hm => hb (by rw [hsl]; simp [hm])
  have hbzs : bpage ∉ o :: zs0 := fun hm => hb (by rw [hsl]; exact List.mem_append_right _ hm)
  have hnd1 : (ys ++ o :: bpage :: zs0).Nodup := by
    have h1 := List.nodup_append.mp hnd0
    have h2 := List.nodup_cons.mp h1.2.1
    refine List.nodup_append.mpr ⟨h1.1, ?_, ?_⟩
    · refine List.nodup_cons.mpr ⟨?_, List.nodup_cons.mpr ⟨?_, h2.2⟩⟩
      · intro hm
        rcases List.mem_cons.mp hm with h | h
        · exact hbzs (by simp [h])
        · exact h2.1 h
      · intro hm
        exact hbzs (by simp [hm])
    · intro x hx hm
      rcases List.mem_cons.mp hm with h | h
      · exact h1.2.2 hx (by simp [h])
      · rcases List.mem_cons.mp h with h | h
        · exact hbys (h ▸ hx)
        · exact h1.2.2 hx (by simp [h])
  have hlen1 : (ys ++ o :: bpage :: zs0).length = p.LRU.length + 1 := by
    rw [hsl]; simp only [List.length_append, List.length_cons]; omega
  have hsp : old_split
      (buf_page_set_old
        { p with LRU := ys ++ o :: bpage :: zs0, LRU_old := some o,
                 LRU_old_len := p.LRU_old_len + 1 } bpage true)
      ys (o :: bpage :: zs0) := by
    refine ⟨by simp [buf_page_set_old, set_block], by simp [buf_page_set_old, set_block, ho],
      by simp [buf_page_set_old, set_block, hslen], ?_, ?_⟩
    · intro x hx
      have hxb : x ≠ bpage := fun e => hbys (e ▸ hx)
      simp only [buf_page_set_old, set_block, Function.update_noteq hxb]
      exact hsy x hx
    · intro x hx
      by_cases hxb : x = bpage
      · subst hxb
        simp [buf_page_set_old, set_block]
      · simp only [buf_page_set_old, set_block, Function.update_noteq hxb]
        apply hsz x
        simp only [List.mem_cons] at hx ⊢
        tauto
  obtain ⟨q, ys2, zs2, hq, hqv, hqs, hql, hqlen, _, hqf⟩ :=
    adjust_valid c
      (buf_page_set_old
        { p with LRU := ys ++ o :: bpage :: zs0, LRU_old := some o,
                 LRU_old_len := p.LRU_old_len + 1 } bpage true)
      ys (o :: bpage :: zs0) hM
      (by show c.BUF_LRU_OLD_MIN_LEN ≤ (ys ++ o :: bpage :: zs0).length; omega)
      hnd1 hsp (by simp)
  have hql2 : q.LRU = ys ++ o :: bpage :: zs0 := hql
  -- `LRU_old` stays or moves one block towards the tail
  have hbounds : zs0.length + 1 ≤ zs2.length ∧ zs2.length ≤ zs0.length + 2 := by
    have hnl := LRU_new_len_eq
      (buf_page_set_old
        { p with LRU := ys ++ o :: bpage :: zs0, LRU_old := some o,
                 LRU_old_len := p.LRU_old_len + 1 } bpage true)
      (by show 25 ≤ (ys ++ o :: bpage :: zs0).length; omega)
    have hnl2 : LRU_new_len
        (buf_page_set_old
          { p with LRU := ys ++ o :: bpage :: zs0, LRU_old := some o,
                   LRU_old_len := p.LRU_old_len + 1 } bpage true)
        = min ((p.LRU.length + 1) * p.buf_LRU_old_ratio / 1024) (p.LRU.length + 1 - (20 + 5)) := by
      rw [hnl]
      show min ((ys ++ o :: bpage :: zs0).length * p.buf_LRU_old_ratio / 1024)
        ((ys ++ o :: bpage :: zs0).length - (20 + 5)) = _
      rw [hlen1]
    have hqlen2 := hqlen
    rw [hnl2] at hqlen2
    have ht := htol hn
    have hst := new_len_step p.LRU.length p.buf_LRU_old_ratio (by omega)
    have hzl : p.LRU_old_len = zs0.length + 1 := by rw [hslen]; simp
    rw [hqlen2]
    simp only [List.length_cons]
    unfold adjusted_len BUF_LRU_OLD_TOLERANCE
    constructor <;> split_ifs <;> omega
  have hob : old_blocks q = o :: bpage :: zs0 ∨ old_blocks q = bpage :: zs0 := by
    obtain ⟨m, hm, hm2⟩ := suffix_of_append_eq ys2 zs2 (ys ++ [o]) (bpage :: zs0)
      (by rw [← hqs.1, hql2]; simp) (by simp only [List.length_cons]; omega)
    have hml : m.length ≤ 1 := by
      have := congrArg List.length hm
      simp only [List.length_append, List.length_cons] at this
      omega
    have hbyo : bpage ∉ ys ++ [o] := by
      intro hx
      rcases List.mem_append.mp hx with h | h
      · exact hbys h
      · exact hbzs (by simp at h; simp [h])
    unfold old_blocks
    rw [hqs.2.1, hm, hql2]
    cases m with
    | nil =>
      right
      simp only [List.nil_append, List.head?_cons]
      have := dropWhile_ne_of_split (ys ++ [o]) zs0 bpage hbyo
      simpa using this
    | cons x m2 =>
      have hm20 : m2 = [] :=
        List.length_eq_zero.mp (Nat.le_zero.mp (Nat.le_of_succ_le_succ hml))
      subst hm20
      have hxo : x = o := by
        have := congrArg List.getLast? hm2
        simpa using this.symm
      subst hxo
      left
      simp only [List.cons_append, List.nil_append, List.head?_cons]
      exact dropWhile_ne_of_split ys (bpage :: zs0) x hoys
  have hop : old_blocks p = o :: zs0 := by
    unfold old_blocks
    rw [ho, hsl]
    exact dropWhile_ne_of_split ys zs0 o hoys
  -- the new block stays in the old sublist
  have hbold : (q.blocks bpage).old = true := by
    have hnl := LRU_new_len_eq
      (buf_page_set_old
        { p with LRU := ys ++ o :: bpage :: zs0, LRU_old := some o,
                 LRU_old_len := p.LRU_old_len + 1 } bpage true)
      (by show 25 ≤ (ys ++ o :: bpage :: zs0).length; omega)
    have hnl2 : LRU_new_len
        (buf_page_set_old
          { p with LRU := ys ++ o :: bpage :: zs0, LRU_old := some o,
                   LRU_old_len := p.LRU_old_len + 1 } bpage true)
        = min ((p.LRU.length + 1) * p.buf_LRU_old_ratio / 1024) (p.LRU.length + 1 - (20 + 5)) := by
      rw [hnl]
      show min ((ys ++ o :: bpage :: zs0).length * p.buf_LRU_old_ratio / 1024)
        ((ys ++ o :: bpage :: zs0).length - (20 + 5)) = _
      rw [hlen1]
    rw [hnl2] at hqlen
    have ht := htol hn
    have hst := new_len_step p.LRU.length p.buf_LRU_old_ratio (by omega)
    have hzl : p.LRU_old_len = zs0.length + 1 := by rw [hslen]; simp
    have : (bpage :: zs0).length ≤ zs2.length := by
      rw [hqlen]
      simp only [List.length_cons]
      unfold adjusted_len BUF_LRU_OLD_TOLERANCE
      split_ifs <;> omega
    obtain ⟨m, hm, _⟩ := suffix_of_append_eq ys2 zs2 (ys ++ [o]) (bpage :: zs0)
      (by rw [← hqs.1, hql2]; simp) this
    exact hqs.2.2.2.2 bpage (by rw [hm]; simp)
  have hfr : old_frame (ys ++ o :: bpage :: zs0)
      { p with LRU := ys ++ o :: bpage :: zs0 } q := by
    refine old_frame_trans _ _ _ _ ?_ hqf
    refine ⟨rfl, ?_, ?_⟩
    · intro x hx
      have hxb : x ≠ bpage := fun e => hx (by simp [e])
      simp [buf_page_set_old, set_block, Function.update_noteq hxb]
    · intro x
      by_cases hxb : x = bpage
      · subst hxb
        simp [buf_page_set_old, set_block]
      · simp [buf_page_set_old, set_block, Function.update_noteq hxb]
  have hbel : buf_page_belongs_to_unzip_LRU (q.blocks bpage)
      = buf_page_belongs_to_unzip_LRU (p.blocks bpage) := by
    have h3 := hfr.2.2 bpage
    have e1 := congrArg buf_page_t.zip_data h3
    have e2 := congrArg buf_page_t.state h3
    simp only at e1 e2
    unfold buf_page_belongs_to_unzip_LRU
    rw [e1, e2]
  have hu2 : q.unzip_LRU = p.unzip_LRU := (old_frame_fields _ _ _ hfr).2.1
  refine ⟨o, { q with unzip_LRU :=
      if buf_page_belongs_to_unzip_LRU (p.blocks bpage) then
        UT_LIST_ADD_LAST p.unzip_LRU bpage
      else p.unzip_LRU }, ys, zs0, ho, hsl, ?_, LRU_valid_unzip c q _ hqv, hql2, ?_, hbold, rfl, ?_,
      hop, hob⟩
  · unfold buf_LRU_add_block_low
    have hc : (!true || decide (p.LRU.length < c.BUF_LRU_OLD_MIN_LEN)) = false := by
      simp; omega
    have hgt : (ys ++ o :: bpage :: zs0).length > c.BUF_LRU_OLD_MIN_LEN := by omega
    simp only [hf, if_true, hc, ho, hins, hgt, Bool.false_eq_true, if_false]
    simp only [hq, unzip_add_eq, hbel, hu2]
    rfl
  · show q.LRU = _
    rw [hql2, hins]
  · show old_frame q.LRU _ _
    obtain ⟨a, b, d⟩ := hfr
    refine ⟨?_, by rw [hql2]; exact b, d⟩
    have a2 := congrArg (fun r : buf_pool_t =>
      { r with
        unzip_LRU := (if buf_page_belongs_to_unzip_LRU (p.blocks bpage) then
          UT_LIST_ADD_LAST p.unzip_LRU bpage else p.unzip_LRU) }) a
    rw [← hql2] at a2
    exact a2

/-! # `buf_LRU_add_block_to_end_low` -/

theorem add_to_end_spec (c : buf_LRU_consts) (p : buf_pool_t) (bpage : Nat)
    (hM : 25 ≤ c.BUF_LRU_OLD_MIN_LEN) (hv : LRU_valid c p) (hb : bpage ∉ p.LRU)
    (hf : buf_page_in_file (p.blocks bpage) = true) :
    ∃ q, buf_LRU_add_block_to_end_low c p bpage = some q ∧ LRU_valid c q ∧
      q.LRU = p.LRU ++ [bpage] ∧
      q.buf_LRU_old_ratio = p.buf_LRU_old_ratio ∧
      q.n_pages_made_young = p.n_pages_made_young := by
  obtain ⟨hnd, hos, htol⟩ := hv
  obtain ⟨ys, zs, hs, hzs⟩ := split_of_old_sublist c p hnd hos
  obtain ⟨hsl, hso, hslen, hsy, hsz⟩ := hs
  have hnd1 : (p.LRU ++ [bpage]).Nodup := by
    refine List.nodup_append.mpr ⟨hnd, by simp, ?_⟩
    intro x hx hm
    have : x = bpage := by simpa using hm
    exact hb (this ▸ hx)
  have hlen1 : (p.LRU ++ [bpage]).length = p.LRU.length + 1 := by simp
  have key : ∃ p2,
      (if (p.LRU ++ [bpage]).length > c.BUF_LRU_OLD_MIN_LEN then
          buf_LRU_old_adjust_len
            { buf_page_set_old { p with LRU := p.LRU ++ [bpage] } bpage true with
              LRU_old_len :=
                (buf_page_set_old { p with LRU := p.LRU ++ [bpage] } bpage true).LRU_old_len + 1 }
        else if (p.LRU ++ [bpage]).length = c.BUF_LRU_OLD_MIN_LEN then
          buf_LRU_old_init c { p with LRU := p.LRU ++ [bpage] }
        else
          some (buf_page_set_old { p with LRU := p.LRU ++ [bpage] } bpage
            p.LRU_old.isSome)) = some p2 ∧
      LRU_valid c p2 ∧ p2.LRU = p.LRU ++ [bpage] ∧
      old_frame (p.LRU ++ [bpage]) { p with LRU := p.LRU ++ [bpage] } p2 := by
    by_cases h1 : (p.LRU ++ [bpage]).length > c.BUF_LRU_OLD_MIN_LEN
    · simp only [h1, if_true]
      have hge : c.BUF_LRU_OLD_MIN_LEN ≤ p.LRU.length := by omega
      have hzne : zs ≠ [] := fun e => by have := hzs.mp e; omega
      have hsp : old_split
          { buf_page_set_old { p with LRU := p.LRU ++ [bpage] } bpage true with
            LRU_old_len :=
                (buf_page_set_old { p with LRU := p.LRU ++ [bpage] } bpage true).LRU_old_len + 1 } ys (zs ++ [bpage]) := by
        refine ⟨by simp [buf_page_set_old, set_block, hsl], ?_,
          by simp [buf_page_set_old, set_block, hslen], ?_, ?_⟩
        · simp only [buf_page_set_old, set_block, hso]
          cases zs with
          | nil => exact absurd rfl hzne
          | cons z zs => rfl
        · intro x hx
          have hxb : x ≠ bpage := fun e => hb (by rw [hsl, ← e]; simp [hx])
          simp only [buf_page_set_old, set_block, Function.update_noteq hxb]
          exact hsy x hx
        · intro x hx
          by_cases hxb : x = bpage
          · subst hxb
            simp [buf_page_set_old, set_block]
          · simp only [buf_page_set_old, set_block, Function.update_noteq hxb]
            apply hsz x
            rcases List.mem_append.mp hx with h | h
            · exact h
            · exact absurd (by simpa using h) hxb
      obtain ⟨q, ys2, zs2, hq, hqv, _, hql, _, _, hqf⟩ :=
        adjust_valid c
          { buf_page_set_old { p with LRU := p.LRU ++ [bpage] } bpage true with
            LRU_old_len :=
                (buf_page_set_old { p with LRU := p.LRU ++ [bpage] } bpage true).LRU_old_len + 1 }
          ys (zs ++ [bpage]) hM
          (by show c.BUF_LRU_OLD_MIN_LEN ≤ (p.LRU ++ [bpage]).length; omega)
          hnd1 hsp (by simp)
      refine ⟨q, hq, hqv, hql, ?_⟩
      refine old_frame_trans _ _ _ _ ?_ hqf
      refine ⟨rfl, ?_, ?_⟩
      · intro x hx
        have hxb : x ≠ bpage := fun e => hx (by simp [e])
        simp [buf_page_set_old, set_block, Function.update_noteq hxb]
      · intro x
        by_cases hxb : x = bpage
        · subst hxb
          simp [buf_page_set_old, set_block]
        · simp [buf_page_set_old, set_block, Function.update_noteq hxb]
    · simp only [h1, if_false]
      by_cases h2 : (p.LRU ++ [bpage]).length = c.BUF_LRU_OLD_MIN_LEN
      · simp only [h2, if_true]
        obtain ⟨q, hq, hqv, hql, hqf⟩ :=
          old_init_spec c { p with LRU := p.LRU ++ [bpage] } hM h2 hnd1
        exact ⟨q, hq, hqv, hql, hqf⟩
      · simp only [h2, if_false]
        have hlt : p.LRU.length < c.BUF_LRU_OLD_MIN_LEN := by omega
        have hz0 : zs = [] := hzs.mpr hlt
        subst hz0
        have hnone : p.LRU_old = none := by simpa using hso
        have hsome : p.LRU_old.isSome = false := by simp [hnone]
        simp only [hsome]
        have hsp : old_split
            (buf_page_set_old { p with LRU := p.LRU ++ [bpage] } bpage false)
            (p.LRU ++ [bpage]) [] := by
          refine ⟨by simp [buf_page_set_old, set_block],
            by simp [buf_page_set_old, set_block, hnone],
            by simpa [buf_page_set_old, set_block] using hslen, ?_, by simp⟩
          intro x hx
          by_cases hxb : x = bpage
          · subst hxb
            simp [buf_page_set_old, set_block]
          · have : x ∈ ys := by
              rcases List.mem_append.mp hx with h | h
              · simpa [hsl] using h
              · exact absurd (by simpa using h) hxb
            simp only [buf_page_set_old, set_block, Function.update_noteq hxb]
            exact hsy x this
        refine ⟨_, rfl, ⟨hnd1, ?_, ?_⟩, rfl, ?_⟩
        · exact old_sublist_of_split c _ (p.LRU ++ [bpage]) [] hnd1 hsp
            (by simp only [true_iff]
                show (p.LRU ++ [bpage]).length < c.BUF_LRU_OLD_MIN_LEN
                omega)
        · intro hge
          exfalso
          have : c.BUF_LRU_OLD_MIN_LEN ≤ (p.LRU ++ [bpage]).length := hge
          omega
        · refine ⟨rfl, ?_, ?_⟩
          · intro x hx
            have hxb : x ≠ bpage := fun e => hx (by simp [e])
            simp [buf_page_set_old, set_block, Function.update_noteq hxb]
          · intro x
            by_cases hxb : x = bpage
            · subst hxb
              simp [buf_page_set_old, set_block]
            · simp [buf_page_set_old, set_block, Function.update_noteq hxb]
  obtain ⟨p2, hp2, hv2, hl2, hf2⟩ := key
  obtain ⟨_, _, _, _, _, _, hy2, hr2⟩ := old_frame_fields _ _ _ hf2
  refine ⟨{ p2 with unzip_LRU :=
      if buf_page_belongs_to_unzip_LRU (p2.blocks bpage) then
        UT_LIST_ADD_LAST p2.unzip_LRU bpage
      else p2.unzip_LRU }, ?_, LRU_valid_unzip c p2 _ hv2, hl2, hr2, hy2⟩
  unfold buf_LRU_add_block_to_end_low
  simp only [hf, if_true, UT_LIST_ADD_LAST] at hp2 ⊢
  simp only [hp2, unzip_add_eq]
  rfl

/-! # `buf_LRU_make_block_young` and `buf_LRU_make_block_old` -/

theorem LRU_valid_congr (c : buf_LRU_consts) (p q : buf_pool_t) (hl : q.LRU = p.LRU)
    (ho : q.LRU_old = p.LRU_old) (hn : q.LRU_old_len = p.LRU_old_len)
    (hr : q.buf_LRU_old_ratio = p.buf_LRU_old_ratio)
    (hb : ∀ x ∈ p.LRU, (q.blocks x).old = (p.blocks x).old) (hv : LRU_valid c p) :
    LRU_valid c q := by
  obtain ⟨hnd, hos, htol⟩ := hv
  obtain ⟨ys, zs, hs, hzs⟩ := split_of_old_sublist c p hnd hos
  obtain ⟨hsl, hso, hslen, hsy, hsz⟩ := hs
  have hsp : old_split q ys zs := by
    refine ⟨hl.trans hsl, ho.trans hso, hn.trans hslen, ?_, ?_⟩
    · intro x hx
      rw [hb x (by rw [hsl]; simp [hx])]
      exact hsy x hx
    · intro x hx
      rw [hb x (by rw [hsl]; simp [hx])]
      exact hsz x hx
  refine ⟨hl ▸ hnd, old_sublist_of_split c q ys zs (hl ▸ hnd) hsp (by rw [hl]; exact hzs), ?_⟩
  unfold old_len_in_tolerance at htol ⊢
  rw [hl, hn, hr]
  exact htol

theorem make_young_spec (c : buf_LRU_consts) (p : buf_pool_t) (bpage : Nat)
    (hM : 25 ≤ c.BUF_LRU_OLD_MIN_LEN) (hv : LRU_valid c p) (hmem : bpage ∈ p.LRU)
    (hf : buf_page_in_file (p.blocks bpage) = true) :
    ∃ q, buf_LRU_make_block_young c p bpage = some q ∧ LRU_valid c q ∧
      q.LRU = bpage :: p.LRU.erase bpage ∧ (q.blocks bpage).old = false ∧
      q.n_pages_made_young
        = (if (p.blocks bpage).old then (p.n_pages_made_young + 1) % 2 ^ 64 else p.n_pages_made_young) ∧
      q.buf_LRU_old_ratio = p.buf_LRU_old_ratio := by
  obtain ⟨A, B, hl, hbA, hbB⟩ := split_of_mem_nodup p.LRU bpage hmem hv.1
  have herase : p.LRU.erase bpage = A ++ B := by
    have := remove_of_split A B bpage hbA
    unfold UT_LIST_REMOVE at this
    rw [hl, this]
  have hv0 : LRU_valid c
      (if (p.blocks bpage).old then
        { p with n_pages_made_young := (p.n_pages_made_young + 1) % 2 ^ 64 } else p) := by
    split_ifs
    · exact hv
    · exact hv
  have hl0 : (if (p.blocks bpage).old then
        { p with n_pages_made_young := (p.n_pages_made_young + 1) % 2 ^ 64 } else p).LRU
      = A ++ bpage :: B := by
    split_ifs <;> exact hl
  have hb0 : (if (p.blocks bpage).old then
        { p with n_pages_made_young := (p.n_pages_made_young + 1) % 2 ^ 64 } else p).blocks
      = p.blocks := by
    split_ifs <;> rfl
  have hy0 : (if (p.blocks bpage).old then
        { p with n_pages_made_young := (p.n_pages_made_young + 1) % 2 ^ 64 } else p).n_pages_made_young
      = (if (p.blocks bpage).old then (p.n_pages_made_young + 1) % 2 ^ 64 else p.n_pages_made_young) := by
    split_ifs <;> rfl
  have hr0 : (if (p.blocks bpage).old then
        { p with n_pages_made_young := (p.n_pages_made_young + 1) % 2 ^ 64 } else p).buf_LRU_old_ratio
      = p.buf_LRU_old_ratio := by
    split_ifs <;> rfl
  obtain ⟨q1, _, _, hq1, hv1, hl1, hf1, _, _⟩ :=
    remove_block_spec c _ A B bpage hM hv0 hl0 (by rw [hb0]; exact hf)
  have hbAB : bpage ∉ A ++ B := by
    intro hm
    rcases List.mem_append.mp hm with h | h
    · exact hbA h
    · exact hbB h
  have hblk : q1.blocks bpage = p.blocks bpage := by
    have := hf1.2.1 bpage hbAB
    simp only [hb0] at this
    exact this
  obtain ⟨_, _, _, _, _, _, hy1, hr1⟩ := old_frame_fields _ _ _ hf1
  simp only [hy0, hr0] at hy1 hr1
  obtain ⟨q, hq, hqv, hql, _, hqf⟩ :=
    add_head_spec c q1 bpage false hM hv1 (by rw [hl1]; exact hbAB)
      (by rw [hblk]; exact hf) (Or.inl rfl)
  obtain ⟨_, _, _, _, _, _, hy2, hr2⟩ := old_frame_fields _ _ _ hqf
  simp only at hy2 hr2
  refine ⟨q, ?_, hqv, by rw [hql, hl1, herase], head_not_old c q bpage _ hM hqv hql,
    by rw [hy2, hy1], by rw [hr2, hr1]⟩
  unfold buf_LRU_make_block_young
  simp only [hq1]
  exact hq

theorem make_old_spec (c : buf_LRU_consts) (p : buf_pool_t) (bpage : Nat)
    (hM : 25 ≤ c.BUF_LRU_OLD_MIN_LEN) (hv : LRU_valid c p) (hmem : bpage ∈ p.LRU)
    (hf : buf_page_in_file (p.blocks bpage) = true) :
    ∃ q, buf_LRU_make_block_old c p bpage = some q ∧ LRU_valid c q ∧
      q.LRU = p.LRU.erase bpage ++ [bpage] ∧
      q.buf_LRU_old_ratio = p.buf_LRU_old_ratio := by
  obtain ⟨A, B, hl, hbA, hbB⟩ := split_of_mem_nodup p.LRU bpage hmem hv.1
  have herase : p.LRU.erase bpage = A ++ B := by
    have := remove_of_split A B bpage hbA
    unfold UT_LIST_REMOVE at this
    rw [hl, this]
  obtain ⟨q1, _, _, hq1, hv1, hl1, hf1, _, _⟩ :=
    remove_block_spec c p A B bpage hM hv hl hf
  have hbAB : bpage ∉ A ++ B := by
    intro hm
    rcases List.mem_append.mp hm with h | h
    · exact hbA h
    · exact hbB h
  have hblk : q1.blocks bpage = p.blocks bpage := hf1.2.1 bpage hbAB
  obtain ⟨_, _, _, _, _, _, _, hr1⟩ := old_frame_fields _ _ _ hf1
  simp only at hr1
  obtain ⟨q, hq, hqv, hql, hr2, _⟩ :=
    add_to_end_spec c q1 bpage hM hv1 (by rw [hl1]; exact hbAB) (by rw [hblk]; exact hf)
  refine ⟨q, ?_, hqv, by rw [hql, hl1, herase], by rw [hr2, hr1]⟩
  unfold buf_LRU_make_block_old
  simp only [hq1]
  exact hq

/-! # Taking a block out of the page hash and onto the free list -/

theorem free_hashed_page_eq (p : buf_pool_t) (block : Nat) :
    buf_LRU_block_free_hashed_page p block =
      some { p with blocks := Function.update p.blocks block (page_after_free (p.blocks block)),
                    free := block :: p.free } := by
  unfold buf_LRU_block_free_hashed_page buf_LRU_block_free_non_file_page page_after_free
  simp only [set_block, Function.update_same, Function.update_idem, UT_LIST_ADD_FIRST]
  cases h : (p.blocks block).zip_data <;> simp

theorem find_congr (l : List Nat) (f g : Nat → Bool) (h : ∀ x ∈ l, f x = g x) :
    l.find? f = l.find? g := by
  induction l with
  | nil => rfl
  | cons a l ih =>
    have ha := h a (by simp)
    have ih2 := ih (fun x hx => h x (by simp [hx]))
    simp only [List.find?, ha, ih2]

theorem hash_get_congr (p q : buf_pool_t) (space offset : Nat)
    (hh : q.page_hash = p.page_hash)
    (hb : ∀ x ∈ p.page_hash, (q.blocks x).space = (p.blocks x).space ∧
      (q.blocks x).offset = (p.blocks x).offset) :
    buf_page_hash_get q space offset = buf_page_hash_get p space offset := by
  unfold buf_page_hash_get
  rw [hh]
  apply find_congr
  intro x hx
  rw [(hb x hx).1, (hb x hx).2]

theorem remove_hashed_page_spec (c : buf_LRU_consts) (p : buf_pool_t) (A B : List Nat)
    (bpage : Nat) (zip : Bool)
    (hM : 25 ≤ c.BUF_LRU_OLD_MIN_LEN) (hv : LRU_valid c p) (hl : p.LRU = A ++ bpage :: B)
    (hpf : page_freeable p bpage)
    (hio : (p.blocks bpage).io_fix = .BUF_IO_NONE) (hfix : (p.blocks bpage).buf_fix_count = 0)
    (hst : (p.blocks bpage).state = .BUF_BLOCK_FILE_PAGE ∨
      (p.blocks bpage).state = .BUF_BLOCK_ZIP_PAGE)
    (hclean : ((p.blocks bpage).state = .BUF_BLOCK_FILE_PAGE ∧
        (p.blocks bpage).zip_data.isSome = true ∧ zip = false) ∨
      (p.blocks bpage).oldest_modification = 0) :
    ∃ q1 ys2 zs2, buf_LRU_remove_block c p bpage = some q1 ∧ LRU_valid c q1 ∧
      q1.LRU = A ++ B ∧
      old_frame (A ++ B)
        { p with LRU := A ++ B,
                 unzip_LRU := if buf_page_belongs_to_unzip_LRU (p.blocks bpage) then
                    UT_LIST_REMOVE p.unzip_LRU bpage else p.unzip_LRU } q1 ∧
      old_split q1 ys2 zs2 ∧
      (c.BUF_LRU_OLD_MIN_LEN ≤ (A ++ B).length →
        ((p.blocks bpage).old = false → ∃ m, ys2 = A ++ m) ∧
        ((p.blocks bpage).old = true → ∃ m, zs2 = m ++ B)) ∧
      buf_LRU_block_remove_hashed_page c p bpage zip =
        some (if (p.blocks bpage).state = .BUF_BLOCK_ZIP_PAGE then .BUF_BLOCK_ZIP_FREE
              else .BUF_BLOCK_REMOVE_HASH,
          { q1 with
            freed_page_clock := (q1.freed_page_clock + 1) % 2 ^ 64,
            page_hash := q1.page_hash.erase bpage,
            blocks := Function.update q1.blocks bpage (page_after_remove (p.blocks bpage) zip) }) := by
  obtain ⟨hmem, hfile, hhash, huniq, hzd, hzip, hft⟩ := hpf
  obtain ⟨q1, ys2, zs2, hq1, hv1, hl1, hf1, hs1, hm1⟩ :=
    remove_block_spec c p A B bpage hM hv hl hfile
  refine ⟨q1, ys2, zs2, hq1, hv1, hl1, hf1, hs1, hm1, ?_⟩
  obtain ⟨hndAB, hbA, hbB⟩ := nodup_remove_middle A B bpage (hl ▸ hv.1)
  have hbAB : bpage ∉ A ++ B := by
    intro hm
    rcases List.mem_append.mp hm with h | h
    · exact hbA h
    · exact hbB h
  have hblk : q1.blocks bpage = p.blocks bpage := hf1.2.1 bpage hbAB
  have hph : q1.page_hash = p.page_hash := (old_frame_fields _ _ _ hf1).2.2.2.2.1
  have hident : ∀ x, (q1.blocks x).space = (p.blocks x).space ∧
      (q1.blocks x).offset = (p.blocks x).offset := by
    intro x
    have h3 := hf1.2.2 x
    have e1 := congrArg buf_page_t.space h3
    have e2 := congrArg buf_page_t.offset h3
    exact ⟨e1, e2⟩
  have hget : ∀ (blocks2 : Nat → buf_page_t),
      (∀ x, (blocks2 x).space = (q1.blocks x).space ∧
        (blocks2 x).offset = (q1.blocks x).offset) →
      buf_page_hash_get
        { q1 with freed_page_clock := (q1.freed_page_clock + 1) % 2 ^ 64, blocks := blocks2 }
        (p.blocks bpage).space (p.blocks bpage).offset = some bpage := by
    intro blocks2 h2
    rw [← hhash]
    apply hash_get_congr
    · exact hph
    · intro x _
      exact ⟨(h2 x).1.trans (hident x).1, (h2 x).2.trans (hident x).2⟩
  unfold buf_LRU_block_remove_hashed_page
  simp only [hio, hfix, and_self, if_true, hq1]
  rcases hst with hs | hs
  · -- a file page
    have hnz : ¬ (p.blocks bpage).state = .BUF_BLOCK_ZIP_PAGE := by rw [hs]; simp
    obtain ⟨P3, hchk, hP3⟩ : ∃ P3, remove_hashed_page_check
        { q1 with freed_page_clock := (q1.freed_page_clock + 1) % 2 ^ 64 } bpage zip = some P3 ∧
        P3 = { q1 with
            freed_page_clock := (q1.freed_page_clock + 1) % 2 ^ 64,
            blocks := Function.update q1.blocks bpage
              { p.blocks bpage with modify_clock := ((p.blocks bpage).modify_clock + 1) % 2 ^ 64 } } := by
      refine ⟨_, ?_, rfl⟩
      unfold remove_hashed_page_check
      simp only [hblk, hs, set_block, Function.update_same]
      cases hz : (p.blocks bpage).zip_data with
      | none =>
        have hc : (p.blocks bpage).oldest_modification = 0 := by
          rcases hclean with ⟨_, h, _⟩ | h
          · rw [hz] at h; simp at h
          · exact h
        simp [hc]
      | some d =>
        have hc : (!zip || decide ((p.blocks bpage).oldest_modification = 0)) = true := by
          rcases hclean with ⟨_, _, h⟩ | h
          · simp [h]
          · simp [h]
        have hft2 := hft hs (by rw [hz]; rfl)
        simp only [hc, if_true]
    have hb3 : P3.blocks bpage
        = { p.blocks bpage with modify_clock := ((p.blocks bpage).modify_clock + 1) % 2 ^ 64 } := by
      rw [hP3]; simp
    have hg : buf_page_hash_get P3 (P3.blocks bpage).space (P3.blocks bpage).offset
        = some bpage := by
      rw [hb3, hP3]
      exact hget _ (by
        intro x
        by_cases hx : x = bpage
        · subst hx; simp [hblk]
        · simp [Function.update_noteq hx])
    have hst3 : (P3.blocks bpage).state = .BUF_BLOCK_FILE_PAGE := by rw [hb3]; exact hs
    simp only [hchk, hg, if_true, hst3, set_block, Function.update_same]
    simp only [hnz, if_false, hb3, hP3, Function.update_idem, page_after_remove]
    cases zip <;> cases hz : (p.blocks bpage).zip_data <;> simp
  · -- a compressed-only page
    have hc : (p.blocks bpage).oldest_modification = 0 := by
      rcases hclean with ⟨h, _, _⟩ | h
      · rw [hs] at h; simp at h
      · exact h
    have hchk : remove_hashed_page_check
        { q1 with freed_page_clock := (q1.freed_page_clock + 1) % 2 ^ 64 } bpage zip
        = some { q1 with freed_page_clock := (q1.freed_page_clock + 1) % 2 ^ 64 } := by
      unfold remove_hashed_page_check
      simp only [hblk, hs, hc, if_true]
    simp only [hchk]
    have hg := hget q1.blocks (fun x => ⟨rfl, rfl⟩)
    have hz := hzip (by rw [hs]; simp)
    simp only [hblk, hg, if_true, hs, hz.1, hz.2, ne_eq, not_false_eq_true, and_self,
      set_block, page_after_remove]

/-! # Linking the compressed-only copy into the LRU list -/

theorem LRU_old_some_of_valid (c : buf_LRU_consts) (p : buf_pool_t) (ys zs : List Nat)
    (hv : LRU_valid c p) (hs : old_split p ys zs)
    (hn : c.BUF_LRU_OLD_MIN_LEN ≤ p.LRU.length) : zs ≠ [] := by
  intro e
  subst e
  have h1 := hv.2.1.1
  rcases h1 with ⟨_, hlt⟩ | ⟨o, _, ho, _⟩
  · omega
  · rw [hs.2.1] at ho
    simp at ho

theorem insert_after_young (p : buf_pool_t) (y b : Nat) (hold : (p.blocks b).old = false) :
    free_block_insert_after p y b = { p with LRU := UT_LIST_INSERT_AFTER p.LRU y b } := by
  unfold free_block_insert_after
  simp [buf_page_is_old, hold]

theorem insert_after_old (p : buf_pool_t) (y b : Nat) (hold : (p.blocks b).old = true) :
    free_block_insert_after p y b =
      (if p.LRU_old = UT_LIST_GET_NEXT (UT_LIST_INSERT_AFTER p.LRU y b) b then
        { p with LRU := UT_LIST_INSERT_AFTER p.LRU y b, LRU_old_len := p.LRU_old_len + 1,
                 LRU_old := some b }
       else
        { p with LRU := UT_LIST_INSERT_AFTER p.LRU y b,
                 LRU_old_len := p.LRU_old_len + 1 }) := by
  unfold free_block_insert_after
  simp only [buf_page_is_old, hold, if_true]

theorem relink_spec (c : buf_LRU_consts) (p : buf_pool_t) (A B ys2 zs2 : List Nat) (b : Nat)
    (hM : 25 ≤ c.BUF_LRU_OLD_MIN_LEN) (hv : LRU_valid c p) (hl : p.LRU = A ++ B)
    (hb : b ∉ A ++ B) (hf : buf_page_in_file (p.blocks b) = true)
    (hnz : buf_page_belongs_to_unzip_LRU (p.blocks b) = false)
    (hs : old_split p ys2 zs2)
    (hmono : c.BUF_LRU_OLD_MIN_LEN ≤ (A ++ B).length →
      ((p.blocks b).old = false → ∃ m, ys2 = A ++ m) ∧
      ((p.blocks b).old = true → ∃ m, zs2 = m ++ B))
    (hsmall : (A ++ B).length + 1 < c.BUF_LRU_OLD_MIN_LEN → (p.blocks b).old = false)
    (hhead : A = [] → (p.blocks b).old = false) :
    ∃ q, free_block_relink c p A.getLast? b = some q ∧ LRU_valid c q ∧
      q.LRU = A ++ b :: B ∧
      q.unzip_LRU = p.unzip_LRU ∧ q.free = p.free ∧ q.flush_list = p.flush_list ∧
      q.page_hash = p.page_hash ∧ q.freed_page_clock = p.freed_page_clock ∧
      q.n_pages_made_young = p.n_pages_made_young ∧
      q.buf_LRU_old_ratio = p.buf_LRU_old_ratio ∧
      q.curr_size = p.curr_size ∧ q.LRU_flush_ended = p.LRU_flush_ended ∧
      q.n_ra_pages_evicted = p.n_ra_pages_evicted ∧
      (∀ x, { q.blocks x with old := false, freed_page_clock := 0 }
          = { p.blocks x with old := false, freed_page_clock := 0 }) := by
  have hnd : (A ++ B).Nodup := hl ▸ hv.1
  rcases List.eq_nil_or_concat A with hA | ⟨A0, y, hA⟩
  · -- `bpage` was the head: `buf_LRU_add_block_low`
    subst hA
    have hold : (p.blocks b).old = false := hhead rfl
    obtain ⟨q, hq, hqv, hql, hqu, hqf⟩ :=
      add_head_spec c p b false hM hv (by rw [hl]; exact hb) hf (Or.inl rfl)
    obtain ⟨_, _, e3, e4, e5, e6, e7, e8⟩ := old_frame_fields _ _ _ hqf
    have e9 := congrArg buf_pool_t.curr_size hqf.1
    have e10 := congrArg buf_pool_t.LRU_flush_ended hqf.1
    have e11 := congrArg buf_pool_t.n_ra_pages_evicted hqf.1
    refine ⟨q, ?_, hqv, by rw [hql, hl]; rfl, ?_, e3, e4, e5, e6, e7, e8, e9, e10, e11, ?_⟩
    · unfold free_block_relink
      simp only [List.getLast?_nil, buf_page_is_old, hold]
      exact hq
    · rw [hqu, hnz]
      simp
    · intro x
      have h3 := hqf.2.2 x
      simp only at h3
      by_cases hx : x = b
      · subst hx
        simp only [Function.update_same] at h3
        have := congrArg (fun r : buf_page_t => { r with freed_page_clock := 0 }) h3
        simpa using this
      · simp only [Function.update_noteq hx] at h3
        have := congrArg (fun r : buf_page_t => { r with freed_page_clock := 0 }) h3
        simpa using this
  · -- `b` is linked behind the predecessor of `bpage`
    have hA2 : A = A0 ++ [y] := by simpa using hA
    subst hA2
    have hlast : (A0 ++ [y]).getLast? = some y := by simp
    have hnd3 : (A0 ++ y :: B).Nodup := by simpa using hnd
    obtain ⟨_, hyA0, hyB⟩ := nodup_remove_middle A0 B y hnd3
    have hins : UT_LIST_INSERT_AFTER p.LRU y b = A0 ++ [y] ++ b :: B := by
      rw [hl]
      have : A0 ++ [y] ++ B = A0 ++ y :: B := by simp
      rw [this, insert_after_of_split _ _ _ _ hyA0]
      simp
    have hbA : b ∉ A0 ++ [y] := fun hm => hb (List.mem_append_left _ hm)
    have hbB : b ∉ B := fun hm => hb (List.mem_append_right _ hm)
    have hnext : UT_LIST_GET_NEXT (A0 ++ [y] ++ b :: B) b = B.head? :=
      next_of_split _ _ _ hbA
    have hnd2 : (A0 ++ [y] ++ b :: B).Nodup := by
      have h1 := List.nodup_append.mp hnd
      refine List.nodup_append.mpr ⟨h1.1, List.nodup_cons.mpr ⟨hbB, h1.2.1⟩, ?_⟩
      intro x hx hm
      rcases List.mem_cons.mp hm with h | h
      · exact hbA (h ▸ hx)
      · exact h1.2.2 hx h
    have hlen2 : (A0 ++ [y] ++ b :: B).length = (A0 ++ [y] ++ B).length + 1 := by
      simp only [List.length_append, List.length_cons]; omega
    -- the pool after `UT_LIST_INSERT_AFTER` and the accounting of an old `b`
    have key : ∃ P2, free_block_insert_after p y b = P2 ∧ P2.LRU = A0 ++ [y] ++ b :: B ∧
        P2.blocks = p.blocks ∧
        { P2 with LRU := p.LRU, LRU_old := p.LRU_old, LRU_old_len := p.LRU_old_len } = p ∧
        (c.BUF_LRU_OLD_MIN_LEN < (A0 ++ [y] ++ b :: B).length →
          ∃ ys3 zs3, old_split P2 ys3 zs3 ∧ zs3 ≠ []) ∧
        ((A0 ++ [y] ++ b :: B).length < c.BUF_LRU_OLD_MIN_LEN →
          old_split P2 (A0 ++ [y] ++ b :: B) []) := by
      cases hold : (p.blocks b).old
      · -- `b` is young
        rw [insert_after_young p y b hold, hins]
        refine ⟨_, rfl, rfl, rfl, rfl, ?_, ?_⟩
        · intro hgt
          have hge : c.BUF_LRU_OLD_MIN_LEN ≤ (A0 ++ [y] ++ B).length := by omega
          obtain ⟨m, hm⟩ := (hmono hge).1 hold
          have hB : B = m ++ zs2 := by
            have h1 : A0 ++ [y] ++ B = ys2 ++ zs2 := hl.symm.trans hs.1
            rw [hm, List.append_assoc (A0 ++ [y]) m zs2] at h1
            exact List.append_cancel_left h1
          refine ⟨A0 ++ [y] ++ b :: m, zs2, ⟨?_, hs.2.1, hs.2.2.1, ?_, hs.2.2.2.2⟩,
            LRU_old_some_of_valid c p ys2 zs2 hv hs (by rw [hl]; exact hge)⟩
          · simp [hB]
          · intro x hx
            by_cases hxb : x = b
            · subst hxb; exact hold
            · apply hs.2.2.2.1 x
              rw [hm]
              rcases List.mem_append.mp hx with h | h
              · exact List.mem_append_left _ h
              · rcases List.mem_cons.mp h with h | h
                · exact absurd h hxb
                · exact List.mem_append_right _ h
        · intro hlt
          obtain ⟨ys, zs, hs0, hzs0⟩ := split_of_old_sublist c p hv.1 hv.2.1
          have hz : zs = [] := hzs0.mpr (by rw [hl]; omega)
          subst hz
          have hys : ys = A0 ++ [y] ++ B := by
            have := hs0.1
            rw [hl] at this
            simpa using this.symm
          refine ⟨by simp, by simpa using hs0.2.1, by simpa using hs0.2.2.1, ?_, by simp⟩
          intro x hx
          by_cases hxb : x = b
          · subst hxb; exact hold
          · apply hs0.2.2.2.1 x
            rw [hys]
            rcases List.mem_append.mp hx with h | h
            · exact List.mem_append_left _ h
            · rcases List.mem_cons.mp h with h | h
              · exact absurd h hxb
              · exact List.mem_append_right _ h
      · -- `b` is old
        rw [insert_after_old p y b hold, hins, hnext]
        have hsplit : c.BUF_LRU_OLD_MIN_LEN < (A0 ++ [y] ++ b :: B).length →
            ∃ m, zs2 = m ++ B ∧ A0 ++ [y] = ys2 ++ m := by
          intro hgt
          have hge : c.BUF_LRU_OLD_MIN_LEN ≤ (A0 ++ [y] ++ B).length := by omega
          obtain ⟨m, hm⟩ := (hmono hge).2 hold
          refine ⟨m, hm, ?_⟩
          have h1 : A0 ++ [y] ++ B = ys2 ++ zs2 := hl.symm.trans hs.1
          rw [hm, ← List.append_assoc] at h1
          exact List.append_cancel_right h1
        have hsm : ¬ (A0 ++ [y] ++ b :: B).length < c.BUF_LRU_OLD_MIN_LEN := by
          intro hlt
          have := hsmall (by omega)
          rw [hold] at this
          exact absurd this (by simp)
        by_cases heq : p.LRU_old = B.head?
        · rw [if_pos heq]
          refine ⟨_, rfl, rfl, rfl, rfl, ?_, fun h => absurd h hsm⟩
          intro hgt
          obtain ⟨m, hm, hAm⟩ := hsplit hgt
          have hmnil : m = [] := by
            cases m with
            | nil => rfl
            | cons z m =>
              exfalso
              have hz : p.LRU_old = some z := by rw [hs.2.1, hm]; rfl
              rw [hz] at heq
              have hzB : z ∈ B := List.mem_of_mem_head? heq.symm
              have hzA : z ∈ A0 ++ [y] := by rw [hAm]; simp
              exact (List.nodup_append.mp hnd).2.2 hzA hzB
          subst hmnil
          simp only [List.nil_append, List.append_nil] at hm hAm
          refine ⟨A0 ++ [y], b :: B, ⟨rfl, rfl, ?_, ?_, ?_⟩, by simp⟩
          · show p.LRU_old_len + 1 = (b :: B).length
            rw [hs.2.2.1, hm]; simp
          · intro x hx
            exact hs.2.2.2.1 x (by rw [← hAm]; exact hx)
          · intro x hx
            rcases List.mem_cons.mp hx with h | h
            · rw [h]; exact hold
            · exact hs.2.2.2.2 x (by rw [hm]; exact h)
        · rw [if_neg heq]
          refine ⟨_, rfl, rfl, rfl, rfl, ?_, fun h => absurd h hsm⟩
          intro hgt
          obtain ⟨m, hm, hAm⟩ := hsplit hgt
          have hmne : m ≠ [] := by
            intro e
            subst e
            apply heq
            rw [hs.2.1, hm]
            rfl
          obtain ⟨z, m2, rfl⟩ := List.exists_cons_of_ne_nil hmne
          refine ⟨ys2, z :: m2 ++ b :: B, ⟨?_, ?_, ?_, hs.2.2.2.1, ?_⟩, by simp⟩
          · show A0 ++ [y] ++ b :: B = _
            rw [hAm]; simp
          · show p.LRU_old = _
            rw [hs.2.1, hm]; rfl
          · show p.LRU_old_len + 1 = _
            rw [hs.2.2.1, hm]
            simp only [List.length_append, List.length_cons]; omega
          · intro x hx
            by_cases hxb : x = b
            · subst hxb; exact hold
            · apply hs.2.2.2.2 x
              rw [hm]
              have hx2 : x ∈ (z :: m2) ++ b :: B := hx
              rcases List.mem_append.mp hx2 with h | h
              · exact List.mem_append_left _ h
              · rcases List.mem_cons.mp h with h | h
                · exact absurd h hxb
                · exact List.mem_append_right _ h
    obtain ⟨P2, hP2, hP2l, hP2b, hP2f, hP2gt, hP2lt⟩ := key
    have e2 := congrArg buf_pool_t.unzip_LRU hP2f
    have e3 := congrArg buf_pool_t.free hP2f
    have e4 := congrArg buf_pool_t.flush_list hP2f
    have e5 := congrArg buf_pool_t.page_hash hP2f
    have e6 := congrArg buf_pool_t.freed_page_clock hP2f
    have e7 := congrArg buf_pool_t.n_pages_made_young hP2f
    have e8 := congrArg buf_pool_t.buf_LRU_old_ratio hP2f
    have e9 := congrArg buf_pool_t.curr_size hP2f
    have e10 := congrArg buf_pool_t.LRU_flush_ended hP2f
    have e11 := congrArg buf_pool_t.n_ra_pages_evicted hP2f
    simp only at e2 e3 e4 e5 e6 e7 e8 e9 e10 e11
    have hfin : ∃ q, (if P2.LRU.length > c.BUF_LRU_OLD_MIN_LEN then buf_LRU_old_adjust_len P2
          else if P2.LRU.length = c.BUF_LRU_OLD_MIN_LEN then buf_LRU_old_init c P2
          else some P2) = some q ∧ LRU_valid c q ∧ q.LRU = P2.LRU ∧ old_frame P2.LRU P2 q := by
      by_cases h1 : P2.LRU.length > c.BUF_LRU_OLD_MIN_LEN
      · simp only [h1, if_true]
        obtain ⟨ys3, zs3, hs3, hz3⟩ := hP2gt (by rw [← hP2l]; exact h1)
        obtain ⟨q, _, _, hq, hqv, _, hql, _, _, hqf⟩ :=
          adjust_valid c P2 ys3 zs3 hM (by omega) (hP2l ▸ hnd2) hs3 hz3
        exact ⟨q, hq, hqv, hql, hqf⟩
      · simp only [h1, if_false]
        by_cases h2 : P2.LRU.length = c.BUF_LRU_OLD_MIN_LEN
        · simp only [h2, if_true]
          obtain ⟨q, hq, hqv, hql, hqf⟩ := old_init_spec c P2 hM h2 (hP2l ▸ hnd2)
          exact ⟨q, hq, hqv, hql, hqf⟩
        · simp only [h2, if_false]
          have hlt : P2.LRU.length < c.BUF_LRU_OLD_MIN_LEN := by omega
          have hs3 := hP2lt (by rw [← hP2l]; exact hlt)
          refine ⟨P2, rfl, ⟨hP2l ▸ hnd2, ?_, ?_⟩, rfl, old_frame_refl _ _⟩
          · exact old_sublist_of_split c P2 _ [] (hP2l ▸ hnd2) hs3 (by simp [hlt])
          · intro hge
            omega
    obtain ⟨q, hq, hqv, hql, hqf⟩ := hfin
    obtain ⟨_, f2, f3, f4, f5, f6, f7, f8⟩ := old_frame_fields _ _ _ hqf
    have f9 := congrArg buf_pool_t.curr_size hqf.1
    have f10 := congrArg buf_pool_t.LRU_flush_ended hqf.1
    have f11 := congrArg buf_pool_t.n_ra_pages_evicted hqf.1
    simp only at f9 f10 f11
    refine ⟨q, ?_, hqv, by rw [hql, hP2l], f2.trans e2, f3.trans e3, f4.trans e4,
      f5.trans e5, f6.trans e6, f7.trans e7, f8.trans e8, f9.trans e9, f10.trans e10,
      f11.trans e11, ?_⟩
    · unfold free_block_relink
      simp only [hlast, hP2]
      exact hq
    · intro x
      have h3 := hqf.2.2 x
      rw [hP2b] at h3
      have := congrArg (fun r : buf_page_t => { r with freed_page_clock := 0 }) h3
      simpa using this

/-! # `buf_LRU_free_block`: freeing the whole block -/

theorem free_block_evict_spec (c : buf_LRU_consts) (p : buf_pool_t) (A B : List Nat)
    (bpage b : Nat) (zip : Bool)
    (hM : 25 ≤ c.BUF_LRU_OLD_MIN_LEN) (hv : LRU_valid c p) (hl : p.LRU = A ++ bpage :: B)
    (hpf : page_freeable p bpage)
    (hrel : buf_page_can_relocate (p.blocks bpage) = true)
    (hclean : (p.blocks bpage).oldest_modification = 0)
    (hfull : zip = true ∨ (p.blocks bpage).zip_data = none ∨
      (p.blocks bpage).state ≠ .BUF_BLOCK_FILE_PAGE) :
    ∃ q1, buf_LRU_remove_block c p bpage = some q1 ∧ LRU_valid c q1 ∧ q1.LRU = A ++ B ∧
      old_frame (A ++ B)
        { p with LRU := A ++ B,
                 unzip_LRU := if buf_page_belongs_to_unzip_LRU (p.blocks bpage) then
                    UT_LIST_REMOVE p.unzip_LRU bpage else p.unzip_LRU } q1 ∧
      buf_LRU_block_remove_hashed_page c p bpage zip =
        some (if (p.blocks bpage).state = .BUF_BLOCK_ZIP_PAGE then .BUF_BLOCK_ZIP_FREE
              else .BUF_BLOCK_REMOVE_HASH,
          { q1 with
            freed_page_clock := (q1.freed_page_clock + 1) % 2 ^ 64,
            page_hash := q1.page_hash.erase bpage,
            blocks := Function.update q1.blocks bpage (page_after_remove (p.blocks bpage) zip) }) ∧
      buf_LRU_free_block c p bpage zip b = some (true, true,
        if (p.blocks bpage).state = .BUF_BLOCK_ZIP_PAGE then
          { q1 with
            freed_page_clock := (q1.freed_page_clock + 1) % 2 ^ 64,
            page_hash := q1.page_hash.erase bpage,
            blocks := Function.update q1.blocks bpage
              (page_after_remove (p.blocks bpage) zip) }
        else
          { q1 with
            freed_page_clock := (q1.freed_page_clock + 1) % 2 ^ 64,
            page_hash := q1.page_hash.erase bpage,
            blocks := Function.update q1.blocks bpage
              (page_after_free (page_after_remove (p.blocks bpage) zip)),
            free := bpage :: q1.free }) := by
  have hrel2 := hrel
  unfold buf_page_can_relocate at hrel2
  simp only [Bool.and_eq_true, decide_eq_true_eq, Bool.not_eq_true'] at hrel2
  obtain ⟨⟨hio, hfix⟩, _⟩ := hrel2
  have hst : (p.blocks bpage).state = .BUF_BLOCK_FILE_PAGE ∨
      (p.blocks bpage).state = .BUF_BLOCK_ZIP_PAGE := by
    have h1 := hpf.2.1
    have h2 := hpf.2.2.2.2.1
    unfold buf_page_in_file at h1
    cases hs : (p.blocks bpage).state <;> simp [hs] at h1 h2 ⊢
    exact h2 hclean
  obtain ⟨q1, _, _, hq1, hv1, hl1, hf1, _, _, hrm⟩ :=
    remove_hashed_page_spec c p A B bpage zip hM hv hl hpf hio hfix hst (Or.inr hclean)
  refine ⟨q1, hq1, hv1, hl1, hf1, hrm, ?_⟩
  have halloc : (!(zip || (p.blocks bpage).zip_data.isNone) &&
      decide ((p.blocks bpage).state = .BUF_BLOCK_FILE_PAGE)) = false := by
    rcases hfull with h | h | h
    · simp [h]
    · simp [h]
    · simp [h]
  unfold buf_LRU_free_block
  simp only [hrel, Bool.not_true, Bool.false_eq_true, if_false, hclean, ne_eq,
    not_true_eq_false, decide_False, Bool.and_false, Bool.false_and, halloc, hrm]
  rcases hst with hs | hs
  · have hnz : ¬ (p.blocks bpage).state = .BUF_BLOCK_ZIP_PAGE := by rw [hs]; simp
    simp only [hnz, if_false, Function.update_same, page_after_remove, hfix, if_true,
      free_hashed_page_eq, Function.update_idem]
  · simp only [hs, if_true]

/-! # `buf_LRU_free_block`: keeping the compressed frame -/

theorem hash_get_none_of_uniq (l : List Nat) (blocks : Nat → buf_page_t)
    (bp : buf_page_t)
    (h : ∀ x ∈ l, ¬ same_page (blocks x) bp) :
    l.find? (fun x => decide ((blocks x).space = bp.space) &&
      decide ((blocks x).offset = bp.offset)) = none := by
  rw [List.find?_eq_none]
  intro x hx
  have := h x hx
  unfold same_page at this
  simp only [Bool.and_eq_true, decide_eq_true_eq]
  exact this

theorem free_block_relocate_step (c : buf_LRU_consts) (p : buf_pool_t) (A B : List Nat)
    (bpage b : Nat)
    (hM : 25 ≤ c.BUF_LRU_OLD_MIN_LEN) (hv : LRU_valid c p) (hl : p.LRU = A ++ bpage :: B)
    (hpf : page_freeable p bpage)
    (hrel : buf_page_can_relocate (p.blocks bpage) = true)
    (hfresh : fresh_descriptor p b)
    (hst : (p.blocks bpage).state = .BUF_BLOCK_FILE_PAGE)
    (hz : (p.blocks bpage).zip_data.isSome = true) :
    ∃ X q4, buf_LRU_block_remove_hashed_page c (set_block p b (p.blocks bpage)) bpage false
        = some (.BUF_BLOCK_REMOVE_HASH, X) ∧
      X.blocks bpage = page_after_remove (p.blocks bpage) false ∧
      X.blocks b = p.blocks bpage ∧
      buf_page_hash_get X (X.blocks bpage).space (X.blocks bpage).offset = none ∧
      free_block_relink c
        { set_block X b
            { X.blocks b with
              state := if (X.blocks b).oldest_modification ≠ 0
                       then .BUF_BLOCK_ZIP_DIRTY else .BUF_BLOCK_ZIP_PAGE } with
          page_hash := (set_block X b
            { X.blocks b with
              state := if (X.blocks b).oldest_modification ≠ 0
                       then .BUF_BLOCK_ZIP_DIRTY else .BUF_BLOCK_ZIP_PAGE }).page_hash ++ [b] }
        (UT_LIST_GET_PREV p.LRU bpage) b = some q4 ∧
      LRU_valid c q4 ∧ q4.LRU = A ++ b :: B ∧
      q4.unzip_LRU = UT_LIST_REMOVE p.unzip_LRU bpage ∧ q4.free = p.free ∧
      q4.flush_list = p.flush_list ∧
      q4.page_hash = p.page_hash.erase bpage ++ [b] ∧
      q4.freed_page_clock = (p.freed_page_clock + 1) % 2 ^ 64 ∧
      q4.n_pages_made_young = p.n_pages_made_young ∧
      q4.buf_LRU_old_ratio = p.buf_LRU_old_ratio ∧
      q4.curr_size = p.curr_size ∧ q4.LRU_flush_ended = p.LRU_flush_ended ∧
      q4.n_ra_pages_evicted = p.n_ra_pages_evicted ∧
      { q4.blocks b with old := false, freed_page_clock := 0 }
        = { p.blocks bpage with
            state := if (p.blocks bpage).oldest_modification ≠ 0
                     then .BUF_BLOCK_ZIP_DIRTY else .BUF_BLOCK_ZIP_PAGE,
            old := false, freed_page_clock := 0 } ∧
      { q4.blocks bpage with old := false, freed_page_clock := 0 }
        = { page_after_remove (p.blocks bpage) false with old := false, freed_page_clock := 0 } ∧
      (∀ x, x ≠ b → x ≠ bpage →
        { q4.blocks x with old := false, freed_page_clock := 0 }
          = { p.blocks x with old := false, freed_page_clock := 0 }) := by
  obtain ⟨hfL, hfU, hfF, hfFl, hfH⟩ := hfresh
  have hmem : bpage ∈ p.LRU := hpf.1
  have hbne : b ≠ bpage := fun e => hfL (e ▸ hmem)
  obtain ⟨hndAB, hbpA, hbpB⟩ := nodup_remove_middle A B bpage (hl ▸ hv.1)
  have hbAB : b ∉ A ++ B := by
    intro hm
    apply hfL
    rw [hl]
    rcases List.mem_append.mp hm with h | h
    · exact List.mem_append_left _ h
    · exact List.mem_append_right _ (List.mem_cons_of_mem _ h)
  have hbpAB : bpage ∉ A ++ B := by
    intro hm
    rcases List.mem_append.mp hm with h | h
    · exact hbpA h
    · exact hbpB h
  have hrel2 := hrel
  unfold buf_page_can_relocate at hrel2
  simp only [Bool.and_eq_true, decide_eq_true_eq, Bool.not_eq_true'] at hrel2
  obtain ⟨⟨hio, hfix⟩, _⟩ := hrel2
  -- the pool after `memcpy(b, bpage, sizeof *b)`
  have h0bp : (set_block p b (p.blocks bpage)).blocks bpage = p.blocks bpage := by
    simp [set_block, Function.update_noteq (Ne.symm hbne)]
  have h0b : (set_block p b (p.blocks bpage)).blocks b = p.blocks bpage := by
    simp [set_block]
  have h0x : ∀ x, x ≠ b → (set_block p b (p.blocks bpage)).blocks x = p.blocks x := by
    intro x hx
    simp [set_block, Function.update_noteq hx]
  have hv0 : LRU_valid c (set_block p b (p.blocks bpage)) := by
    refine LRU_valid_congr c p (set_block p b (p.blocks bpage)) rfl rfl rfl rfl ?_ hv
    intro x hx
    rw [h0x x (fun e => hfL (e ▸ hx))]
  have hpf0 : page_freeable (set_block p b (p.blocks bpage)) bpage := by
    obtain ⟨h1, h2, h3, h4, h5, h6, h7⟩ := hpf
    refine ⟨h1, by rw [h0bp]; exact h2, ?_, ?_, by rw [h0bp]; exact h5,
      by rw [h0bp]; exact h6, by rw [h0bp]; exact h7⟩
    · rw [h0bp, ← h3]
      refine hash_get_congr p (set_block p b (p.blocks bpage)) _ _ rfl ?_
      intro x hx
      rw [h0x x (fun e => hfH (e ▸ hx))]
      exact ⟨rfl, rfl⟩
    · intro x hx
      have hxm : x ∈ p.page_hash := List.mem_of_mem_erase hx
      rw [h0bp, h0x x (fun e => hfH (e ▸ hxm))]
      exact h4 x hx
  obtain ⟨q1, ys2, zs2, hq1, hv1, hl1, hf1, hs1, hm1, hrm⟩ :=
    remove_hashed_page_spec c (set_block p b (p.blocks bpage)) A B bpage false hM hv0 hl hpf0
      (by rw [h0bp]; exact hio) (by rw [h0bp]; exact hfix) (Or.inl (by rw [h0bp]; exact hst))
      (Or.inl ⟨by rw [h0bp]; exact hst, by rw [h0bp]; exact hz, rfl⟩)
  rw [h0bp] at hrm hm1 hf1
  have hnz : ¬ (p.blocks bpage).state = .BUF_BLOCK_ZIP_PAGE := by rw [hst]; simp
  simp only [hnz, if_false] at hrm
  obtain ⟨_, g2, g3, g4, g5, g6, g7, g8⟩ := old_frame_fields _ _ _ hf1
  have g9 := congrArg buf_pool_t.curr_size hf1.1
  have g10 := congrArg buf_pool_t.LRU_flush_ended hf1.1
  have g11 := congrArg buf_pool_t.n_ra_pages_evicted hf1.1
  have hbel : buf_page_belongs_to_unzip_LRU (p.blocks bpage) = true := by
    unfold buf_page_belongs_to_unzip_LRU
    simp [hz, hst]
  simp only [hbel, if_true, set_block] at g2 g3 g4 g5 g6 g7 g8 g9 g10 g11
  have hq1b : q1.blocks b = p.blocks bpage := by
    rw [hf1.2.1 b hbAB]
    exact h0b
  have hq1x : ∀ x, { q1.blocks x with old := false }
      = { (set_block p b (p.blocks bpage)).blocks x with old := false } := hf1.2.2
  -- the pool `X` that `buf_LRU_block_remove_hashed_page` returns
  have hXbp : (Function.update q1.blocks bpage (page_after_remove (p.blocks bpage) false)) bpage
      = page_after_remove (p.blocks bpage) false := by simp
  have hXb : (Function.update q1.blocks bpage (page_after_remove (p.blocks bpage) false)) b
      = p.blocks bpage := by
    rw [Function.update_noteq hbne]
    exact hq1b
  have hXold : ∀ x ∈ A ++ B,
      ((Function.update q1.blocks bpage (page_after_remove (p.blocks bpage) false)) x).old
        = (q1.blocks x).old := by
    intro x hx
    have hx2 : x ≠ bpage := fun e => hbpAB (e ▸ hx)
    rw [Function.update_noteq hx2]
  have hXx : ∀ x, x ≠ bpage →
      (Function.update q1.blocks bpage (page_after_remove (p.blocks bpage) false)) x
        = q1.blocks x := fun x hx => Function.update_noteq hx _ _
  have hq1id : ∀ x, x ≠ b → { q1.blocks x with old := false } = { p.blocks x with old := false } := by
    intro x hx
    rw [hq1x x, h0x x hx]
  have hpar_space : (page_after_remove (p.blocks bpage) false).space = (p.blocks bpage).space := by
    simp [page_after_remove, hnz]
  have hpar_offset : (page_after_remove (p.blocks bpage) false).offset
      = (p.blocks bpage).offset := by
    simp [page_after_remove, hnz]
  have hget : buf_page_hash_get
      { q1 with
        freed_page_clock := (q1.freed_page_clock + 1) % 2 ^ 64,
        page_hash := q1.page_hash.erase bpage,
        blocks := Function.update q1.blocks bpage (page_after_remove (p.blocks bpage) false) }
      ((Function.update q1.blocks bpage (page_after_remove (p.blocks bpage) false)) bpage).space
      ((Function.update q1.blocks bpage (page_after_remove (p.blocks bpage) false)) bpage).offset
      = none := by
    unfold buf_page_hash_get
    apply hash_get_none_of_uniq
    intro x hx
    have hx2 : x ∈ p.page_hash.erase bpage := by
      have : x ∈ q1.page_hash.erase bpage := hx
      rw [g5] at this
      exact this
    have hxm : x ∈ p.page_hash := List.mem_of_mem_erase hx2
    have hxb : x ≠ b := fun e => hfH (e ▸ hxm)
    have hnot := hpf.2.2.2.1 x hx2
    have hxbp : x ≠ bpage := by
      intro e
      apply hnot
      rw [e]
      exact ⟨rfl, rfl⟩
    intro hsame
    apply hnot
    unfold same_page at hsame ⊢
    simp only [hXx x hxbp, hXbp, hpar_space, hpar_offset] at hsame
    have e1 := congrArg buf_page_t.space (hq1id x hxb)
    have e2 := congrArg buf_page_t.offset (hq1id x hxb)
    simp only at e1 e2
    rw [← e1, ← e2]
    exact hsame
  have hprev : UT_LIST_GET_PREV p.LRU bpage = A.getLast? := by
    rw [hl, prev_of_split _ _ _ hbpA]
  -- the blocks of the pool handed to the relinking step
  have hP3b : ∀ (R : buf_page_t) (x : Nat), x ≠ b → x ≠ bpage →
      (Function.update
        (Function.update q1.blocks bpage (page_after_remove (p.blocks bpage) false)) b R) x
        = q1.blocks x := by
    intro R x hx1 hx2
    rw [Function.update_noteq hx1, Function.update_noteq hx2]
  have hmemAB : ∀ x ∈ A ++ B, x ≠ b ∧ x ≠ bpage := fun x hx =>
    ⟨fun e => hbAB (e ▸ hx), fun e => hbpAB (e ▸ hx)⟩
  have hRstate : (if (p.blocks bpage).oldest_modification ≠ 0
        then buf_page_state.BUF_BLOCK_ZIP_DIRTY else buf_page_state.BUF_BLOCK_ZIP_PAGE)
      ≠ .BUF_BLOCK_FILE_PAGE := by
    split_ifs <;> simp
  obtain ⟨P3, hP3⟩ : ∃ P3 : buf_pool_t, P3 =
      { set_block
          { q1 with
            freed_page_clock := (q1.freed_page_clock + 1) % 2 ^ 64,
            page_hash := q1.page_hash.erase bpage,
            blocks := Function.update q1.blocks bpage
              (page_after_remove (p.blocks bpage) false) } b
          { p.blocks bpage with
            state := if (p.blocks bpage).oldest_modification ≠ 0
                     then .BUF_BLOCK_ZIP_DIRTY else .BUF_BLOCK_ZIP_PAGE } with
        page_hash := q1.page_hash.erase bpage ++ [b] } := ⟨_, rfl⟩
  have m1 : P3.LRU = q1.LRU := by rw [hP3]; rfl
  have m2 : P3.LRU_old = q1.LRU_old := by rw [hP3]; rfl
  have m3 : P3.LRU_old_len = q1.LRU_old_len := by rw [hP3]; rfl
  have m4 : P3.buf_LRU_old_ratio = q1.buf_LRU_old_ratio := by rw [hP3]; rfl
  have m5 : P3.blocks b = { p.blocks bpage with
            state := if (p.blocks bpage).oldest_modification ≠ 0
                     then .BUF_BLOCK_ZIP_DIRTY else .BUF_BLOCK_ZIP_PAGE } := by
    rw [hP3]
    show Function.update _ b _ b = _
    rw [Function.update_same]
  have m6 : P3.blocks bpage = page_after_remove (p.blocks bpage) false := by
    rw [hP3]
    show Function.update _ b _ bpage = _
    rw [Function.update_noteq (Ne.symm hbne)]
    exact hXbp
  have m7 : ∀ x, x ≠ b → x ≠ bpage → P3.blocks x = q1.blocks x := by
    intro x hx1 hx2
    rw [hP3]
    exact hP3b _ x hx1 hx2
  have m8 : P3.unzip_LRU = q1.unzip_LRU := by rw [hP3]; rfl
  have m9 : P3.free = q1.free := by rw [hP3]; rfl
  have m10 : P3.flush_list = q1.flush_list := by rw [hP3]; rfl
  have m11 : P3.page_hash = q1.page_hash.erase bpage ++ [b] := by rw [hP3]
  have m12 : P3.freed_page_clock = (q1.freed_page_clock + 1) % 2 ^ 64 := by rw [hP3]; rfl
  have m13 : P3.n_pages_made_young = q1.n_pages_made_young := by rw [hP3]; rfl
  have m14 : P3.curr_size = q1.curr_size := by rw [hP3]; rfl
  have m15 : P3.LRU_flush_ended = q1.LRU_flush_ended := by rw [hP3]; rfl
  have m16 : P3.n_ra_pages_evicted = q1.n_ra_pages_evicted := by rw [hP3]; rfl
  have hbold : (P3.blocks b).old = (p.blocks bpage).old := by rw [m5]
  obtain ⟨q4, hq4, hv4, hl4, k2, k3, k4, k5, k6, k7, k8, k9, k10, k11, k12⟩ :=
    relink_spec c P3 A B ys2 zs2 b hM
      (by
        refine LRU_valid_congr c q1 P3 m1 m2 m3 m4 ?_ hv1
        intro x hx
        rw [hl1] at hx
        rw [m7 x (hmemAB x hx).1 (hmemAB x hx).2])
      (m1.trans hl1) hbAB
      (by
        rw [m5]
        unfold buf_page_in_file
        simp only
        split_ifs <;> rfl)
      (by
        rw [m5]
        unfold buf_page_belongs_to_unzip_LRU
        simp only [hRstate, decide_False, Bool.and_false])
      (by
        obtain ⟨s1, s2, s3, s4, s5⟩ := hs1
        have hsub : ∀ x, x ∈ ys2 ∨ x ∈ zs2 → x ∈ A ++ B := by
          intro x hx
          rw [← hl1, s1]
          exact List.mem_append.mpr hx
        refine ⟨m1.trans s1, m2.trans s2, m3.trans s3, ?_, ?_⟩
        · intro x hx
          have := hmemAB x (hsub x (Or.inl hx))
          rw [m7 x this.1 this.2]
          exact s4 x hx
        · intro x hx
          have := hmemAB x (hsub x (Or.inr hx))
          rw [m7 x this.1 this.2]
          exact s5 x hx)
      (by
        intro hge
        rw [hbold]
        exact hm1 hge)
      (by
        intro hlt
        rw [hbold]
        obtain ⟨ys, zs, hs0, hzs0⟩ := split_of_old_sublist c p hv.1 hv.2.1
        have hz0 : zs = [] := hzs0.mpr (by
          rw [hl]
          simp only [List.length_append, List.length_cons] at hlt ⊢
          omega)
        subst hz0
        apply hs0.2.2.2.1 bpage
        have := hs0.1
        simp only [List.append_nil] at this
        rw [← this]
        exact hmem)
      (by
        intro hA
        rw [hbold]
        subst hA
        exact head_not_old c p bpage B hM hv hl)
  refine ⟨_, q4, hrm, hXbp, hXb, hget, ?_, hv4, hl4, (k2.trans m8).trans g2,
    (k3.trans m9).trans g3, (k4.trans m10).trans g4, ?_,
    ?_, (k7.trans m13).trans g7, (k8.trans m4).trans g8, (k9.trans m14).trans g9,
    (k10.trans m15).trans g10, (k11.trans m16).trans g11, ?_, ?_, ?_⟩
  · rw [hprev]
    simp only [hXb, set_block] at hP3 ⊢
    rw [← hP3]
    exact hq4
  · rw [k5, m11, g5]
  · rw [k6, m12, g6]
  · rw [k12 b, m5]
  · rw [k12 bpage, m6]
  · intro x hx1 hx2
    rw [k12 x, m7 x hx1 hx2]
    have h3 := hq1id x hx1
    have := congrArg (fun r : buf_page_t => { r with freed_page_clock := 0 }) h3
    simpa using this

theorem free_block_relocate_spec (c : buf_LRU_consts) (p : buf_pool_t) (A B : List Nat)
    (bpage b : Nat)
    (hM : 25 ≤ c.BUF_LRU_OLD_MIN_LEN) (hv : LRU_valid c p) (hl : p.LRU = A ++ bpage :: B)
    (hpf : page_freeable p bpage)
    (hrel : buf_page_can_relocate (p.blocks bpage) = true)
    (hfresh : fresh_descriptor p b)
    (hst : (p.blocks bpage).state = .BUF_BLOCK_FILE_PAGE)
    (hz : (p.blocks bpage).zip_data.isSome = true) :
    ∃ q, buf_LRU_free_block c p bpage false b = some (true, false, q) ∧
      LRU_valid c q ∧ q.LRU = A ++ b :: B ∧
      q.unzip_LRU = UT_LIST_REMOVE p.unzip_LRU bpage ∧ q.free = bpage :: p.free ∧
      q.flush_list = (if (p.blocks bpage).oldest_modification ≠ 0 then
          p.flush_list.map (fun x => if x = bpage then b else x) else p.flush_list) ∧
      q.page_hash = p.page_hash.erase bpage ++ [b] ∧
      q.freed_page_clock = (p.freed_page_clock + 1) % 2 ^ 64 ∧
      q.n_pages_made_young = p.n_pages_made_young ∧
      q.buf_LRU_old_ratio = p.buf_LRU_old_ratio ∧
      q.curr_size = p.curr_size ∧ q.LRU_flush_ended = p.LRU_flush_ended ∧
      q.n_ra_pages_evicted = p.n_ra_pages_evicted ∧
      { q.blocks b with old := false, freed_page_clock := 0 }
        = { p.blocks bpage with
            state := if (p.blocks bpage).oldest_modification ≠ 0
                     then .BUF_BLOCK_ZIP_DIRTY else .BUF_BLOCK_ZIP_PAGE,
            sticky := false,
            old := false, freed_page_clock := 0 } ∧
      { q.blocks bpage with old := false, freed_page_clock := 0 }
        = { page_after_free (page_after_remove (p.blocks bpage) false) with
            old := false, freed_page_clock := 0 } ∧
      (∀ x, x ≠ b → x ≠ bpage →
        { q.blocks x with old := false, freed_page_clock := 0 }
          = { p.blocks x with old := false, freed_page_clock := 0 }) := by
  obtain ⟨X, q4, hrm, hXbp, hXb, hget, hq4, hv4, hl4, k2, k3, k4, k5, k6, k7, k8, k9, k10, k11,
    kb, kbp, kx⟩ := free_block_relocate_step c p A B bpage b hM hv hl hpf hrel hfresh hst hz
  have hbne : b ≠ bpage := fun e => hfresh.1 (e ▸ hpf.1)
  have hrel2 := hrel
  unfold buf_page_can_relocate at hrel2
  simp only [Bool.and_eq_true, decide_eq_true_eq, Bool.not_eq_true'] at hrel2
  have hfix : (p.blocks bpage).buf_fix_count = 0 := hrel2.1.2
  have hXfix : (X.blocks bpage).buf_fix_count = 0 := by
    rw [hXbp]
    simp [page_after_remove, hst, hfix]
  have hzn : (p.blocks bpage).zip_data.isNone = false := by
    cases h : (p.blocks bpage).zip_data
    · rw [h] at hz; simp at hz
    · rfl
  -- state of the copy after relinking
  have hbstate : (q4.blocks b).state = (if (p.blocks bpage).oldest_modification ≠ 0
                     then buf_page_state.BUF_BLOCK_ZIP_DIRTY
                     else buf_page_state.BUF_BLOCK_ZIP_PAGE) := by
    have := congrArg buf_page_t.state kb
    simpa using this
  obtain ⟨P5, hP5⟩ : ∃ P5 : buf_pool_t, P5 =
      (if (q4.blocks b).state = .BUF_BLOCK_ZIP_PAGE then q4
       else buf_flush_relocate_on_flush_list q4 bpage b) := ⟨_, rfl⟩
  have n1 : P5.blocks = q4.blocks := by
    rw [hP5]; split_ifs <;> rfl
  have n2 : P5.LRU = q4.LRU := by
    rw [hP5]; split_ifs <;> rfl
  have n3 : P5.LRU_old = q4.LRU_old := by
    rw [hP5]; split_ifs <;> rfl
  have n4 : P5.LRU_old_len = q4.LRU_old_len := by
    rw [hP5]; split_ifs <;> rfl
  have n5 : P5.buf_LRU_old_ratio = q4.buf_LRU_old_ratio := by
    rw [hP5]; split_ifs <;> rfl
  have n6 : P5.unzip_LRU = q4.unzip_LRU := by
    rw [hP5]; split_ifs <;> rfl
  have n7 : P5.free = q4.free := by
    rw [hP5]; split_ifs <;> rfl
  have n8 : P5.page_hash = q4.page_hash := by
    rw [hP5]; split_ifs <;> rfl
  have n9 : P5.freed_page_clock = q4.freed_page_clock := by
    rw [hP5]; split_ifs <;> rfl
  have n10 : P5.n_pages_made_young = q4.n_pages_made_young := by
    rw [hP5]; split_ifs <;> rfl
  have n11 : P5.curr_size = q4.curr_size := by
    rw [hP5]; split_ifs <;> rfl
  have n12 : P5.LRU_flush_ended = q4.LRU_flush_ended := by
    rw [hP5]; split_ifs <;> rfl
  have n13 : P5.n_ra_pages_evicted = q4.n_ra_pages_evicted := by
    rw [hP5]; split_ifs <;> rfl
  have n14 : P5.flush_list = (if (p.blocks bpage).oldest_modification ≠ 0 then
          p.flush_list.map (fun x => if x = bpage then b else x) else p.flush_list) := by
    rw [hP5, hbstate]
    by_cases hd : (p.blocks bpage).oldest_modification ≠ 0
    · rw [if_pos hd, if_pos hd, if_neg (by decide)]
      show q4.flush_list.map _ = _
      rw [k4]
    · rw [if_neg hd, if_neg hd, if_pos rfl, k4]
  have hfree : buf_LRU_free_block c p bpage false b = some (true, false,
      { (set_block (set_block (set_block P5 bpage
            { P5.blocks bpage with zip_data := none, zip_size := 0 }) b
            { (set_block P5 bpage
                { P5.blocks bpage with zip_data := none, zip_size := 0 }).blocks b with
              sticky := true }) b
            { (set_block (set_block P5 bpage
                { P5.blocks bpage with zip_data := none, zip_size := 0 }) b
                { (set_block P5 bpage
                    { P5.blocks bpage with zip_data := none, zip_size := 0 }).blocks b with
                  sticky := true }).blocks b with sticky := false }) with
        blocks := Function.update (set_block (set_block (set_block P5 bpage
            { P5.blocks bpage with zip_data := none, zip_size := 0 }) b
            { (set_block P5 bpage
                { P5.blocks bpage with zip_data := none, zip_size := 0 }).blocks b with
              sticky := true }) b
            { (set_block (set_block P5 bpage
                { P5.blocks bpage with zip_data := none, zip_size := 0 }) b
                { (set_block P5 bpage
                    { P5.blocks bpage with zip_data := none, zip_size := 0 }).blocks b with
                  sticky := true }).blocks b with sticky := false }).blocks bpage
          (page_after_free ((set_block (set_block (set_block P5 bpage
            { P5.blocks bpage with zip_data := none, zip_size := 0 }) b
            { (set_block P5 bpage
                { P5.blocks bpage with zip_data := none, zip_size := 0 }).blocks b with
              sticky := true }) b
            { (set_block (set_block P5 bpage
                { P5.blocks bpage with zip_data := none, zip_size := 0 }) b
                { (set_block P5 bpage
                    { P5.blocks bpage with zip_data := none, zip_size := 0 }).blocks b with
                  sticky := true }).blocks b with sticky := false }).blocks bpage)),
        free := bpage :: P5.free }) := by
    unfold buf_LRU_free_block
    simp only [hrel, Bool.not_true, Bool.false_eq_true, if_false, hzn, Bool.or_false,
      Bool.false_and, hst, decide_True, Bool.and_true, Bool.not_false, Bool.and_false,
      Bool.true_and, if_true, hrm, hXfix, hget, hq4, ← hP5, free_hashed_page_eq]
    rfl
  refine ⟨_, hfree, ?_, n2.trans hl4, n6.trans k2, ?_, n14, n8.trans k5, n9.trans k6,
    n10.trans k7, n5.trans k8, n11.trans k9, n12.trans k10, n13.trans k11, ?_, ?_, ?_⟩
  · refine LRU_valid_congr c q4 _ n2 n3 n4 n5 ?_ hv4
    intro x hx
    rw [hl4] at hx
    have hxbp : x ≠ bpage := by
      intro e
      subst e
      have hnd := hv.1
      rw [hl] at hnd
      obtain ⟨_, h1, h2⟩ := nodup_remove_middle A B x hnd
      rcases List.mem_append.mp hx with h | h
      · exact h1 h
      · rcases List.mem_cons.mp h with h | h
        · exact hbne h.symm
        · exact h2 h
    by_cases hxb : x = b
    · subst hxb
      simp [set_block, Function.update, hxbp, n1]
    · simp [set_block, Function.update, hxbp, hxb, n1]
  · show bpage :: P5.free = _
    rw [n7, k3]
  · have e := congrArg (fun r : buf_page_t => { r with sticky := false }) kb
    simpa [set_block, Function.update, hbne, n1] using e
  · have e := congrArg (fun r : buf_page_t =>
      page_after_free { r with zip_data := none, zip_size := 0 }) kbp
    simpa [set_block, Function.update, hbne, hbne.symm, n1, page_after_free,
      page_after_remove, hst, hz] using e
  · intro x hx1 hx2
    rw [← kx x hx1 hx2]
    simp [set_block, Function.update, hx1, hx2, n1]

theorem M_of_consts (c : buf_LRU_consts) (hc : consts_ok c) : 25 ≤ c.BUF_LRU_OLD_MIN_LEN := by
  obtain ⟨_, h2, h3, h4⟩ := hc
  unfold BUF_LRU_OLD_RATIO_DIV BUF_LRU_OLD_TOLERANCE at *
  by_contra hlt
  have h5 : c.BUF_LRU_OLD_MIN_LEN ≤ 24 := by omega
  have h6 : c.BUF_LRU_OLD_RATIO_MIN ≤ 1024 := by omega
  have := Nat.mul_le_mul h6 h5
  omega

theorem empty_valid (c : buf_LRU_consts) (blocks : Nat → buf_page_t) (ratio : Nat)
    (hM : 25 ≤ c.BUF_LRU_OLD_MIN_LEN) : LRU_valid c (empty_pool blocks ratio) := by
  refine ⟨List.nodup_nil, ⟨Or.inl ⟨rfl, ?_⟩, ?_, rfl⟩, ?_⟩
  · show 0 < c.BUF_LRU_OLD_MIN_LEN
    omega
  · intro x hx
    exact absurd hx (List.not_mem_nil x)
  · intro h
    have : c.BUF_LRU_OLD_MIN_LEN ≤ 0 := h
    omega

theorem add_block_valid (c : buf_LRU_consts) (p : buf_pool_t) (bpage : Nat) (old : Bool)
    (hM : 25 ≤ c.BUF_LRU_OLD_MIN_LEN) (hv : LRU_valid c p) (hb : bpage ∉ p.LRU)
    (hf : buf_page_in_file (p.blocks bpage) = true) :
    ∃ q, buf_LRU_add_block c p bpage old = some q ∧ LRU_valid c q ∧
      q.LRU.length = p.LRU.length + 1 ∧ q.buf_LRU_old_ratio = p.buf_LRU_old_ratio := by
  unfold buf_LRU_add_block
  by_cases hcond : old = false ∨ p.LRU.length < c.BUF_LRU_OLD_MIN_LEN
  · obtain ⟨q, hq, hvq, hl, _, hfr⟩ := add_head_spec c p bpage old hM hv hb hf hcond
    refine ⟨q, hq, hvq, by rw [hl]; rfl, ?_⟩
    exact (old_frame_fields _ _ _ hfr).2.2.2.2.2.2.2
  · have ho : old = true := by
      cases old
      · exact absurd (Or.inl rfl) hcond
      · rfl
    have hn : c.BUF_LRU_OLD_MIN_LEN ≤ p.LRU.length := by
      by_contra h
      exact hcond (Or.inr (by omega))
    subst ho
    obtain ⟨o, q, ys, zs0, _, hpl, hq, hvq, hl, _, _, _, hfr, _⟩ :=
      add_old_spec c p bpage hM hv hb hf hn
    refine ⟨q, hq, hvq, ?_, ?_⟩
    · rw [hl, hpl]
      simp only [List.length_append, List.length_cons]
      omega
    · exact (old_frame_fields _ _ _ hfr).2.2.2.2.2.2.2

theorem free_one_page_spec (c : buf_LRU_consts) (p : buf_pool_t) (A B : List Nat)
    (bpage : Nat)
    (hM : 25 ≤ c.BUF_LRU_OLD_MIN_LEN) (hv : LRU_valid c p) (hl : p.LRU = A ++ bpage :: B)
    (hpf : page_freeable p bpage)
    (hio : (p.blocks bpage).io_fix = .BUF_IO_NONE) (hfix : (p.blocks bpage).buf_fix_count = 0)
    (hclean : (p.blocks bpage).oldest_modification = 0) :
    ∃ q1, buf_LRU_remove_block c p bpage = some q1 ∧ LRU_valid c q1 ∧ q1.LRU = A ++ B ∧
      old_frame (A ++ B)
        { p with LRU := A ++ B,
                 unzip_LRU := if buf_page_belongs_to_unzip_LRU (p.blocks bpage) then
                    UT_LIST_REMOVE p.unzip_LRU bpage else p.unzip_LRU } q1 ∧
      buf_LRU_free_one_page c p bpage = some
        (if (p.blocks bpage).state = .BUF_BLOCK_ZIP_PAGE then
          { q1 with
            freed_page_clock := (q1.freed_page_clock + 1) % 2 ^ 64,
            page_hash := q1.page_hash.erase bpage,
            blocks := Function.update q1.blocks bpage (page_after_remove (p.blocks bpage) true) }
         else
          { q1 with
            freed_page_clock := (q1.freed_page_clock + 1) % 2 ^ 64,
            page_hash := q1.page_hash.erase bpage,
            blocks := Function.update q1.blocks bpage
              (page_after_free (page_after_remove (p.blocks bpage) true)),
            free := bpage :: q1.free }) := by
  have hst : (p.blocks bpage).state = .BUF_BLOCK_FILE_PAGE ∨
      (p.blocks bpage).state = .BUF_BLOCK_ZIP_PAGE := by
    have h1 := hpf.2.1
    have h2 := hpf.2.2.2.2.1
    unfold buf_page_in_file at h1
    cases hs : (p.blocks bpage).state <;> simp [hs] at h1 h2 ⊢
    exact h2 hclean
  obtain ⟨q1, ys2, zs2, hq1, hv1, hl1, hf1, _, _, hrm⟩ :=
    remove_hashed_page_spec c p A B bpage true hM hv hl hpf hio hfix hst (Or.inr hclean)
  refine ⟨q1, hq1, hv1, hl1, hf1, ?_⟩
  unfold buf_LRU_free_one_page
  rw [hrm]
  by_cases hz : (p.blocks bpage).state = .BUF_BLOCK_ZIP_PAGE
  · simp only [hz, if_true]
  · simp only [hz, if_false]
    rw [free_hashed_page_eq]
    simp [Function.update_same, Function.update_idem]

theorem free_block_refuse (c : buf_LRU_consts) (p : buf_pool_t) (bpage b : Nat) (zip : Bool)
    (hdirty : (p.blocks bpage).oldest_modification ≠ 0)
    (h : zip = true ∨ (p.blocks bpage).zip_data = none ∨
        (p.blocks bpage).state ≠ .BUF_BLOCK_FILE_PAGE) :
    buf_LRU_free_block c p bpage zip b = some (false, false, p) := by
  unfold buf_LRU_free_block
  by_cases hrel : buf_page_can_relocate (p.blocks bpage) = true
  · simp only [hrel, Bool.not_true, Bool.false_eq_true, if_false]
    by_cases h1 : (zip || (p.blocks bpage).zip_data.isNone) = true
    · simp [h1, hdirty]
    · have hs : (p.blocks bpage).state ≠ .BUF_BLOCK_FILE_PAGE := by
        rcases h with h | h | h
        · simp [h] at h1
        · simp [h] at h1
        · exact h
      simp [h1, hdirty, hs]
  · simp [hrel]

theorem free_block_cases (p : buf_pool_t) (bpage : Nat) (zip : Bool) :
    buf_page_can_relocate (p.blocks bpage) = false ∨
    ((p.blocks bpage).oldest_modification ≠ 0 ∧
      (zip = true ∨ (p.blocks bpage).zip_data = none ∨
        (p.blocks bpage).state ≠ .BUF_BLOCK_FILE_PAGE)) ∨
    (buf_page_can_relocate (p.blocks bpage) = true ∧ zip = false ∧
      (p.blocks bpage).state = .BUF_BLOCK_FILE_PAGE ∧
      (p.blocks bpage).zip_data.isSome = true) ∨
    (buf_page_can_relocate (p.blocks bpage) = true ∧
      (p.blocks bpage).oldest_modification = 0 ∧
      (zip = true ∨ (p.blocks bpage).zip_data = none ∨
        (p.blocks bpage).state ≠ .BUF_BLOCK_FILE_PAGE)) := by
  by_cases hrel : buf_page_can_relocate (p.blocks bpage) = true
  · by_cases hfull : zip = true ∨ (p.blocks bpage).zip_data = none ∨
        (p.blocks bpage).state ≠ .BUF_BLOCK_FILE_PAGE
    · by_cases hd : (p.blocks bpage).oldest_modification = 0
      · exact Or.inr (Or.inr (Or.inr ⟨hrel, hd, hfull⟩))
      · exact Or.inr (Or.inl ⟨hd, hfull⟩)
    · refine Or.inr (Or.inr (Or.inl ⟨hrel, ?_, ?_, ?_⟩))
      · cases zip
        · rfl
        · exact absurd (Or.inl rfl) hfull
      · by_contra h
        exact hfull (Or.inr (Or.inr h))
      · cases hz : (p.blocks bpage).zip_data
        · exact absurd (Or.inr (Or.inl hz)) hfull
        · rfl
  · left
    simpa using hrel

theorem LRU_valid_update (c : buf_LRU_consts) (q1 Q : buf_pool_t) (bpage : Nat)
    (v : buf_page_t) (hb : bpage ∉ q1.LRU) (hv1 : LRU_valid c q1)
    (h1 : Q.LRU = q1.LRU) (h2 : Q.LRU_old = q1.LRU_old) (h3 : Q.LRU_old_len = q1.LRU_old_len)
    (h4 : Q.buf_LRU_old_ratio = q1.buf_LRU_old_ratio)
    (h5 : Q.blocks = Function.update q1.blocks bpage v) : LRU_valid c Q := by
  refine LRU_valid_congr c q1 Q h1 h2 h3 h4 ?_ hv1
  intro x hx
  have hne : x ≠ bpage := fun e => hb (e ▸ hx)
  rw [h5, Function.update_noteq hne]

theorem free_block_valid (c : buf_LRU_consts) (p : buf_pool_t) (bpage b : Nat) (zip : Bool)
    (hM : 25 ≤ c.BUF_LRU_OLD_MIN_LEN) (hv : LRU_valid c p)
    (hpf : page_freeable p bpage) (hfresh : fresh_descriptor p b) :
    ∃ r q, buf_LRU_free_block c p bpage zip b = some (r, q) ∧ LRU_valid c q.2 ∧
      q.2.buf_LRU_old_ratio = p.buf_LRU_old_ratio ∧
      (q.2.LRU.length = p.LRU.length ∨ q.2.LRU.length + 1 = p.LRU.length) := by
  obtain ⟨A, B, hl, _, _⟩ := split_of_mem_nodup p.LRU bpage hpf.1 hv.1
  rcases free_block_cases p bpage zip with h | ⟨hd, h⟩ | ⟨hrel, hzip, hst, hz⟩ | ⟨hrel, hd, h⟩
  · refine ⟨false, (false, p), ?_, hv, rfl, Or.inl rfl⟩
    unfold buf_LRU_free_block
    simp [h]
  · exact ⟨false, (false, p), free_block_refuse c p bpage b zip hd h, hv, rfl, Or.inl rfl⟩
  · subst hzip
    obtain ⟨q, hq, hvq, hlq, _, _, _, _, _, _, hr, _⟩ :=
      free_block_relocate_spec c p A B bpage b hM hv hl hpf hrel hfresh hst hz
    refine ⟨true, (false, q), hq, hvq, hr, Or.inl ?_⟩
    show q.LRU.length = p.LRU.length
    rw [hlq, hl]
    simp
  · obtain ⟨q1, _, hv1, hl1, hf1, _, hq⟩ :=
      free_block_evict_spec c p A B bpage b zip hM hv hl hpf hrel hd h
    have hr1 := (old_frame_fields _ _ _ hf1).2.2.2.2.2.2.2
    have hbq : bpage ∉ q1.LRU := by
      rw [hl1]
      have hnd := hv.1
      rw [hl] at hnd
      obtain ⟨_, h1, h2⟩ := nodup_remove_middle A B bpage hnd
      intro hm
      rcases List.mem_append.mp hm with h | h
      · exact h1 h
      · exact h2 h
    have hlen : (A ++ B).length + 1 = p.LRU.length := by
      rw [hl]
      simp only [List.length_append, List.length_cons]
      omega
    by_cases hzp : (p.blocks bpage).state = .BUF_BLOCK_ZIP_PAGE
    · rw [if_pos hzp] at hq
      exact ⟨true, _, hq, LRU_valid_update c q1 _ bpage _ hbq hv1 rfl rfl rfl rfl rfl, hr1,
        Or.inr (by show q1.LRU.length + 1 = _; rw [hl1]; exact hlen)⟩
    · rw [if_neg hzp] at hq
      exact ⟨true, _, hq, LRU_valid_update c q1 _ bpage _ hbq hv1 rfl rfl rfl rfl rfl, hr1,
        Or.inr (by show q1.LRU.length + 1 = _; rw [hl1]; exact hlen)⟩

theorem ratio_update_valid (c : buf_LRU_consts) (p : buf_pool_t) (old_pct : Nat)
    (hM : 25 ≤ c.BUF_LRU_OLD_MIN_LEN) (hv : LRU_valid c p) :
    ∃ r q, buf_LRU_old_ratio_update c p old_pct true = some (r, q) ∧ LRU_valid c q ∧
      q.LRU = p.LRU := by
  obtain ⟨hnd, hos, htol⟩ := hv
  obtain ⟨ys, zs, hs, hzs⟩ := split_of_old_sublist c p hnd hos
  obtain ⟨R, hR⟩ : ∃ R : Nat, R =
      (if (old_pct * BUF_LRU_OLD_RATIO_DIV) % 2 ^ 32 / 100 < c.BUF_LRU_OLD_RATIO_MIN then
        c.BUF_LRU_OLD_RATIO_MIN
      else if (old_pct * BUF_LRU_OLD_RATIO_DIV) % 2 ^ 32 / 100 > c.BUF_LRU_OLD_RATIO_MAX then
        c.BUF_LRU_OLD_RATIO_MAX
      else (old_pct * BUF_LRU_OLD_RATIO_DIV) % 2 ^ 32 / 100) := ⟨_, rfl⟩
  unfold buf_LRU_old_ratio_update
  simp only [if_true, ← hR]
  by_cases h1 : R ≠ p.buf_LRU_old_ratio
  · rw [if_pos h1]
    by_cases h2 : p.LRU.length ≥ c.BUF_LRU_OLD_MIN_LEN
    · simp only [h2, if_true]
      have hne : zs ≠ [] := fun e => by have := hzs.mp e; omega
      obtain ⟨q, _, _, hq, hvq, _, hlq, _⟩ :=
        adjust_valid c { p with buf_LRU_old_ratio := R } ys zs hM h2 hnd hs hne
      rw [hq]
      exact ⟨_, q, rfl, hvq, hlq⟩
    · simp only [h2, if_false]
      refine ⟨_, _, rfl, ⟨hnd, hos, ?_⟩, rfl⟩
      intro h
      exact absurd h h2
  · rw [if_neg h1]
    exact ⟨_, p, rfl, ⟨hnd, hos, htol⟩, rfl⟩

theorem neighbours_of_valid (c : buf_LRU_consts) (p : buf_pool_t) (hv : LRU_valid c p) :
    LRU_old_neighbours p := by
  obtain ⟨hnd, hos, _⟩ := hv
  obtain ⟨ys, zs, hs, _⟩ := split_of_old_sublist c p hnd hos
  obtain ⟨hsl, hso, _, hsy, hsz⟩ := hs
  unfold LRU_old_neighbours
  cases zs with
  | nil =>
    have : p.LRU_old = none := by simpa using hso
    rw [this]
    trivial
  | cons o zs0 =>
    have ho : p.LRU_old = some o := by simpa using hso
    have hoys : o ∉ ys := by
      rw [hsl] at hnd
      exact fun hm => (List.nodup_append.mp hnd).2.2 hm (by simp)
    rw [ho]
    simp only
    rw [hsl, prev_of_split _ _ _ hoys, next_of_split _ _ _ hoys]
    refine ⟨hsz o (by simp), ?_, ?_⟩
    · cases hg : ys.getLast? with
      | none => trivial
      | some y =>
        simp only
        exact hsy y (List.mem_of_mem_getLast? hg)
    · cases hg : zs0.head? with
      | none => trivial
      | some z =>
        simp only
        exact hsz z (List.mem_cons_of_mem _ (List.mem_of_mem_head? hg))

theorem free_one_page_valid (c : buf_LRU_consts) (p : buf_pool_t) (bpage : Nat)
    (hM : 25 ≤ c.BUF_LRU_OLD_MIN_LEN) (hv : LRU_valid c p)
    (hpf : page_freeable p bpage)
    (hio : (p.blocks bpage).io_fix = .BUF_IO_NONE) (hfix : (p.blocks bpage).buf_fix_count = 0)
    (hclean : (p.blocks bpage).oldest_modification = 0) :
    ∃ q, buf_LRU_free_one_page c p bpage = some q ∧ LRU_valid c q ∧
      q.buf_LRU_old_ratio = p.buf_LRU_old_ratio ∧ q.LRU.length + 1 = p.LRU.length ∧
      q.LRU = p.LRU.erase bpage := by
  obtain ⟨A, B, hl, hbA, _⟩ := split_of_mem_nodup p.LRU bpage hpf.1 hv.1
  obtain ⟨q1, _, hv1, hl1, hf1, hq⟩ :=
    free_one_page_spec c p A B bpage hM hv hl hpf hio hfix hclean
  have hr1 := (old_frame_fields _ _ _ hf1).2.2.2.2.2.2.2
  have hbq : bpage ∉ q1.LRU := by
    rw [hl1]
    have hnd := hv.1
    rw [hl] at hnd
    obtain ⟨_, h1, h2⟩ := nodup_remove_middle A B bpage hnd
    intro hm
    rcases List.mem_append.mp hm with h | h
    · exact h1 h
    · exact h2 h
  have hlen : (A ++ B).length + 1 = p.LRU.length := by
    rw [hl]
    simp only [List.length_append, List.length_cons]
    omega
  have herase : p.LRU.erase bpage = A ++ B := by
    have := remove_of_split A B bpage hbA
    unfold UT_LIST_REMOVE at this
    rw [hl, this]
  by_cases hzp : (p.blocks bpage).state = .BUF_BLOCK_ZIP_PAGE
  · rw [if_pos hzp] at hq
    exact ⟨_, hq, LRU_valid_update c q1 _ bpage _ hbq hv1 rfl rfl rfl rfl rfl, hr1,
      by show q1.LRU.length + 1 = _; rw [hl1]; exact hlen,
      by show q1.LRU = _; rw [hl1, herase]⟩
  · rw [if_neg hzp] at hq
    exact ⟨_, hq, LRU_valid_update c q1 _ bpage _ hbq hv1 rfl rfl rfl rfl rfl, hr1,
      by show q1.LRU.length + 1 = _; rw [hl1]; exact hlen,
      by show q1.LRU = _; rw [hl1, herase]⟩

theorem big_pool_valid (c : buf_LRU_consts) (n k ratio : Nat) (hk : k ≤ n)
    (h0 : k = 0 ↔ n < c.BUF_LRU_OLD_MIN_LEN)
    (htol : c.BUF_LRU_OLD_MIN_LEN ≤ n →
      min (n * ratio / 1024) (n - (20 + 5)) ≤ k + 20 ∧
      k ≤ min (n * ratio / 1024) (n - (20 + 5)) + 20) :
    LRU_valid c (big_pool n k ratio) := by
  have hnd : (big_pool n k ratio).LRU.Nodup := List.nodup_range' 1 n
  have hlen : (big_pool n k ratio).LRU.length = n := by
    show (List.range' 1 n).length = n
    simp
  have hs : old_split (big_pool n k ratio) (List.range' 1 (n - k)) (List.range' (n - k + 1) k) := by
    refine ⟨?_, ?_, ?_, ?_, ?_⟩
    · show List.range' 1 n = _
      have := List.range'_append 1 (n - k) k 1
      have e1 : 1 + 1 * (n - k) = n - k + 1 := by omega
      have e2 : k + (n - k) = n := by omega
      rw [e1, e2] at this
      exact this.symm
    · show (if k = 0 then none else some (n - k + 1)) = _
      cases k with
      | zero => rfl
      | succ k => simp [List.range'_succ]
    · show k = _
      simp
    · intro x hx
      have := List.mem_range'_1.mp hx
      show decide (n - k < x ∧ x ≤ n) = false
      simp only [decide_eq_false_iff_not]
      omega
    · intro x hx
      have := List.mem_range'_1.mp hx
      show decide (n - k < x ∧ x ≤ n) = true
      simp only [decide_eq_true_eq]
      omega
  refine ⟨hnd, old_sublist_of_split c _ _ _ hnd hs ?_, ?_⟩
  · rw [hlen, ← h0]
    constructor
    · intro h
      have := congrArg List.length h
      simpa using this
    · intro h
      subst h
      rfl
  · unfold old_len_in_tolerance
    rw [hlen]
    exact htol

theorem not_mem_middle (A B : List Nat) (bpage : Nat) (hnd : (A ++ bpage :: B).Nodup) :
    bpage ∉ A ++ B := by
  obtain ⟨_, h1, h2⟩ := nodup_remove_middle A B bpage hnd
  intro hm
  rcases List.mem_append.mp hm with h | h
  · exact h1 h
  · exact h2 h

theorem free_block_evict_facts (c : buf_LRU_consts) (p : buf_pool_t) (A B : List Nat)
    (bpage b : Nat) (zip : Bool)
    (hM : 25 ≤ c.BUF_LRU_OLD_MIN_LEN) (hv : LRU_valid c p) (hl : p.LRU = A ++ bpage :: B)
    (hpf : page_freeable p bpage)
    (hrel : buf_page_can_relocate (p.blocks bpage) = true)
    (hclean : (p.blocks bpage).oldest_modification = 0)
    (hfull : zip = true ∨ (p.blocks bpage).zip_data = none ∨
      (p.blocks bpage).state ≠ .BUF_BLOCK_FILE_PAGE) :
    ∃ q, buf_LRU_free_block c p bpage zip b = some (true, true, q) ∧
      (buf_LRU_block_remove_hashed_page c p bpage zip).map Prod.fst =
        some (if (p.blocks bpage).state = .BUF_BLOCK_ZIP_PAGE then .BUF_BLOCK_ZIP_FREE
              else .BUF_BLOCK_REMOVE_HASH) ∧
      LRU_valid c q ∧ q.LRU = A ++ B ∧
      q.unzip_LRU = (if buf_page_belongs_to_unzip_LRU (p.blocks bpage) then
                      UT_LIST_REMOVE p.unzip_LRU bpage else p.unzip_LRU) ∧
      q.free = (if (p.blocks bpage).state = .BUF_BLOCK_ZIP_PAGE then p.free
                else bpage :: p.free) ∧
      q.flush_list = p.flush_list ∧ q.page_hash = p.page_hash.erase bpage ∧
      q.freed_page_clock = (p.freed_page_clock + 1) % 2 ^ 64 ∧
      q.buf_LRU_old_ratio = p.buf_LRU_old_ratio ∧
      q.blocks bpage = (if (p.blocks bpage).state = .BUF_BLOCK_ZIP_PAGE then
          page_after_remove (p.blocks bpage) zip
        else page_after_free (page_after_remove (p.blocks bpage) zip)) ∧
      (∀ x, x ≠ bpage → { q.blocks x with old := false } = { p.blocks x with old := false }) := by
  obtain ⟨q1, _, hv1, hl1, hf1, hrm, hq⟩ :=
    free_block_evict_spec c p A B bpage b zip hM hv hl hpf hrel hclean hfull
  obtain ⟨g1, g2, g3, g4, g5, g6, g7, g8⟩ := old_frame_fields _ _ _ hf1
  have hbq : bpage ∉ q1.LRU := by
    rw [hl1]
    exact not_mem_middle A B bpage (hl ▸ hv.1)
  have hx : ∀ x, { q1.blocks x with old := false } = { p.blocks x with old := false } := hf1.2.2
  by_cases hzp : (p.blocks bpage).state = .BUF_BLOCK_ZIP_PAGE
  · rw [if_pos hzp] at hq
    refine ⟨_, hq, ?_, LRU_valid_update c q1 _ bpage _ hbq hv1 rfl rfl rfl rfl rfl, hl1, g2,
      ?_, g4, ?_, ?_, g8, ?_, ?_⟩
    · rw [hrm]; rfl
    · rw [if_pos hzp]; exact g3
    · show q1.page_hash.erase bpage = _
      rw [g5]
    · show (q1.freed_page_clock + 1) % 2 ^ 64 = _
      rw [g6]
    · rw [if_pos hzp]
      show Function.update q1.blocks bpage _ bpage = _
      rw [Function.update_same]
    · intro x hxne
      show { Function.update q1.blocks bpage _ x with old := false } = _
      rw [Function.update_noteq hxne]
      exact hx x
  · rw [if_neg hzp] at hq
    refine ⟨_, hq, ?_, LRU_valid_update c q1 _ bpage _ hbq hv1 rfl rfl rfl rfl rfl, hl1, g2,
      ?_, g4, ?_, ?_, g8, ?_, ?_⟩
    · rw [hrm]; rfl
    · rw [if_neg hzp]
      show bpage :: q1.free = _
      rw [g3]
    · show q1.page_hash.erase bpage = _
      rw [g5]
    · show (q1.freed_page_clock + 1) % 2 ^ 64 = _
      rw [g6]
    · rw [if_neg hzp]
      show Function.update q1.blocks bpage _ bpage = _
      rw [Function.update_same]
    · intro x hxne
      show { Function.update q1.blocks bpage _ x with old := false } = _
      rw [Function.update_noteq hxne]
      exact hx x

theorem hash_erase_none (p q : buf_pool_t) (bpage : Nat) (hpf : page_freeable p bpage)
    (hq : q.page_hash = p.page_hash.erase bpage)
    (hx : ∀ x, x ≠ bpage → { q.blocks x with old := false } = { p.blocks x with old := false }) :
    bpage ∉ q.page_hash ∧
    buf_page_hash_get q (p.blocks bpage).space (p.blocks bpage).offset = none := by
  have hne : ∀ x ∈ p.page_hash.erase bpage, x ≠ bpage := by
    intro x hxm e
    apply hpf.2.2.2.1 x hxm
    rw [e]
    exact ⟨rfl, rfl⟩
  refine ⟨?_, ?_⟩
  · rw [hq]
    intro hm
    exact hne bpage hm rfl
  · unfold buf_page_hash_get
    rw [hq]
    apply hash_get_none_of_uniq
    intro x hxm hs
    apply hpf.2.2.2.1 x hxm
    have e1 := congrArg buf_page_t.space (hx x (hne x hxm))
    have e2 := congrArg buf_page_t.offset (hx x (hne x hxm))
    simp only at e1 e2
    unfold same_page at hs ⊢
    rw [← e1, ← e2]
    exact hs

theorem not_mem_remove (l : List Nat) (a : Nat) (h : l.Nodup) : a ∉ UT_LIST_REMOVE l a := by
  unfold UT_LIST_REMOVE
  exact fun hm => (List.Nodup.mem_erase_iff h).mp hm |>.1 rfl

theorem remove_block_valid (c : buf_LRU_consts) (p : buf_pool_t) (bpage : Nat)
    (hM : 25 ≤ c.BUF_LRU_OLD_MIN_LEN) (hv : LRU_valid c p) (hmem : bpage ∈ p.LRU)
    (hf : buf_page_in_file (p.blocks bpage) = true) :
    ∃ q, buf_LRU_remove_block c p bpage = some q ∧ LRU_valid c q ∧
      q.LRU = p.LRU.erase bpage ∧ q.LRU.length + 1 = p.LRU.length ∧
      q.buf_LRU_old_ratio = p.buf_LRU_old_ratio ∧
      (∀ x, { q.blocks x with old := false } = { p.blocks x with old := false }) := by
  obtain ⟨A, B, hl, hbA, _⟩ := split_of_mem_nodup p.LRU bpage hmem hv.1
  have herase : p.LRU.erase bpage = A ++ B := by
    have := remove_of_split A B bpage hbA
    unfold UT_LIST_REMOVE at this
    rw [hl, this]
  obtain ⟨q, _, _, hq, hvq, hlq, hfr, _, _⟩ := remove_block_spec c p A B bpage hM hv hl hf
  refine ⟨q, hq, hvq, by rw [hlq, herase], ?_, (old_frame_fields _ _ _ hfr).2.2.2.2.2.2.2,
    hfr.2.2⟩
  rw [hlq, hl]
  simp only [List.length_append, List.length_cons]
  omega

theorem adjust_loop_keeps (new_len : Nat) (fuel : Nat) (p q : buf_pool_t)
    (h : buf_LRU_old_adjust_len_loop new_len fuel p = some q) :
    q.buf_LRU_old_ratio = p.buf_LRU_old_ratio ∧ q.LRU = p.LRU := by
  induction fuel generalizing p with
  | zero => simp [buf_LRU_old_adjust_len_loop] at h
  | succ fuel ih =>
    unfold buf_LRU_old_adjust_len_loop at h
    cases ho : p.LRU_old with
    | none => simp [ho] at h
    | some o =>
      simp only [ho] at h
      split_ifs at h with h1 h2
      · cases hp : UT_LIST_GET_PREV p.LRU o with
        | none => simp [hp] at h
        | some prev =>
          simp only [hp] at h
          have h3 := ih _ h
          exact h3
      · have h3 := ih _ h
        exact h3
      · simp only [Option.some.injEq] at h
        rw [← h]
        exact ⟨rfl, rfl⟩

theorem adjust_keeps (p q : buf_pool_t) (h : buf_LRU_old_adjust_len p = some q) :
    q.buf_LRU_old_ratio = p.buf_LRU_old_ratio ∧ q.LRU = p.LRU := by
  unfold buf_LRU_old_adjust_len at h
  cases ho : p.LRU_old with
  | none => simp [ho] at h
  | some o =>
    simp only [ho] at h
    exact adjust_loop_keeps _ _ p q h

theorem ratio_update_ratio (c : buf_LRU_consts) (p : buf_pool_t) (old_pct : Nat)
    (adjust : Bool) (pct : Nat) (q : buf_pool_t)
    (h : buf_LRU_old_ratio_update c p old_pct adjust = some (pct, q)) :
    q.buf_LRU_old_ratio =
      (if (old_pct * BUF_LRU_OLD_RATIO_DIV) % 2 ^ 32 / 100 < c.BUF_LRU_OLD_RATIO_MIN then
        c.BUF_LRU_OLD_RATIO_MIN
      else if (old_pct * BUF_LRU_OLD_RATIO_DIV) % 2 ^ 32 / 100 > c.BUF_LRU_OLD_RATIO_MAX then
        c.BUF_LRU_OLD_RATIO_MAX
      else (old_pct * BUF_LRU_OLD_RATIO_DIV) % 2 ^ 32 / 100) := by
  obtain ⟨R, hR⟩ : ∃ R : Nat, R =
      (if (old_pct * BUF_LRU_OLD_RATIO_DIV) % 2 ^ 32 / 100 < c.BUF_LRU_OLD_RATIO_MIN then
        c.BUF_LRU_OLD_RATIO_MIN
      else if (old_pct * BUF_LRU_OLD_RATIO_DIV) % 2 ^ 32 / 100 > c.BUF_LRU_OLD_RATIO_MAX then
        c.BUF_LRU_OLD_RATIO_MAX
      else (old_pct * BUF_LRU_OLD_RATIO_DIV) % 2 ^ 32 / 100) := ⟨_, rfl⟩
  rw [← hR]
  unfold buf_LRU_old_ratio_update at h
  simp only [← hR] at h
  cases adjust with
  | false =>
    simp only [Bool.false_eq_true, if_false, Option.some.injEq, Prod.mk.injEq] at h
    rw [← h.2]
  | true =>
    simp only [if_true] at h
    by_cases h1 : R ≠ p.buf_LRU_old_ratio
    · rw [if_pos h1] at h
      by_cases h2 : p.LRU.length ≥ c.BUF_LRU_OLD_MIN_LEN
      · simp only [h2, if_true] at h
        cases ha : buf_LRU_old_adjust_len { p with buf_LRU_old_ratio := R } with
        | none => rw [ha] at h; simp at h
        | some q2 =>
          rw [ha] at h
          simp only [Option.some.injEq, Prod.mk.injEq] at h
          rw [← h.2]
          exact (adjust_keeps _ _ ha).1
      · simp only [h2, if_false, Option.some.injEq, Prod.mk.injEq] at h
        rw [← h.2]
    · rw [if_neg h1] at h
      simp only [Option.some.injEq, Prod.mk.injEq] at h
      rw [← h.2]
      exact (not_not.mp h1).symm

theorem ratio_clamp_ok (c : buf_LRU_consts) (r0 : Nat)
    (h : c.BUF_LRU_OLD_RATIO_MIN ≤ c.BUF_LRU_OLD_RATIO_MAX) :
    c.BUF_LRU_OLD_RATIO_MIN ≤
      (if r0 < c.BUF_LRU_OLD_RATIO_MIN then c.BUF_LRU_OLD_RATIO_MIN
       else if r0 > c.BUF_LRU_OLD_RATIO_MAX then c.BUF_LRU_OLD_RATIO_MAX else r0) ∧
    (if r0 < c.BUF_LRU_OLD_RATIO_MIN then c.BUF_LRU_OLD_RATIO_MIN
       else if r0 > c.BUF_LRU_OLD_RATIO_MAX then c.BUF_LRU_OLD_RATIO_MAX else r0)
      ≤ c.BUF_LRU_OLD_RATIO_MAX := by
  split_ifs <;> omega

theorem op_valid (c : buf_LRU_consts) (p : buf_pool_t) (o : LRU_op)
    (hc : consts_ok c) (hv : LRU_valid c p) (hr : ratio_ok c p) (hpre : op_pre p o) :
    ∃ q, op_apply c p o = some q ∧ LRU_valid c q ∧ ratio_ok c q := by
  have hM := M_of_consts c hc
  unfold ratio_ok at hr ⊢
  cases o with
  | add_block bpage old =>
    obtain ⟨q, hq, hvq, _, hrq⟩ := add_block_valid c p bpage old hM hv hpre.1 hpre.2
    exact ⟨q, hq, hvq, by rw [hrq]; exact hr⟩
  | remove_block bpage =>
    obtain ⟨q, hq, hvq, _, _, hrq, _⟩ := remove_block_valid c p bpage hM hv hpre.1 hpre.2
    exact ⟨q, hq, hvq, by rw [hrq]; exact hr⟩
  | make_block_young bpage =>
    obtain ⟨q, hq, hvq, _, _, _, hrq⟩ := make_young_spec c p bpage hM hv hpre.1 hpre.2
    exact ⟨q, hq, hvq, by rw [hrq]; exact hr⟩
  | make_block_old bpage =>
    obtain ⟨q, hq, hvq, _, hrq⟩ := make_old_spec c p bpage hM hv hpre.1 hpre.2
    exact ⟨q, hq, hvq, by rw [hrq]; exact hr⟩
  | free_block bpage zip b =>
    obtain ⟨r, q, hq, hvq, hrq, _⟩ := free_block_valid c p bpage b zip hM hv hpre.1 hpre.2
    refine ⟨q.2, ?_, hvq, by rw [hrq]; exact hr⟩
    show (buf_LRU_free_block c p bpage zip b).map _ = _
    rw [hq]
    rfl
  | free_one_page bpage =>
    obtain ⟨q, hq, hvq, hrq, _⟩ :=
      free_one_page_valid c p bpage hM hv hpre.1 hpre.2.1 hpre.2.2.1 hpre.2.2.2
    exact ⟨q, hq, hvq, by rw [hrq]; exact hr⟩
  | old_ratio_update old_pct =>
    obtain ⟨r, q, hq, hvq, _⟩ := ratio_update_valid c p old_pct hM hv
    refine ⟨q, ?_, hvq, ?_⟩
    · show (buf_LRU_old_ratio_update c p old_pct true).map _ = _
      rw [hq]
      rfl
    · rw [ratio_update_ratio c p old_pct true r q hq]
      exact ratio_clamp_ok c _ hc.2.2.1

theorem run_valid (c : buf_LRU_consts) (ops : List LRU_op) (p : buf_pool_t)
    (hc : consts_ok c) (hv : LRU_valid c p) (hr : ratio_ok c p)
    (hpre : ops_pre c p ops = true) :
    ∃ q, run_ops c p ops = some q ∧ LRU_valid c q ∧ ratio_ok c q := by
  induction ops generalizing p with
  | nil => exact ⟨p, rfl, hv, hr⟩
  | cons o os ih =>
    unfold ops_pre at hpre
    simp only [Bool.and_eq_true, decide_eq_true_eq] at hpre
    obtain ⟨q, hq, hvq, hrq⟩ := op_valid c p o hc hv hr hpre.1
    have h2 := hpre.2
    rw [hq] at h2
    obtain ⟨q2, hq2, hv2, hr2⟩ := ih q hvq hrq h2
    refine ⟨q2, ?_, hv2, hr2⟩
    unfold run_ops
    rw [hq]
    exact hq2

theorem strip_old_facts (a b : buf_page_t)
    (h : { a with old := false } = { b with old := false }) :
    a.state = b.state ∧ a.zip_data = b.zip_data ∧
    buf_page_in_file a = buf_page_in_file b ∧
    buf_page_belongs_to_unzip_LRU a = buf_page_belongs_to_unzip_LRU b := by
  have h1 := congrArg buf_page_t.state h
  have h2 := congrArg buf_page_t.zip_data h
  simp only at h1 h2
  refine ⟨h1, h2, ?_, ?_⟩
  · unfold buf_page_in_file
    rw [h1]
  · unfold buf_page_belongs_to_unzip_LRU
    rw [h1, h2]

theorem strip_clock_facts (a b : buf_page_t)
    (h : { a with old := false, freed_page_clock := 0 }
      = { b with old := false, freed_page_clock := 0 }) :
    a.state = b.state ∧ a.zip_data = b.zip_data ∧
    buf_page_in_file a = buf_page_in_file b ∧
    buf_page_belongs_to_unzip_LRU a = buf_page_belongs_to_unzip_LRU b := by
  have h1 := congrArg buf_page_t.state h
  have h2 := congrArg buf_page_t.zip_data h
  simp only at h1 h2
  refine ⟨h1, h2, ?_, ?_⟩
  · unfold buf_page_in_file
    rw [h1]
  · unfold buf_page_belongs_to_unzip_LRU
    rw [h1, h2]

theorem free_not_in_LRU (p : buf_pool_t) (h : lists_valid p) (x : Nat) (hx : x ∈ p.free) :
    x ∉ p.LRU ∧ x ∉ p.unzip_LRU ∧ buf_page_in_file (p.blocks x) = false := by
  obtain ⟨_, _, h3, _, h5, h6⟩ := h
  have hs := h5 x hx
  have hf : buf_page_in_file (p.blocks x) = false := by
    unfold buf_page_in_file
    rw [hs]
  have hl : x ∉ p.LRU := by
    intro hm
    have := h3 x hm
    rw [hf] at this
    exact absurd this (by decide)
  exact ⟨hl, fun hm => hl (h6 x hm).1, hf⟩

theorem get_free_only_spec (p : buf_pool_t) :
    (p.free = [] → buf_LRU_get_free_only p = some (none, p)) ∧
    (∀ block rest, p.free = block :: rest → buf_page_in_file (p.blocks block) = false →
      buf_LRU_get_free_only p = some (some block,
        { p with free := rest,
                 blocks := Function.update p.blocks block
                   { p.blocks block with state := .BUF_BLOCK_READY_FOR_USE } })) := by
  constructor
  · intro h
    unfold buf_LRU_get_free_only
    rw [h]
    rfl
  · intro block rest h hf
    unfold buf_LRU_get_free_only
    rw [h]
    simp only [List.head?_cons, hf, Bool.false_eq_true, if_false, UT_LIST_REMOVE,
      List.erase_cons_head, set_block]

theorem lists_valid_update (p Q : buf_pool_t) (block : Nat) (v : buf_page_t)
    (fr : List Nat) (h : lists_valid p)
    (hL : Q.LRU = p.LRU) (hU : Q.unzip_LRU = p.unzip_LRU) (hF : Q.free = fr)
    (hB : Q.blocks = Function.update p.blocks block v)
    (hl : block ∉ p.LRU) (hfr : fr.Nodup)
    (hfs : ∀ x ∈ fr, (x = block ∧ v.state = .BUF_BLOCK_NOT_USED) ∨ (x ≠ block ∧ x ∈ p.free)) :
    lists_valid Q := by
  obtain ⟨h1, h2, h3, h4, h5, h6⟩ := h
  have hu : block ∉ p.unzip_LRU := fun hm => hl (h6 block hm).1
  unfold lists_valid
  rw [hL, hU, hF, hB]
  refine ⟨hfr, h2, ?_, ?_, ?_, ?_⟩
  · intro x hx
    have hne : x ≠ block := fun e => hl (e ▸ hx)
    rw [Function.update_noteq hne]
    exact h3 x hx
  · intro x hx
    have hne : x ≠ block := fun e => hl (e ▸ hx)
    rw [Function.update_noteq hne]
    exact h4 x hx
  · intro x hx
    rcases hfs x hx with ⟨e, hv⟩ | ⟨hne, hm⟩
    · rw [e, Function.update_same]
      exact hv
    · rw [Function.update_noteq hne]
      exact h5 x hm
  · intro x hx
    have hne : x ≠ block := fun e => hu (e ▸ hx)
    rw [Function.update_noteq hne]
    exact h6 x hx

theorem get_free_only_lists (p : buf_pool_t) (h : lists_valid p) :
    ∃ r q, buf_LRU_get_free_only p = some (r, q) ∧ lists_valid q ∧
      q.LRU = p.LRU ∧ q.unzip_LRU = p.unzip_LRU := by
  cases hfr : p.free with
  | nil => exact ⟨none, p, (get_free_only_spec p).1 hfr, h, rfl, rfl⟩
  | cons block rest =>
    have hmem : block ∈ p.free := by rw [hfr]; simp
    obtain ⟨hl, hu, hf⟩ := free_not_in_LRU p h block hmem
    refine ⟨_, _, (get_free_only_spec p).2 block rest hfr hf, ?_, rfl, rfl⟩
    have h1 := h.1
    rw [hfr] at h1
    refine lists_valid_update p _ block _ rest h rfl rfl rfl rfl hl (List.nodup_cons.mp h1).2 ?_
    intro x hx
    right
    refine ⟨fun e => (List.nodup_cons.mp h1).1 (e ▸ hx), ?_⟩
    rw [hfr]
    exact List.mem_cons_of_mem _ hx

theorem free_non_file_lists (p : buf_pool_t) (block : Nat) (h : lists_valid p)
    (hs : (p.blocks block).state = .BUF_BLOCK_MEMORY ∨
      (p.blocks block).state = .BUF_BLOCK_READY_FOR_USE) :
    ∃ q, buf_LRU_block_free_non_file_page p block = some q ∧ lists_valid q ∧
      q.free = block :: p.free ∧ q.LRU = p.LRU ∧ q.unzip_LRU = p.unzip_LRU := by
  have hnf : buf_page_in_file (p.blocks block) = false := by
    unfold buf_page_in_file
    rcases hs with e | e <;> rw [e]
  have hl : block ∉ p.LRU := by
    intro hm
    have := h.2.2.1 block hm
    rw [hnf] at this
    exact absurd this (by decide)
  have hfr : block ∉ p.free := by
    intro hm
    have := h.2.2.2.2.1 block hm
    rcases hs with e | e <;> rw [e] at this <;> exact absurd this (by decide)
  have key : ∃ v : buf_page_t, v.state = .BUF_BLOCK_NOT_USED ∧
      buf_LRU_block_free_non_file_page p block =
        some { p with blocks := Function.update p.blocks block v, free := block :: p.free } := by
    unfold buf_LRU_block_free_non_file_page
    rcases hs with e | e
    · rw [e]
      simp only [set_block, Function.update_same, UT_LIST_ADD_FIRST]
      cases hz : (p.blocks block).zip_data with
      | none => exact ⟨_, rfl, rfl⟩
      | some z =>
        simp only [Function.update_idem]
        exact ⟨_, rfl, rfl⟩
    · rw [e]
      simp only [set_block, Function.update_same, UT_LIST_ADD_FIRST]
      cases hz : (p.blocks block).zip_data with
      | none => exact ⟨_, rfl, rfl⟩
      | some z =>
        simp only [Function.update_idem]
        exact ⟨_, rfl, rfl⟩
  obtain ⟨v, hv, hq⟩ := key
  refine ⟨_, hq, ?_, rfl, rfl, rfl⟩
  refine lists_valid_update p _ block v (block :: p.free) h rfl rfl rfl rfl hl
    (List.nodup_cons.mpr ⟨hfr, h.1⟩) ?_
  intro x hx
  rcases List.mem_cons.mp hx with e | hm
  · exact Or.inl ⟨e, hv⟩
  · exact Or.inr ⟨fun e => hfr (e ▸ hm), hm⟩

theorem lists_valid_insert (p q : buf_pool_t) (bpage : Nat) (old : Bool)
    (h : lists_valid p) (hb : bpage ∉ p.LRU)
    (hf : buf_page_in_file (p.blocks bpage) = true)
    (hmem : ∀ x, x ∈ q.LRU ↔ x = bpage ∨ x ∈ p.LRU)
    (hfree : q.free = p.free)
    (hun : q.unzip_LRU =
        (if buf_page_belongs_to_unzip_LRU (p.blocks bpage) then
          (if old then UT_LIST_ADD_LAST p.unzip_LRU bpage
           else UT_LIST_ADD_FIRST p.unzip_LRU bpage)
         else p.unzip_LRU))
    (hbl : ∀ x, (q.blocks x).state = (p.blocks x).state ∧
      (q.blocks x).zip_data = (p.blocks x).zip_data) :
    lists_valid q := by
  obtain ⟨h1, h2, h3, h4, h5, h6⟩ := h
  have hu : bpage ∉ p.unzip_LRU := fun hm => hb (h6 bpage hm).1
  have hs : ∀ x, (q.blocks x).state = (p.blocks x).state ∧
      (q.blocks x).zip_data = (p.blocks x).zip_data ∧
      buf_page_in_file (q.blocks x) = buf_page_in_file (p.blocks x) ∧
      buf_page_belongs_to_unzip_LRU (q.blocks x)
        = buf_page_belongs_to_unzip_LRU (p.blocks x) := by
    intro x
    refine ⟨(hbl x).1, (hbl x).2, ?_, ?_⟩
    · unfold buf_page_in_file
      rw [(hbl x).1]
    · unfold buf_page_belongs_to_unzip_LRU
      rw [(hbl x).1, (hbl x).2]
  have hmu : ∀ x, x ∈ q.unzip_LRU ↔
      (x = bpage ∧ buf_page_belongs_to_unzip_LRU (p.blocks bpage) = true) ∨ x ∈ p.unzip_LRU := by
    intro x
    rw [hun]
    unfold UT_LIST_ADD_LAST UT_LIST_ADD_FIRST
    by_cases hbel : buf_page_belongs_to_unzip_LRU (p.blocks bpage) = true
    · rw [if_pos hbel]
      cases old
      · simp [hbel]
      · simp [hbel]
        tauto
    · rw [if_neg hbel]
      simp [hbel]
  unfold lists_valid
  refine ⟨hfree ▸ h1, ?_, ?_, ?_, ?_, ?_⟩
  · rw [hun]
    unfold UT_LIST_ADD_LAST UT_LIST_ADD_FIRST
    split_ifs
    · refine List.nodup_append.mpr ⟨h2, by simp, ?_⟩
      intro x hx hm
      have : x = bpage := by simpa using hm
      exact hu (this ▸ hx)
    · exact List.nodup_cons.mpr ⟨hu, h2⟩
    · exact h2
  · intro x hx
    rw [(hs x).2.2.1]
    rcases (hmem x).mp hx with e | hm
    · rw [e]; exact hf
    · exact h3 x hm
  · intro x hx
    rw [(hs x).1, (hs x).2.2.2, hmu]
    intro hst
    rcases (hmem x).mp hx with e | hm
    · rw [e]
      constructor
      · rintro (⟨_, hbel⟩ | hm)
        · exact hbel
        · exact absurd hm hu
      · intro hbel
        exact Or.inl ⟨rfl, hbel⟩
    · have := h4 x hm hst
      constructor
      · rintro (⟨e, _⟩ | hm2)
        · exact absurd (e ▸ hm) hb
        · exact this.mp hm2
      · intro hbel
        exact Or.inr (this.mpr hbel)
  · intro x hx
    rw [(hs x).1]
    exact h5 x (hfree ▸ hx)
  · intro x hx
    rw [(hs x).2.2.2]
    rcases (hmu x).mp hx with ⟨e, hbel⟩ | hm
    · rw [e]
      exact ⟨(hmem bpage).mpr (Or.inl rfl), hbel⟩
    · exact ⟨(hmem x).mpr (Or.inr (h6 x hm).1), (h6 x hm).2⟩

theorem add_block_lists (c : buf_LRU_consts) (p : buf_pool_t) (bpage : Nat) (old : Bool)
    (hM : 25 ≤ c.BUF_LRU_OLD_MIN_LEN) (hv : LRU_valid c p) (h : lists_valid p)
    (hb : bpage ∉ p.LRU) (hf : buf_page_in_file (p.blocks bpage) = true) :
    ∃ q, buf_LRU_add_block c p bpage old = some q ∧ lists_valid q := by
  unfold buf_LRU_add_block
  by_cases hcond : old = false ∨ p.LRU.length < c.BUF_LRU_OLD_MIN_LEN
  · obtain ⟨q, hq, _, hl, hu, hfr⟩ := add_head_spec c p bpage old hM hv hb hf hcond
    refine ⟨q, hq, lists_valid_insert p q bpage old h hb hf ?_ ?_ hu ?_⟩
    · intro x
      rw [hl]
      simp
    · exact (old_frame_fields _ _ _ hfr).2.2.1
    · intro x
      have h2 := strip_old_facts _ _ (hfr.2.2 x)
      rw [h2.1, h2.2.1]
      show (Function.update p.blocks bpage _ x).state = _ ∧
        (Function.update p.blocks bpage _ x).zip_data = _
      by_cases e : x = bpage
      · rw [e, Function.update_same]
        exact ⟨rfl, rfl⟩
      · rw [Function.update_noteq e]
        exact ⟨rfl, rfl⟩
  · have ho : old = true := by
      cases old
      · exact absurd (Or.inl rfl) hcond
      · rfl
    have hn : c.BUF_LRU_OLD_MIN_LEN ≤ p.LRU.length := by
      by_contra h
      exact hcond (Or.inr (by omega))
    subst ho
    obtain ⟨o, q, ys, zs0, _, hpl, hq, _, hl, _, _, hu, hfr, _⟩ :=
      add_old_spec c p bpage hM hv hb hf hn
    refine ⟨q, hq, lists_valid_insert p q bpage true h hb hf ?_ ?_ ?_ ?_⟩
    · intro x
      rw [hl, hpl]
      simp
      tauto
    · exact (old_frame_fields _ _ _ hfr).2.2.1
    · rw [hu]
      rfl
    · intro x
      have h2 := strip_old_facts _ _ (hfr.2.2 x)
      exact ⟨h2.1, h2.2.1⟩

theorem lists_valid_remove (p q : buf_pool_t) (A B extra : List Nat) (bpage : Nat)
    (h : lists_valid p) (hnd : p.LRU.Nodup) (hl : p.LRU = A ++ bpage :: B)
    (hq : ∀ x, x ∈ q.LRU ↔ x ∈ A ++ B ∨ x ∈ extra)
    (hex : ∀ y ∈ extra, y ∉ p.unzip_LRU ∧ y ∉ p.free ∧ y ≠ bpage ∧
      buf_page_in_file (q.blocks y) = true ∧ (q.blocks y).state ≠ .BUF_BLOCK_FILE_PAGE)
    (hfn : q.free.Nodup)
    (hfree : ∀ x ∈ q.free,
      (x = bpage ∧ (q.blocks bpage).state = .BUF_BLOCK_NOT_USED) ∨ x ∈ p.free)
    (hun : q.unzip_LRU.Nodup)
    (hum : ∀ x, x ∈ q.unzip_LRU ↔ x ∈ p.unzip_LRU ∧ x ≠ bpage)
    (hbl : ∀ x, x ≠ bpage → x ∉ extra → (q.blocks x).state = (p.blocks x).state ∧
      (q.blocks x).zip_data = (p.blocks x).zip_data) :
    lists_valid q := by
  obtain ⟨h1, h2, h3, h4, h5, h6⟩ := h
  have hnot : bpage ∉ A ++ B := not_mem_middle A B bpage (hl ▸ hnd)
  have hsub : ∀ x, x ∈ A ++ B → x ∈ p.LRU ∧ x ≠ bpage := by
    intro x hx
    refine ⟨?_, fun e => hnot (e ▸ hx)⟩
    rw [hl]
    rcases List.mem_append.mp hx with hm | hm
    · exact List.mem_append_left _ hm
    · exact List.mem_append_right _ (List.mem_cons_of_mem _ hm)
  have hsup : ∀ x, x ∈ p.LRU → x ≠ bpage → x ∈ A ++ B := by
    intro x hx hne
    rw [hl] at hx
    rcases List.mem_append.mp hx with hm | hm
    · exact List.mem_append_left _ hm
    · rcases List.mem_cons.mp hm with e | hm2
      · exact absurd e hne
      · exact List.mem_append_right _ hm2
  have hs : ∀ x, x ≠ bpage → x ∉ extra →
      buf_page_in_file (q.blocks x) = buf_page_in_file (p.blocks x) ∧
      buf_page_belongs_to_unzip_LRU (q.blocks x)
        = buf_page_belongs_to_unzip_LRU (p.blocks x) := by
    intro x h1 h2
    obtain ⟨e1, e2⟩ := hbl x h1 h2
    constructor
    · unfold buf_page_in_file
      rw [e1]
    · unfold buf_page_belongs_to_unzip_LRU
      rw [e1, e2]
  have hbf : bpage ∉ p.free := by
    intro hm
    have hin := h3 bpage (by rw [hl]; simp)
    have hst := h5 bpage hm
    unfold buf_page_in_file at hin
    rw [hst] at hin
    exact absurd hin (by decide)
  unfold lists_valid
  refine ⟨hfn, hun, ?_, ?_, ?_, ?_⟩
  · intro x hx
    rcases (hq x).mp hx with hm | hm
    · by_cases he : x ∈ extra
      · exact (hex x he).2.2.2.1
      · rw [(hs x (hsub x hm).2 he).1]
        exact h3 x (hsub x hm).1
    · exact (hex x hm).2.2.2.1
  · intro x hx hst
    by_cases he : x ∈ extra
    · exact absurd hst (hex x he).2.2.2.2
    · rcases (hq x).mp hx with hm | hm
      · obtain ⟨hxl, hxne⟩ := hsub x hm
        rw [(hs x hxne he).2, hum]
        rw [(hbl x hxne he).1] at hst
        have := h4 x hxl hst
        constructor
        · intro hh
          exact this.mp hh.1
        · intro hh
          exact ⟨this.mpr hh, hxne⟩
      · exact absurd hm he
  · intro x hx
    rcases hfree x hx with ⟨e, hst⟩ | hm
    · rw [e]
      exact hst
    · have hxne : x ≠ bpage := fun e => hbf (e ▸ hm)
      have hxe : x ∉ extra := fun he => (hex x he).2.1 hm
      rw [(hbl x hxne hxe).1]
      exact h5 x hm
  · intro x hx
    obtain ⟨hxu, hxne⟩ := (hum x).mp hx
    have hxe : x ∉ extra := fun he => (hex x he).1 hxu
    refine ⟨(hq x).mpr (Or.inl (hsup x (h6 x hxu).1 hxne)), ?_⟩
    rw [(hs x hxne hxe).2]
    exact (h6 x hxu).2

theorem unzip_remove_mem (p : buf_pool_t) (bpage : Nat) (h : lists_valid p) :
    (if buf_page_belongs_to_unzip_LRU (p.blocks bpage) then
        UT_LIST_REMOVE p.unzip_LRU bpage else p.unzip_LRU).Nodup ∧
    ∀ x, x ∈ (if buf_page_belongs_to_unzip_LRU (p.blocks bpage) then
        UT_LIST_REMOVE p.unzip_LRU bpage else p.unzip_LRU) ↔ x ∈ p.unzip_LRU ∧ x ≠ bpage := by
  obtain ⟨_, h2, _, _, _, h6⟩ := h
  unfold UT_LIST_REMOVE
  by_cases hb : buf_page_belongs_to_unzip_LRU (p.blocks bpage) = true
  · rw [if_pos hb]
    refine ⟨h2.erase bpage, ?_⟩
    intro x
    rw [List.Nodup.mem_erase_iff h2]
    tauto
  · rw [if_neg hb]
    refine ⟨h2, ?_⟩
    intro x
    constructor
    · intro hx
      exact ⟨hx, fun e => hb (e ▸ (h6 x hx).2)⟩
    · intro hx
      exact hx.1

theorem free_one_page_facts (c : buf_LRU_consts) (p : buf_pool_t) (A B : List Nat)
    (bpage : Nat)
    (hM : 25 ≤ c.BUF_LRU_OLD_MIN_LEN) (hv : LRU_valid c p) (hl : p.LRU = A ++ bpage :: B)
    (hpf : page_freeable p bpage)
    (hio : (p.blocks bpage).io_fix = .BUF_IO_NONE) (hfix : (p.blocks bpage).buf_fix_count = 0)
    (hclean : (p.blocks bpage).oldest_modification = 0) :
    ∃ q, buf_LRU_free_one_page c p bpage = some q ∧
      LRU_valid c q ∧ q.LRU = A ++ B ∧
      q.unzip_LRU = (if buf_page_belongs_to_unzip_LRU (p.blocks bpage) then
                      UT_LIST_REMOVE p.unzip_LRU bpage else p.unzip_LRU) ∧
      q.free = (if (p.blocks bpage).state = .BUF_BLOCK_ZIP_PAGE then p.free
                else bpage :: p.free) ∧
      q.flush_list = p.flush_list ∧ q.page_hash = p.page_hash.erase bpage ∧
      q.freed_page_clock = (p.freed_page_clock + 1) % 2 ^ 64 ∧
      q.blocks bpage = (if (p.blocks bpage).state = .BUF_BLOCK_ZIP_PAGE then
          page_after_remove (p.blocks bpage) true
        else page_after_free (page_after_remove (p.blocks bpage) true)) ∧
      (∀ x, x ≠ bpage → { q.blocks x with old := false } = { p.blocks x with old := false }) := by
  obtain ⟨q1, _, hv1, hl1, hf1, hq⟩ :=
    free_one_page_spec c p A B bpage hM hv hl hpf hio hfix hclean
  obtain ⟨g1, g2, g3, g4, g5, g6, g7, g8⟩ := old_frame_fields _ _ _ hf1
  have hbq : bpage ∉ q1.LRU := by
    rw [hl1]
    exact not_mem_middle A B bpage (hl ▸ hv.1)
  have hx : ∀ x, { q1.blocks x with old := false } = { p.blocks x with old := false } := hf1.2.2
  by_cases hzp : (p.blocks bpage).state = .BUF_BLOCK_ZIP_PAGE
  · rw [if_pos hzp] at hq
    refine ⟨_, hq, LRU_valid_update c q1 _ bpage _ hbq hv1 rfl rfl rfl rfl rfl, hl1, g2,
      ?_, g4, ?_, ?_, ?_, ?_⟩
    · rw [if_pos hzp]; exact g3
    · show q1.page_hash.erase bpage = _
      rw [g5]
    · show (q1.freed_page_clock + 1) % 2 ^ 64 = _
      rw [g6]
    · rw [if_pos hzp]
      show Function.update q1.blocks bpage _ bpage = _
      rw [Function.update_same]
    · intro x hxne
      show { Function.update q1.blocks bpage _ x with old := false } = _
      rw [Function.update_noteq hxne]
      exact hx x
  · rw [if_neg hzp] at hq
    refine ⟨_, hq, LRU_valid_update c q1 _ bpage _ hbq hv1 rfl rfl rfl rfl rfl, hl1, g2,
      ?_, g4, ?_, ?_, ?_, ?_⟩
    · rw [if_neg hzp]
      show bpage :: q1.free = _
      rw [g3]
    · show q1.page_hash.erase bpage = _
      rw [g5]
    · show (q1.freed_page_clock + 1) % 2 ^ 64 = _
      rw [g6]
    · rw [if_neg hzp]
      show Function.update q1.blocks bpage _ bpage = _
      rw [Function.update_same]
    · intro x hxne
      show { Function.update q1.blocks bpage _ x with old := false } = _
      rw [Function.update_noteq hxne]
      exact hx x

theorem lists_valid_evicted (p q : buf_pool_t) (A B : List Nat) (bpage : Nat) (zip : Bool)
    (h : lists_valid p) (hnd : p.LRU.Nodup) (hl : p.LRU = A ++ bpage :: B)
    (hlq : q.LRU = A ++ B)
    (hu : q.unzip_LRU = (if buf_page_belongs_to_unzip_LRU (p.blocks bpage) then
                      UT_LIST_REMOVE p.unzip_LRU bpage else p.unzip_LRU))
    (hfr : q.free = (if (p.blocks bpage).state = .BUF_BLOCK_ZIP_PAGE then p.free
                else bpage :: p.free))
    (hbq : q.blocks bpage = (if (p.blocks bpage).state = .BUF_BLOCK_ZIP_PAGE then
          page_after_remove (p.blocks bpage) zip
        else page_after_free (page_after_remove (p.blocks bpage) zip)))
    (hx : ∀ x, x ≠ bpage → { q.blocks x with old := false } = { p.blocks x with old := false }) :
    lists_valid q := by
  have hbf : bpage ∉ p.free := by
    intro hm
    have hin := h.2.2.1 bpage (by rw [hl]; simp)
    have hst := h.2.2.2.2.1 bpage hm
    unfold buf_page_in_file at hin
    rw [hst] at hin
    exact absurd hin (by decide)
  obtain ⟨u1, u2⟩ := unzip_remove_mem p bpage h
  refine lists_valid_remove p q A B [] bpage h hnd hl ?_ ?_ ?_ ?_ (hu ▸ u1) ?_ ?_
  · intro x
    rw [hlq]
    simp
  · intro y hy
    exact absurd hy (List.not_mem_nil y)
  · rw [hfr]
    split_ifs
    · exact h.1
    · exact List.nodup_cons.mpr ⟨hbf, h.1⟩
  · intro x hxm
    rw [hfr] at hxm
    by_cases hzp : (p.blocks bpage).state = .BUF_BLOCK_ZIP_PAGE
    · rw [if_pos hzp] at hxm
      exact Or.inr hxm
    · rw [if_neg hzp] at hxm
      rcases List.mem_cons.mp hxm with e | hm
      · left
        refine ⟨e, ?_⟩
        rw [hbq, if_neg hzp]
        rfl
      · exact Or.inr hm
  · intro x
    rw [hu]
    exact u2 x
  · intro x hxne _
    have := strip_old_facts _ _ (hx x hxne)
    exact ⟨this.1, this.2.1⟩

theorem free_one_page_lists (c : buf_LRU_consts) (p : buf_pool_t) (bpage : Nat)
    (hM : 25 ≤ c.BUF_LRU_OLD_MIN_LEN) (hv : LRU_valid c p) (h : lists_valid p)
    (hpf : page_freeable p bpage)
    (hio : (p.blocks bpage).io_fix = .BUF_IO_NONE) (hfix : (p.blocks bpage).buf_fix_count = 0)
    (hclean : (p.blocks bpage).oldest_modification = 0) :
    ∃ q, buf_LRU_free_one_page c p bpage = some q ∧ lists_valid q := by
  obtain ⟨A, B, hl, _, _⟩ := split_of_mem_nodup p.LRU bpage hpf.1 hv.1
  obtain ⟨q, hq, _, hlq, hu, hfr, _, _, _, hbq, hx⟩ :=
    free_one_page_facts c p A B bpage hM hv hl hpf hio hfix hclean
  exact ⟨q, hq, lists_valid_evicted p q A B bpage true h hv.1 hl hlq hu hfr hbq hx⟩

theorem free_block_false_same (c : buf_LRU_consts) (p : buf_pool_t) (bpage b : Nat)
    (zip : Bool) (removed : Bool) (q : buf_pool_t)
    (h : buf_LRU_free_block c p bpage zip b = some (false, removed, q)) :
    q = p ∧ removed = false := by
  unfold buf_LRU_free_block at h
  by_cases h1 : (!buf_page_can_relocate (p.blocks bpage)) = true
  · rw [if_pos h1] at h
    simp only [Option.some.injEq, Prod.mk.injEq, true_and] at h
    exact ⟨h.2.symm, h.1.symm⟩
  · rw [if_neg h1] at h
    simp only at h
    by_cases h2 : ((zip || (p.blocks bpage).zip_data.isNone) &&
        decide ((p.blocks bpage).oldest_modification ≠ 0)) = true
    · rw [if_pos h2] at h
      simp only [Option.some.injEq, Prod.mk.injEq, true_and] at h
      exact ⟨h.2.symm, h.1.symm⟩
    · rw [if_neg h2] at h
      by_cases h3 : (!(zip || (p.blocks bpage).zip_data.isNone) &&
          decide ((p.blocks bpage).oldest_modification ≠ 0) &&
          !decide ((p.blocks bpage).state = buf_page_state.BUF_BLOCK_FILE_PAGE)) = true
      · rw [if_pos h3] at h
        simp only [Option.some.injEq, Prod.mk.injEq, true_and] at h
        exact ⟨h.2.symm, h.1.symm⟩
      · rw [if_neg h3] at h
        exfalso
        repeat' (split at h)
        all_goals cases h

theorem lists_valid_relocated (p q : buf_pool_t) (A B : List Nat) (bpage b : Nat)
    (h : lists_valid p) (hnd : p.LRU.Nodup) (hl : p.LRU = A ++ bpage :: B)
    (hfresh : fresh_descriptor p b)
    (hst : (p.blocks bpage).state = .BUF_BLOCK_FILE_PAGE)
    (hz : (p.blocks bpage).zip_data.isSome = true)
    (hlq : q.LRU = A ++ b :: B)
    (hu : q.unzip_LRU = UT_LIST_REMOVE p.unzip_LRU bpage)
    (hfr : q.free = bpage :: p.free)
    (kb : { q.blocks b with old := false, freed_page_clock := 0 }
        = { p.blocks bpage with
            state := if (p.blocks bpage).oldest_modification ≠ 0
                     then .BUF_BLOCK_ZIP_DIRTY else .BUF_BLOCK_ZIP_PAGE,
            sticky := false,
            old := false, freed_page_clock := 0 })
    (kbp : { q.blocks bpage with old := false, freed_page_clock := 0 }
        = { page_after_free (page_after_remove (p.blocks bpage) false) with
            old := false, freed_page_clock := 0 })
    (kx : ∀ x, x ≠ b → x ≠ bpage →
        { q.blocks x with old := false, freed_page_clock := 0 }
          = { p.blocks x with old := false, freed_page_clock := 0 }) :
    lists_valid q := by
  have hbne : b ≠ bpage := fun e => hfresh.1 (e ▸ (by rw [hl]; simp))
  have hbel : buf_page_belongs_to_unzip_LRU (p.blocks bpage) = true := by
    unfold buf_page_belongs_to_unzip_LRU
    simp [hst, hz]
  have hbf : bpage ∉ p.free := by
    intro hm
    have hs2 := h.2.2.2.2.1 bpage hm
    rw [hst] at hs2
    exact absurd hs2 (by decide)
  obtain ⟨u1, u2⟩ := unzip_remove_mem p bpage h
  rw [if_pos hbel] at u1 u2
  have e5 := congrArg buf_page_t.state kb
  have f1 := congrArg buf_page_t.state kbp
  simp only at e5 f1
  refine lists_valid_remove p q A B [b] bpage h hnd hl ?_ ?_ ?_ ?_ (hu ▸ u1) ?_ ?_
  · intro x
    rw [hlq]
    simp
    tauto
  · intro y hy
    have : y = b := by simpa using hy
    subst this
    refine ⟨hfresh.2.1, hfresh.2.2.1, hbne, ?_, ?_⟩
    · unfold buf_page_in_file
      rw [e5]
      split_ifs <;> rfl
    · rw [e5]
      split_ifs <;> decide
  · rw [hfr]
    exact List.nodup_cons.mpr ⟨hbf, h.1⟩
  · intro x hxm
    rw [hfr] at hxm
    rcases List.mem_cons.mp hxm with e | hm
    · left
      refine ⟨e, ?_⟩
      rw [f1]
      rfl
    · exact Or.inr hm
  · intro x
    rw [hu]
    exact u2 x
  · intro x hxne hxb
    have hxb2 : x ≠ b := fun e => hxb (by simp [e])
    have := strip_clock_facts _ _ (kx x hxb2 hxne)
    exact ⟨this.1, this.2.1⟩

theorem free_block_lists (c : buf_LRU_consts) (p : buf_pool_t) (bpage b : Nat) (zip : Bool)
    (hM : 25 ≤ c.BUF_LRU_OLD_MIN_LEN) (hv : LRU_valid c p) (h : lists_valid p)
    (hpf : page_freeable p bpage) (hfresh : fresh_descriptor p b) :
    ∃ ret removed q, buf_LRU_free_block c p bpage zip b = some (ret, removed, q) ∧
      lists_valid q ∧ LRU_valid c q := by
  obtain ⟨A, B, hl, _, _⟩ := split_of_mem_nodup p.LRU bpage hpf.1 hv.1
  rcases free_block_cases p bpage zip with h1 | ⟨hd, h1⟩ | ⟨hrel, hzip, hst, hz⟩ | ⟨hrel, hd, h1⟩
  · refine ⟨false, false, p, ?_, h, hv⟩
    unfold buf_LRU_free_block
    simp [h1]
  · exact ⟨false, false, p, free_block_refuse c p bpage b zip hd h1, h, hv⟩
  · subst hzip
    obtain ⟨q, hq, hvq, hlq, hu, hfr, _, _, _, _, _, _, _, _, kb, kbp, kx⟩ :=
      free_block_relocate_spec c p A B bpage b hM hv hl hpf hrel hfresh hst hz
    exact ⟨true, false, q, hq,
      lists_valid_relocated p q A B bpage b h hv.1 hl hfresh hst hz hlq hu hfr kb kbp kx, hvq⟩
  · obtain ⟨q, hq, _, hvq, hlq, hu, hfr, _, _, _, _, hbq, hx⟩ :=
      free_block_evict_facts c p A B bpage b zip hM hv hl hpf hrel hd h1
    exact ⟨true, true, q, hq,
      lists_valid_evicted p q A B bpage zip h hv.1 hl hlq hu hfr hbq hx, hvq⟩

theorem prev_mem (l : List Nat) (a y : Nat) (h : UT_LIST_GET_PREV l a = some y) : y ∈ l := by
  induction l with
  | nil => simp [UT_LIST_GET_PREV] at h
  | cons x rest ih =>
    cases rest with
    | nil => simp [UT_LIST_GET_PREV] at h
    | cons z rest2 =>
      unfold UT_LIST_GET_PREV at h
      split_ifs at h with h1 h2
      · simp only [Option.some.injEq] at h
        rw [← h]
        simp
      · exact List.mem_cons_of_mem _ (ih h)

theorem trace_step (a : Nat × Bool) (ext : List (Nat × Bool)) (ha : a.2 = false)
    (h1 : ∀ e ∈ ext.dropLast, e.2 = false) :
    ∀ e ∈ (a :: ext).dropLast, e.2 = false := by
  intro e he
  cases ext with
  | nil => simp at he
  | cons x xs =>
    rw [List.dropLast_cons₂] at he
    rcases List.mem_cons.mp he with e1 | e1
    · rw [e1]; exact ha
    · exact h1 e e1

theorem unzip_scan_trace (c : buf_LRU_consts) (b : Nat) (d : Nat) :
    ∀ (cur : Option Nat) (p : buf_pool_t) (tr : List (Nat × Bool)) (r : Bool)
      (tr2 : List (Nat × Bool)) (q : buf_pool_t),
      unzip_LRU_scan c b d cur p tr = some (r, tr2, q) →
      ∃ ext, tr2 = tr ++ ext ∧ ext.length ≤ d ∧
        (ext ≠ [] → ext.head?.map Prod.fst = cur) ∧
        (∀ e ∈ ext.dropLast, e.2 = false) ∧
        (r = true → ext.getLast?.map Prod.snd = some true) ∧
        (r = false → q = p ∧ ∀ e ∈ ext, e.2 = false) := by
  induction d with
  | zero =>
    intro cur p tr r tr2 q h
    unfold unzip_LRU_scan at h
    simp only [Option.some.injEq, Prod.mk.injEq] at h
    obtain ⟨h1, h2, h3⟩ := h
    refine ⟨[], by simp [h2], by simp, by simp, by simp, ?_, ?_⟩
    · intro hr; rw [← h1] at hr; exact absurd hr (by decide)
    · intro _; exact ⟨h3.symm, by simp⟩
  | succ d ih =>
    intro cur p tr r tr2 q h
    cases cur with
    | none =>
      unfold unzip_LRU_scan at h
      simp only [Option.some.injEq, Prod.mk.injEq] at h
      obtain ⟨h1, h2, h3⟩ := h
      refine ⟨[], by simp [h2], by simp, by simp, by simp, ?_, ?_⟩
      · intro hr; rw [← h1] at hr; exact absurd hr (by decide)
      · intro _; exact ⟨h3.symm, by simp⟩
    | some blk =>
      unfold unzip_LRU_scan at h
      cases hfb : buf_LRU_free_block c p blk false b with
      | none => rw [hfb] at h; cases h
      | some res =>
        obtain ⟨freed, rm, q1⟩ := res
        rw [hfb] at h
        simp only at h
        cases freed with
        | true =>
          simp only [if_true, Option.some.injEq, Prod.mk.injEq] at h
          obtain ⟨h1, h2, h3⟩ := h
          refine ⟨[(blk, true)], h2.symm, by simp, by simp, by simp, by simp, ?_⟩
          intro hr; rw [← h1] at hr; exact absurd hr (by decide)
        | false =>
          simp only [Bool.false_eq_true, if_false] at h
          obtain ⟨hq1, _⟩ := free_block_false_same c p blk b false rm q1 hfb
          obtain ⟨ext, e1, e2, e3, e4, e5, e6⟩ := ih _ _ _ _ _ _ h
          refine ⟨(blk, false) :: ext, ?_, ?_, ?_, ?_, ?_, ?_⟩
          · rw [e1]; simp
          · simp only [List.length_cons]; omega
          · intro _; rfl
          · exact trace_step (blk, false) ext rfl e4
          · intro hr
            have h5 := e5 hr
            cases ext with
            | nil => simp at h5
            | cons x xs =>
              rw [List.getLast?_cons_cons]
              exact h5
          · intro hr
            obtain ⟨g1, g2⟩ := e6 hr
            refine ⟨g1.trans hq1, ?_⟩
            intro e he
            rcases List.mem_cons.mp he with e7 | e7
            · rw [e7]
            · exact g2 e e7

theorem unzip_scan_total (c : buf_LRU_consts) (b : Nat) (p : buf_pool_t)
    (hM : 25 ≤ c.BUF_LRU_OLD_MIN_LEN) (hok : pool_ok c p b) (d : Nat) :
    ∀ (cur : Option Nat) (tr : List (Nat × Bool)),
      (∀ blk, cur = some blk → blk ∈ p.unzip_LRU) →
      ∃ res, unzip_LRU_scan c b d cur p tr = some res := by
  obtain ⟨hv, hlv, hpf, hfresh⟩ := hok
  induction d with
  | zero =>
    intro cur tr _
    exact ⟨_, rfl⟩
  | succ d ih =>
    intro cur tr hcur
    cases cur with
    | none => exact ⟨_, rfl⟩
    | some blk =>
      have hm := hcur blk rfl
      have hl := (hlv.2.2.2.2.2 blk hm).1
      obtain ⟨r, q, hq, _⟩ := free_block_valid c p blk b false hM hv (hpf blk hl) hfresh
      unfold unzip_LRU_scan
      rw [hq]
      simp only
      cases r with
      | true => exact ⟨_, rfl⟩
      | false =>
        simp only [Bool.false_eq_true, if_false]
        obtain ⟨hq1, _⟩ := free_block_false_same c p blk b false q.1 q.2 hq
        rw [hq1]
        apply ih
        intro y hy
        exact prev_mem _ _ _ hy

theorem common_scan_trace (c : buf_LRU_consts) (b : Nat) (init : Nat) (d : Nat) :
    ∀ (cur : Option Nat) (p : buf_pool_t) (tr : List (Nat × Bool)) (pre vis : List Nat)
      (r : Bool) (sid : Option Nat) (ns : Nat) (tr2 : List (Nat × Bool)) (q : buf_pool_t),
      p.LRU.Nodup → p.LRU = pre ++ vis → cur = pre.getLast? →
      common_LRU_scan c b init d cur p tr = some (r, sid, ns, tr2, q) →
      ∃ ext, tr2 = tr ++ ext ∧ ext.length ≤ d ∧
        (∃ pre2 vis2, pre = pre2 ++ vis2 ∧ ext.map Prod.fst = vis2.reverse) ∧
        (∀ e ∈ ext.dropLast, e.2 = false) ∧
        (r = true → ext.getLast?.map Prod.snd = some true) ∧
        (r = false → q = p ∧ ∀ e ∈ ext, e.2 = false) ∧
        (d ≤ init → init + 1 < 2 ^ 64 → ns = init - d + ext.length + (if r then 0 else 1)) := by
  induction d with
  | zero =>
    intro cur p tr pre vis r sid ns tr2 q _ _ _ h
    unfold common_LRU_scan at h
    simp only [Option.some.injEq, Prod.mk.injEq] at h
    obtain ⟨h1, _, h2, h3, h4⟩ := h
    refine ⟨[], by simp [h3], by simp, ⟨pre, [], by simp, by simp⟩, by simp, ?_, ?_, ?_⟩
    · intro hr; rw [← h1] at hr; exact absurd hr (by decide)
    · intro _; exact ⟨h4.symm, by simp⟩
    · intro _ hlt
      rw [← h1, ← h2, Nat.mod_eq_of_lt hlt]
      simp
  | succ d ih =>
    intro cur p tr pre vis r sid ns tr2 q hnd hl hcur h
    cases cur with
    | none =>
      unfold common_LRU_scan at h
      simp only [Option.some.injEq, Prod.mk.injEq] at h
      obtain ⟨h1, _, h2, h3, h4⟩ := h
      refine ⟨[], by simp [h3], by simp, ⟨pre, [], by simp, by simp⟩, by simp, ?_, ?_, ?_⟩
      · intro hr; rw [← h1] at hr; exact absurd hr (by decide)
      · intro _; exact ⟨h4.symm, by simp⟩
      · intro hle hlt
        rw [← h1, ← h2, Nat.mod_eq_of_lt (by omega)]
        simp
    | some blk =>
      obtain ⟨pre0, hpre⟩ := List.getLast?_eq_some_iff.mp hcur.symm
      unfold common_LRU_scan at h
      cases hfb : buf_LRU_free_block c p blk true b with
      | none => rw [hfb] at h; cases h
      | some res =>
        obtain ⟨freed, rm, q1⟩ := res
        rw [hfb] at h
        simp only at h
        cases freed with
        | true =>
          simp only [if_true, Option.some.injEq, Prod.mk.injEq] at h
          obtain ⟨h1, _, h2, h3, _⟩ := h
          refine ⟨[(blk, true)], h3.symm, by simp, ⟨pre0, [blk], hpre, by simp⟩, by simp,
            by simp, ?_, ?_⟩
          · intro hr; rw [← h1] at hr; exact absurd hr (by decide)
          · intro hle hlt
            rw [← h1, ← h2, Nat.mod_eq_of_lt (by omega)]
            simp
        | false =>
          simp only [Bool.false_eq_true, if_false] at h
          obtain ⟨hq1, _⟩ := free_block_false_same c p blk b true rm q1 hfb
          subst hq1
          have hl2 : q1.LRU = pre0 ++ (blk :: vis) := by
            rw [hl, hpre]
            simp
          have hb0 : blk ∉ pre0 := by
            have hnd2 := hnd
            rw [hl2] at hnd2
            exact fun hm => (List.nodup_append.mp hnd2).2.2 hm (by simp)
          have hprev : UT_LIST_GET_PREV q1.LRU blk = pre0.getLast? := by
            rw [hl2, prev_of_split _ _ _ hb0]
          obtain ⟨ext, e1, e2, ⟨pre2, vis2, e3a, e3b⟩, e4, e5, e6, e7⟩ :=
            ih _ _ _ pre0 (blk :: vis) _ _ _ _ _ hnd hl2 hprev h
          refine ⟨(blk, false) :: ext, ?_, ?_, ⟨pre2, vis2 ++ [blk], ?_, ?_⟩, ?_, ?_, ?_, ?_⟩
          · rw [e1]; simp
          · simp only [List.length_cons]; omega
          · rw [hpre, e3a]; simp
          · simp [e3b]
          · exact trace_step (blk, false) ext rfl e4
          · intro hr
            have h5 := e5 hr
            cases ext with
            | nil => simp at h5
            | cons x xs =>
              rw [List.getLast?_cons_cons]
              exact h5
          · intro hr
            obtain ⟨g1, g2⟩ := e6 hr
            refine ⟨g1, ?_⟩
            intro e he
            rcases List.mem_cons.mp he with e8 | e8
            · rw [e8]
            · exact g2 e e8
          · intro hle hlt
            have := e7 (by omega) hlt
            rw [this]
            simp only [List.length_cons]
            omega

theorem common_scan_total (c : buf_LRU_consts) (b : Nat) (init : Nat) (p : buf_pool_t)
    (hM : 25 ≤ c.BUF_LRU_OLD_MIN_LEN) (hok : pool_ok c p b) (d : Nat) :
    ∀ (cur : Option Nat) (tr : List (Nat × Bool)),
      (∀ blk, cur = some blk → blk ∈ p.LRU) →
      ∃ res, common_LRU_scan c b init d cur p tr = some res := by
  obtain ⟨hv, hlv, hpf, hfresh⟩ := hok
  induction d with
  | zero =>
    intro cur tr _
    exact ⟨_, rfl⟩
  | succ d ih =>
    intro cur tr hcur
    cases cur with
    | none => exact ⟨_, rfl⟩
    | some blk =>
      have hl := hcur blk rfl
      obtain ⟨r, q, hq, _⟩ := free_block_valid c p blk b true hM hv (hpf blk hl) hfresh
      unfold common_LRU_scan
      rw [hq]
      simp only
      cases r with
      | true => exact ⟨_, rfl⟩
      | false =>
        simp only [Bool.false_eq_true, if_false]
        obtain ⟨hq1, _⟩ := free_block_false_same c p blk b true q.1 q.2 hq
        rw [hq1]
        apply ih
        intro y hy
        exact prev_mem _ _ _ hy

theorem get_free_only_block (P : buf_pool_t) (blk : Nat) (q : buf_pool_t)
    (h : lists_valid P) (hg : buf_LRU_get_free_only P = some (some blk, q)) :
    ((buf_LRU_prepare_free_block q blk).blocks blk).state = .BUF_BLOCK_READY_FOR_USE ∧
    blk ∉ (buf_LRU_prepare_free_block q blk).free ∧
    blk ∉ (buf_LRU_prepare_free_block q blk).LRU ∧
    ((buf_LRU_prepare_free_block q blk).blocks blk).zip_data = none ∧
    ((buf_LRU_prepare_free_block q blk).blocks blk).zip_size = 0 ∧
    (buf_LRU_prepare_free_block q blk).LRU = P.LRU ∧
    P.free.head? = some blk := by
  cases hfr : P.free with
  | nil =>
    rw [(get_free_only_spec P).1 hfr] at hg
    cases hg
  | cons block rest =>
    have hmem : block ∈ P.free := by rw [hfr]; simp
    obtain ⟨hl, _, hf⟩ := free_not_in_LRU P h block hmem
    rw [(get_free_only_spec P).2 block rest hfr hf] at hg
    simp only [Option.some.injEq, Prod.mk.injEq] at hg
    obtain ⟨hb, hq⟩ := hg
    subst hb
    subst hq
    have h1 := h.1
    rw [hfr] at h1
    refine ⟨?_, (List.nodup_cons.mp h1).1, hl, ?_, ?_, rfl, rfl⟩
    · simp [buf_LRU_prepare_free_block, set_block]
    · simp [buf_LRU_prepare_free_block, set_block]
    · simp [buf_LRU_prepare_free_block, set_block]

theorem get_free_only_none (P q : buf_pool_t)
    (hg : buf_LRU_get_free_only P = some (none, q)) : q = P ∧ P.free = [] := by
  cases hfr : P.free with
  | nil =>
    rw [(get_free_only_spec P).1 hfr] at hg
    simp only [Option.some.injEq, Prod.mk.injEq, true_and] at hg
    exact ⟨hg.symm, rfl⟩
  | cons block rest =>
    unfold buf_LRU_get_free_only at hg
    rw [hfr] at hg
    simp only [List.head?_cons] at hg
    split_ifs at hg
    cases hg

theorem lists_valid_congr (p q : buf_pool_t) (h : lists_valid p)
    (h1 : q.LRU = p.LRU) (h2 : q.unzip_LRU = p.unzip_LRU) (h3 : q.free = p.free)
    (h4 : q.blocks = p.blocks) : lists_valid q := by
  unfold lists_valid at h ⊢
  rw [h1, h2, h3, h4]
  exact h

theorem unzip_scan_lists (c : buf_LRU_consts) (b : Nat) (p : buf_pool_t)
    (hM : 25 ≤ c.BUF_LRU_OLD_MIN_LEN) (hok : pool_ok c p b) (d : Nat) :
    ∀ (cur : Option Nat) (tr : List (Nat × Bool)) (r : Bool) (tr2 : List (Nat × Bool))
      (q : buf_pool_t),
      (∀ blk, cur = some blk → blk ∈ p.unzip_LRU) →
      unzip_LRU_scan c b d cur p tr = some (r, tr2, q) → lists_valid q := by
  obtain ⟨hv, hlv, hpf, hfresh⟩ := hok
  induction d with
  | zero =>
    intro cur tr r tr2 q _ h
    unfold unzip_LRU_scan at h
    simp only [Option.some.injEq, Prod.mk.injEq] at h
    rw [← h.2.2]
    exact hlv
  | succ d ih =>
    intro cur tr r tr2 q hcur h
    cases cur with
    | none =>
      unfold unzip_LRU_scan at h
      simp only [Option.some.injEq, Prod.mk.injEq] at h
      rw [← h.2.2]
      exact hlv
    | some blk =>
      have hm := hcur blk rfl
      have hl := (hlv.2.2.2.2.2 blk hm).1
      obtain ⟨r1, rm, q1, hq, hlq, _⟩ :=
        free_block_lists c p blk b false hM hv hlv (hpf blk hl) hfresh
      unfold unzip_LRU_scan at h
      rw [hq] at h
      simp only at h
      cases r1 with
      | true =>
        simp only [if_true, Option.some.injEq, Prod.mk.injEq] at h
        rw [← h.2.2]
        exact hlq
      | false =>
        simp only [Bool.false_eq_true, if_false] at h
        obtain ⟨hq1, _⟩ := free_block_false_same c p blk b false rm q1 hq
        rw [hq1] at h
        exact ih _ _ _ _ _ (fun y hy => prev_mem _ _ _ hy) h

theorem common_scan_lists (c : buf_LRU_consts) (b : Nat) (init : Nat) (p : buf_pool_t)
    (hM : 25 ≤ c.BUF_LRU_OLD_MIN_LEN) (hok : pool_ok c p b) (d : Nat) :
    ∀ (cur : Option Nat) (tr : List (Nat × Bool)) (r : Bool) (sid : Option Nat) (ns : Nat)
      (tr2 : List (Nat × Bool)) (q : buf_pool_t),
      (∀ blk, cur = some blk → blk ∈ p.LRU) →
      common_LRU_scan c b init d cur p tr = some (r, sid, ns, tr2, q) → lists_valid q := by
  obtain ⟨hv, hlv, hpf, hfresh⟩ := hok
  induction d with
  | zero =>
    intro cur tr r sid ns tr2 q _ h
    unfold common_LRU_scan at h
    simp only [Option.some.injEq, Prod.mk.injEq] at h
    rw [← h.2.2.2.2]
    exact hlv
  | succ d ih =>
    intro cur tr r sid ns tr2 q hcur h
    cases cur with
    | none =>
      unfold common_LRU_scan at h
      simp only [Option.some.injEq, Prod.mk.injEq] at h
      rw [← h.2.2.2.2]
      exact hlv
    | some blk =>
      have hl := hcur blk rfl
      obtain ⟨r1, rm, q1, hq, hlq, _⟩ :=
        free_block_lists c p blk b true hM hv hlv (hpf blk hl) hfresh
      unfold common_LRU_scan at h
      rw [hq] at h
      simp only at h
      cases r1 with
      | true =>
        simp only [if_true, Option.some.injEq, Prod.mk.injEq] at h
        rw [← h.2.2.2.2]
        split_ifs
        · exact lists_valid_congr q1 _ hlq rfl rfl rfl rfl
        · exact hlq
      | false =>
        simp only [Bool.false_eq_true, if_false] at h
        obtain ⟨hq1, _⟩ := free_block_false_same c p blk b true rm q1 hq
        rw [hq1] at h
        exact ih _ _ _ _ _ _ _ (fun y hy => prev_mem _ _ _ hy) h

theorem unzip_list_lists (c : buf_LRU_consts) (p : buf_pool_t) (evict : Bool)
    (n_iterations b : Nat) (hM : 25 ≤ c.BUF_LRU_OLD_MIN_LEN) (hok : pool_ok c p b)
    (r : Bool) (tr : List (Nat × Bool)) (q : buf_pool_t)
    (h : buf_LRU_free_from_unzip_LRU_list c evict p n_iterations b = some (r, tr, q)) :
    lists_valid q ∧ (r = false → q = p) := by
  unfold buf_LRU_free_from_unzip_LRU_list at h
  split_ifs at h
  · simp only [Option.some.injEq, Prod.mk.injEq] at h
    rw [← h.2.2]
    exact ⟨hok.2.1, fun _ => rfl⟩
  · refine ⟨unzip_scan_lists c b p hM hok _ _ _ _ _ _
      (fun blk hblk => List.mem_of_mem_getLast? hblk) h, ?_⟩
    intro hr
    obtain ⟨_, _, _, _, _, _, e6⟩ := unzip_scan_trace c b _ _ _ _ _ _ _ h
    exact (e6 hr).1

theorem common_list_lists (c : buf_LRU_consts) (p : buf_pool_t)
    (n_iterations limit b : Nat) (hM : 25 ≤ c.BUF_LRU_OLD_MIN_LEN) (hok : pool_ok c p b)
    (r : Bool) (sid : Option Nat) (ns : Nat) (tr : List (Nat × Bool)) (q : buf_pool_t)
    (h : buf_LRU_free_from_common_LRU_list c p n_iterations limit b
      = some (r, sid, ns, tr, q)) :
    lists_valid q := by
  unfold buf_LRU_free_from_common_LRU_list at h
  exact common_scan_lists c b _ p hM hok _ _ _ _ _ _ _ _
    (fun blk hblk => List.mem_of_mem_getLast? hblk) h

theorem search_block_ready (c : buf_LRU_consts) (P : LRU_params) (p : buf_pool_t)
    (n_iterations b : Nat) (hM : 25 ≤ c.BUF_LRU_OLD_MIN_LEN) (hok : pool_ok c p b)
    (freed : Bool) (blk ns : Nat) (q : buf_pool_t)
    (h : buf_LRU_search_and_free_block c P p n_iterations true b
      = some (freed, some blk, ns, q)) :
    ((buf_LRU_prepare_free_block q blk).blocks blk).state = .BUF_BLOCK_READY_FOR_USE ∧
    blk ∉ (buf_LRU_prepare_free_block q blk).free ∧
    blk ∉ (buf_LRU_prepare_free_block q blk).LRU ∧
    ((buf_LRU_prepare_free_block q blk).blocks blk).zip_data = none ∧
    ((buf_LRU_prepare_free_block q blk).blocks blk).zip_size = 0 := by
  unfold buf_LRU_search_and_free_block at h
  cases hu : buf_LRU_free_from_unzip_LRU_list c (P.evict_from_unzip_LRU p) p n_iterations b with
  | none => rw [hu] at h; cases h
  | some res =>
    obtain ⟨freed1, tr1, p1⟩ := res
    rw [hu] at h
    simp only at h
    obtain ⟨hl1, hsame⟩ := unzip_list_lists c p _ n_iterations b hM hok _ _ _ hu
    have key : ∀ (f : Bool) (ns2 : Nat) (p2 : buf_pool_t), lists_valid p2 →
        (if f = true then
          (match buf_LRU_get_free_only
              (if p2.LRU_flush_ended > 0 then
                { p2 with LRU_flush_ended := p2.LRU_flush_ended - 1 } else p2) with
            | none => none
            | some (block, p4) => some (true, block, ns2, p4))
         else some (false, none, ns2, { p2 with LRU_flush_ended := 0 }))
          = some (freed, some blk, ns, q) →
        ((buf_LRU_prepare_free_block q blk).blocks blk).state = .BUF_BLOCK_READY_FOR_USE ∧
        blk ∉ (buf_LRU_prepare_free_block q blk).free ∧
        blk ∉ (buf_LRU_prepare_free_block q blk).LRU ∧
        ((buf_LRU_prepare_free_block q blk).blocks blk).zip_data = none ∧
        ((buf_LRU_prepare_free_block q blk).blocks blk).zip_size = 0 := by
      intro f ns2 p2 hl2 hk
      cases f with
      | false =>
        simp only [Bool.false_eq_true, if_false, Option.some.injEq, Prod.mk.injEq] at hk
        exact absurd hk.2.1 (by simp)
      | true =>
        simp only [if_true] at hk
        have hl3 : lists_valid (if p2.LRU_flush_ended > 0 then
            { p2 with LRU_flush_ended := p2.LRU_flush_ended - 1 } else p2) := by
          split_ifs
          · exact lists_valid_congr p2 _ hl2 rfl rfl rfl rfl
          · exact hl2
        cases hg : buf_LRU_get_free_only (if p2.LRU_flush_ended > 0 then
            { p2 with LRU_flush_ended := p2.LRU_flush_ended - 1 } else p2) with
        | none => rw [hg] at hk; cases hk
        | some res2 =>
          obtain ⟨blk2, p4⟩ := res2
          rw [hg] at hk
          simp only [Option.some.injEq, Prod.mk.injEq] at hk
          obtain ⟨_, hb, _, hq⟩ := hk
          subst hb
          subst hq
          obtain ⟨a1, a2, a3, a4, a5, _, _⟩ := get_free_only_block _ blk p4 hl3 hg
          exact ⟨a1, a2, a3, a4, a5⟩
    cases freed1 with
    | true =>
      simp only [if_true] at h
      exact key true 0 p1 hl1 h
    | false =>
      simp only [Bool.false_eq_true, if_false] at h
      have hp1 := hsame rfl
      subst hp1
      cases hcm : buf_LRU_free_from_common_LRU_list c p1 n_iterations
          (search_limit P n_iterations true) b with
      | none => rw [hcm] at h; cases h
      | some res =>
        obtain ⟨f, sid, ns2, tr, p2⟩ := res
        rw [hcm] at h
        simp only at h
        have hl2 := common_list_lists c p1 n_iterations _ b hM hok _ _ _ _ _ hcm
        exact key f ns2 p2 hl2 h

theorem flush_step (id : Nat) (q : buf_pool_t) (bpage : Nat) (pre kept : List Nat)
    (hl : q.flush_list = pre ++ bpage :: kept) (hb : bpage ∉ pre)
    (hst : (q.blocks bpage).state = .BUF_BLOCK_FILE_PAGE ∨
      (q.blocks bpage).state = .BUF_BLOCK_ZIP_DIRTY) (af : Bool) :
    ∃ q1,
      (if (q.blocks bpage).space ≠ id then some (af, q)
        else
          match buf_flush_or_remove_page q bpage with
          | none => none
          | some (removed, q2) => some (af && removed, q2))
        = some (af && (decide ((q.blocks bpage).space ≠ id) || droppable id (q.blocks bpage)),
            q1) ∧
      q1.flush_list = pre ++ (if droppable id (q.blocks bpage) then kept else bpage :: kept) ∧
      q1.LRU = q.LRU ∧ q1.page_hash = q.page_hash ∧ q1.free = q.free ∧
      q1.unzip_LRU = q.unzip_LRU ∧ q1.LRU_old = q.LRU_old ∧
      q1.LRU_old_len = q.LRU_old_len ∧
      (∀ x, x ≠ bpage → q1.blocks x = q.blocks x) ∧
      { q1.blocks bpage with state := .BUF_BLOCK_FILE_PAGE, oldest_modification := 0 }
        = { q.blocks bpage with state := .BUF_BLOCK_FILE_PAGE, oldest_modification := 0 } := by
  have herase : UT_LIST_REMOVE (pre ++ bpage :: kept) bpage = pre ++ kept :=
    remove_of_split pre kept bpage hb
  by_cases hs : (q.blocks bpage).space = id
  · have hs2 : ¬ (q.blocks bpage).space ≠ id := not_not.mpr hs
    rw [if_neg hs2]
    unfold buf_flush_or_remove_page
    by_cases hio : (q.blocks bpage).io_fix = .BUF_IO_NONE
    · have hio2 : ¬ (q.blocks bpage).io_fix ≠ .BUF_IO_NONE := not_not.mpr hio
      rw [if_neg hio2]
      by_cases hfix : (q.blocks bpage).buf_fix_count = 0
      · rw [if_pos hfix]
        have hd : droppable id (q.blocks bpage) = true := by
          unfold droppable
          simp [hs, hio, hfix]
        rw [hd]
        unfold buf_flush_remove
        rcases hst with e | e
        · rw [e]
          refine ⟨set_block { q with flush_list := UT_LIST_REMOVE q.flush_list bpage } bpage
            { q.blocks bpage with oldest_modification := 0 }, by simp, ?_, rfl, rfl, rfl, rfl,
            rfl, rfl, ?_, ?_⟩
          · show UT_LIST_REMOVE q.flush_list bpage = _
            rw [hl, herase]
            rfl
          · intro x hx
            show Function.update q.blocks bpage _ x = _
            rw [Function.update_noteq hx]
          · show ({ Function.update q.blocks bpage _ bpage with
              state := .BUF_BLOCK_FILE_PAGE, oldest_modification := 0 } : buf_page_t) = _
            rw [Function.update_same]
        · rw [e]
          refine ⟨set_block { q with flush_list := UT_LIST_REMOVE q.flush_list bpage } bpage
            { q.blocks bpage with state := .BUF_BLOCK_ZIP_PAGE, oldest_modification := 0 }, by simp, ?_, rfl, rfl, rfl, rfl,
            rfl, rfl, ?_, ?_⟩
          · show UT_LIST_REMOVE q.flush_list bpage = _
            rw [hl, herase]
            rfl
          · intro x hx
            show Function.update q.blocks bpage _ x = _
            rw [Function.update_noteq hx]
          · show ({ Function.update q.blocks bpage _ bpage with
              state := .BUF_BLOCK_FILE_PAGE, oldest_modification := 0 } : buf_page_t) = _
            rw [Function.update_same]
      · rw [if_neg hfix]
        have hd : droppable id (q.blocks bpage) = false := by
          unfold droppable
          simp [hfix]
        rw [hd]
        exact ⟨q, by simp [hs], by simp [hl], rfl, rfl, rfl, rfl, rfl, rfl, fun _ _ => rfl, rfl⟩
    · rw [if_pos hio]
      have hd : droppable id (q.blocks bpage) = false := by
        unfold droppable
        simp [hio]
      rw [hd]
      exact ⟨q, by simp [hs], by simp [hl], rfl, rfl, rfl, rfl, rfl, rfl, fun _ _ => rfl, rfl⟩
  · rw [if_pos hs]
    have hd : droppable id (q.blocks bpage) = false := by
      unfold droppable
      simp [hs]
    rw [hd]
    exact ⟨q, by simp [hs], by simp [hl], rfl, rfl, rfl, rfl, rfl, rfl, fun _ _ => rfl, rfl⟩

theorem yield_facts (q : buf_pool_t) (prev : Option Nat) (processed : Nat) :
    (buf_flush_try_yield q prev processed).2.flush_list = q.flush_list ∧
    (buf_flush_try_yield q prev processed).2.LRU = q.LRU ∧
    (buf_flush_try_yield q prev processed).2.page_hash = q.page_hash ∧
    (buf_flush_try_yield q prev processed).2.free = q.free ∧
    (buf_flush_try_yield q prev processed).2.unzip_LRU = q.unzip_LRU ∧
    (buf_flush_try_yield q prev processed).2.LRU_old = q.LRU_old ∧
    (buf_flush_try_yield q prev processed).2.LRU_old_len = q.LRU_old_len ∧
    ∀ x, { (buf_flush_try_yield q prev processed).2.blocks x with sticky := false }
      = { q.blocks x with sticky := false } := by
  unfold buf_flush_try_yield
  cases prev with
  | none => exact ⟨rfl, rfl, rfl, rfl, rfl, rfl, rfl, fun _ => rfl⟩
  | some y =>
    simp only
    split_ifs
    · refine ⟨rfl, rfl, rfl, rfl, rfl, rfl, rfl, ?_⟩
      intro x
      show ({ Function.update q.blocks y _ x with sticky := false } : buf_page_t) = _
      by_cases e : x = y
      · rw [e, Function.update_same]
      · rw [Function.update_noteq e]
    · exact ⟨rfl, rfl, rfl, rfl, rfl, rfl, rfl, fun _ => rfl⟩

theorem droppable_congr (id : Nat) (a b : buf_page_t)
    (h : { a with state := .BUF_BLOCK_FILE_PAGE, oldest_modification := 0, sticky := false }
      = { b with state := .BUF_BLOCK_FILE_PAGE, oldest_modification := 0, sticky := false }) :
    droppable id a = droppable id b ∧ a.space = b.space := by
  have h1 := congrArg buf_page_t.space h
  have h2 := congrArg buf_page_t.io_fix h
  have h3 := congrArg buf_page_t.buf_fix_count h
  simp only at h1 h2 h3
  unfold droppable
  rw [h1, h2, h3]
  exact ⟨rfl, rfl⟩

theorem all_congr_mem (l : List Nat) (f g : Nat → Bool) (h : ∀ x ∈ l, f x = g x) :
    l.all f = l.all g := by
  induction l with
  | nil => rfl
  | cons a l ih =>
    simp only [List.all_cons]
    rw [h a (by simp), ih (fun x hx => h x (by simp [hx]))]

theorem flush_loop_spec (id : Nat) (fuel : Nat) :
    ∀ (pre kept : List Nat) (q : buf_pool_t) (af : Bool) (processed : Nat),
      q.flush_list = pre ++ kept → q.flush_list.Nodup → pre.length ≤ fuel →
      (∀ x ∈ pre, (q.blocks x).state = .BUF_BLOCK_FILE_PAGE ∨
        (q.blocks x).state = .BUF_BLOCK_ZIP_DIRTY) →
      ∃ af2 q2, flush_or_remove_loop id fuel pre.getLast? q af processed = some (af2, q2) ∧
        q2.flush_list = pre.filter (fun x => !droppable id (q.blocks x)) ++ kept ∧
        af2 = (af && pre.all (fun x =>
          decide ((q.blocks x).space ≠ id) || droppable id (q.blocks x))) ∧
        q2.LRU = q.LRU ∧ q2.page_hash = q.page_hash ∧ q2.free = q.free ∧
        q2.unzip_LRU = q.unzip_LRU ∧ q2.LRU_old = q.LRU_old ∧
        q2.LRU_old_len = q.LRU_old_len ∧
        (∀ x, { q2.blocks x with
              state := .BUF_BLOCK_FILE_PAGE, oldest_modification := 0, sticky := false }
          = { q.blocks x with
              state := .BUF_BLOCK_FILE_PAGE, oldest_modification := 0, sticky := false }) ∧
        (∀ x, x ∉ pre →
          { q2.blocks x with sticky := false } = { q.blocks x with sticky := false }) := by
  induction fuel with
  | zero =>
    intro pre kept q af processed hl _ hlen _
    have : pre = [] := List.length_eq_zero.mp (by omega)
    subst this
    refine ⟨af, q, ?_, by simpa using hl, by simp, rfl, rfl, rfl, rfl, rfl, rfl,
      fun _ => rfl, fun _ _ => rfl⟩
    simp [flush_or_remove_loop]
  | succ fuel ih =>
    intro pre kept q af processed hl hnd hlen hst
    rcases List.eq_nil_or_concat pre with hp | ⟨pre0, bpage, hp⟩
    · subst hp
      refine ⟨af, q, ?_, by simpa using hl, by simp, rfl, rfl, rfl, rfl, rfl, rfl,
        fun _ => rfl, fun _ _ => rfl⟩
      simp [flush_or_remove_loop]
    · rw [List.concat_eq_append] at hp
      subst hp
      have hl2 : q.flush_list = pre0 ++ bpage :: kept := by
        rw [hl]
        simp
      have hnd2 : (pre0 ++ bpage :: kept).Nodup := hl2 ▸ hnd
      obtain ⟨hnd3, hb0, hbk⟩ := nodup_remove_middle pre0 kept bpage hnd2
      have hstb := hst bpage (by simp)
      have hinf : buf_page_in_file (q.blocks bpage) = true := by
        unfold buf_page_in_file
        rcases hstb with e | e <;> rw [e]
      obtain ⟨q1, hr, g1, g2, g3, g4, g5, g6, g7, g8, g9⟩ :=
        flush_step id q bpage pre0 kept hl2 hb0 hstb af
      have hprev : UT_LIST_GET_PREV q.flush_list bpage = pre0.getLast? := by
        rw [hl2, prev_of_split _ _ _ hb0]
      obtain ⟨y1, y2, y3, y4, y5, y6, y7, y8⟩ :=
        yield_facts q1 pre0.getLast? (processed + 1)
      have hYl : (buf_flush_try_yield q1 pre0.getLast? (processed + 1)).2.flush_list
          = pre0 ++ (if droppable id (q.blocks bpage) then kept else bpage :: kept) :=
        y1.trans g1
      have hYnd : (buf_flush_try_yield q1 pre0.getLast? (processed + 1)).2.flush_list.Nodup := by
        rw [hYl]
        split_ifs
        · exact hnd3
        · exact hnd2
      have hblk : ∀ x, x ≠ bpage →
          { (buf_flush_try_yield q1 pre0.getLast? (processed + 1)).2.blocks x with
              sticky := false } = { q.blocks x with sticky := false } := by
        intro x hx
        rw [y8 x, g8 x hx]
      have hnorm : ∀ x,
          { (buf_flush_try_yield q1 pre0.getLast? (processed + 1)).2.blocks x with
              state := .BUF_BLOCK_FILE_PAGE, oldest_modification := 0, sticky := false }
          = { q.blocks x with
              state := .BUF_BLOCK_FILE_PAGE, oldest_modification := 0, sticky := false } := by
        intro x
        have a1 := congrArg (fun r : buf_page_t => { r with
          state := .BUF_BLOCK_FILE_PAGE, oldest_modification := 0 }) (y8 x)
        simp only at a1
        rw [a1]
        by_cases hx : x = bpage
        · rw [hx]
          have a2 := congrArg (fun r : buf_page_t => { r with sticky := false }) g9
          simpa using a2
        · rw [g8 x hx]
      obtain ⟨af2, q2, hq2, k1, k2, k3, k4, k5, k6, k7, k8, k9, k10⟩ :=
        ih pre0 (if droppable id (q.blocks bpage) then kept else bpage :: kept)
          (buf_flush_try_yield q1 pre0.getLast? (processed + 1)).2
          (af && (decide ((q.blocks bpage).space ≠ id) || droppable id (q.blocks bpage)))
          (if (buf_flush_try_yield q1 pre0.getLast? (processed + 1)).1 then 0
            else processed + 1)
          hYl hYnd (by simp at hlen; omega)
          (by
            intro x hx
            have hxne : x ≠ bpage := fun e => hb0 (e ▸ hx)
            have := congrArg buf_page_t.state (hblk x hxne)
            simp only at this
            rw [this]
            exact hst x (by simp [hx]))
      refine ⟨af2, q2, ?_, ?_, ?_, k3.trans (y2.trans g2), k4.trans (y3.trans g3),
        k5.trans (y4.trans g4), k6.trans (y5.trans g5), k7.trans (y6.trans g6),
        k8.trans (y7.trans g7), ?_, ?_⟩
      · rw [List.getLast?_concat]
        unfold flush_or_remove_loop
        rw [if_pos hinf]
        simp only
        rw [hr, hprev]
        exact hq2
      · rw [k1, List.filter_append]
        have hf : pre0.filter (fun x => !droppable id
            ((buf_flush_try_yield q1 pre0.getLast? (processed + 1)).2.blocks x))
            = pre0.filter (fun x => !droppable id (q.blocks x)) := by
          apply List.filter_congr
          intro x _
          rw [(droppable_congr id _ _ (hnorm x)).1]
        rw [hf]
        by_cases hd : droppable id (q.blocks bpage) = true
        · simp [hd]
        · simp [hd]
      · rw [k2, List.all_append]
        have hf : pre0.all (fun x =>
            decide (((buf_flush_try_yield q1 pre0.getLast? (processed + 1)).2.blocks x).space
              ≠ id) ||
            droppable id ((buf_flush_try_yield q1 pre0.getLast? (processed + 1)).2.blocks x))
            = pre0.all (fun x =>
              decide ((q.blocks x).space ≠ id) || droppable id (q.blocks x)) := by
          apply all_congr_mem
          intro x _
          rw [(droppable_congr id _ _ (hnorm x)).1, (droppable_congr id _ _ (hnorm x)).2]
        rw [hf]
        simp only [List.all_cons, List.all_nil, Bool.and_true]
        cases af <;> cases (pre0.all fun x =>
          decide ((q.blocks x).space ≠ id) || droppable id (q.blocks x)) <;> simp
      · intro x
        rw [k9 x, hnorm x]
      · intro x hx
        have hx0 : x ∉ pre0 := fun hm => hx (by simp [hm])
        have hxb : x ≠ bpage := fun e => hx (by simp [e])
        rw [k10 x hx0, hblk x hxb]

theorem sum_set (l : List Nat) (i c : Nat) (h : i < l.length) :
    (l.set i c).sum + l.getD i 0 = l.sum + c := by
  induction l generalizing i with
  | nil => simp at h
  | cons a l ih =>
    cases i with
    | zero =>
      simp only [List.set_cons_zero, List.sum_cons, List.getD_cons_zero]
      omega
    | succ i =>
      simp only [List.set_cons_succ, List.sum_cons, List.getD_cons_succ]
      have := ih i (by simpa using h)
      omega

theorem ulint_add_diff_spec (sum cur item S : Nat) (hc : cur < 2 ^ 64) (hi : item < 2 ^ 64)
    (hs : sum = S % 2 ^ 64) (S2 : Nat) (hS : S2 + item = S + cur) :
    ulint_add_diff sum cur item = S2 % 2 ^ 64 := by
  unfold ulint_add_diff ulint_sub
  subst hs
  have key : (S % 2 ^ 64 + (if item ≤ cur then cur - item else cur + 2 ^ 64 - item) % 2 ^ 64
      + item) % 2 ^ 64 = (S2 + item) % 2 ^ 64 := by
    rw [hS]
    split_ifs with h
    · omega
    · omega
  have h2 : (S % 2 ^ 64 + (if item ≤ cur then cur - item else cur + 2 ^ 64 - item) % 2 ^ 64)
      % 2 ^ 64 + item ≡ S2 % 2 ^ 64 + item [MOD 2 ^ 64] := by
    unfold Nat.ModEq
    omega
  have h3 := Nat.ModEq.add_right_cancel' item h2
  unfold Nat.ModEq at h3
  simpa using h3

theorem getD_map_io (l : List buf_LRU_stat_t) (i : Nat) :
    (l.map buf_LRU_stat_t.io).getD i 0 = (l.getD i ⟨0, 0⟩).io := by
  induction l generalizing i with
  | nil => rfl
  | cons a l ih =>
    cases i with
    | zero => rfl
    | succ i => simpa using ih i

theorem getD_map_unzip (l : List buf_LRU_stat_t) (i : Nat) :
    (l.map buf_LRU_stat_t.unzip).getD i 0 = (l.getD i ⟨0, 0⟩).unzip := by
  induction l generalizing i with
  | nil => rfl
  | cons a l ih =>
    cases i with
    | zero => rfl
    | succ i => simpa using ih i

theorem getD_bound (l : List buf_LRU_stat_t) (k : Nat)
    (h : ∀ x ∈ l, x.io < 2 ^ 64 ∧ x.unzip < 2 ^ 64) :
    (l.getD k ⟨0, 0⟩).io < 2 ^ 64 ∧ (l.getD k ⟨0, 0⟩).unzip < 2 ^ 64 := by
  by_cases hk : k < l.length
  · rw [List.getD_eq_getElem l _ hk]
    exact h _ (List.getElem_mem hk)
  · rw [List.getD_eq_default l _ (by omega)]
    exact ⟨by norm_num, by norm_num⟩

theorem stat_step (s : buf_LRU_stats) (snaps : List buf_LRU_stat_t) (c : buf_LRU_stat_t)
    (fpc : Nat) (hinv : stat_inv s snaps)
    (hs : ∀ x ∈ snaps, x.io < 2 ^ 64 ∧ x.unzip < 2 ^ 64)
    (hc : c.io < 2 ^ 64 ∧ c.unzip < 2 ^ 64) :
    stat_inv (buf_LRU_stat_update fpc { s with buf_LRU_stat_cur := c })
      (if fpc ≠ 0 then snaps ++ [c] else snaps) := by
  obtain ⟨h1, h2, h3, h4, h5⟩ := hinv
  unfold BUF_LRU_STAT_N_INTERVAL at h1 h2 h5
  by_cases hf : fpc = 0
  · unfold buf_LRU_stat_update
    simp only [hf, if_true, ne_eq, not_true_eq_false, if_false]
    exact ⟨h1, h2, h3, h4, h5⟩
  · unfold buf_LRU_stat_update
    rw [if_neg hf, if_pos hf]
    have hind : s.buf_LRU_stat_arr_ind < 50 := by
      rw [h2]
      exact Nat.mod_lt _ (by norm_num)
    have hitem : s.buf_LRU_stat_arr.getD s.buf_LRU_stat_arr_ind ⟨0, 0⟩
        = snaps.reverse.getD 49 ⟨0, 0⟩ := by
      have := h5 49 (by norm_num)
      have e : (s.buf_LRU_stat_arr_ind + (50 - 1) - 49) % 50 = s.buf_LRU_stat_arr_ind := by
        omega
      rw [e] at this
      exact this
    have hib := getD_bound snaps.reverse 49 (fun x hx => hs x (List.mem_reverse.mp hx))
    rw [← hitem] at hib
    unfold stat_inv BUF_LRU_STAT_N_INTERVAL
    refine ⟨by simp [h1], ?_, ?_, ?_, ?_⟩
    · show (s.buf_LRU_stat_arr_ind + 1) % 2 ^ 64 % 50 = _
      rw [h2]
      simp only [List.length_append, List.length_singleton]
      omega
    · show ulint_add_diff _ _ _ = _
      refine ulint_add_diff_spec _ _ _ _ hc.1 hib.1 h3 _ ?_
      rw [List.map_set, ← getD_map_io]
      exact sum_set _ _ _ (by simp [h1]; exact hind)
    · show ulint_add_diff _ _ _ = _
      refine ulint_add_diff_spec _ _ _ _ hc.2 hib.2 h4 _ ?_
      rw [List.map_set, ← getD_map_unzip]
      exact sum_set _ _ _ (by simp [h1]; exact hind)
    · intro k hk
      show (s.buf_LRU_stat_arr.set s.buf_LRU_stat_arr_ind c).getD
        (((s.buf_LRU_stat_arr_ind + 1) % 2 ^ 64 % 50 + (50 - 1) - k) % 50) ⟨0, 0⟩ = _
      rw [List.reverse_append]
      cases k with
      | zero =>
        have e : ((s.buf_LRU_stat_arr_ind + 1) % 2 ^ 64 % 50 + (50 - 1) - 0) % 50
            = s.buf_LRU_stat_arr_ind := by omega
        rw [e]
        simp [List.getD_eq_getElem?_getD, h1, hind]
      | succ k =>
        have e : ((s.buf_LRU_stat_arr_ind + 1) % 2 ^ 64 % 50 + (50 - 1) - (k + 1)) % 50
            = (s.buf_LRU_stat_arr_ind + (50 - 1) - k) % 50 := by omega
        have ne : s.buf_LRU_stat_arr_ind ≠ (s.buf_LRU_stat_arr_ind + (50 - 1) - k) % 50 := by
          omega
        rw [e]
        have := h5 k (by omega)
        simp only [List.reverse_singleton, List.singleton_append, List.getD_cons_succ]
        rw [← this]
        simp [List.getD_eq_getElem?_getD, List.getElem?_set_ne ne]

/-! # The dump file -/

theorem univ_facts (u : univ_consts) (hu : univ_ok u) :
    ∃ N, 0 < N ∧ UNIV_PAGE_SIZE u = 8 * N := by
  obtain ⟨h1, _⟩ := hu
  refine ⟨2 ^ (u.UNIV_PAGE_SIZE_SHIFT - 3), Nat.pow_pos (by decide), ?_⟩
  unfold UNIV_PAGE_SIZE
  have : u.UNIV_PAGE_SIZE_SHIFT = 3 + (u.UNIV_PAGE_SIZE_SHIFT - 3) := by omega
  conv_lhs => rw [this, pow_add]
  norm_num

theorem block_position_eq (u : univ_consts) (hu : univ_ok u) (buffers : Nat) :
    block_position u buffers = buffers * UNIV_PAGE_SIZE u := by
  obtain ⟨_, h2⟩ := hu
  unfold block_position UNIV_PAGE_SIZE
  have e1 : (4294967295 : Nat) = 2 ^ 32 - 1 := by norm_num
  rw [e1, Nat.and_pow_two_sub_one_eq_mod, Nat.shiftRight_eq_div_pow, Nat.shiftLeft_eq,
    Nat.mod_mod_of_dvd _ (by norm_num : (2 : Nat) ^ 32 ∣ 2 ^ 64)]
  have e2 : (2 : Nat) ^ 32 = 2 ^ (32 - u.UNIV_PAGE_SIZE_SHIFT) * 2 ^ u.UNIV_PAGE_SIZE_SHIFT := by
    rw [← pow_add]
    congr 1
    omega
  rw [e2, Nat.mul_mod_mul_right, ← mul_assoc, ← add_mul, Nat.div_add_mod']

theorem block_offsets_eq (u : univ_consts) (N : Nat) (h : UNIV_PAGE_SIZE u = 8 * N) :
    block_offsets u = (List.range' 0 N).map (fun k => 2 * k) := by
  unfold block_offsets
  rw [h, List.range_eq_range']
  congr 2
  omega

theorem be4_length (n : Nat) : (be4 n).length = 4 := rfl

theorem record_bytes_length (r : dump_record_t) : (record_bytes r).length = 8 := rfl

theorem records_bytes_length (rs : List dump_record_t) :
    ((rs.map record_bytes).flatten).length = 8 * rs.length := by
  induction rs with
  | nil => rfl
  | cons r rs ih =>
    simp only [List.map_cons, List.flatten_cons, List.length_append, record_bytes_length, ih,
      List.length_cons]
    omega

theorem mach_write_at (pre post : List Nat) (a b c d n : Nat) :
    mach_write_to_4 (pre ++ a :: b :: c :: d :: post) pre.length n = pre ++ be4 n ++ post := by
  unfold mach_write_to_4 be4
  simp [List.set_append]

theorem mach_write_zeros (pre : List Nat) (m pos n : Nat) (hpos : pos = pre.length) :
    mach_write_to_4 (pre ++ List.replicate (m + 4) 0) pos n
      = pre ++ be4 n ++ List.replicate m 0 := by
  subst hpos
  rw [List.replicate_succ, List.replicate_succ, List.replicate_succ, List.replicate_succ]
  exact mach_write_at pre _ 0 0 0 0 n

theorem mach_read_shift (pre l : List Nat) (pos : Nat) :
    mach_read_from_4 (pre ++ l) (pre.length + pos) = mach_read_from_4 l pos := by
  unfold mach_read_from_4
  have e : ∀ k, (pre ++ l).getD (pre.length + pos + k) 0 = l.getD (pos + k) 0 := by
    intro k
    rw [List.getD_append_right _ _ _ _ (by omega)]
    congr 1
    omega
  have e0 := e 0
  simp only [Nat.add_zero] at e0
  rw [e 1, e 2, e 3, e0]

theorem mach_read_be4 (n : Nat) (post : List Nat) :
    mach_read_from_4 (be4 n ++ post) 0 = n % 2 ^ 32 := by
  unfold mach_read_from_4 be4
  simp only [List.cons_append, List.nil_append, List.getD_cons_zero, List.getD_cons_succ,
    Nat.mod_mod]
  omega

theorem mach_read_lt (b : List Nat) (pos : Nat) : mach_read_from_4 b pos < 2 ^ 32 := by
  unfold mach_read_from_4
  omega

theorem os_file_write_end (file data : List Nat) (pos : Nat) (h : pos = file.length) :
    os_file_write file pos data = file ++ data := by
  subst h
  unfold os_file_write
  simp

theorem record_write (cur : List dump_record_t) (N : Nat) (hc : cur.length < N)
    (sp pg o1 o2 : Nat) (h1 : o1 = 2 * cur.length * 4) (h2 : o2 = (2 * cur.length + 1) * 4) :
    mach_write_to_4 (mach_write_to_4 ((cur.map record_bytes).flatten
        ++ List.replicate (8 * N - 8 * cur.length) 0) o1 sp) o2 pg
      = ((cur ++ [(⟨sp, pg⟩ : dump_record_t)]).map record_bytes).flatten
        ++ List.replicate (8 * N - 8 * (cur ++ [(⟨sp, pg⟩ : dump_record_t)]).length) 0 := by
  have e : 8 * N - 8 * cur.length = (8 * N - 8 * (cur.length + 1)) + 4 + 4 := by omega
  rw [e, mach_write_zeros _ _ o1 sp (by rw [records_bytes_length, h1]; omega),
    mach_write_zeros _ _ o2 pg (by
      rw [List.length_append, records_bytes_length, be4_length, h2]; omega)]
  simp only [List.map_append, List.flatten_append, List.map_cons, List.map_nil,
    List.flatten_cons, List.flatten_nil, List.append_nil, record_bytes, List.length_append,
    List.length_cons, List.length_nil, List.append_assoc]

theorem dump_walk_spec (u : univ_consts) (E : dump_env) (p : buf_pool_t)
    (first_bpage : Option Nat) (total_pages N : Nat) (hu : univ_ok u)
    (hU : UNIV_PAGE_SIZE u = 8 * N) :
    ∀ (l : List Nat) (done cur : List dump_record_t) (buffers pages_written offset : Nat)
      (buffer file : List Nat),
      done.length = buffers * N → cur.length < N → pages_written + l.length ≤ total_pages →
      buffer = (cur.map record_bytes).flatten ++ List.replicate (8 * N - 8 * cur.length) 0 →
      offset = 2 * cur.length → file = (done.map record_bytes).flatten →
      (dump_walk u E p first_bpage total_pages l buffer buffers offset pages_written file).1
        = true →
      ∃ done1 cur1 buffers1,
        dump_walk u E p first_bpage total_pages l buffer buffers offset pages_written file
          = (true, (cur1.map record_bytes).flatten
              ++ List.replicate (8 * N - 8 * cur1.length) 0, buffers1, 2 * cur1.length,
              (done1.map record_bytes).flatten) ∧
        done1.length = buffers1 * N ∧ cur1.length < N ∧
        done1 ++ cur1 = done ++ cur ++
          (l.takeWhile (fun bpage => E.srv_lru_dump_old_pages || !buf_page_is_old p bpage)).map
            (page_record p) := by
  intro l
  induction l with
  | nil =>
    intro done cur buffers pw offset buffer file hd hc _ hb ho hf _
    refine ⟨done, cur, buffers, ?_, hd, hc, by simp⟩
    unfold dump_walk
    rw [hb, ho, hf]
  | cons bpage rest ih =>
    intro done cur buffers pw offset buffer file hd hc hpw hb ho hf hres
    have hlt : decide (pw < total_pages) = true := by
      simp only [List.length_cons] at hpw
      exact decide_eq_true (by omega)
    unfold dump_walk at hres ⊢
    rw [hlt, Bool.and_true] at hres ⊢
    rw [List.takeWhile_cons]
    by_cases hcond : (E.srv_lru_dump_old_pages || !buf_page_is_old p bpage) = true
    · rw [if_pos hcond] at hres ⊢
      rw [if_pos hcond]
      by_cases hcyc : rest.head? = first_bpage
      · rw [if_pos hcyc] at hres
        cases hres
      rw [if_neg hcyc] at hres ⊢
      have hw := record_write cur N hc (p.blocks bpage).space (p.blocks bpage).offset
        (offset * 4) ((offset + 1) * 4) (by rw [ho]) (by rw [ho])
      rw [← hb] at hw
      simp only [] at hres ⊢
      rw [hw] at hres ⊢
      have hpw2 : pw + 1 + rest.length ≤ total_pages := by
        simp only [List.length_cons] at hpw
        omega
      by_cases hfull : offset + 2 = UNIV_PAGE_SIZE u / 4
      · rw [if_pos hfull] at hres ⊢
        have hN : cur.length + 1 = N := by
          rw [hU, ho] at hfull
          omega
        by_cases hwr : E.write_ok buffers = true
        · rw [if_pos hwr] at hres ⊢
          have hz : 8 * N - 8 * (cur ++ [(⟨(p.blocks bpage).space,
              (p.blocks bpage).offset⟩ : dump_record_t)]).length = 0 := by
            rw [List.length_append, List.length_singleton]
            omega
          rw [hz, List.replicate_zero, List.append_nil] at hres ⊢
          have hfile : os_file_write file (block_position u buffers)
              (((cur ++ [(⟨(p.blocks bpage).space, (p.blocks bpage).offset⟩ : dump_record_t)]).map
                record_bytes).flatten)
              = ((done ++ cur ++ [(⟨(p.blocks bpage).space, (p.blocks bpage).offset⟩ : dump_record_t)]).map
                  record_bytes).flatten := by
            rw [os_file_write_end _ _ _ (by
              rw [block_position_eq u hu, hf, records_bytes_length, hd, hU]
              ring), hf]
            simp only [List.map_append, List.flatten_append, List.append_assoc]
          rw [hfile] at hres ⊢
          obtain ⟨done1, cur1, buffers1, h1, h2, h3, h4⟩ :=
            ih (done ++ cur ++ [(⟨(p.blocks bpage).space, (p.blocks bpage).offset⟩ : dump_record_t)]) []
              (buffers + 1) (pw + 1) 0 (List.replicate (UNIV_PAGE_SIZE u) 0) _
              (by
                simp only [List.length_append, List.length_singleton]
                rw [hd, add_mul, one_mul]
                omega)
              (by
                simp only [List.length_nil]
                omega) hpw2
              (by
                simp only [List.map_nil, List.flatten_nil, List.nil_append, List.length_nil,
                  Nat.mul_zero, Nat.sub_zero]
                rw [hU]) rfl rfl hres
          refine ⟨done1, cur1, buffers1, h1, h2, h3, ?_⟩
          rw [h4]
          simp only [List.append_nil, List.map_cons, List.append_assoc, List.singleton_append,
            page_record]
        · rw [if_neg hwr] at hres
          cases hres
      · rw [if_neg hfull] at hres ⊢
        obtain ⟨done1, cur1, buffers1, h1, h2, h3, h4⟩ :=
          ih done (cur ++ [(⟨(p.blocks bpage).space, (p.blocks bpage).offset⟩ : dump_record_t)]) buffers (pw + 1)
            (offset + 2) _ file hd
            (by
              rw [List.length_append, List.length_singleton]
              rw [hU, ho] at hfull
              omega) hpw2 rfl
            (by
              rw [List.length_append, List.length_singleton, ho]
              ring) hf hres
        refine ⟨done1, cur1, buffers1, h1, h2, h3, ?_⟩
        rw [h4]
        simp only [List.map_cons, List.append_assoc, List.singleton_append, page_record]
    · rw [if_neg hcond] at hres ⊢
      rw [if_neg hcond]
      refine ⟨done, cur, buffers, ?_, hd, hc, by simp⟩
      rw [hb, ho, hf]

theorem dump_walk_success (u : univ_consts) (E : dump_env) (p : buf_pool_t)
    (first_bpage : Option Nat) (total_pages : Nat) (hw : ∀ k, E.write_ok k = true)
    (hfirst0 : first_bpage ≠ none) :
    ∀ (l : List Nat) (buffer : List Nat) (buffers offset pages_written : Nat) (file : List Nat),
      (∀ x ∈ l.tail, some x ≠ first_bpage) →
      (dump_walk u E p first_bpage total_pages l buffer buffers offset pages_written file).1
        = true := by
  intro l
  induction l with
  | nil =>
    intro buffer buffers offset pw file _
    rfl
  | cons bpage rest ih =>
    intro buffer buffers offset pw file hfirst
    have hrest : ∀ x ∈ rest.tail, some x ≠ first_bpage :=
      fun x hx => hfirst x (List.mem_of_mem_tail hx)
    have hcyc : rest.head? ≠ first_bpage := by
      cases rest with
      | nil =>
        intro e
        exact hfirst0 e.symm
      | cons y ys => exact hfirst y (List.mem_cons_self _ _)
    unfold dump_walk
    split_ifs
    · exact ih _ _ _ _ _ hrest
    · exact absurd (hw buffers) (by assumption)
    · exact ih _ _ _ _ _ hrest
    · rfl

theorem dump_bytes_split (u : univ_consts) (N k : Nat) (hU : UNIV_PAGE_SIZE u = 8 * N)
    (done rest : List dump_record_t) (hd : done.length = k * N) :
    dump_bytes u (done ++ rest) = (done.map record_bytes).flatten ++ dump_bytes u rest := by
  unfold dump_bytes
  have e : (done ++ rest).length * 8 % UNIV_PAGE_SIZE u = rest.length * 8 % UNIV_PAGE_SIZE u := by
    rw [List.length_append, hd, hU, add_mul]
    have : k * N * 8 = 8 * N * k := by ring
    rw [this, Nat.mul_add_mod]
  rw [e]
  simp only [List.map_append, List.flatten_append, List.append_assoc]

theorem dump_bytes_short (u : univ_consts) (N : Nat) (hU : UNIV_PAGE_SIZE u = 8 * N)
    (cur : List dump_record_t) (hc : cur.length < N) :
    dump_bytes u cur = (cur.map record_bytes).flatten ++ (be4 0xFFFFFFFF ++ be4 0xFFFFFFFF)
      ++ List.replicate (8 * N - 8 * (cur.length + 1)) 0 := by
  unfold dump_bytes
  have e : cur.length * 8 % UNIV_PAGE_SIZE u = cur.length * 8 := by
    rw [hU]
    exact Nat.mod_eq_of_lt (by omega)
  rw [e, hU]
  congr 2
  omega

theorem dump_bytes_length (u : univ_consts) (N : Nat) (hN : 0 < N)
    (hU : UNIV_PAGE_SIZE u = 8 * N) (recs : List dump_record_t) :
    (dump_bytes u recs).length = (recs.length / N + 1) * UNIV_PAGE_SIZE u := by
  unfold dump_bytes
  simp only [List.length_append, records_bytes_length, be4_length, List.length_replicate]
  rw [hU]
  have h1 := Nat.div_add_mod recs.length N
  have h2 := Nat.mod_lt recs.length hN
  have e : recs.length * 8 % (8 * N) = 8 * (recs.length % N) := by
    rw [Nat.mul_comm recs.length 8, Nat.mul_mod_mul_left]
  rw [e]
  have h3 : N * (recs.length / N) = recs.length / N * N := Nat.mul_comm _ _
  have h4 : (recs.length / N + 1) * (8 * N) = 8 * (recs.length / N * N) + 8 * N := by ring
  rw [h4]
  omega

theorem file_dump_bytes (u : univ_consts) (E : dump_env) (p : buf_pool_t) (hu : univ_ok u)
    (file : List Nat) (h : buf_LRU_file_dump u E p = some (true, file)) :
    file = dump_bytes u ((dumped_pages E p).map (page_record p)) := by
  obtain ⟨N, hN, hU⟩ := univ_facts u hu
  unfold buf_LRU_file_dump at h
  by_cases h1 : E.name_in_use = true
  · rw [if_pos h1] at h
    cases h
  rw [if_neg h1] at h
  by_cases h2 : (!E.buffer_ok) = true
  · rw [if_pos h2] at h
    cases h
  rw [if_neg h2] at h
  by_cases h3 : (!E.create_ok) = true
  · rw [if_pos h3] at h
    cases h
  rw [if_neg h3] at h
  have hspec := dump_walk_spec u E p p.LRU.head? p.LRU.length N hu hU p.LRU [] [] 0 0 0
    (List.replicate (UNIV_PAGE_SIZE u) 0) [] (by simp) (by simpa using hN) (by simp)
    (by simp [hU]) rfl rfl
  obtain ⟨W, hW⟩ : ∃ W, W = dump_walk u E p p.LRU.head? p.LRU.length p.LRU
    (List.replicate (UNIV_PAGE_SIZE u) 0) 0 0 0 [] := ⟨_, rfl⟩
  rw [← hW] at h hspec
  obtain ⟨ok, buffer, buffers, offset, wfile⟩ := W
  cases ok with
  | false =>
    simp only [Option.some.injEq, Prod.mk.injEq] at h
    exact absurd h.1 (by decide)
  | true =>
    obtain ⟨done1, cur1, buffers1, e1, e2, e3, e4⟩ := hspec rfl
    simp only [Prod.mk.injEq, true_and] at e1
    obtain ⟨eb, ebs, eo, ef⟩ := e1
    simp only [] at h
    by_cases h4 : E.write_ok buffers = true
    · rw [if_pos h4] at h
      have hfile : file = os_file_write wfile (block_position u buffers)
          (mach_write_to_4 (mach_write_to_4 buffer (offset * 4) 0xFFFFFFFF) ((offset + 1) * 4)
            0xFFFFFFFF) := by
        by_cases h5 : E.flush_ok = true
        · rw [if_pos h5] at h
          simp only [Option.some.injEq, Prod.mk.injEq] at h
          exact h.2.symm
        · rw [if_neg h5] at h
          simp only [Option.some.injEq, Prod.mk.injEq] at h
          exact absurd h.1 (by decide)
      have hw := record_write cur1 N e3 0xFFFFFFFF 0xFFFFFFFF (offset * 4) ((offset + 1) * 4)
        (by rw [eo]) (by rw [eo])
      rw [← eb] at hw
      rw [hfile, hw, os_file_write_end _ _ _ (by
        rw [block_position_eq u hu, ef, records_bytes_length, ebs, e2, hU]
        ring), ef]
      simp only [List.nil_append] at e4
      unfold dumped_pages
      rw [← e4, dump_bytes_split u N buffers1 hU done1 cur1 e2, dump_bytes_short u N hU cur1 e3]
      simp only [List.map_append, List.flatten_append, List.map_cons, List.map_nil,
        List.flatten_cons, List.flatten_nil, List.append_nil, record_bytes, List.length_append,
        List.length_singleton, List.append_assoc]
    · rw [if_neg h4] at h
      simp only [Option.some.injEq, Prod.mk.injEq] at h
      exact absurd h.1 (by decide)

theorem file_dump_success (u : univ_consts) (E : dump_env) (p : buf_pool_t)
    (h1 : E.name_in_use = false) (h2 : E.buffer_ok = true) (h3 : E.create_ok = true)
    (h4 : ∀ k, E.write_ok k = true) (h5 : E.flush_ok = true) (h6 : E.rename_ok = true)
    (hnd : p.LRU.Nodup) :
    ∃ file, buf_LRU_file_dump u E p = some (true, file) := by
  unfold buf_LRU_file_dump
  rw [h1, h2, h3]
  simp only [Bool.false_eq_true, if_false, Bool.not_true]
  have hs : (dump_walk u E p p.LRU.head? p.LRU.length p.LRU
      (List.replicate (UNIV_PAGE_SIZE u) 0) 0 0 0 []).1 = true := by
    cases hl : p.LRU with
    | nil => rfl
    | cons x xs =>
      rw [hl] at hnd
      exact dump_walk_success u E p _ _ h4 (by simp) _ _ _ _ _ _ (by
        intro y hy e
        simp only [List.tail_cons] at hy
        simp only [List.head?_cons, Option.some.injEq] at e
        exact (List.nodup_cons.mp hnd).1 (e ▸ hy))
  obtain ⟨W, hW⟩ : ∃ W, W = dump_walk u E p p.LRU.head? p.LRU.length p.LRU
    (List.replicate (UNIV_PAGE_SIZE u) 0) 0 0 0 [] := ⟨_, rfl⟩
  rw [← hW] at hs ⊢
  obtain ⟨ok, buffer, buffers, offset, wfile⟩ := W
  simp only at hs
  subst hs
  simp only [h4, h5, h6, if_true]
  exact ⟨_, rfl⟩

/-! # Reading the dump file -/

theorem read_record_at (pre tail : List Nat) (r : dump_record_t) (j : Nat)
    (hpre : pre.length = 8 * j) :
    mach_read_from_4 (pre ++ (record_bytes r ++ tail)) (2 * j * 4) = r.space_id % 2 ^ 32 ∧
    mach_read_from_4 (pre ++ (record_bytes r ++ tail)) ((2 * j + 1) * 4)
      = r.page_no % 2 ^ 32 := by
  constructor
  · have e : 2 * j * 4 = pre.length + 0 := by omega
    rw [e, mach_read_shift]
    unfold record_bytes
    rw [List.append_assoc]
    exact mach_read_be4 _ _
  · have e : (2 * j + 1) * 4 = (pre ++ be4 r.space_id).length + 0 := by
      rw [List.length_append, be4_length]
      omega
    have e2 : pre ++ (record_bytes r ++ tail)
        = (pre ++ be4 r.space_id) ++ (be4 r.page_no ++ tail) := by
      unfold record_bytes
      simp only [List.append_assoc]
    rw [e2, e, mach_read_shift]
    exact mach_read_be4 _ _

theorem scan_block_cons (b : List Nat) (size offset : Nat) (offsets : List Nat)
    (records : List dump_record_t) :
    restore_scan_block b size (offset :: offsets) records
      = if mach_read_from_4 b (offset * 4) = 0xFFFFFFFF
            ∨ mach_read_from_4 b ((offset + 1) * 4) = 0xFFFFFFFF then (true, records)
        else if (records.length + 1) * 8 ≥ size then
          (true, records ++ [{ space_id := mach_read_from_4 b (offset * 4),
                               page_no := mach_read_from_4 b ((offset + 1) * 4) }])
        else
          restore_scan_block b size offsets
            (records ++ [{ space_id := mach_read_from_4 b (offset * 4),
                           page_no := mach_read_from_4 b ((offset + 1) * 4) }]) := by
  rw [restore_scan_block]

theorem scan_records (b : List Nat) (size : Nat) :
    ∀ (rs : List dump_record_t) (pre post : List Nat) (j m : Nat) (acc : List dump_record_t),
      b = pre ++ ((rs.map record_bytes).flatten ++ post) → pre.length = 8 * j →
      (∀ r ∈ rs, r.space_id < 0xFFFFFFFF ∧ r.page_no < 0xFFFFFFFF) →
      rs.length ≤ m → (acc.length + rs.length) * 8 < size →
      restore_scan_block b size ((List.range' j m).map (fun k => 2 * k)) acc
        = restore_scan_block b size
            ((List.range' (j + rs.length) (m - rs.length)).map (fun k => 2 * k)) (acc ++ rs) := by
  intro rs
  induction rs with
  | nil =>
    intro pre post j m acc _ _ _ _ _
    simp
  | cons r rs ih =>
    intro pre post j m acc hb hpre hv hm hsize
    simp only [List.length_cons] at hm hsize
    obtain ⟨m1, rfl⟩ : ∃ m1, m = m1 + 1 := ⟨m - 1, by omega⟩
    have hr := hv r (List.mem_cons_self _ _)
    have hread := read_record_at pre ((rs.map record_bytes).flatten ++ post) r j hpre
    have hb2 : b = pre ++ (record_bytes r ++ ((rs.map record_bytes).flatten ++ post)) := by
      rw [hb]
      simp only [List.map_cons, List.flatten_cons, List.append_assoc]
    rw [← hb2, Nat.mod_eq_of_lt (by omega), Nat.mod_eq_of_lt (by omega)] at hread
    rw [List.range'_succ, List.map_cons, scan_block_cons]
    rw [hread.1, hread.2, if_neg (by omega), if_neg (by omega)]
    have e := ih (pre ++ record_bytes r) post (j + 1) m1 (acc ++ [r])
      (by rw [hb2]; simp only [List.append_assoc])
      (by rw [List.length_append, record_bytes_length, hpre]; omega)
      (fun x hx => hv x (List.mem_cons_of_mem _ hx)) (by omega)
      (by rw [List.length_append, List.length_singleton]; omega)
    rw [e]
    have e1 : j + 1 + rs.length = j + (r :: rs).length := by
      rw [List.length_cons]
      omega
    have e2 : m1 - rs.length = m1 + 1 - (r :: rs).length := by
      rw [List.length_cons]
      omega
    rw [e1, e2, List.append_assoc, List.singleton_append]

theorem scan_last_block (u : univ_consts) (N : Nat) (hU : UNIV_PAGE_SIZE u = 8 * N)
    (size : Nat) (cur acc : List dump_record_t) (hc : cur.length < N)
    (hv : ∀ r ∈ cur, r.space_id < 0xFFFFFFFF ∧ r.page_no < 0xFFFFFFFF)
    (hsize : (acc.length + cur.length) * 8 < size) :
    restore_scan_block (dump_bytes u cur) size (block_offsets u) acc = (true, acc ++ cur) := by
  rw [block_offsets_eq u N hU, dump_bytes_short u N hU cur hc]
  have hb : (cur.map record_bytes).flatten ++ (be4 0xFFFFFFFF ++ be4 0xFFFFFFFF)
      ++ List.replicate (8 * N - 8 * (cur.length + 1)) 0
      = [] ++ ((cur.map record_bytes).flatten ++ ((be4 0xFFFFFFFF ++ be4 0xFFFFFFFF)
        ++ List.replicate (8 * N - 8 * (cur.length + 1)) 0)) := by
    simp only [List.nil_append, List.append_assoc]
  rw [scan_records _ size cur [] _ 0 N acc hb rfl hv (by omega) hsize]
  obtain ⟨m1, hm1⟩ : ∃ m1, N - cur.length = m1 + 1 := ⟨N - cur.length - 1, by omega⟩
  rw [hm1, List.range'_succ, List.map_cons, scan_block_cons]
  have hread := read_record_at ((cur.map record_bytes).flatten)
    (List.replicate (8 * N - 8 * (cur.length + 1)) 0) ⟨0xFFFFFFFF, 0xFFFFFFFF⟩ cur.length
    (records_bytes_length cur)
  have e : (cur.map record_bytes).flatten
      ++ (record_bytes ⟨0xFFFFFFFF, 0xFFFFFFFF⟩
        ++ List.replicate (8 * N - 8 * (cur.length + 1)) 0)
      = (cur.map record_bytes).flatten ++ (be4 0xFFFFFFFF ++ be4 0xFFFFFFFF)
        ++ List.replicate (8 * N - 8 * (cur.length + 1)) 0 := by
    simp only [record_bytes, List.append_assoc]
  rw [e] at hread
  simp only [Nat.zero_add]
  rw [hread.1]
  simp

theorem scan_full_block (u : univ_consts) (N : Nat) (hU : UNIV_PAGE_SIZE u = 8 * N)
    (size : Nat) (blk acc : List dump_record_t) (hc : blk.length = N)
    (hv : ∀ r ∈ blk, r.space_id < 0xFFFFFFFF ∧ r.page_no < 0xFFFFFFFF)
    (hsize : (acc.length + blk.length) * 8 < size) :
    restore_scan_block ((blk.map record_bytes).flatten) size (block_offsets u) acc
      = (false, acc ++ blk) := by
  rw [block_offsets_eq u N hU]
  have hb : (blk.map record_bytes).flatten = [] ++ ((blk.map record_bytes).flatten ++ []) := by
    simp only [List.nil_append, List.append_nil]
  rw [scan_records _ size blk [] [] 0 N acc hb rfl hv (by omega) hsize, hc, Nat.sub_self]
  rfl

theorem os_file_read_at (pre X : List Nat) (pos n : Nat) (hpos : pos = pre.length)
    (hn : n ≤ X.length) : os_file_read (pre ++ X) pos n = some (X.take n) := by
  subst hpos
  unfold os_file_read
  rw [if_pos (by rw [List.length_append]; omega), List.drop_left]

theorem read_records_dump (u : univ_consts) (N : Nat) (hu : univ_ok u) (hN : 0 < N)
    (hU : UNIV_PAGE_SIZE u = 8 * N) (size : Nat) :
    ∀ (fuel : Nat) (rest : List dump_record_t) (pre : List Nat) (acc : List dump_record_t)
      (buffers : Nat),
      rest.length < fuel * N → pre.length = buffers * UNIV_PAGE_SIZE u →
      (∀ r ∈ rest, r.space_id < 0xFFFFFFFF ∧ r.page_no < 0xFFFFFFFF) →
      (acc.length + rest.length) * 8 < size →
      restore_read_records u (pre ++ dump_bytes u rest) size fuel buffers acc
        = some (true, acc ++ rest, buffers + rest.length / N + 1) := by
  intro fuel
  induction fuel with
  | zero =>
    intro rest pre acc buffers h
    simp at h
  | succ fuel ih =>
    intro rest pre acc buffers hfuel hpre hv hsize
    have hlen := dump_bytes_length u N hN hU rest
    unfold restore_read_records
    rw [os_file_read_at pre _ _ _ (by rw [block_position_eq u hu, hpre]) (by
      rw [hlen, add_mul, one_mul]
      omega)]
    simp only []
    by_cases hc : rest.length < N
    · have e : (dump_bytes u rest).take (UNIV_PAGE_SIZE u) = dump_bytes u rest := by
        apply List.take_of_length_le
        rw [hlen, Nat.div_eq_of_lt hc]
        omega
      rw [e, scan_last_block u N hU size rest acc hc hv hsize]
      simp only [Nat.div_eq_of_lt hc, Nat.add_zero]
    · have hsplit : rest = rest.take N ++ rest.drop N := (List.take_append_drop N rest).symm
      have htl : (rest.take N).length = N := by
        rw [List.length_take]
        omega
      have hdl : (rest.drop N).length = rest.length - N := List.length_drop _ _
      have hd := dump_bytes_split u N 1 hU (rest.take N) (rest.drop N) (by rw [htl, one_mul])
      rw [← hsplit] at hd
      have e : (dump_bytes u rest).take (UNIV_PAGE_SIZE u)
          = ((rest.take N).map record_bytes).flatten := by
        rw [hd]
        have hl : (((rest.take N).map record_bytes).flatten).length = UNIV_PAGE_SIZE u := by
          rw [records_bytes_length, htl, hU]
        rw [← hl, List.take_left]
      rw [e, scan_full_block u N hU size (rest.take N) acc htl
        (fun r hr => hv r (List.mem_of_mem_take hr)) (by rw [htl]; omega)]
      simp only []
      have hfile : pre ++ dump_bytes u rest
          = (pre ++ ((rest.take N).map record_bytes).flatten) ++ dump_bytes u (rest.drop N) := by
        rw [hd, List.append_assoc]
      rw [hfile, ih (rest.drop N) _ (acc ++ rest.take N) (buffers + 1)
        (by rw [hdl]; rw [add_mul, one_mul] at hfuel; omega)
        (by rw [List.length_append, records_bytes_length, htl, hpre, hU]; ring)
        (fun r hr => hv r (List.mem_of_mem_drop hr))
        (by rw [List.length_append, htl, hdl]; omega)]
      rw [List.append_assoc, ← hsplit, hdl]
      have hdiv : rest.length / N = (rest.length - N) / N + 1 := by
        have h1 : rest.length = (rest.length - N) + N := by omega
        conv_lhs => rw [h1]
        exact Nat.add_div_right _ hN
      rw [hdiv]
      congr 3
      omega

/-! # `buf_LRU_file_restore` returns -/

theorem scan_block_false (b : List Nat) (size : Nat) :
    ∀ (offsets : List Nat) (acc r1 : List dump_record_t),
      restore_scan_block b size offsets acc = (false, r1) →
      r1.length = acc.length + offsets.length ∧ (offsets ≠ [] → r1.length * 8 < size) := by
  intro offsets
  induction offsets with
  | nil =>
    intro acc r1 h
    rw [restore_scan_block] at h
    simp only [Prod.mk.injEq, true_and] at h
    subst h
    exact ⟨rfl, fun h => absurd rfl h⟩
  | cons o os ih =>
    intro acc r1 h
    rw [scan_block_cons] at h
    split_ifs at h with h1 h2
    · cases h
    · cases h
    · obtain ⟨e1, e2⟩ := ih _ _ h
      rw [List.length_append, List.length_singleton] at e1
      refine ⟨by rw [e1, List.length_cons]; omega, fun _ => ?_⟩
      cases os with
      | nil =>
        rw [e1]
        simp only [List.length_nil]
        omega
      | cons o2 os2 => exact e2 (by simp)

theorem block_offsets_ne (u : univ_consts) (hu : univ_ok u) : block_offsets u ≠ [] := by
  obtain ⟨N, hN, hU⟩ := univ_facts u hu
  rw [block_offsets_eq u N hU]
  obtain ⟨m, rfl⟩ : ∃ m, N = m + 1 := ⟨N - 1, by omega⟩
  rw [List.range'_succ]
  simp

theorem read_records_total (u : univ_consts) (hu : univ_ok u) (file : List Nat) (size : Nat) :
    ∀ (fuel buffers : Nat) (acc : List dump_record_t),
      acc.length * 8 < size → size ≤ acc.length * 8 + fuel →
      ∃ res, restore_read_records u file size fuel buffers acc = some res := by
  intro fuel
  induction fuel with
  | zero =>
    intro buffers acc h1 h2
    omega
  | succ fuel ih =>
    intro buffers acc h1 h2
    unfold restore_read_records
    cases os_file_read file (block_position u buffers) (UNIV_PAGE_SIZE u) with
    | none => exact ⟨_, rfl⟩
    | some buffer =>
      simp only []
      obtain ⟨S, hS⟩ : ∃ S, S = restore_scan_block buffer size (block_offsets u) acc :=
        ⟨_, rfl⟩
      rw [← hS]
      obtain ⟨t, r1⟩ := S
      cases t with
      | true => exact ⟨_, rfl⟩
      | false =>
        simp only []
        obtain ⟨e1, e2⟩ := scan_block_false buffer size _ _ _ hS.symm
        have e3 := e2 (block_offsets_ne u hu)
        have e4 : 0 < (block_offsets u).length :=
          List.length_pos.mpr (block_offsets_ne u hu)
        exact ih (buffers + 1) r1 e3 (by omega)

theorem dump_record_cmp_self (r : dump_record_t) : dump_record_cmp r r = 0 := by
  unfold dump_record_cmp
  simp

theorem bsearch_found (key : dump_record_t) (base : List dump_record_t) (h : key ∈ base) :
    ∃ cur, bsearch key base = some cur ∧ cur < base.length := by
  have hlt : base.findIdx (fun r => decide (dump_record_cmp key r = 0)) < base.length :=
    List.findIdx_lt_length_of_exists ⟨key, h, by simp [dump_record_cmp_self]⟩
  unfold bsearch
  rw [if_pos hlt]
  exact ⟨_, rfl, hlt⟩

theorem restore_run_length (E : restore_env) (offset space_id : Nat) :
    ∀ (rest : List dump_record_t) (cur : Nat) (records_loaded : Nat → Bool)
      (req : List dump_record_t),
      (restore_run E offset space_id cur rest records_loaded req).2.2.length
        ≤ req.length + rest.length := by
  intro rest
  induction rest with
  | nil =>
    intro cur records_loaded req
    rw [restore_run]
    simp
  | cons r rest ih =>
    intro cur records_loaded req
    unfold restore_run
    split_ifs with h1 h2
    · simp
    · cases rest with
      | nil => simp
      | cons next tl =>
        simp only []
        split_ifs with h3
        · simp
        · have := ih (cur + 1) (Function.update records_loaded cur true)
            (req ++ [{ space_id := space_id, page_no := r.page_no }])
          simp only [List.length_append, List.length_singleton, List.length_cons,
            List.length_nil] at this ⊢
          omega
    · simp

theorem restore_requests_bound (E : restore_env) (sorted_records : List dump_record_t) :
    ∀ (l : List dump_record_t) (offset : Nat) (records_loaded : Nat → Bool)
      (req : List dump_record_t), (∀ r ∈ l, r ∈ sorted_records) →
      ∃ ret req1, restore_requests E sorted_records offset l records_loaded req
          = some (ret, req1) ∧
        req1.length ≤ req.length + l.length * sorted_records.length := by
  intro l
  induction l with
  | nil =>
    intro offset records_loaded req _
    exact ⟨true, req, by rw [restore_requests], by simp⟩
  | cons r rest ih =>
    intro offset records_loaded req hl
    have hrest : ∀ x ∈ rest, x ∈ sorted_records := fun x hx => hl x (List.mem_cons_of_mem _ hx)
    have hstep : ∀ rl, ∃ ret req1, restore_requests E sorted_records (offset + 1) rest rl req
          = some (ret, req1) ∧
        req1.length ≤ req.length + (r :: rest).length * sorted_records.length := by
      intro rl
      obtain ⟨ret, req1, e1, e2⟩ := ih (offset + 1) rl req hrest
      refine ⟨ret, req1, e1, ?_⟩
      rw [List.length_cons, add_mul, one_mul]
      omega
    rw [restore_requests]
    cases E.fil_space_get_zip_size r.space_id with
    | none => exact hstep _
    | some z =>
      simp only []
      obtain ⟨cur, hcur, _⟩ := bsearch_found r sorted_records (hl r (List.mem_cons_self _ _))
      rw [hcur]
      simp only []
      split_ifs with hload
      · exact hstep _
      · obtain ⟨R, hR⟩ : ∃ R, R = restore_run E offset r.space_id
            (run_first sorted_records cur)
            (sorted_records.drop (run_first sorted_records cur)) records_loaded req :=
          ⟨_, rfl⟩
        have hlen := restore_run_length E offset r.space_id
          (sorted_records.drop (run_first sorted_records cur)) (run_first sorted_records cur)
          records_loaded req
        rw [← hR] at hlen ⊢
        obtain ⟨ok, rl1, rq1⟩ := R
        simp only [List.length_drop] at hlen
        cases ok with
        | false =>
          refine ⟨false, rq1, rfl, ?_⟩
          rw [List.length_cons, add_mul, one_mul]
          omega
        | true =>
          simp only []
          obtain ⟨ret, req1, e1, e2⟩ := ih (offset + 1) rl1 rq1 hrest
          refine ⟨ret, req1, e1, ?_⟩
          rw [List.length_cons, add_mul, one_mul]
          omega

theorem qsort_perm (records : List dump_record_t) : (qsort records).Perm records :=
  List.perm_insertionSort _ _

theorem file_restore_cases (u : univ_consts) (E : restore_env) (hu : univ_ok u)
    (dump_file : Option (List Nat)) :
    ∃ res, buf_LRU_file_restore u E dump_file = some res ∧
      res.requests.length
        ≤ min res.records.length E.srv_lru_load_max_entries * res.records.length := by
  unfold buf_LRU_file_restore
  cases dump_file with
  | none => exact ⟨_, rfl, by simp⟩
  | some file =>
    simp only []
    split_ifs with h1 h2
    · exact ⟨_, rfl, by simp⟩
    · exact ⟨_, rfl, by simp⟩
    · obtain ⟨res, hres⟩ := read_records_total u hu file (file.length % 2 ^ 32)
        (file.length % 2 ^ 32) 0 [] (by
          simp only [List.length_nil, Nat.zero_mul]
          omega) (by simp)
      rw [hres]
      obtain ⟨ok, records, buffers⟩ := res
      cases ok with
      | false => exact ⟨_, rfl, by simp⟩
      | true =>
        simp only []
        obtain ⟨ret, req1, e1, e2⟩ := restore_requests_bound E (qsort records)
          (records.take (min records.length E.srv_lru_load_max_entries)) 0 (fun _ => false) []
          (fun r hr => (qsort_perm records).mem_iff.mpr (List.mem_of_mem_take hr))
        rw [e1]
        refine ⟨_, rfl, ?_⟩
        simp only [List.length_nil, Nat.zero_add, List.length_take,
          (qsort_perm records).length_eq] at e2
        simpa using e2

theorem read_dump_bytes (u : univ_consts) (hu : univ_ok u) (recs : List dump_record_t)
    (hv : ∀ r ∈ recs, r.space_id < 0xFFFFFFFF ∧ r.page_no < 0xFFFFFFFF)
    (hsize : (recs.length / (UNIV_PAGE_SIZE u / 8) + 1) * UNIV_PAGE_SIZE u < 2 ^ 32) :
    (dump_bytes u recs).length % 2 ^ 32
        = (recs.length / (UNIV_PAGE_SIZE u / 8) + 1) * UNIV_PAGE_SIZE u ∧
    restore_read_records u (dump_bytes u recs) ((dump_bytes u recs).length % 2 ^ 32)
        ((dump_bytes u recs).length % 2 ^ 32) 0 []
      = some (true, recs, recs.length / (UNIV_PAGE_SIZE u / 8) + 1) := by
  obtain ⟨N, hN, hU⟩ := univ_facts u hu
  have hdiv : UNIV_PAGE_SIZE u / 8 = N := by
    rw [hU]
    omega
  rw [hdiv] at hsize ⊢
  have hlen := dump_bytes_length u N hN hU recs
  have hmod : (dump_bytes u recs).length % 2 ^ 32
      = (recs.length / N + 1) * UNIV_PAGE_SIZE u := by
    rw [hlen]
    exact Nat.mod_eq_of_lt hsize
  refine ⟨hmod, ?_⟩
  rw [hmod]
  have h1 : recs.length < (recs.length / N + 1) * N := by
    have := Nat.div_add_mod recs.length N
    have := Nat.mod_lt recs.length hN
    have e : (recs.length / N + 1) * N = N * (recs.length / N) + N := by ring
    omega
  have h2 : (recs.length / N + 1) * N ≤ (recs.length / N + 1) * UNIV_PAGE_SIZE u * N := by
    have e : (recs.length / N + 1) * UNIV_PAGE_SIZE u * N
        = (recs.length / N + 1) * N * UNIV_PAGE_SIZE u := by ring
    rw [e]
    exact Nat.le_mul_of_pos_right _ (by rw [hU]; omega)
  have h3 : (recs.length / N + 1) * UNIV_PAGE_SIZE u = 8 * ((recs.length / N + 1) * N) := by
    rw [hU]
    ring
  have := read_records_dump u N hu hN hU ((recs.length / N + 1) * UNIV_PAGE_SIZE u)
    ((recs.length / N + 1) * UNIV_PAGE_SIZE u) recs [] [] 0 (by omega) (by simp) hv
    (by simp only [List.length_nil, Nat.zero_add]; omega)
  simpa using this

theorem restore_dump_bytes (u : univ_consts) (E : restore_env) (hu : univ_ok u)
    (recs : List dump_record_t)
    (hv : ∀ r ∈ recs, r.space_id < 0xFFFFFFFF ∧ r.page_no < 0xFFFFFFFF)
    (hsize : (recs.length / (UNIV_PAGE_SIZE u / 8) + 1) * UNIV_PAGE_SIZE u < 2 ^ 32)
    (ha : E.alloc_ok = true) :
    buf_LRU_file_restore u E (some (dump_bytes u recs))
      = (restore_requests E (qsort recs) 0
          (recs.take (min recs.length E.srv_lru_load_max_entries)) (fun _ => false) []).map
          (fun r => { ret := r.1, blocks_read := recs.length / (UNIV_PAGE_SIZE u / 8) + 1,
                      records := recs, requests := r.2 }) := by
  obtain ⟨hmod, hread⟩ := read_dump_bytes u hu recs hv hsize
  obtain ⟨N, hN, hU⟩ := univ_facts u hu
  have hpos : 0 < UNIV_PAGE_SIZE u := by rw [hU]; omega
  have hlen := dump_bytes_length u N hN hU recs
  have hdiv : UNIV_PAGE_SIZE u / 8 = N := by
    rw [hU]
    omega
  rw [hdiv] at hmod hsize
  unfold buf_LRU_file_restore
  simp only []
  have hc : ¬ ((dump_bytes u recs).length % 2 ^ 32 = 0 ∨ (dump_bytes u recs).length / 2 ^ 32 > 0
      ∨ (dump_bytes u recs).length % 2 ^ 32 % 8 ≠ 0) := by
    have h8 : (recs.length / N + 1) * UNIV_PAGE_SIZE u % 8 = 0 := by
      rw [hU]
      have : (recs.length / N + 1) * (8 * N) = 8 * ((recs.length / N + 1) * N) := by ring
      rw [this]
      exact Nat.mul_mod_right _ _
    have hgt : 0 < (recs.length / N + 1) * UNIV_PAGE_SIZE u := Nat.mul_pos (Nat.succ_pos _) hpos
    rw [hlen]
    generalize (recs.length / N + 1) * UNIV_PAGE_SIZE u = X at h8 hgt hsize
    omega
  rw [if_neg hc, ha]
  simp only [Bool.not_true, Bool.false_eq_true, if_false]
  rw [hread]
  simp only []
  cases restore_requests E (qsort recs) 0
    (recs.take (min recs.length E.srv_lru_load_max_entries)) (fun _ => false) [] with
  | none => rfl
  | some r => rfl

/-! # The runs of `buf_LRU_file_restore` -/

theorem dump_record_cmp_le (a b : dump_record_t) :
    dump_record_cmp a b ≤ 0
      ↔ a.space_id < b.space_id ∨ (a.space_id = b.space_id ∧ a.page_no ≤ b.page_no) := by
  unfold dump_record_cmp
  split_ifs <;> simp <;> omega

theorem dump_record_cmp_eq (a b : dump_record_t) : dump_record_cmp a b = 0 ↔ a = b := by
  obtain ⟨s1, p1⟩ := a
  obtain ⟨s2, p2⟩ := b
  unfold dump_record_cmp
  simp only [dump_record_t.mk.injEq]
  split_ifs <;> simp <;> omega

theorem qsort_sorted (records : List dump_record_t) :
    (qsort records).Pairwise (fun a b => dump_record_cmp a b ≤ 0) := by
  haveI : IsTotal dump_record_t (fun a b => dump_record_cmp a b ≤ 0) :=
    ⟨fun a b => by
      rw [dump_record_cmp_le, dump_record_cmp_le]
      omega⟩
  haveI : IsTrans dump_record_t (fun a b => dump_record_cmp a b ≤ 0) :=
    ⟨fun a b c => by
      rw [dump_record_cmp_le, dump_record_cmp_le, dump_record_cmp_le]
      omega⟩
  exact List.sorted_insertionSort _ records

theorem qsort_strict (records : List dump_record_t) (hnd : records.Nodup) :
    (qsort records).Pairwise (fun a b =>
      a.space_id < b.space_id ∨ (a.space_id = b.space_id ∧ a.page_no < b.page_no)) := by
  have h1 := qsort_sorted records
  have h2 : (qsort records).Pairwise (fun a b => a ≠ b) :=
    ((qsort_perm records).nodup_iff.mpr hnd)
  refine (h1.and h2).imp ?_
  intro a b ⟨hle, hne⟩
  rw [dump_record_cmp_le] at hle
  rcases hle with h | ⟨h3, h4⟩
  · exact Or.inl h
  · refine Or.inr ⟨h3, ?_⟩
    rcases Nat.lt_or_ge a.page_no b.page_no with h5 | h5
    · exact h5
    · exfalso
      apply hne
      obtain ⟨s1, p1⟩ := a
      obtain ⟨s2, p2⟩ := b
      simp only [dump_record_t.mk.injEq]
      simp only at h3 h4 h5
      omega

theorem strict_at (S : List dump_record_t)
    (hS : S.Pairwise (fun a b =>
      a.space_id < b.space_id ∨ (a.space_id = b.space_id ∧ a.page_no < b.page_no)))
    (i j : Nat) (hij : i < j) (hj : j < S.length) :
    (S.getD i ⟨0, 0⟩).space_id < (S.getD j ⟨0, 0⟩).space_id ∨
      ((S.getD i ⟨0, 0⟩).space_id = (S.getD j ⟨0, 0⟩).space_id ∧
        (S.getD i ⟨0, 0⟩).page_no < (S.getD j ⟨0, 0⟩).page_no) := by
  rw [List.getD_eq_getElem _ _ (by omega : i < S.length), List.getD_eq_getElem _ _ hj]
  exact List.pairwise_iff_getElem.mp hS i j (by omega) hj hij

theorem strict_unique (S : List dump_record_t)
    (hS : S.Pairwise (fun a b =>
      a.space_id < b.space_id ∨ (a.space_id = b.space_id ∧ a.page_no < b.page_no)))
    (i j : Nat) (hi : i < S.length) (hj : j < S.length)
    (h : S.getD i ⟨0, 0⟩ = S.getD j ⟨0, 0⟩) : i = j := by
  rcases Nat.lt_trichotomy i j with h1 | h1 | h1
  · have := strict_at S hS i j h1 hj
    rw [h] at this
    omega
  · exact h1
  · have := strict_at S hS j i h1 hi
    rw [h] at this
    omega

theorem mem_getD (S : List dump_record_t) (a : dump_record_t) (ha : a ∈ S) :
    ∃ i, i < S.length ∧ S.getD i ⟨0, 0⟩ = a := by
  obtain ⟨i, hi, e⟩ := List.getElem_of_mem ha
  exact ⟨i, hi, by rw [List.getD_eq_getElem _ _ hi, e]⟩

theorem getD_mem (S : List dump_record_t) (i : Nat) (hi : i < S.length) :
    S.getD i ⟨0, 0⟩ ∈ S := by
  rw [List.getD_eq_getElem _ _ hi]
  exact List.getElem_mem _

theorem sorted_adjacent (S : List dump_record_t)
    (hS : S.Pairwise (fun a b =>
      a.space_id < b.space_id ∨ (a.space_id = b.space_id ∧ a.page_no < b.page_no)))
    (i j : Nat) (hi : i < S.length) (hj : j < S.length)
    (hsp : (S.getD i ⟨0, 0⟩).space_id = (S.getD j ⟨0, 0⟩).space_id)
    (hpg : (S.getD i ⟨0, 0⟩).page_no + 1 = (S.getD j ⟨0, 0⟩).page_no) : j = i + 1 := by
  rcases Nat.lt_trichotomy i j with h1 | h1 | h1
  · rcases Nat.lt_or_ge (i + 1) j with h2 | h2
    · have h3 := strict_at S hS i (i + 1) (by omega) (by omega)
      have h4 := strict_at S hS (i + 1) j h2 hj
      omega
    · omega
  · subst h1
    omega
  · have := strict_at S hS j i h1 hi
    omega

theorem run_first_le (S : List dump_record_t) (i : Nat) : run_first S i ≤ i := by
  induction i with
  | zero => simp [run_first]
  | succ i ih =>
    rw [run_first]
    split_ifs
    · exact Nat.le_refl _
    · omega

theorem run_first_links (S : List dump_record_t) :
    ∀ i k, run_first S i ≤ k → k < i →
      run_ends (S.getD k ⟨0, 0⟩) (S.getD (k + 1) ⟨0, 0⟩) = false := by
  intro i
  induction i with
  | zero =>
    intro k _ h
    omega
  | succ i ih =>
    intro k h1 h2
    rw [run_first] at h1
    split_ifs at h1 with h3
    · omega
    · rcases Nat.lt_or_ge k i with h4 | h4
      · exact ih k h1 h4
      · have : k = i := by omega
        subst this
        simpa using h3

theorem run_first_of_links (S : List dump_record_t) :
    ∀ i s, s ≤ i →
      (∀ k, s ≤ k → k < i → run_ends (S.getD k ⟨0, 0⟩) (S.getD (k + 1) ⟨0, 0⟩) = false) →
      run_first S i = run_first S s := by
  intro i
  induction i with
  | zero =>
    intro s hs _
    have : s = 0 := by omega
    rw [this]
  | succ i ih =>
    intro s hs hl
    rcases Nat.lt_or_ge s (i + 1) with h1 | h1
    · have h2 := hl i (by omega) (by omega)
      rw [run_first, if_neg (by rw [h2]; decide)]
      exact ih s (by omega) (fun k hk1 hk2 => hl k hk1 (by omega))
    · have : s = i + 1 := by omega
      rw [this]

theorem run_first_idem (S : List dump_record_t) (i : Nat) :
    run_first S (run_first S i) = run_first S i :=
  (run_first_of_links S i (run_first S i) (run_first_le S i)
    (fun k h1 h2 => run_first_links S i k h1 h2)).symm

theorem links_space (S : List dump_record_t) :
    ∀ k s, s ≤ k →
      (∀ m, s ≤ m → m < k → run_ends (S.getD m ⟨0, 0⟩) (S.getD (m + 1) ⟨0, 0⟩) = false) →
      (S.getD s ⟨0, 0⟩).space_id = (S.getD k ⟨0, 0⟩).space_id := by
  intro k
  induction k with
  | zero =>
    intro s hs _
    have : s = 0 := by omega
    rw [this]
  | succ k ih =>
    intro s hs hl
    rcases Nat.lt_or_ge s (k + 1) with h1 | h1
    · have h2 := hl k (by omega) (by omega)
      have h3 := ih s (by omega) (fun m hm1 hm2 => hl m hm1 (by omega))
      unfold run_ends at h2
      simp only [ne_eq, Bool.or_eq_false_iff, decide_eq_false_iff_not, not_not] at h2
      rw [h3, h2.1]
    · have : s = k + 1 := by omega
      rw [this]

theorem drop_cons_facts (S : List dump_record_t) (cur : Nat) (r : dump_record_t)
    (rest : List dump_record_t) (h : S.drop cur = r :: rest) :
    cur < S.length ∧ S.getD cur ⟨0, 0⟩ = r ∧ S.drop (cur + 1) = rest := by
  have hlt : cur < S.length := by
    by_contra hc
    rw [List.drop_of_length_le (by omega)] at h
    cases h
  refine ⟨hlt, ?_, ?_⟩
  · rw [List.getD_eq_getElem _ _ hlt]
    have := List.drop_eq_getElem_cons hlt
    rw [h] at this
    exact (List.cons.inj this).1.symm
  · have := List.drop_eq_getElem_cons hlt
    rw [h] at this
    exact (List.cons.inj this).2.symm

theorem restore_run_spec (E : restore_env) (S : List dump_record_t) (offset space_id : Nat) :
    ∀ (rest : List dump_record_t) (cur : Nat) (records_loaded : Nat → Bool)
      (req : List dump_record_t), S.drop cur = rest →
      (restore_run E offset space_id cur rest records_loaded req).1 = true →
      (∀ x ∈ req, x ∈ (restore_run E offset space_id cur rest records_loaded req).2.2) ∧
      (∀ m, (restore_run E offset space_id cur rest records_loaded req).2.1 m = true →
        records_loaded m = true ∨ (cur ≤ m ∧ m < S.length ∧
          ∀ k, cur ≤ k → k < m →
            run_ends (S.getD k ⟨0, 0⟩) (S.getD (k + 1) ⟨0, 0⟩) = false)) ∧
      (∀ k, cur ≤ k → k < S.length →
        (∀ m, cur ≤ m → m < k →
          run_ends (S.getD m ⟨0, 0⟩) (S.getD (m + 1) ⟨0, 0⟩) = false) →
        (∀ m, cur ≤ m → m ≤ k →
          E.fil_area_is_exist space_id (S.getD m ⟨0, 0⟩).page_no = true) →
        ({ space_id := space_id, page_no := (S.getD k ⟨0, 0⟩).page_no } : dump_record_t)
          ∈ (restore_run E offset space_id cur rest records_loaded req).2.2) := by
  intro rest
  induction rest with
  | nil =>
    intro cur rl req hd _
    have hlen : S.length ≤ cur := by
      by_contra hc
      have := List.drop_eq_getElem_cons (by omega : cur < S.length)
      rw [hd] at this
      cases this
    rw [restore_run]
    exact ⟨fun x hx => hx, fun m hm => Or.inl hm, fun k h1 h2 => by omega⟩
  | cons r rest ih =>
    intro cur rl req hd hok
    obtain ⟨hlt, hr, hd1⟩ := drop_cons_facts S cur r rest hd
    have hmark : ∀ m, Function.update rl cur true m = true →
        rl m = true ∨ (cur ≤ m ∧ m < S.length ∧
          ∀ k, cur ≤ k → k < m →
            run_ends (S.getD k ⟨0, 0⟩) (S.getD (k + 1) ⟨0, 0⟩) = false) := by
      intro m hm
      by_cases e : m = cur
      · subst e
        exact Or.inr ⟨Nat.le_refl _, hlt, fun k h1 h2 => by omega⟩
      · rw [Function.update_noteq e] at hm
        exact Or.inl hm
    unfold restore_run at hok ⊢
    by_cases hsd : E.shutdown offset cur = true
    · rw [if_pos hsd] at hok
      cases hok
    rw [if_neg hsd] at hok ⊢
    by_cases hex : E.fil_area_is_exist space_id r.page_no = true
    · rw [if_pos hex] at hok ⊢
      cases rest with
      | nil =>
        simp only []
        refine ⟨fun x hx => List.mem_append_left _ hx, hmark, ?_⟩
        intro k h1 h2 _ _
        have hlen : S.length ≤ cur + 1 := by
          by_contra hc
          have := List.drop_eq_getElem_cons (by omega : cur + 1 < S.length)
          rw [hd1] at this
          cases this
        have : k = cur := by omega
        rw [this, hr]
        exact List.mem_append_right _ (List.mem_singleton_self _)
      | cons next tl =>
        obtain ⟨hlt2, hn, _⟩ := drop_cons_facts S (cur + 1) next tl hd1
        simp only [] at hok ⊢
        by_cases hend : run_ends r next = true
        · rw [if_pos hend]
          refine ⟨fun x hx => List.mem_append_left _ hx, hmark, ?_⟩
          intro k h1 h2 hl _
          rcases Nat.lt_or_ge cur k with h3 | h3
          · have := hl cur (Nat.le_refl _) h3
            rw [hr, hn, hend] at this
            cases this
          · have : k = cur := by omega
            rw [this, hr]
            exact List.mem_append_right _ (List.mem_singleton_self _)
        · rw [if_neg hend] at hok ⊢
          have hlink : run_ends (S.getD cur ⟨0, 0⟩) (S.getD (cur + 1) ⟨0, 0⟩) = false := by
            rw [hr, hn]
            simpa using hend
          obtain ⟨i1, i2, i3⟩ := ih (cur + 1) (Function.update rl cur true)
            (req ++ [{ space_id := space_id, page_no := r.page_no }]) hd1 hok
          refine ⟨fun x hx => i1 x (List.mem_append_left _ hx), ?_, ?_⟩
          · intro m hm
            rcases i2 m hm with h4 | ⟨h4, h5, h6⟩
            · exact hmark m h4
            · refine Or.inr ⟨by omega, h5, fun k h7 h8 => ?_⟩
              rcases Nat.lt_or_ge cur k with h9 | h9
              · exact h6 k h9 h8
              · have : k = cur := by omega
                rw [this]
                exact hlink
          · intro k h1 h2 hl hx
            rcases Nat.lt_or_ge cur k with h3 | h3
            · exact i3 k h3 h2 (fun m hm1 hm2 => hl m (by omega) hm2)
                (fun m hm1 hm2 => hx m (by omega) hm2)
            · have : k = cur := by omega
              rw [this, hr]
              exact i1 _ (List.mem_append_right _ (List.mem_singleton_self _))
    · rw [if_neg hex]
      refine ⟨fun x hx => hx, hmark, ?_⟩
      intro k h1 h2 _ hx
      have := hx cur (Nat.le_refl _) h1
      rw [hr] at this
      exact absurd this hex

theorem bsearch_spec (key : dump_record_t) (base : List dump_record_t) (cur : Nat)
    (h : bsearch key base = some cur) : cur < base.length ∧ base.getD cur ⟨0, 0⟩ = key := by
  unfold bsearch at h
  split_ifs at h with hlt
  simp only [Option.some.injEq] at h
  subst h
  refine ⟨hlt, ?_⟩
  rw [List.getD_eq_getElem _ _ hlt]
  have := @List.findIdx_getElem _ (fun r => decide (dump_record_cmp key r = 0)) base hlt
  simp only [decide_eq_true_eq] at this
  exact ((dump_record_cmp_eq _ _).mp this).symm

theorem walk_covers (E : restore_env) (S : List dump_record_t)
    (hS : S.Pairwise (fun a b =>
      a.space_id < b.space_id ∨ (a.space_id = b.space_id ∧ a.page_no < b.page_no)))
    (hmono : ∀ space_id p q, q ≤ p → E.fil_area_is_exist space_id p = true →
      E.fil_area_is_exist space_id q = true)
    (offset cur : Nat) (rl : Nat → Bool) (req : List dump_record_t) (_ : cur < S.length)
    (hok : (restore_run E offset (S.getD cur ⟨0, 0⟩).space_id (run_first S cur)
      (S.drop (run_first S cur)) rl req).1 = true) :
    (∀ x ∈ req, x ∈ (restore_run E offset (S.getD cur ⟨0, 0⟩).space_id (run_first S cur)
      (S.drop (run_first S cur)) rl req).2.2) ∧
    (∀ m, (restore_run E offset (S.getD cur ⟨0, 0⟩).space_id (run_first S cur)
        (S.drop (run_first S cur)) rl req).2.1 m = true →
      rl m = true ∨ (m < S.length ∧ run_first S m = run_first S cur)) ∧
    (∀ k, k < S.length → run_first S k = run_first S cur →
      E.fil_area_is_exist (S.getD k ⟨0, 0⟩).space_id (S.getD k ⟨0, 0⟩).page_no = true →
      S.getD k ⟨0, 0⟩ ∈ (restore_run E offset (S.getD cur ⟨0, 0⟩).space_id (run_first S cur)
        (S.drop (run_first S cur)) rl req).2.2) := by
  obtain ⟨w1, w2, w3⟩ := restore_run_spec E S offset (S.getD cur ⟨0, 0⟩).space_id _
    (run_first S cur) rl req rfl hok
  refine ⟨w1, ?_, ?_⟩
  · intro m hm
    rcases w2 m hm with h | ⟨h1, h2, h3⟩
    · exact Or.inl h
    · refine Or.inr ⟨h2, ?_⟩
      rw [run_first_of_links S m (run_first S cur) h1 h3, run_first_idem]
  · intro k hk hrun hex
    have hsk : run_first S cur ≤ k := by
      rw [← hrun]
      exact run_first_le S k
    have hlk : ∀ m, run_first S cur ≤ m → m < k →
        run_ends (S.getD m ⟨0, 0⟩) (S.getD (m + 1) ⟨0, 0⟩) = false := by
      intro m h1 h2
      exact run_first_links S k m (by rw [hrun]; exact h1) h2
    have hsp1 := links_space S k (run_first S cur) hsk hlk
    have hsp2 := links_space S cur (run_first S cur) (run_first_le S cur)
      (fun m h1 h2 => run_first_links S cur m h1 h2)
    have hsp : (S.getD cur ⟨0, 0⟩).space_id = (S.getD k ⟨0, 0⟩).space_id := by
      rw [← hsp2, hsp1]
    have := w3 k hsk hk hlk (by
      intro m h1 h2
      rw [hsp]
      rcases Nat.lt_or_ge m k with h3 | h3
      · have h4 := strict_at S hS m k h3 hk
        have h5 := links_space S k m (by omega) (fun j hj1 hj2 => hlk j (by omega) hj2)
        exact hmono _ _ _ (by omega) hex
      · have : m = k := by omega
        rw [this]
        exact hex)
    have e : ({ space_id := (S.getD cur ⟨0, 0⟩).space_id,
                page_no := (S.getD k ⟨0, 0⟩).page_no } : dump_record_t)
        = S.getD k ⟨0, 0⟩ := by
      rw [hsp]
    rw [e] at this
    exact this

theorem restore_requests_spec (E : restore_env) (S : List dump_record_t)
    (hS : S.Pairwise (fun a b =>
      a.space_id < b.space_id ∨ (a.space_id = b.space_id ∧ a.page_no < b.page_no)))
    (hmono : ∀ space_id p q, q ≤ p → E.fil_area_is_exist space_id p = true →
      E.fil_area_is_exist space_id q = true) :
    ∀ (l : List dump_record_t) (offset : Nat) (rl : Nat → Bool)
      (req reqF : List dump_record_t),
      (∀ w ∈ l, w ∈ S) →
      (∀ i, i < S.length → rl i = true → ∀ k, k < S.length →
        run_first S k = run_first S i →
        E.fil_area_is_exist (S.getD k ⟨0, 0⟩).space_id (S.getD k ⟨0, 0⟩).page_no = true →
        S.getD k ⟨0, 0⟩ ∈ req) →
      restore_requests E S offset l rl req = some (true, reqF) →
      (∀ x ∈ req, x ∈ reqF) ∧
      ∀ w ∈ l, E.fil_space_get_zip_size w.space_id ≠ none →
        ∃ i, i < S.length ∧ S.getD i ⟨0, 0⟩ = w ∧
          ∀ k, k < S.length → run_first S k = run_first S i →
            E.fil_area_is_exist (S.getD k ⟨0, 0⟩).space_id (S.getD k ⟨0, 0⟩).page_no = true →
            S.getD k ⟨0, 0⟩ ∈ reqF := by
  intro l
  induction l with
  | nil =>
    intro offset rl req reqF _ _ h
    rw [restore_requests] at h
    simp only [Option.some.injEq, Prod.mk.injEq, true_and] at h
    subst h
    exact ⟨fun x hx => hx, fun w hw => absurd hw (List.not_mem_nil _)⟩
  | cons w rest ih =>
    intro offset rl req reqF hl hinv h
    have hrest : ∀ x ∈ rest, x ∈ S := fun x hx => hl x (List.mem_cons_of_mem _ hx)
    obtain ⟨cur, hcur, _⟩ := bsearch_found w S (hl w (List.mem_cons_self _ _))
    obtain ⟨hclt, hcw⟩ := bsearch_spec w S cur hcur
    unfold restore_requests at h
    cases hz : E.fil_space_get_zip_size w.space_id with
    | none =>
      rw [hz] at h
      simp only [] at h
      obtain ⟨i1, i2⟩ := ih (offset + 1) rl req reqF hrest hinv h
      refine ⟨i1, ?_⟩
      intro x hx hzx
      rcases List.mem_cons.mp hx with e | e
      · rw [e, hz] at hzx
        exact absurd rfl hzx
      · exact i2 x e hzx
    | some z =>
      rw [hz, hcur] at h
      simp only [] at h
      by_cases hld : rl cur = true
      · rw [if_pos hld] at h
        obtain ⟨i1, i2⟩ := ih (offset + 1) rl req reqF hrest hinv h
        refine ⟨i1, ?_⟩
        intro x hx hzx
        rcases List.mem_cons.mp hx with e | e
        · rw [e]
          exact ⟨cur, hclt, hcw, fun k hk hrun hex => i1 _ (hinv cur hclt hld k hk hrun hex)⟩
        · exact i2 x e hzx
      · rw [if_neg hld] at h
        rw [← hcw] at h
        obtain ⟨R, hR⟩ : ∃ R, R = restore_run E offset (S.getD cur ⟨0, 0⟩).space_id
            (run_first S cur) (S.drop (run_first S cur)) rl req := ⟨_, rfl⟩
        have hcov := walk_covers E S hS hmono offset cur rl req hclt
        rw [← hR] at h hcov
        obtain ⟨ok, rl1, rq1⟩ := R
        cases ok with
        | false =>
          simp only [Option.some.injEq, Prod.mk.injEq] at h
          exact absurd h.1 (by decide)
        | true =>
          simp only [] at h
          obtain ⟨c1, c2, c3⟩ := hcov rfl
          simp only [] at c1 c2 c3
          have hinv1 : ∀ i, i < S.length → rl1 i = true → ∀ k, k < S.length →
              run_first S k = run_first S i →
              E.fil_area_is_exist (S.getD k ⟨0, 0⟩).space_id (S.getD k ⟨0, 0⟩).page_no = true →
              S.getD k ⟨0, 0⟩ ∈ rq1 := by
            intro i hi hli k hk hrun hex
            rcases c2 i hli with h1 | ⟨_, h2⟩
            · exact c1 _ (hinv i hi h1 k hk hrun hex)
            · exact c3 k hk (by rw [hrun, h2]) hex
          obtain ⟨i1, i2⟩ := ih (offset + 1) rl1 rq1 reqF hrest hinv1 h
          refine ⟨fun x hx => i1 x (c1 x hx), ?_⟩
          intro x hx hzx
          rcases List.mem_cons.mp hx with e | e
          · rw [e]
            exact ⟨cur, hclt, hcw, fun k hk hrun hex => i1 _ (c3 k hk hrun hex)⟩
          · exact i2 x e hzx

theorem scan_block_valid (b : List Nat) (size : Nat) :
    ∀ (offsets : List Nat) (acc : List dump_record_t),
      (∀ r ∈ acc, r.page_no < 2 ^ 32) →
      ∀ r ∈ (restore_scan_block b size offsets acc).2, r.page_no < 2 ^ 32 := by
  intro offsets
  induction offsets with
  | nil =>
    intro acc h
    rw [restore_scan_block]
    exact h
  | cons o os ih =>
    intro acc h
    have h2 : ∀ (x : dump_record_t), x.page_no < 2 ^ 32 →
        ∀ r ∈ acc ++ [x], r.page_no < 2 ^ 32 := by
      intro x hx r hr
      rcases List.mem_append.mp hr with h3 | h3
      · exact h r h3
      · rw [List.mem_singleton.mp h3]
        exact hx
    rw [scan_block_cons]
    split_ifs
    · exact h
    · exact h2 _ (mach_read_lt _ _)
    · exact ih _ (h2 _ (mach_read_lt _ _))

theorem read_records_valid (u : univ_consts) (file : List Nat) (size : Nat) :
    ∀ (fuel buffers : Nat) (acc : List dump_record_t) (ok : Bool)
      (records : List dump_record_t) (n : Nat),
      (∀ r ∈ acc, r.page_no < 2 ^ 32) →
      restore_read_records u file size fuel buffers acc = some (ok, records, n) →
      ∀ r ∈ records, r.page_no < 2 ^ 32 := by
  intro fuel
  induction fuel with
  | zero =>
    intro buffers acc ok records n _ h
    rw [restore_read_records] at h
    cases h
  | succ fuel ih =>
    intro buffers acc ok records n hacc h
    unfold restore_read_records at h
    cases hrd : os_file_read file (block_position u buffers) (UNIV_PAGE_SIZE u) with
    | none =>
      rw [hrd] at h
      simp only [Option.some.injEq, Prod.mk.injEq] at h
      rw [← h.2.1]
      exact hacc
    | some buffer =>
      rw [hrd] at h
      simp only [] at h
      have hv := scan_block_valid buffer size (block_offsets u) acc hacc
      obtain ⟨S, hS⟩ : ∃ S, S = restore_scan_block buffer size (block_offsets u) acc :=
        ⟨_, rfl⟩
      rw [← hS] at h hv
      obtain ⟨t, r1⟩ := S
      cases t with
      | true =>
        simp only [Option.some.injEq, Prod.mk.injEq] at h
        rw [← h.2.1]
        exact hv
      | false =>
        simp only [] at h
        exact ih _ _ _ _ _ hv h

theorem record_ext (a b : dump_record_t) (h1 : a.space_id = b.space_id)
    (h2 : a.page_no = b.page_no) : a = b := by
  obtain ⟨s1, p1⟩ := a
  obtain ⟨s2, p2⟩ := b
  simp only at h1 h2
  rw [h1, h2]

theorem run_of_pages (S : List dump_record_t)
    (hS : S.Pairwise (fun a b =>
      a.space_id < b.space_id ∨ (a.space_id = b.space_id ∧ a.page_no < b.page_no)))
    (hv : ∀ r ∈ S, r.page_no < 2 ^ 32) (ia : Nat) (hia : ia < S.length) :
    ∀ (d ib : Nat), ib < S.length →
      (S.getD ia ⟨0, 0⟩).space_id = (S.getD ib ⟨0, 0⟩).space_id →
      (S.getD ia ⟨0, 0⟩).page_no + d = (S.getD ib ⟨0, 0⟩).page_no →
      (∀ page_no, (S.getD ia ⟨0, 0⟩).page_no ≤ page_no →
        page_no ≤ (S.getD ib ⟨0, 0⟩).page_no →
        ({ space_id := (S.getD ib ⟨0, 0⟩).space_id, page_no := page_no } : dump_record_t)
          ∈ S) →
      run_first S ib = run_first S ia := by
  intro d
  induction d with
  | zero =>
    intro ib hib hsp hpg _
    have : S.getD ia ⟨0, 0⟩ = S.getD ib ⟨0, 0⟩ :=
      record_ext _ _ hsp (by omega)
    rw [strict_unique S hS ia ib hia hib this]
  | succ d ih =>
    intro ib hib hsp hpg hall
    obtain ⟨ic, hic, hc⟩ := mem_getD S _
      (hall ((S.getD ib ⟨0, 0⟩).page_no - 1) (by omega) (by omega))
    have hcs : (S.getD ic ⟨0, 0⟩).space_id = (S.getD ib ⟨0, 0⟩).space_id := by rw [hc]
    have hcp : (S.getD ic ⟨0, 0⟩).page_no = (S.getD ib ⟨0, 0⟩).page_no - 1 := by rw [hc]
    have h1 := ih ic hic (by rw [hcs]; exact hsp) (by rw [hcp]; omega) (by
      intro page_no h2 h3
      rw [hcs]
      exact hall page_no h2 (by omega))
    have h4 := sorted_adjacent S hS ic ib hic hib hcs (by rw [hcp]; omega)
    subst h4
    have hb := hv _ (getD_mem S (ic + 1) hib)
    rw [run_first, if_neg, h1]
    unfold run_ends
    simp only [ne_eq, Bool.or_eq_true, decide_eq_true_eq, not_or, not_not]
    refine ⟨hcs, ?_⟩
    rw [hcp]
    have : (S.getD (ic + 1) ⟨0, 0⟩).page_no - 1 + 1 = (S.getD (ic + 1) ⟨0, 0⟩).page_no := by
      omega
    rw [this]
    exact Nat.mod_eq_of_lt hb

theorem take_min_length (l : List dump_record_t) (n : Nat) :
    l.take (min l.length n) = l.take n := by
  rcases Nat.le_total l.length n with h | h
  · rw [Nat.min_eq_left h, List.take_of_length_le h, List.take_of_length_le (Nat.le_refl _)]
  · rw [Nat.min_eq_right h]

theorem file_restore_true (u : univ_consts) (E : restore_env) (dump_file : Option (List Nat))
    (res : restore_result) (h : buf_LRU_file_restore u E dump_file = some res)
    (hret : res.ret = true) :
    (∀ r ∈ res.records, r.page_no < 2 ^ 32) ∧
    restore_requests E (qsort res.records) 0
      (res.records.take E.srv_lru_load_max_entries) (fun _ => false) []
      = some (true, res.requests) := by
  unfold buf_LRU_file_restore at h
  cases dump_file with
  | none =>
    simp only [Option.some.injEq] at h
    rw [← h] at hret
    cases hret
  | some file =>
    simp only [] at h
    split_ifs at h with h1 h2
    · simp only [Option.some.injEq] at h
      rw [← h] at hret
      cases hret
    · simp only [Option.some.injEq] at h
      rw [← h] at hret
      cases hret
    · cases hrd : restore_read_records u file (file.length % 2 ^ 32) (file.length % 2 ^ 32)
          0 [] with
      | none =>
        rw [hrd] at h
        cases h
      | some R =>
        rw [hrd] at h
        obtain ⟨ok, records, buffers⟩ := R
        have hv := read_records_valid u file _ _ _ _ _ _ _
          (fun r hr => absurd hr (List.not_mem_nil _)) hrd
        cases ok with
        | false =>
          simp only [Option.some.injEq] at h
          rw [← h] at hret
          cases hret
        | true =>
          simp only [] at h
          rw [take_min_length] at h
          cases hq : restore_requests E (qsort records) 0
              (records.take E.srv_lru_load_max_entries) (fun _ => false) [] with
          | none =>
            rw [hq] at h
            cases h
          | some Q =>
            rw [hq] at h
            obtain ⟨ret, req⟩ := Q
            simp only [Option.some.injEq] at h
            rw [← h] at hret ⊢
            simp only at hret ⊢
            rw [hret] at hq
            exact ⟨hv, hq⟩

theorem mixed_env_mono (space_id p q : Nat) (h : q ≤ p)
    (hp : mixed_env.fil_area_is_exist space_id p = true) :
    mixed_env.fil_area_is_exist space_id q = true := by
  unfold mixed_env at hp ⊢
  simp only [ne_eq, decide_eq_true_eq] at hp ⊢
  omega

/-! # The claims -/

/-- C1: a page that cannot be relocated (buffer-fixed, I/O-fixed or
sticky) is not freed: `buf_LRU_free_block` returns FALSE with
`*removed = FALSE` for either value of `zip`, and the pool (LRU list,
unzip_LRU list, free list, page hash, flush list, `LRU_old`, `LRU_old_len`,
`freed_page_clock`) is unchanged. -/
theorem free_block_not_relocatable (c : buf_LRU_consts) (p : buf_pool_t) (bpage b : Nat)
    (zip : Bool)
    (h : (p.blocks bpage).buf_fix_count > 0 ∨ (p.blocks bpage).io_fix ≠ .BUF_IO_NONE ∨
      (p.blocks bpage).sticky = true) :
    buf_LRU_free_block c p bpage zip b = some (false, false, p) := by
  have hr : buf_page_can_relocate (p.blocks bpage) = false := by
    unfold buf_page_can_relocate
    rcases h with h | h | h
    · have : ¬ (p.blocks bpage).buf_fix_count = 0 := by omega
      simp [this]
    · simp [h]
    · simp [h]
  unfold buf_LRU_free_block
  simp [hr]

/-- C1, evaluated: page 2 of the three-page pool is pinned once. -/
theorem free_block_not_relocatable_witness :
    ((small_pool { plain_page 2 with buf_fix_count := 1 }).blocks 2).buf_fix_count > 0 ∧
    buf_LRU_free_block plugin_consts (small_pool { plain_page 2 with buf_fix_count := 1 })
      2 true 9
      = some (false, false, small_pool { plain_page 2 with buf_fix_count := 1 }) :=
  ⟨by decide,
   free_block_not_relocatable plugin_consts
     (small_pool { plain_page 2 with buf_fix_count := 1 }) 2 9 true (Or.inl (by decide))⟩

/-- C2: for a relocatable dirty page, `buf_LRU_free_block` returns FALSE
and changes nothing when `zip` is TRUE, or the page has no compressed
frame, or its state is `ZIP_DIRTY`; and whenever it returns TRUE for a
dirty page, that page is a `FILE_PAGE` with a compressed frame and the
call had `zip = FALSE`. -/
theorem free_block_dirty (c : buf_LRU_consts) (p : buf_pool_t) (bpage b : Nat) (zip : Bool)
    (hrel : buf_page_can_relocate (p.blocks bpage) = true)
    (hdirty : (p.blocks bpage).oldest_modification ≠ 0) :
    ((zip = true ∨ (p.blocks bpage).zip_data = none ∨
        (p.blocks bpage).state = .BUF_BLOCK_ZIP_DIRTY) →
      buf_LRU_free_block c p bpage zip b = some (false, false, p)) ∧
    (∀ removed q, buf_LRU_free_block c p bpage zip b = some (true, removed, q) →
      (p.blocks bpage).state = .BUF_BLOCK_FILE_PAGE ∧
      (p.blocks bpage).zip_data.isSome = true ∧ zip = false) := by
  constructor
  · intro h
    unfold buf_LRU_free_block
    simp only [hrel, Bool.not_true, Bool.false_eq_true, if_false]
    by_cases h1 : (zip || (p.blocks bpage).zip_data.isNone) = true
    · simp [h1, hdirty]
    · have hs : (p.blocks bpage).state = .BUF_BLOCK_ZIP_DIRTY := by
        rcases h with h | h | h
        · simp [h] at h1
        · simp [h] at h1
        · exact h
      simp [h1, hdirty, hs]
  · intro removed q hq
    unfold buf_LRU_free_block at hq
    simp only [hrel, Bool.not_true, Bool.false_eq_true, if_false] at hq
    by_cases h1 : (zip || (p.blocks bpage).zip_data.isNone) = true
    · simp [h1, hdirty] at hq
    · by_cases h2 : (p.blocks bpage).state = .BUF_BLOCK_FILE_PAGE
      · simp only [Bool.or_eq_true, not_or, Bool.not_eq_true, Option.isNone_eq_false_iff] at h1
        exact ⟨h2, by simpa using h1.2, h1.1⟩
      · simp [h1, hdirty, h2] at hq

/-- C2, evaluated: page 2 of the three-page pool is dirty and has no
compressed frame. -/
theorem free_block_dirty_witness :
    buf_LRU_free_block plugin_consts
      (small_pool { plain_page 2 with oldest_modification := 7 }) 2 false 9
      = some (false, false, small_pool { plain_page 2 with oldest_modification := 7 }) :=
  (free_block_dirty plugin_consts (small_pool { plain_page 2 with oldest_modification := 7 })
    2 9 false (by decide) (by decide)).1 (Or.inr (Or.inl (by decide)))

/-- C3: the old-sublist predicate of `buf_LRU_validate` (`LRU_old` is set
iff the list has `BUF_LRU_OLD_MIN_LEN` blocks, the old blocks are `LRU_old`
and its successors, `LRU_old_len` counts them; `LRU_old` is old, its
predecessor is not, its successor is) holds in the empty pool, and in a
pool that `buf_LRU_validate` accepts each of `buf_LRU_add_block`,
`buf_LRU_make_block_young`, `buf_LRU_make_block_old`, `buf_LRU_free_block`
and `buf_LRU_free_one_page` returns with the predicate holding again. -/
theorem old_sublist_preserved (c : buf_LRU_consts) (p : buf_pool_t)
    (blocks : Nat → buf_page_t) (ratio : Nat)
    (hc : consts_ok c) (hv : LRU_valid c p) :
    (old_sublist c (empty_pool blocks ratio) ∧ LRU_old_neighbours (empty_pool blocks ratio)) ∧
    (∀ bpage old, bpage ∉ p.LRU → buf_page_in_file (p.blocks bpage) = true →
      ∃ q, buf_LRU_add_block c p bpage old = some q ∧
        old_sublist c q ∧ LRU_old_neighbours q) ∧
    (∀ bpage, bpage ∈ p.LRU → buf_page_in_file (p.blocks bpage) = true →
      ∃ q, buf_LRU_make_block_young c p bpage = some q ∧
        old_sublist c q ∧ LRU_old_neighbours q) ∧
    (∀ bpage, bpage ∈ p.LRU → buf_page_in_file (p.blocks bpage) = true →
      ∃ q, buf_LRU_make_block_old c p bpage = some q ∧
        old_sublist c q ∧ LRU_old_neighbours q) ∧
    (∀ bpage zip b, page_freeable p bpage → fresh_descriptor p b →
      ∃ ret removed q, buf_LRU_free_block c p bpage zip b = some (ret, removed, q) ∧
        old_sublist c q ∧ LRU_old_neighbours q) ∧
    (∀ bpage, page_freeable p bpage → (p.blocks bpage).io_fix = .BUF_IO_NONE →
      (p.blocks bpage).buf_fix_count = 0 → (p.blocks bpage).oldest_modification = 0 →
      ∃ q, buf_LRU_free_one_page c p bpage = some q ∧
        old_sublist c q ∧ LRU_old_neighbours q) := by
  have hM := M_of_consts c hc
  refine ⟨?_, ?_, ?_, ?_, ?_, ?_⟩
  · have h := empty_valid c blocks ratio hM
    exact ⟨h.2.1, neighbours_of_valid c _ h⟩
  · intro bpage old hb hf
    obtain ⟨q, hq, hvq, _⟩ := add_block_valid c p bpage old hM hv hb hf
    exact ⟨q, hq, hvq.2.1, neighbours_of_valid c q hvq⟩
  · intro bpage hb hf
    obtain ⟨q, hq, hvq, _⟩ := make_young_spec c p bpage hM hv hb hf
    exact ⟨q, hq, hvq.2.1, neighbours_of_valid c q hvq⟩
  · intro bpage hb hf
    obtain ⟨q, hq, hvq, _⟩ := make_old_spec c p bpage hM hv hb hf
    exact ⟨q, hq, hvq.2.1, neighbours_of_valid c q hvq⟩
  · intro bpage zip b hpf hfresh
    obtain ⟨r, q, hq, hvq, _⟩ := free_block_valid c p bpage b zip hM hv hpf hfresh
    exact ⟨r, q.1, q.2, hq, hvq.2.1, neighbours_of_valid c q.2 hvq⟩
  · intro bpage hpf hio hfix hclean
    obtain ⟨q, hq, hvq, _⟩ := free_one_page_valid c p bpage hM hv hpf hio hfix hclean
    exact ⟨q, hq, hvq.2.1, neighbours_of_valid c q hvq⟩

/-- C3, evaluated: a fourth page is added to the three-page pool under the
constants of the plugin. -/
theorem old_sublist_preserved_witness :
    consts_ok plugin_consts ∧ LRU_valid plugin_consts (small_pool (plain_page 2)) ∧
    ∃ q, buf_LRU_add_block plugin_consts (small_pool (plain_page 2)) 7 true = some q ∧
      old_sublist plugin_consts q ∧ LRU_old_neighbours q :=
  ⟨by decide, by decide,
   (old_sublist_preserved plugin_consts (small_pool (plain_page 2)) (fun a => plain_page a) 384
     (by decide) (by decide)).2.1 7 true (by decide) (by decide)⟩

/-- C4: the tolerance bound of `buf_LRU_validate`. In a pool that
`buf_LRU_validate` accepts, whatever its `buf_LRU_old_ratio`, each of
`buf_LRU_add_block`, `buf_LRU_free_block`, `buf_LRU_free_one_page`,
`buf_LRU_make_block_young`, `buf_LRU_make_block_old` and
`buf_LRU_old_ratio_update` with `adjust = TRUE` returns, and afterwards a
list of at least `BUF_LRU_OLD_MIN_LEN` blocks has
`new_len - 20 <= LRU_old_len <= new_len + 20` for
`new_len = min(|LRU| * buf_LRU_old_ratio / 1024, |LRU| - 25)`. -/
theorem old_len_tolerance_preserved (c : buf_LRU_consts) (p : buf_pool_t)
    (hc : consts_ok c) (hv : LRU_valid c p) :
    (∀ bpage old, bpage ∉ p.LRU → buf_page_in_file (p.blocks bpage) = true →
      ∃ q, buf_LRU_add_block c p bpage old = some q ∧ old_len_in_tolerance c q) ∧
    (∀ bpage zip b, page_freeable p bpage → fresh_descriptor p b →
      ∃ ret removed q, buf_LRU_free_block c p bpage zip b = some (ret, removed, q) ∧
        old_len_in_tolerance c q) ∧
    (∀ bpage, page_freeable p bpage → (p.blocks bpage).io_fix = .BUF_IO_NONE →
      (p.blocks bpage).buf_fix_count = 0 → (p.blocks bpage).oldest_modification = 0 →
      ∃ q, buf_LRU_free_one_page c p bpage = some q ∧ old_len_in_tolerance c q) ∧
    (∀ bpage, bpage ∈ p.LRU → buf_page_in_file (p.blocks bpage) = true →
      ∃ q, buf_LRU_make_block_young c p bpage = some q ∧ old_len_in_tolerance c q) ∧
    (∀ bpage, bpage ∈ p.LRU → buf_page_in_file (p.blocks bpage) = true →
      ∃ q, buf_LRU_make_block_old c p bpage = some q ∧ old_len_in_tolerance c q) ∧
    (∀ old_pct,
      ∃ pct q, buf_LRU_old_ratio_update c p old_pct true = some (pct, q) ∧
        old_len_in_tolerance c q) := by
  have hM := M_of_consts c hc
  refine ⟨?_, ?_, ?_, ?_, ?_, ?_⟩
  · intro bpage old hb hf
    obtain ⟨q, hq, hvq, _⟩ := add_block_valid c p bpage old hM hv hb hf
    exact ⟨q, hq, hvq.2.2⟩
  · intro bpage zip b hpf hfresh
    obtain ⟨r, q, hq, hvq, _⟩ := free_block_valid c p bpage b zip hM hv hpf hfresh
    exact ⟨r, q.1, q.2, hq, hvq.2.2⟩
  · intro bpage hpf hio hfix hclean
    obtain ⟨q, hq, hvq, _⟩ := free_one_page_valid c p bpage hM hv hpf hio hfix hclean
    exact ⟨q, hq, hvq.2.2⟩
  · intro bpage hb hf
    obtain ⟨q, hq, hvq, _⟩ := make_young_spec c p bpage hM hv hb hf
    exact ⟨q, hq, hvq.2.2⟩
  · intro bpage hb hf
    obtain ⟨q, hq, hvq, _⟩ := make_old_spec c p bpage hM hv hb hf
    exact ⟨q, hq, hvq.2.2⟩
  · intro old_pct
    obtain ⟨r, q, hq, hvq, _⟩ := ratio_update_valid c p old_pct hM hv
    exact ⟨r, q, hq, hvq.2.2⟩

set_option maxRecDepth 100000 in
/-- C4, evaluated: the ratio of a pool of 600 pages with 220 old ones is
changed from 3/8 to 50 percent under the constants of the plugin. -/
theorem old_len_tolerance_preserved_witness :
    consts_ok plugin_consts ∧ LRU_valid plugin_consts (big_pool 600 220 384) ∧
    ∃ pct q, buf_LRU_old_ratio_update plugin_consts (big_pool 600 220 384) 50 true
        = some (pct, q) ∧ old_len_in_tolerance plugin_consts q :=
  ⟨by decide, big_pool_valid plugin_consts 600 220 384 (by decide) (by decide) (by decide),
   (old_len_tolerance_preserved plugin_consts (big_pool 600 220 384) (by decide)
     (big_pool_valid plugin_consts 600 220 384 (by decide) (by decide) (by decide))).2.2.2.2.2 50⟩

set_option maxRecDepth 1000000 in
/-- C6, the claim fails: in the valid pool of pages 1 .. 600 with the old
sublist 381 .. 600, `buf_LRU_add_block(1000, TRUE)` links page 1000 behind
page 381; `LRU_old` still points to 381, which stays the first block of the
old sublist, and 1000 is the second. -/
theorem add_block_old_counterexample :
    1000 ∉ (big_pool 600 220 384).LRU ∧
    plugin_consts.BUF_LRU_OLD_MIN_LEN ≤ (big_pool 600 220 384).LRU.length ∧
    (buf_LRU_add_block plugin_consts (big_pool 600 220 384) 1000 true).map
      (fun q => (q.LRU_old, (old_blocks q).head?, UT_LIST_GET_PREV q.LRU 1000,
        (q.blocks 1000).old))
      = some (some 381, some 381, some 381, true) := by
  decide

/-- C6, amended: `buf_LRU_add_block(bpage, old)` for a page not in the LRU
list of a pool that `buf_LRU_validate` accepts returns; the list grows by
one and the other blocks keep their order; with `old = FALSE` or fewer than
`BUF_LRU_OLD_MIN_LEN` blocks `bpage` is the new head; with `old = TRUE` and
at least `BUF_LRU_OLD_MIN_LEN` blocks `bpage` is linked directly behind the
block `o` that `LRU_old` pointed to, with its old flag TRUE. The old
sublist `o, zs0` of before is afterwards `o, bpage, zs0`, with `bpage` its
second block, or, when `buf_LRU_old_adjust_len` has moved `LRU_old` one
block towards the tail, `bpage, zs0`, with `bpage` its first block. -/
theorem add_block_position (c : buf_LRU_consts) (p : buf_pool_t) (bpage : Nat) (old : Bool)
    (hc : consts_ok c) (hv : LRU_valid c p) (hb : bpage ∉ p.LRU)
    (hf : buf_page_in_file (p.blocks bpage) = true) :
    ∃ q, buf_LRU_add_block c p bpage old = some q ∧
      q.LRU.length = p.LRU.length + 1 ∧ q.LRU.erase bpage = p.LRU ∧
      ((old = false ∨ p.LRU.length < c.BUF_LRU_OLD_MIN_LEN) → q.LRU = bpage :: p.LRU) ∧
      ((old = true ∧ c.BUF_LRU_OLD_MIN_LEN ≤ p.LRU.length) →
        ∃ o, p.LRU_old = some o ∧ q.LRU = UT_LIST_INSERT_AFTER p.LRU o bpage ∧
          UT_LIST_GET_PREV q.LRU bpage = some o ∧ (q.blocks bpage).old = true ∧
          ∃ zs0, old_blocks p = o :: zs0 ∧
            (old_blocks q = o :: bpage :: zs0 ∨ old_blocks q = bpage :: zs0)) := by
  have hM := M_of_consts c hc
  by_cases hcond : old = false ∨ p.LRU.length < c.BUF_LRU_OLD_MIN_LEN
  · obtain ⟨q, hq, _, hl, _⟩ := add_head_spec c p bpage old hM hv hb hf hcond
    refine ⟨q, hq, by rw [hl]; rfl, by rw [hl]; simp, fun _ => hl, ?_⟩
    rintro ⟨h1, h2⟩
    rcases hcond with h | h
    · rw [h] at h1
      exact absurd h1 (by decide)
    · omega
  · have ho : old = true := by
      cases old
      · exact absurd (Or.inl rfl) hcond
      · rfl
    have hn : c.BUF_LRU_OLD_MIN_LEN ≤ p.LRU.length := by
      by_contra h
      exact hcond (Or.inr (by omega))
    subst ho
    obtain ⟨o, q, ys, zs0, hpo, hpl, hq, _, hl, hins, hold, _, _, hop, hob⟩ :=
      add_old_spec c p bpage hM hv hb hf hn
    have hbys : bpage ∉ ys ++ [o] := by
      intro hm
      apply hb
      rw [hpl]
      rcases List.mem_append.mp hm with h | h
      · exact List.mem_append_left _ h
      · have : bpage = o := by simpa using h
        rw [this]
        simp
    have hl2 : q.LRU = (ys ++ [o]) ++ bpage :: zs0 := by
      rw [hl]
      simp
    refine ⟨q, hq, ?_, ?_, fun h => absurd h hcond,
      fun _ => ⟨o, hpo, hins, ?_, hold, zs0, hop, hob⟩⟩
    · rw [hl, hpl]
      simp only [List.length_append, List.length_cons]
      omega
    · have := remove_of_split (ys ++ [o]) zs0 bpage hbys
      unfold UT_LIST_REMOVE at this
      rw [hl2, this, hpl]
      simp
    · rw [hl2, prev_of_split _ _ _ hbys]
      simp

set_option maxRecDepth 1000000 in
/-- C6 amended, evaluated on the pool of 600 pages with the old sublist
356 .. 600: page 1000 is linked behind page 356, and
`buf_LRU_old_adjust_len` then moves `LRU_old` to page 1000, which is the
first block of the old sublist; in the failing input above it is the
second. -/
theorem add_block_position_witness :
    consts_ok plugin_consts ∧ 1000 ∉ (big_pool 600 245 384).LRU ∧
    (∃ q, buf_LRU_add_block plugin_consts (big_pool 600 245 384) 1000 true = some q ∧
      q.LRU.length = (big_pool 600 245 384).LRU.length + 1 ∧
      q.LRU.erase 1000 = (big_pool 600 245 384).LRU ∧
      ((true = false ∨ (big_pool 600 245 384).LRU.length < plugin_consts.BUF_LRU_OLD_MIN_LEN) →
        q.LRU = 1000 :: (big_pool 600 245 384).LRU) ∧
      ((true = true ∧ plugin_consts.BUF_LRU_OLD_MIN_LEN ≤ (big_pool 600 245 384).LRU.length) →
        ∃ o, (big_pool 600 245 384).LRU_old = some o ∧
          q.LRU = UT_LIST_INSERT_AFTER (big_pool 600 245 384).LRU o 1000 ∧
          UT_LIST_GET_PREV q.LRU 1000 = some o ∧ (q.blocks 1000).old = true ∧
          ∃ zs0, old_blocks (big_pool 600 245 384) = o :: zs0 ∧
            (old_blocks q = o :: 1000 :: zs0 ∨ old_blocks q = 1000 :: zs0))) ∧
    (big_pool 600 245 384).LRU_old = some 356 ∧
    (buf_LRU_add_block plugin_consts (big_pool 600 245 384) 1000 true).map
      (fun q => (q.LRU_old, (old_blocks q).head?, UT_LIST_GET_PREV q.LRU 1000,
        (q.blocks 1000).old))
      = some (some 1000, some 1000, some 356, true) :=
  ⟨by decide, by decide,
   add_block_position plugin_consts (big_pool 600 245 384) 1000 true (by decide)
     (big_pool_valid plugin_consts 600 245 384 (by decide) (by decide) (by decide))
     (by decide) (by decide),
   by decide, by decide⟩

set_option maxRecDepth 100000 in
/-- C7, a failing input: in the pool of 600 pages with 220 old ones let
`n_pages_made_young` be `2 ^ 64 - 1`, the largest `ulint`. Making the old
page 500 young executes `buf_pool->stat.n_pages_made_young++`, which wraps:
the counter is 0 afterwards, not one more than before. -/
theorem made_young_wraps_counterexample :
    ((big_pool 600 220 384).blocks 500).old = true ∧
    (buf_LRU_make_block_young plugin_consts
        { big_pool 600 220 384 with n_pages_made_young := 2 ^ 64 - 1 } 500).map
      (fun q => (q.LRU.head?, q.n_pages_made_young)) = some (some 500, 0) := by
  decide

/-- C7, amended: for a page `bpage` in the LRU list of a pool that
`buf_LRU_validate` accepts, `buf_LRU_make_block_young(bpage)` returns; the
page is then the head of the LRU list with old flag FALSE, the list has
the same length, the other blocks keep their order, and
`n_pages_made_young` has been incremented modulo `2 ^ 64` (it is a
`ulint`) if `bpage` was old and is unchanged otherwise. -/
theorem make_block_young_head (c : buf_LRU_consts) (p : buf_pool_t) (bpage : Nat)
    (hc : consts_ok c) (hv : LRU_valid c p) (hmem : bpage ∈ p.LRU)
    (hf : buf_page_in_file (p.blocks bpage) = true) :
    ∃ q, buf_LRU_make_block_young c p bpage = some q ∧
      q.LRU.head? = some bpage ∧ (q.blocks bpage).old = false ∧
      q.LRU.length = p.LRU.length ∧
      q.LRU.erase bpage = p.LRU.erase bpage ∧
      ((p.blocks bpage).old = true → q.n_pages_made_young = (p.n_pages_made_young + 1) % 2 ^ 64) ∧
      ((p.blocks bpage).old = false → q.n_pages_made_young = p.n_pages_made_young) := by
  obtain ⟨q, hq, _, hl, hold, hy, _⟩ := make_young_spec c p bpage (M_of_consts c hc) hv hmem hf
  refine ⟨q, hq, by rw [hl]; rfl, hold, ?_, by rw [hl]; simp, ?_, ?_⟩
  · rw [hl, List.length_cons, List.length_erase_of_mem hmem]
    have : 0 < p.LRU.length := List.length_pos_of_mem hmem
    omega
  · intro h
    rw [hy, h]
    rfl
  · intro h
    rw [hy, h]
    rfl

set_option maxRecDepth 100000 in
/-- C7 amended, evaluated: the old page 500 of the pool of 600 pages is
made young. -/
theorem make_block_young_head_witness :
    consts_ok plugin_consts ∧ 500 ∈ (big_pool 600 220 384).LRU ∧
    ((big_pool 600 220 384).blocks 500).old = true ∧
    ∃ q, buf_LRU_make_block_young plugin_consts (big_pool 600 220 384) 500 = some q ∧
      q.LRU.head? = some 500 ∧ (q.blocks 500).old = false ∧
      q.LRU.length = (big_pool 600 220 384).LRU.length ∧
      q.LRU.erase 500 = (big_pool 600 220 384).LRU.erase 500 ∧
      (((big_pool 600 220 384).blocks 500).old = true →
        q.n_pages_made_young = ((big_pool 600 220 384).n_pages_made_young + 1) % 2 ^ 64) ∧
      (((big_pool 600 220 384).blocks 500).old = false →
        q.n_pages_made_young = (big_pool 600 220 384).n_pages_made_young) :=
  ⟨by decide, by decide, by decide,
   make_block_young_head plugin_consts (big_pool 600 220 384) 500 (by decide)
     (big_pool_valid plugin_consts 600 220 384 (by decide) (by decide) (by decide))
     (by decide) (by decide)⟩

/-- C8, a failing input: in the three-page pool let `freed_page_clock` be
`2 ^ 64 - 1`, the largest `ulint`. Evicting the clean page 2 executes
`buf_pool->freed_page_clock += 1`, which wraps: the clock is 0 afterwards,
it has not increased. -/
theorem freed_clock_wraps_counterexample :
    (buf_LRU_free_block plugin_consts
        { small_pool (plain_page 2) with freed_page_clock := 2 ^ 64 - 1 } 2 true 9).map
      (fun r => (r.1, r.2.1, r.2.2.LRU, r.2.2.freed_page_clock))
      = some (true, true, [1, 3], 0) := by
  decide

/-- C8, amended: for a relocatable clean page `bpage` of a pool that
`buf_LRU_validate` accepts, `buf_LRU_free_block` evicts the page: a
`FILE_PAGE` with `zip = TRUE` or without a compressed frame gives TRUE with
`*removed = TRUE`, `bpage` is in none of the LRU list, the unzip_LRU list
and the page hash, and is the head of the free list in state `NOT_USED`
without compressed frame; a clean `ZIP_PAGE` gives TRUE, the descriptor
leaves the LRU list and the page hash and ends in state `ZIP_FREE`;
`buf_LRU_block_remove_hashed_page` returns `ZIP_FREE` for the `ZIP_PAGE` and
`REMOVE_HASH` otherwise; the LRU list gets shorter by one and
`freed_page_clock` is incremented modulo `2 ^ 64` (it is a `ulint`). -/
theorem free_block_evicts (c : buf_LRU_consts) (p : buf_pool_t) (bpage b : Nat) (zip : Bool)
    (hc : consts_ok c) (hv : LRU_valid c p) (hlv : lists_valid p)
    (hpf : page_freeable p bpage)
    (hrel : buf_page_can_relocate (p.blocks bpage) = true)
    (hclean : (p.blocks bpage).oldest_modification = 0) :
    (((p.blocks bpage).state = .BUF_BLOCK_FILE_PAGE ∧
        (zip = true ∨ (p.blocks bpage).zip_data = none)) →
      ∃ q, buf_LRU_free_block c p bpage zip b = some (true, true, q) ∧
        (buf_LRU_block_remove_hashed_page c p bpage zip).map Prod.fst
          = some .BUF_BLOCK_REMOVE_HASH ∧
        bpage ∉ q.LRU ∧ bpage ∉ q.unzip_LRU ∧ bpage ∉ q.page_hash ∧
        buf_page_hash_get q (p.blocks bpage).space (p.blocks bpage).offset = none ∧
        q.free.head? = some bpage ∧
        (q.blocks bpage).state = .BUF_BLOCK_NOT_USED ∧ (q.blocks bpage).zip_data = none ∧
        q.LRU = p.LRU.erase bpage ∧
        q.LRU.length + 1 = p.LRU.length ∧ q.freed_page_clock = (p.freed_page_clock + 1) % 2 ^ 64) ∧
    ((p.blocks bpage).state = .BUF_BLOCK_ZIP_PAGE →
      ∃ removed q, buf_LRU_free_block c p bpage zip b = some (true, removed, q) ∧
        (buf_LRU_block_remove_hashed_page c p bpage zip).map Prod.fst
          = some .BUF_BLOCK_ZIP_FREE ∧
        bpage ∉ q.LRU ∧ bpage ∉ q.page_hash ∧
        buf_page_hash_get q (p.blocks bpage).space (p.blocks bpage).offset = none ∧
        (q.blocks bpage).state = .BUF_BLOCK_ZIP_FREE ∧
        q.LRU = p.LRU.erase bpage ∧
        q.LRU.length + 1 = p.LRU.length ∧ q.freed_page_clock = (p.freed_page_clock + 1) % 2 ^ 64) := by
  have hM := M_of_consts c hc
  obtain ⟨A, B, hl, hbA, _⟩ := split_of_mem_nodup p.LRU bpage hpf.1 hv.1
  have hnot : bpage ∉ A ++ B := not_mem_middle A B bpage (hl ▸ hv.1)
  have hlen : (A ++ B).length + 1 = p.LRU.length := by
    rw [hl]
    simp only [List.length_append, List.length_cons]
    omega
  have herase : p.LRU.erase bpage = A ++ B := by
    have := remove_of_split A B bpage hbA
    unfold UT_LIST_REMOVE at this
    rw [hl, this]
  constructor
  · rintro ⟨hst, hz⟩
    have hfull : zip = true ∨ (p.blocks bpage).zip_data = none ∨
        (p.blocks bpage).state ≠ .BUF_BLOCK_FILE_PAGE := by
      rcases hz with h | h
      · exact Or.inl h
      · exact Or.inr (Or.inl h)
    have hnz : (p.blocks bpage).state ≠ .BUF_BLOCK_ZIP_PAGE := by rw [hst]; decide
    obtain ⟨q, hq, hrm, _, hlq, hu, hfr, _, hph, hfpc, _, hbq, hx⟩ :=
      free_block_evict_facts c p A B bpage b zip hM hv hl hpf hrel hclean hfull
    rw [if_neg hnz] at hrm hfr hbq
    obtain ⟨hh1, hh2⟩ := hash_erase_none p q bpage hpf hph hx
    refine ⟨q, hq, hrm, by rw [hlq]; exact hnot, ?_, hh1, hh2, by rw [hfr]; rfl, ?_, ?_,
      by rw [hlq, herase], by rw [hlq]; exact hlen, hfpc⟩
    · rw [hu]
      split_ifs with hb
      · exact not_mem_remove _ _ hlv.2.1
      · intro hm
        exact hb (hlv.2.2.2.2.2 bpage hm).2
    · rw [hbq]
      rfl
    · rw [hbq]
      rfl
  · intro hst
    have hfull : zip = true ∨ (p.blocks bpage).zip_data = none ∨
        (p.blocks bpage).state ≠ .BUF_BLOCK_FILE_PAGE :=
      Or.inr (Or.inr (by rw [hst]; decide))
    obtain ⟨q, hq, hrm, _, hlq, _, _, _, hph, hfpc, _, hbq, hx⟩ :=
      free_block_evict_facts c p A B bpage b zip hM hv hl hpf hrel hclean hfull
    rw [if_pos hst] at hrm hbq
    obtain ⟨hh1, hh2⟩ := hash_erase_none p q bpage hpf hph hx
    refine ⟨true, q, hq, hrm, by rw [hlq]; exact hnot, hh1, hh2, ?_,
      by rw [hlq, herase], by rw [hlq]; exact hlen, hfpc⟩
    rw [hbq]
    simp [page_after_remove, hst]

/-- C8 amended, evaluated: the clean page 2 of the three-page pool is
evicted. -/
theorem free_block_evicts_witness :
    ∃ q, buf_LRU_free_block plugin_consts (small_pool (plain_page 2)) 2 true 9
        = some (true, true, q) ∧
      (buf_LRU_block_remove_hashed_page plugin_consts (small_pool (plain_page 2)) 2 true).map
        Prod.fst = some .BUF_BLOCK_REMOVE_HASH ∧
      2 ∉ q.LRU ∧ 2 ∉ q.unzip_LRU ∧ 2 ∉ q.page_hash ∧
      buf_page_hash_get q ((small_pool (plain_page 2)).blocks 2).space
        ((small_pool (plain_page 2)).blocks 2).offset = none ∧
      q.free.head? = some 2 ∧
      (q.blocks 2).state = .BUF_BLOCK_NOT_USED ∧ (q.blocks 2).zip_data = none ∧
      q.LRU = (small_pool (plain_page 2)).LRU.erase 2 ∧
      q.LRU.length + 1 = (small_pool (plain_page 2)).LRU.length ∧
      q.freed_page_clock = ((small_pool (plain_page 2)).freed_page_clock + 1) % 2 ^ 64 :=
  (free_block_evicts plugin_consts (small_pool (plain_page 2)) 2 9 true (by decide) (by decide)
    (by decide) (by decide) (by decide) (by decide)).1 ⟨by decide, Or.inl rfl⟩

theorem hash_get_append_new (p : buf_pool_t) (l : List Nat) (b : Nat) (space offset : Nat)
    (hh : p.page_hash = l ++ [b])
    (hn : ∀ x ∈ l, ¬ ((p.blocks x).space = space ∧ (p.blocks x).offset = offset))
    (hb : (p.blocks b).space = space ∧ (p.blocks b).offset = offset) :
    buf_page_hash_get p space offset = some b := by
  unfold buf_page_hash_get
  rw [hh, List.find?_append]
  have h1 : l.find? (fun x =>
      decide ((p.blocks x).space = space) && decide ((p.blocks x).offset = offset)) = none := by
    rw [List.find?_eq_none]
    intro x hx
    simp only [Bool.and_eq_true, decide_eq_true_eq]
    exact hn x hx
  rw [h1]
  simp [hb.1, hb.2]

/-- C9: for a relocatable `FILE_PAGE` `bpage` with a compressed frame, in a
pool that `buf_LRU_validate` accepts, `buf_LRU_free_block(bpage, FALSE)`
returns TRUE with `*removed = FALSE`; the new descriptor `b` carries the
space, offset, compressed frame and `oldest_modification` of `bpage`, its
state is `ZIP_DIRTY` if `bpage` was dirty and `ZIP_PAGE` otherwise; the
page hash maps the page to `b`, `b` is in the LRU list and not sticky;
`bpage` is in the free list in state `NOT_USED`, in neither the LRU list
nor the unzip_LRU list, and has no compressed frame. -/
theorem free_block_relocates (c : buf_LRU_consts) (p : buf_pool_t) (bpage b : Nat)
    (hc : consts_ok c) (hv : LRU_valid c p) (hlv : lists_valid p)
    (hpf : page_freeable p bpage)
    (hrel : buf_page_can_relocate (p.blocks bpage) = true)
    (hfresh : fresh_descriptor p b)
    (hst : (p.blocks bpage).state = .BUF_BLOCK_FILE_PAGE)
    (hz : (p.blocks bpage).zip_data.isSome = true) :
    ∃ q, buf_LRU_free_block c p bpage false b = some (true, false, q) ∧
      (q.blocks b).space = (p.blocks bpage).space ∧
      (q.blocks b).offset = (p.blocks bpage).offset ∧
      (q.blocks b).zip_data = (p.blocks bpage).zip_data ∧
      (q.blocks b).oldest_modification = (p.blocks bpage).oldest_modification ∧
      ((p.blocks bpage).oldest_modification ≠ 0 →
        (q.blocks b).state = .BUF_BLOCK_ZIP_DIRTY) ∧
      ((p.blocks bpage).oldest_modification = 0 →
        (q.blocks b).state = .BUF_BLOCK_ZIP_PAGE) ∧
      buf_page_hash_get q (p.blocks bpage).space (p.blocks bpage).offset = some b ∧
      b ∈ q.LRU ∧ (q.blocks b).sticky = false ∧
      bpage ∈ q.free ∧ (q.blocks bpage).state = .BUF_BLOCK_NOT_USED ∧
      bpage ∉ q.LRU ∧ bpage ∉ q.unzip_LRU ∧ (q.blocks bpage).zip_data = none := by
  have hM := M_of_consts c hc
  obtain ⟨A, B, hl, hbA, _⟩ := split_of_mem_nodup p.LRU bpage hpf.1 hv.1
  have hnot : bpage ∉ A ++ B := not_mem_middle A B bpage (hl ▸ hv.1)
  have hbne : b ≠ bpage := fun e => hfresh.1 (e ▸ hpf.1)
  obtain ⟨q, hq, _, hlq, hu, hfr, _, hph, _, _, _, _, _, _, kb, kbp, kx⟩ :=
    free_block_relocate_spec c p A B bpage b hM hv hl hpf hrel hfresh hst hz
  have e1 := congrArg buf_page_t.space kb
  have e2 := congrArg buf_page_t.offset kb
  have e3 := congrArg buf_page_t.zip_data kb
  have e4 := congrArg buf_page_t.oldest_modification kb
  have e5 := congrArg buf_page_t.state kb
  have e6 := congrArg buf_page_t.sticky kb
  have f1 := congrArg buf_page_t.state kbp
  have f2 := congrArg buf_page_t.zip_data kbp
  simp only at e1 e2 e3 e4 e5 e6 f1 f2
  refine ⟨q, hq, e1, e2, e3, e4, ?_, ?_, ?_, by rw [hlq]; simp, e6, by rw [hfr]; simp,
    ?_, ?_, ?_, ?_⟩
  · intro hd
    rw [e5, if_pos hd]
  · intro hd
    rw [e5, if_neg (not_not.mpr hd)]
  · refine hash_get_append_new q _ b _ _ hph ?_ ⟨e1, e2⟩
    intro x hxm hs
    have hxne : x ≠ bpage := by
      intro e
      apply hpf.2.2.2.1 x hxm
      rw [e]
      exact ⟨rfl, rfl⟩
    have hxb : x ≠ b := fun e => hfresh.2.2.2.2 (e ▸ List.mem_of_mem_erase hxm)
    apply hpf.2.2.2.1 x hxm
    have g1 := congrArg buf_page_t.space (kx x hxb hxne)
    have g2 := congrArg buf_page_t.offset (kx x hxb hxne)
    simp only at g1 g2
    unfold same_page
    rw [← g1, ← g2]
    exact hs
  · rw [f1]
    rfl
  · rw [hlq]
    intro hm
    rcases List.mem_append.mp hm with h | h
    · exact hnot (List.mem_append_left _ h)
    · rcases List.mem_cons.mp h with h | h
      · exact hbne h.symm
      · exact hnot (List.mem_append_right _ h)
  · rw [hu]
    exact not_mem_remove _ _ hlv.2.1
  · rw [f2]
    rfl

/-- C9, evaluated: the dirty compressed page 2 of the three-page pool is
relocated to the descriptor 9. -/
theorem free_block_relocates_witness :
    ∃ q, buf_LRU_free_block plugin_consts
        (zip_pool { zip_page 2 with oldest_modification := 7 }) 2 false 9
        = some (true, false, q) ∧
      (q.blocks 9).space = ((zip_pool { zip_page 2 with oldest_modification := 7 }).blocks 2).space ∧
      (q.blocks 9).offset
        = ((zip_pool { zip_page 2 with oldest_modification := 7 }).blocks 2).offset ∧
      (q.blocks 9).zip_data
        = ((zip_pool { zip_page 2 with oldest_modification := 7 }).blocks 2).zip_data ∧
      (q.blocks 9).oldest_modification
        = ((zip_pool { zip_page 2 with oldest_modification := 7 }).blocks 2).oldest_modification ∧
      (((zip_pool { zip_page 2 with oldest_modification := 7 }).blocks 2).oldest_modification ≠ 0 →
        (q.blocks 9).state = .BUF_BLOCK_ZIP_DIRTY) ∧
      (((zip_pool { zip_page 2 with oldest_modification := 7 }).blocks 2).oldest_modification = 0 →
        (q.blocks 9).state = .BUF_BLOCK_ZIP_PAGE) ∧
      buf_page_hash_get q
        ((zip_pool { zip_page 2 with oldest_modification := 7 }).blocks 2).space
        ((zip_pool { zip_page 2 with oldest_modification := 7 }).blocks 2).offset = some 9 ∧
      9 ∈ q.LRU ∧ (q.blocks 9).sticky = false ∧
      2 ∈ q.free ∧ (q.blocks 2).state = .BUF_BLOCK_NOT_USED ∧
      2 ∉ q.LRU ∧ 2 ∉ q.unzip_LRU ∧ (q.blocks 2).zip_data = none :=
  free_block_relocates plugin_consts (zip_pool { zip_page 2 with oldest_modification := 7 }) 2 9
    (by decide) (by decide) (by decide) (by decide) (by decide) (by decide) (by decide)
    (by decide)

theorem map_replace_middle (A B : List Nat) (bpage b : Nat) (h : bpage ∉ A ++ B) :
    (A ++ bpage :: B).map (fun x => if x = bpage then b else x) = A ++ b :: B := by
  have hA : ∀ l : List Nat, bpage ∉ l → l.map (fun x => if x = bpage then b else x) = l := by
    intro l hl
    induction l with
    | nil => rfl
    | cons a l ih =>
      have ha : a ≠ bpage := fun e => hl (by simp [e])
      have hl2 : bpage ∉ l := fun hm => hl (List.mem_cons_of_mem _ hm)
      simp [ha, ih hl2]
  rw [List.map_append, List.map_cons, hA A (fun hm => h (List.mem_append_left _ hm)),
    hA B (fun hm => h (List.mem_append_right _ hm))]
  simp

/-- C10: in a pool that `buf_LRU_validate` accepts, the relocating call
`buf_LRU_free_block(bpage, FALSE)` on a `FILE_PAGE` with a compressed frame
puts the new descriptor `b` where `bpage` was: the LRU list is the old one
with `b` in the place of `bpage`, the sequence of `(space, offset)` along
the list is the same, and so is the length; the position of `bpage` (head
of the list, `LRU_old`, or any other) makes no difference. -/
theorem free_block_relocate_order (c : buf_LRU_consts) (p : buf_pool_t) (bpage b : Nat)
    (hc : consts_ok c) (hv : LRU_valid c p)
    (hpf : page_freeable p bpage)
    (hrel : buf_page_can_relocate (p.blocks bpage) = true)
    (hfresh : fresh_descriptor p b)
    (hst : (p.blocks bpage).state = .BUF_BLOCK_FILE_PAGE)
    (hz : (p.blocks bpage).zip_data.isSome = true) :
    ∃ q, buf_LRU_free_block c p bpage false b = some (true, false, q) ∧
      q.LRU = p.LRU.map (fun x => if x = bpage then b else x) ∧
      LRU_pages q = LRU_pages p ∧ q.LRU.length = p.LRU.length := by
  have hM := M_of_consts c hc
  obtain ⟨A, B, hl, hbA, _⟩ := split_of_mem_nodup p.LRU bpage hpf.1 hv.1
  have hnot : bpage ∉ A ++ B := not_mem_middle A B bpage (hl ▸ hv.1)
  have hbne : b ≠ bpage := fun e => hfresh.1 (e ▸ hpf.1)
  have hbAB : b ∉ A ++ B := by
    intro hm
    apply hfresh.1
    rw [hl]
    rcases List.mem_append.mp hm with h | h
    · exact List.mem_append_left _ h
    · exact List.mem_append_right _ (List.mem_cons_of_mem _ h)
  obtain ⟨q, hq, _, hlq, _, _, _, _, _, _, _, _, _, _, kb, _, kx⟩ :=
    free_block_relocate_spec c p A B bpage b hM hv hl hpf hrel hfresh hst hz
  have e1 := congrArg buf_page_t.space kb
  have e2 := congrArg buf_page_t.offset kb
  simp only at e1 e2
  have hside : ∀ l : List Nat, (∀ x ∈ l, x ∈ A ++ B) →
      l.map (fun x => ((q.blocks x).space, (q.blocks x).offset))
        = l.map (fun x => ((p.blocks x).space, (p.blocks x).offset)) := by
    intro l hsub
    apply List.map_congr_left
    intro x hx
    have hxm := hsub x hx
    have hx1 : x ≠ b := fun e => hbAB (e ▸ hxm)
    have hx2 : x ≠ bpage := fun e => hnot (e ▸ hxm)
    have g1 := congrArg buf_page_t.space (kx x hx1 hx2)
    have g2 := congrArg buf_page_t.offset (kx x hx1 hx2)
    simp only at g1 g2
    rw [g1, g2]
  refine ⟨q, hq, ?_, ?_, ?_⟩
  · rw [hlq, hl, map_replace_middle A B bpage b hnot]
  · unfold LRU_pages
    rw [hlq, hl, List.map_append, List.map_append, List.map_cons, List.map_cons,
      hside A (fun x hx => List.mem_append_left _ hx),
      hside B (fun x hx => List.mem_append_right _ hx), e1, e2]
  · rw [hlq, hl]
    simp

/-- C10, evaluated: page 2 of the three-page pool is relocated to the
descriptor 9. -/
theorem free_block_relocate_order_witness :
    ∃ q, buf_LRU_free_block plugin_consts (zip_pool (zip_page 2)) 2 false 9
        = some (true, false, q) ∧
      q.LRU = (zip_pool (zip_page 2)).LRU.map (fun x => if x = 2 then 9 else x) ∧
      LRU_pages q = LRU_pages (zip_pool (zip_page 2)) ∧
      q.LRU.length = (zip_pool (zip_page 2)).LRU.length :=
  free_block_relocate_order plugin_consts (zip_pool (zip_page 2)) 2 9
    (by decide) (by decide) (by decide) (by decide) (by decide) (by decide) (by decide)

theorem interior_of_valid (c : buf_LRU_consts) (q : buf_pool_t) (o : Nat)
    (hc : consts_ok c)
    (hmin : 2 * BUF_LRU_OLD_TOLERANCE + BUF_LRU_NON_OLD_MIN_LEN + 2 ≤ c.BUF_LRU_OLD_MIN_LEN)
    (hv : LRU_valid c q) (hr : ratio_ok c q) (ho : q.LRU_old = some o) :
    q.LRU.head? ≠ some o ∧ q.LRU.getLast? ≠ some o ∧
    (∃ y, UT_LIST_GET_PREV q.LRU o = some y) := by
  obtain ⟨hnd, hos, htol⟩ := hv
  obtain ⟨ys, zs, hs, hzs⟩ := split_of_old_sublist c q hnd hos
  obtain ⟨hsl, hso, hslen, _, _⟩ := hs
  have hge : c.BUF_LRU_OLD_MIN_LEN ≤ q.LRU.length := by
    rcases hos.1 with ⟨h, _⟩ | ⟨_, _, _, h⟩
    · rw [h] at ho
      exact absurd ho (by simp)
    · exact h
  cases zs with
  | nil =>
    rw [ho] at hso
    simp at hso
  | cons o2 zs0 =>
    have : o = o2 := by
      rw [ho] at hso
      simpa using hso
    subst this
    have ht := htol hge
    obtain ⟨_, h2, _, _⟩ := hc
    unfold BUF_LRU_OLD_RATIO_DIV BUF_LRU_OLD_TOLERANCE at h2
    unfold BUF_LRU_OLD_TOLERANCE BUF_LRU_NON_OLD_MIN_LEN at hmin
    have hprod : 1024 * 25 ≤ q.LRU.length * q.buf_LRU_old_ratio := by
      have := Nat.mul_le_mul hge hr.1
      have e : c.BUF_LRU_OLD_MIN_LEN * c.BUF_LRU_OLD_RATIO_MIN
          = c.BUF_LRU_OLD_RATIO_MIN * c.BUF_LRU_OLD_MIN_LEN := Nat.mul_comm _ _
      omega
    have ha : 25 ≤ q.LRU.length * q.buf_LRU_old_ratio / 1024 :=
      (Nat.le_div_iff_mul_le (by norm_num)).mpr (by omega)
    have hlen : q.LRU.length = ys.length + (zs0.length + 1) := by
      rw [hsl]
      simp
    rw [hslen] at ht
    simp only [List.length_cons] at ht
    have hys : 5 ≤ ys.length := by omega
    have hz0 : 1 ≤ zs0.length := by omega
    have hnd2 : (ys ++ o :: zs0).Nodup := hsl ▸ hnd
    have hoys : o ∉ ys := fun hm => (List.nodup_append.mp hnd2).2.2 hm (by simp)
    have hozs : o ∉ zs0 := (List.nodup_cons.mp (List.nodup_append.mp hnd2).2.1).1
    refine ⟨?_, ?_, ?_⟩
    · rw [hsl]
      cases ys with
      | nil => simp at hys
      | cons y ys2 =>
        simp only [List.cons_append, List.head?_cons, ne_eq, Option.some.injEq]
        intro e
        exact hoys (by simp [e])
    · rw [hsl]
      cases hzl : zs0.getLast? with
      | none =>
        have : zs0 = [] := List.getLast?_eq_none_iff.mp hzl
        rw [this] at hz0
        simp at hz0
      | some z =>
        have hzne : zs0 ≠ [] := by
          intro e
          rw [e] at hz0
          simp at hz0
        have hg0 : (o :: zs0).getLast? = some z := by
          cases zs0 with
          | nil => exact absurd rfl hzne
          | cons a t =>
            rw [List.getLast?_cons_cons]
            exact hzl
        have hg : (ys ++ o :: zs0).getLast? = some z := by
          rw [List.getLast?_append, hg0]
          rfl
        rw [hg]
        intro e
        have : z = o := by simpa using e
        exact hozs (this ▸ List.mem_of_mem_getLast? hzl)
    · rw [hsl, prev_of_split _ _ _ hoys]
      cases hyl : ys.getLast? with
      | none =>
        have : ys = [] := List.getLast?_eq_none_iff.mp hyl
        rw [this] at hys
        simp at hys
      | some y => exact ⟨y, rfl⟩

set_option maxRecDepth 1000000 in
/-- C12, a failing input: the constants `BUF_LRU_OLD_MIN_LEN = 30`,
`BUF_LRU_OLD_RATIO_MIN = 900` meet the compile-time constraint. Starting
from the empty pool with ratio 900, thirty insertions at the head and then
24 times an insertion at the head followed by the removal of the tail block
leave 30 blocks with `LRU_old_len = 1`: `LRU_old` points to page 25, the
last block of the LRU list. The target length is `min(26, 30 - 25) = 5`, so
a length of 1 is within the tolerance of 20. -/
theorem LRU_old_at_tail_counterexample :
    consts_ok tiny_consts ∧
    LRU_valid tiny_consts (empty_pool (fun a => plain_page a) 900) ∧
    ratio_ok tiny_consts (empty_pool (fun a => plain_page a) 900) ∧
    ops_pre tiny_consts (empty_pool (fun a => plain_page a) 900) drain_ops = true ∧
    (run_ops tiny_consts (empty_pool (fun a => plain_page a) 900) drain_ops).map
      (fun q => (q.LRU.length, q.LRU_old, q.LRU.getLast?, q.LRU_old_len))
      = some (30, some 25, some 25, 1) :=
  ⟨by decide, empty_valid tiny_consts _ 900 (by decide), by decide, by decide, by decide⟩

/-- C12, amended: under the compile-time constraints on the constants, with
`BUF_LRU_OLD_MIN_LEN` at least 47 as in the plugin (512) and
`buf_LRU_old_ratio` at least `BUF_LRU_OLD_RATIO_MIN`, every LRU operation on
a pool that `buf_LRU_validate` accepts returns, and if `LRU_old` is defined
afterwards it is neither the first nor the last block of the LRU list; it
has a predecessor, so `buf_LRU_remove_block` of the block `LRU_old` points
to passes `ut_a(prev_bpage)` and returns. -/
theorem LRU_old_not_at_end (c : buf_LRU_consts) (p : buf_pool_t) (op : LRU_op)
    (hc : consts_ok c)
    (hmin : 2 * BUF_LRU_OLD_TOLERANCE + BUF_LRU_NON_OLD_MIN_LEN + 2 ≤ c.BUF_LRU_OLD_MIN_LEN)
    (hv : LRU_valid c p) (hr : ratio_ok c p) (hpre : op_pre p op) :
    ∃ q, op_apply c p op = some q ∧
      ∀ o, q.LRU_old = some o →
        q.LRU.head? ≠ some o ∧ q.LRU.getLast? ≠ some o ∧
        (∃ y, UT_LIST_GET_PREV q.LRU o = some y) ∧
        (buf_page_in_file (q.blocks o) = true → ∃ r, buf_LRU_remove_block c q o = some r) := by
  obtain ⟨q, hq, hvq, hrq⟩ := op_valid c p op hc hv hr hpre
  refine ⟨q, hq, ?_⟩
  intro o ho
  obtain ⟨h1, h2, h3⟩ := interior_of_valid c q o hc hmin hvq hrq ho
  refine ⟨h1, h2, h3, ?_⟩
  intro hf
  have hmem : o ∈ q.LRU := by
    rcases hvq.2.1.1 with ⟨h, _⟩ | ⟨o2, hm, h, _⟩
    · rw [h] at ho
      exact absurd ho (by simp)
    · rw [h] at ho
      have : o2 = o := by simpa using ho
      exact this ▸ hm
  obtain ⟨r, hr2, _⟩ := remove_block_valid c q o (M_of_consts c hc) hvq hmem hf
  exact ⟨r, hr2⟩

set_option maxRecDepth 100000 in
/-- C12 amended, evaluated: a page is added to the old sublist of the pool
of 600 pages under the constants of the plugin. -/
theorem LRU_old_not_at_end_witness :
    consts_ok plugin_consts ∧ ratio_ok plugin_consts (big_pool 600 220 384) ∧
    ∃ q, op_apply plugin_consts (big_pool 600 220 384) (.add_block 1000 true) = some q ∧
      ∀ o, q.LRU_old = some o →
        q.LRU.head? ≠ some o ∧ q.LRU.getLast? ≠ some o ∧
        (∃ y, UT_LIST_GET_PREV q.LRU o = some y) ∧
        (buf_page_in_file (q.blocks o) = true →
          ∃ r, buf_LRU_remove_block plugin_consts q o = some r) :=
  ⟨by decide, by decide,
   LRU_old_not_at_end plugin_consts (big_pool 600 220 384) (.add_block 1000 true)
     (by decide) (by decide)
     (big_pool_valid plugin_consts 600 220 384 (by decide) (by decide) (by decide))
     (by decide) (by decide)⟩

set_option maxRecDepth 1000000 in
/-- C13, the claim fails at `BUF_LRU_OLD_RATIO_MAX`: the pool of pages
1 .. 541 with the old sublist 35 .. 541 and `buf_LRU_old_ratio = 1024` is
what 541 insertions at the head leave of an empty pool; one more
`buf_LRU_add_block(1000, FALSE)` gives 542 blocks and `LRU_old_len = 507`,
which is 35 away from `542 * 1024 / 1024`. -/
theorem tolerance_ratio_max_counterexample :
    LRU_valid plugin_consts (big_pool 541 507 1024) ∧
    ratio_ok plugin_consts (big_pool 541 507 1024) ∧
    ops_pre plugin_consts (big_pool 541 507 1024) [.add_block 1000 false] = true ∧
    (run_ops plugin_consts (big_pool 541 507 1024) [.add_block 1000 false]).map
      (fun q => (decide (plugin_consts.BUF_LRU_OLD_MIN_LEN ≤ q.LRU.length),
        q.LRU.length * q.buf_LRU_old_ratio / 1024, q.LRU_old_len,
        decide (q.LRU_old_len + BUF_LRU_OLD_TOLERANCE
          < q.LRU.length * q.buf_LRU_old_ratio / 1024)))
      = some (true, 542, 507, true) :=
  ⟨big_pool_valid plugin_consts 541 507 1024 (by decide) (by decide) (by decide),
   by decide, by decide, by decide⟩

/-- C13, amended: after any sequence of LRU operations (additions,
removals, `buf_LRU_make_block_young` and the others of `LRU_op`) on a pool
that `buf_LRU_validate` accepts, with `buf_LRU_old_ratio` between
`BUF_LRU_OLD_RATIO_MIN` and `BUF_LRU_OLD_RATIO_MAX`, a list of at least
`BUF_LRU_OLD_MIN_LEN` blocks has `LRU_old_len` within 20 of
`min(|LRU| * ratio / 1024, |LRU| - 25)`; it is within 20 of
`|LRU| * ratio / 1024` whenever that value is at most `|LRU| - 25`. -/
theorem tolerance_after_ops (c : buf_LRU_consts) (p : buf_pool_t) (ops : List LRU_op)
    (hc : consts_ok c) (hv : LRU_valid c p) (hr : ratio_ok c p)
    (hpre : ops_pre c p ops = true) :
    ∃ q, run_ops c p ops = some q ∧ ratio_ok c q ∧
      (c.BUF_LRU_OLD_MIN_LEN ≤ q.LRU.length →
        (min (q.LRU.length * q.buf_LRU_old_ratio / 1024)
            (q.LRU.length - (BUF_LRU_OLD_TOLERANCE + BUF_LRU_NON_OLD_MIN_LEN))
            ≤ q.LRU_old_len + BUF_LRU_OLD_TOLERANCE ∧
          q.LRU_old_len ≤ min (q.LRU.length * q.buf_LRU_old_ratio / 1024)
            (q.LRU.length - (BUF_LRU_OLD_TOLERANCE + BUF_LRU_NON_OLD_MIN_LEN))
            + BUF_LRU_OLD_TOLERANCE) ∧
        (q.LRU.length * q.buf_LRU_old_ratio / 1024
            ≤ q.LRU.length - (BUF_LRU_OLD_TOLERANCE + BUF_LRU_NON_OLD_MIN_LEN) →
          q.LRU.length * q.buf_LRU_old_ratio / 1024 ≤ q.LRU_old_len + BUF_LRU_OLD_TOLERANCE ∧
          q.LRU_old_len
            ≤ q.LRU.length * q.buf_LRU_old_ratio / 1024 + BUF_LRU_OLD_TOLERANCE)) := by
  obtain ⟨q, hq, hvq, hrq⟩ := run_valid c ops p hc hv hr hpre
  refine ⟨q, hq, hrq, ?_⟩
  intro hge
  have ht := hvq.2.2 hge
  unfold BUF_LRU_OLD_TOLERANCE BUF_LRU_NON_OLD_MIN_LEN
  refine ⟨ht, ?_⟩
  intro hcap
  rw [Nat.min_eq_left hcap] at ht
  exact ht

set_option maxRecDepth 1000000 in
/-- C13 amended, evaluated: a page is added to the old sublist of the pool
of 600 pages and then made young. -/
theorem tolerance_after_ops_witness :
    consts_ok plugin_consts ∧ ratio_ok plugin_consts (big_pool 600 220 384) ∧
    ∃ q, run_ops plugin_consts (big_pool 600 220 384)
        [.add_block 1000 true, .make_block_young 1000] = some q ∧
      ratio_ok plugin_consts q ∧
      (plugin_consts.BUF_LRU_OLD_MIN_LEN ≤ q.LRU.length →
        (min (q.LRU.length * q.buf_LRU_old_ratio / 1024)
            (q.LRU.length - (BUF_LRU_OLD_TOLERANCE + BUF_LRU_NON_OLD_MIN_LEN))
            ≤ q.LRU_old_len + BUF_LRU_OLD_TOLERANCE ∧
          q.LRU_old_len ≤ min (q.LRU.length * q.buf_LRU_old_ratio / 1024)
            (q.LRU.length - (BUF_LRU_OLD_TOLERANCE + BUF_LRU_NON_OLD_MIN_LEN))
            + BUF_LRU_OLD_TOLERANCE) ∧
        (q.LRU.length * q.buf_LRU_old_ratio / 1024
            ≤ q.LRU.length - (BUF_LRU_OLD_TOLERANCE + BUF_LRU_NON_OLD_MIN_LEN) →
          q.LRU.length * q.buf_LRU_old_ratio / 1024 ≤ q.LRU_old_len + BUF_LRU_OLD_TOLERANCE ∧
          q.LRU_old_len
            ≤ q.LRU.length * q.buf_LRU_old_ratio / 1024 + BUF_LRU_OLD_TOLERANCE)) :=
  ⟨by decide, by decide,
   tolerance_after_ops plugin_consts (big_pool 600 220 384)
     [.add_block 1000 true, .make_block_young 1000] (by decide)
     (big_pool_valid plugin_consts 600 220 384 (by decide) (by decide) (by decide))
     (by decide) (by decide)⟩

theorem cleared_of_small (c : buf_LRU_consts) (q : buf_pool_t) (hv : LRU_valid c q)
    (hlt : q.LRU.length < c.BUF_LRU_OLD_MIN_LEN) :
    q.LRU_old = none ∧ q.LRU_old_len = 0 ∧ ∀ x ∈ q.LRU, (q.blocks x).old = false := by
  obtain ⟨hnd, hos, _⟩ := hv
  obtain ⟨ys, zs, hs, hzs⟩ := split_of_old_sublist c q hnd hos
  have hz := hzs.mpr hlt
  subst hz
  obtain ⟨hsl, hso, hslen, hsy, _⟩ := hs
  refine ⟨by simpa using hso, by simpa using hslen, ?_⟩
  intro x hx
  apply hsy
  rw [hsl] at hx
  simpa using hx

theorem toggle_run (c : buf_LRU_consts) (steps : List (Nat × Bool × Nat)) (p : buf_pool_t)
    (hc : consts_ok c) (hv : LRU_valid c p)
    (hlen : p.LRU.length + 1 = c.BUF_LRU_OLD_MIN_LEN)
    (hpre : ops_pre c p (toggle_ops steps) = true) :
    ∃ q, run_ops c p (toggle_ops steps) = some q ∧ LRU_valid c q ∧
      q.LRU.length + 1 = c.BUF_LRU_OLD_MIN_LEN := by
  have hM := M_of_consts c hc
  induction steps generalizing p with
  | nil => exact ⟨p, rfl, hv, hlen⟩
  | cons s rest ih =>
    obtain ⟨bpage, old, x⟩ := s
    unfold toggle_ops at hpre ⊢
    unfold ops_pre at hpre
    simp only [Bool.and_eq_true, decide_eq_true_eq] at hpre
    obtain ⟨hp1, hrest⟩ := hpre
    obtain ⟨q1, hq1, hv1, hl1, _⟩ := add_block_valid c p bpage old hM hv hp1.1 hp1.2
    have ha : op_apply c p (.add_block bpage old) = some q1 := hq1
    rw [ha] at hrest
    unfold ops_pre at hrest
    simp only [Bool.and_eq_true, decide_eq_true_eq] at hrest
    obtain ⟨hp2, hrest2⟩ := hrest
    obtain ⟨q2, hq2, hv2, _, hl2, _⟩ := remove_block_valid c q1 x hM hv1 hp2.1 hp2.2
    have hb : op_apply c q1 (.remove_block x) = some q2 := hq2
    rw [hb] at hrest2
    obtain ⟨q, hq, hvq, hlq⟩ := ih q2 hv2 (by omega) hrest2
    refine ⟨q, ?_, hvq, hlq⟩
    unfold run_ops
    rw [ha]
    simp only
    unfold run_ops
    rw [hb]
    exact hq

theorem add_block_init_eq (c : buf_LRU_consts) (p : buf_pool_t) (bpage : Nat) (old : Bool)
    (hlen : p.LRU.length + 1 = c.BUF_LRU_OLD_MIN_LEN)
    (hf : buf_page_in_file (p.blocks bpage) = true) :
    buf_LRU_add_block c p bpage old =
      (buf_LRU_old_adjust_len
        { p with
          LRU := bpage :: p.LRU,
          blocks := set_old_all true (bpage :: p.LRU).reverse
            (Function.update p.blocks bpage
              { p.blocks bpage with freed_page_clock := p.freed_page_clock }),
          LRU_old := some bpage,
          LRU_old_len := p.LRU.length + 1 }).bind
        (fun p2 => add_to_unzip_LRU_if_needed p2 bpage old) := by
  have h1 : p.LRU.length < c.BUF_LRU_OLD_MIN_LEN := by omega
  have h2 : (p.LRU.length + 1 > c.BUF_LRU_OLD_MIN_LEN) = False := by
    simp only [eq_iff_iff, iff_false]
    omega
  have h3 : (p.LRU.length + 1 = c.BUF_LRU_OLD_MIN_LEN) = True := by
    simp only [eq_iff_iff, iff_true]
    exact hlen
  unfold buf_LRU_add_block buf_LRU_add_block_low
  simp only [hf, if_true, h1, decide_True, Bool.or_true, set_block, UT_LIST_ADD_FIRST,
    List.length_cons, h2, if_false, h3, buf_LRU_old_init, List.head?_cons]
  cases buf_LRU_old_adjust_len _ <;> rfl

/-- C14: crossing `BUF_LRU_OLD_MIN_LEN` in a pool that `buf_LRU_validate`
accepts. An insertion that brings the list to exactly
`BUF_LRU_OLD_MIN_LEN` blocks marks every block old, points `LRU_old` to the
head, sets `LRU_old_len` to the length and runs `buf_LRU_old_adjust_len`;
it returns with `LRU_old` defined and `LRU_old_len` inside the tolerance. A
removal that brings the list below `BUF_LRU_OLD_MIN_LEN` returns with
`LRU_old = NULL`, `LRU_old_len = 0` and no block old. Any number of
insertions each followed by a removal, from a list one short of
`BUF_LRU_OLD_MIN_LEN`, ends with `LRU_old = NULL` and no block old. -/
theorem threshold_toggle (c : buf_LRU_consts) (p : buf_pool_t)
    (hc : consts_ok c) (hv : LRU_valid c p) :
    (∀ bpage old, p.LRU.length + 1 = c.BUF_LRU_OLD_MIN_LEN → bpage ∉ p.LRU →
      buf_page_in_file (p.blocks bpage) = true →
      ∃ q, buf_LRU_add_block c p bpage old = some q ∧
        buf_LRU_add_block c p bpage old =
          (buf_LRU_old_adjust_len
            { p with
              LRU := bpage :: p.LRU,
              blocks := set_old_all true (bpage :: p.LRU).reverse
                (Function.update p.blocks bpage
                  { p.blocks bpage with freed_page_clock := p.freed_page_clock }),
              LRU_old := some bpage,
              LRU_old_len := p.LRU.length + 1 }).bind
            (fun p2 => add_to_unzip_LRU_if_needed p2 bpage old) ∧
        q.LRU.length = c.BUF_LRU_OLD_MIN_LEN ∧
        q.LRU_old.isSome = true ∧ old_len_in_tolerance c q) ∧
    (∀ bpage, p.LRU.length = c.BUF_LRU_OLD_MIN_LEN → bpage ∈ p.LRU →
      buf_page_in_file (p.blocks bpage) = true →
      ∃ q, buf_LRU_remove_block c p bpage = some q ∧
        q.LRU_old = none ∧ q.LRU_old_len = 0 ∧ ∀ x ∈ q.LRU, (q.blocks x).old = false) ∧
    (∀ steps, p.LRU.length + 1 = c.BUF_LRU_OLD_MIN_LEN →
      ops_pre c p (toggle_ops steps) = true →
      ∃ q, run_ops c p (toggle_ops steps) = some q ∧
        q.LRU_old = none ∧ q.LRU_old_len = 0 ∧ ∀ x ∈ q.LRU, (q.blocks x).old = false) := by
  have hM := M_of_consts c hc
  refine ⟨?_, ?_, ?_⟩
  · intro bpage old hlen hb hf
    obtain ⟨q, hq, hvq, hl, _⟩ := add_block_valid c p bpage old hM hv hb hf
    refine ⟨q, hq, add_block_init_eq c p bpage old hlen hf, by omega, ?_, hvq.2.2⟩
    rcases hvq.2.1.1 with ⟨_, h⟩ | ⟨o, _, h, _⟩
    · omega
    · rw [h]
      rfl
  · intro bpage hlen hmem hf
    obtain ⟨q, hq, hvq, _, hl, _⟩ := remove_block_valid c p bpage hM hv hmem hf
    exact ⟨q, hq, cleared_of_small c q hvq (by omega)⟩
  · intro steps hlen hpre
    obtain ⟨q, hq, hvq, hl⟩ := toggle_run c steps p hc hv hlen hpre
    exact ⟨q, hq, cleared_of_small c q hvq (by omega)⟩

set_option maxRecDepth 1000000 in
set_option maxHeartbeats 4000000 in
/-- C14, evaluated: the pool of 511 pages crosses the threshold of 512
and back. -/
theorem threshold_toggle_witness :
    consts_ok plugin_consts ∧
    (big_pool 511 0 384).LRU.length + 1 = plugin_consts.BUF_LRU_OLD_MIN_LEN ∧
    ∃ q, run_ops plugin_consts (big_pool 511 0 384)
        (toggle_ops [(1000, true, 7)]) = some q ∧
      q.LRU_old = none ∧ q.LRU_old_len = 0 ∧ ∀ x ∈ q.LRU, (q.blocks x).old = false :=
  ⟨by decide, by decide,
   (threshold_toggle plugin_consts (big_pool 511 0 384) (by decide)
     (big_pool_valid plugin_consts 511 0 384 (by decide) (by decide) (by decide))).2.2
     [(1000, true, 7)] (by decide) (by decide)⟩

/-- C11: the list-membership checks of `buf_LRU_validate` (a block in the
LRU list has state `FILE_PAGE`, `ZIP_PAGE` or `ZIP_DIRTY`; a block in the
free list has state `NOT_USED`; a block is in the unzip_LRU list iff it is
in the LRU list with state `FILE_PAGE` and a compressed frame; no block is
in both the free and the LRU list) hold again after
`buf_LRU_get_free_only`, `buf_LRU_block_free_non_file_page`,
`buf_LRU_add_block`, `buf_LRU_free_block` and `buf_LRU_free_one_page`, each
of which returns, in a pool that `buf_LRU_validate` accepts. -/
theorem lists_valid_preserved (c : buf_LRU_consts) (p : buf_pool_t)
    (hc : consts_ok c) (hv : LRU_valid c p) (h : lists_valid p) :
    (∃ block q, buf_LRU_get_free_only p = some (block, q) ∧
      lists_valid q ∧ lists_disjoint q) ∧
    (∀ block, ((p.blocks block).state = .BUF_BLOCK_MEMORY ∨
        (p.blocks block).state = .BUF_BLOCK_READY_FOR_USE) →
      ∃ q, buf_LRU_block_free_non_file_page p block = some q ∧
        lists_valid q ∧ lists_disjoint q) ∧
    (∀ bpage old, bpage ∉ p.LRU → buf_page_in_file (p.blocks bpage) = true →
      ∃ q, buf_LRU_add_block c p bpage old = some q ∧ lists_valid q ∧ lists_disjoint q) ∧
    (∀ bpage zip b, page_freeable p bpage → fresh_descriptor p b →
      ∃ ret removed q, buf_LRU_free_block c p bpage zip b = some (ret, removed, q) ∧
        lists_valid q ∧ lists_disjoint q) ∧
    (∀ bpage, page_freeable p bpage → (p.blocks bpage).io_fix = .BUF_IO_NONE →
      (p.blocks bpage).buf_fix_count = 0 → (p.blocks bpage).oldest_modification = 0 →
      ∃ q, buf_LRU_free_one_page c p bpage = some q ∧ lists_valid q ∧ lists_disjoint q) := by
  have hM := M_of_consts c hc
  have hd : ∀ q, lists_valid q → lists_disjoint q :=
    fun q hq x hx => (free_not_in_LRU q hq x hx).1
  refine ⟨?_, ?_, ?_, ?_, ?_⟩
  · obtain ⟨r, q, hq, hlq, _⟩ := get_free_only_lists p h
    exact ⟨r, q, hq, hlq, hd q hlq⟩
  · intro block hs
    obtain ⟨q, hq, hlq, _⟩ := free_non_file_lists p block h hs
    exact ⟨q, hq, hlq, hd q hlq⟩
  · intro bpage old hb hf
    obtain ⟨q, hq, hlq⟩ := add_block_lists c p bpage old hM hv h hb hf
    exact ⟨q, hq, hlq, hd q hlq⟩
  · intro bpage zip b hpf hfresh
    obtain ⟨r, rm, q, hq, hlq, _⟩ := free_block_lists c p bpage b zip hM hv h hpf hfresh
    exact ⟨r, rm, q, hq, hlq, hd q hlq⟩
  · intro bpage hpf hio hfix hclean
    obtain ⟨q, hq, hlq⟩ := free_one_page_lists c p bpage hM hv h hpf hio hfix hclean
    exact ⟨q, hq, hlq, hd q hlq⟩

/-- C11, evaluated: the compressed page 2 of the pool with two free blocks
is relocated. -/
theorem lists_valid_preserved_witness :
    consts_ok plugin_consts ∧ LRU_valid plugin_consts free_pool ∧ lists_valid free_pool ∧
    ∃ ret removed q, buf_LRU_free_block plugin_consts free_pool 2 false 9
        = some (ret, removed, q) ∧ lists_valid q ∧ lists_disjoint q :=
  ⟨by decide, by decide, by decide,
   (lists_valid_preserved plugin_consts free_pool (by decide) (by decide)
     (by decide)).2.2.2.1 2 false 9 (by decide) (by decide)⟩

/-- C15: `buf_LRU_get_free_only` returns `NULL` and leaves the pool as it
is when the free list is empty; otherwise, for a head of the free list that
holds no file page (`ut_a(!buf_page_in_file)`), it returns that head, the
free list is the former tail in its order, the block has state
`READY_FOR_USE`, and the LRU list, the unzip_LRU list and every other block
are unchanged. -/
theorem get_free_only_head (p : buf_pool_t) :
    (p.free = [] → buf_LRU_get_free_only p = some (none, p)) ∧
    (∀ block rest, p.free = block :: rest → buf_page_in_file (p.blocks block) = false →
      ∃ q, buf_LRU_get_free_only p = some (some block, q) ∧
        q.free = rest ∧ (q.blocks block).state = .BUF_BLOCK_READY_FOR_USE ∧
        q.LRU = p.LRU ∧ q.unzip_LRU = p.unzip_LRU ∧
        (∀ x, x ≠ block → q.blocks x = p.blocks x)) := by
  refine ⟨(get_free_only_spec p).1, ?_⟩
  intro block rest hfr hf
  refine ⟨_, (get_free_only_spec p).2 block rest hfr hf, rfl, ?_, rfl, rfl, ?_⟩
  · show (Function.update p.blocks block _ block).state = _
    rw [Function.update_same]
  · intro x hx
    show Function.update p.blocks block _ x = _
    rw [Function.update_noteq hx]

/-- C15, evaluated on the pool with the free blocks 5 and 6. -/
theorem get_free_only_head_witness :
    ∃ q, buf_LRU_get_free_only free_pool = some (some 5, q) ∧
      q.free = [6] ∧ (q.blocks 5).state = .BUF_BLOCK_READY_FOR_USE ∧
      q.LRU = free_pool.LRU ∧ q.unzip_LRU = free_pool.unzip_LRU ∧
      (∀ x, x ≠ 5 → q.blocks x = free_pool.blocks x) :=
  (get_free_only_head free_pool).2 5 [6] (by decide) (by decide)

/-- C17: `buf_LRU_free_from_unzip_LRU_list(n_iterations)`. With
`n_iterations >= 5`, or when `buf_LRU_evict_from_unzip_LRU` does not hold,
it returns FALSE and hands no block to `buf_LRU_free_block`. Otherwise the
first block tried is the tail of the unzip_LRU list, every call of
`buf_LRU_free_block` but the last one returned FALSE, the result is TRUE
only if the last call returned TRUE (and a FALSE result leaves the pool as
it was), and at most `100 + n_iterations * |unzip_LRU| / 5` blocks are
tried. In a pool that passes `buf_LRU_validate` with hashed pages the
function returns. -/
theorem free_from_unzip_LRU_bounds (c : buf_LRU_consts) (p : buf_pool_t) (evict : Bool)
    (n_iterations b : Nat) :
    (n_iterations ≥ 5 →
      buf_LRU_free_from_unzip_LRU_list c evict p n_iterations b = some (false, [], p)) ∧
    (evict = false →
      buf_LRU_free_from_unzip_LRU_list c evict p n_iterations b = some (false, [], p)) ∧
    (∀ r tr q, buf_LRU_free_from_unzip_LRU_list c evict p n_iterations b = some (r, tr, q) →
      tr.length ≤ 100 + n_iterations * p.unzip_LRU.length / 5 ∧
      (tr ≠ [] → n_iterations < 5 ∧ evict = true ∧
        tr.head?.map Prod.fst = p.unzip_LRU.getLast?) ∧
      (∀ e ∈ tr.dropLast, e.2 = false) ∧
      (r = true → tr.getLast?.map Prod.snd = some true) ∧
      (r = false → q = p ∧ ∀ e ∈ tr, e.2 = false)) ∧
    (consts_ok c → pool_ok c p b →
      ∃ res, buf_LRU_free_from_unzip_LRU_list c evict p n_iterations b = some res) := by
  refine ⟨?_, ?_, ?_, ?_⟩
  · intro h
    unfold buf_LRU_free_from_unzip_LRU_list
    rw [if_pos (Or.inl h)]
  · intro h
    unfold buf_LRU_free_from_unzip_LRU_list
    rw [if_pos (Or.inr h)]
  · intro r tr q h
    unfold buf_LRU_free_from_unzip_LRU_list at h
    by_cases hc : n_iterations ≥ 5 ∨ evict = false
    · rw [if_pos hc] at h
      simp only [Option.some.injEq, Prod.mk.injEq] at h
      obtain ⟨h1, h2, h3⟩ := h
      rw [← h2]
      refine ⟨by simp, fun hne => absurd rfl hne, by simp, ?_, ?_⟩
      · intro hr; rw [← h1] at hr; exact absurd hr (by decide)
      · intro _; exact ⟨h3.symm, by simp⟩
    · rw [if_neg hc] at h
      obtain ⟨ext, e1, e2, e3, e4, e5, e6⟩ := unzip_scan_trace c b _ _ _ _ _ _ _ h
      simp only [List.nil_append] at e1
      subst e1
      have hn : n_iterations < 5 := by
        by_contra hge
        exact hc (Or.inl (by omega))
      have he : evict = true := by
        cases evict
        · exact absurd (Or.inr rfl) hc
        · rfl
      refine ⟨?_, fun hne => ⟨hn, he, e3 hne⟩, e4, e5, e6⟩
      have h1 : (100 + (n_iterations * p.unzip_LRU.length) % 2 ^ 64 / 5) % 2 ^ 64
          ≤ 100 + (n_iterations * p.unzip_LRU.length) % 2 ^ 64 / 5 := Nat.mod_le _ _
      have h2 : (n_iterations * p.unzip_LRU.length) % 2 ^ 64 / 5
          ≤ n_iterations * p.unzip_LRU.length / 5 :=
        Nat.div_le_div_right (Nat.mod_le _ _)
      omega
  · intro hcs hok
    unfold buf_LRU_free_from_unzip_LRU_list
    split_ifs
    · exact ⟨_, rfl⟩
    · apply unzip_scan_total c b p (M_of_consts c hcs) hok
      intro blk hblk
      exact List.mem_of_mem_getLast? hblk

/-- C17, evaluated: the compressed page 2 of the pool with two free blocks
is the tail of the unzip_LRU list and is freed at the first attempt. -/
theorem free_from_unzip_LRU_bounds_witness :
    buf_LRU_free_from_unzip_LRU_list plugin_consts true free_pool 7 9
      = some (false, [], free_pool) ∧
    (buf_LRU_free_from_unzip_LRU_list plugin_consts true free_pool 1 9).map
      (fun r => (r.1, r.2.1)) = some (true, [(2, true)]) :=
  ⟨(free_from_unzip_LRU_bounds plugin_consts free_pool true 7 9).1 (by decide), by decide⟩

/-- C18: `buf_LRU_free_from_common_LRU_list` on a proper LRU list hands to
`buf_LRU_free_block` the blocks of a tail segment of the list, last block
first; every call but the last one returned FALSE and the result is TRUE
only if the last call returned TRUE; at most `limit` blocks are tried when
`limit != 0` and at most `100 + n_iterations * curr_size / 10` when
`limit = 0`. `buf_LRU_search_and_free_block` calls it, when the unzip_LRU
search freed nothing, with `limit = BUF_LRU_FREE_SEARCH_LEN` if an
out-block is requested, `srv_fast_free_list` is on and `n_iterations = 1`,
and with `limit = 0` otherwise. -/
theorem free_from_common_LRU_bounds (c : buf_LRU_consts) (P : LRU_params) (p : buf_pool_t)
    (n_iterations limit b : Nat) (want_block : Bool) (hnd : p.LRU.Nodup) :
    (∀ r sid ns tr q,
      buf_LRU_free_from_common_LRU_list c p n_iterations limit b = some (r, sid, ns, tr, q) →
      (limit ≠ 0 → tr.length ≤ limit) ∧
      (limit = 0 → tr.length ≤ 100 + n_iterations * p.curr_size / 10) ∧
      (∃ pre vis, p.LRU = pre ++ vis ∧ tr.map Prod.fst = vis.reverse) ∧
      (∀ e ∈ tr.dropLast, e.2 = false) ∧
      (r = true → tr.getLast?.map Prod.snd = some true) ∧
      (r = false → q = p ∧ ∀ e ∈ tr, e.2 = false)) ∧
    ((want_block = true ∧ P.srv_fast_free_list = true ∧ n_iterations = 1) →
      search_limit P n_iterations want_block = P.BUF_LRU_FREE_SEARCH_LEN) ∧
    (¬ (want_block = true ∧ P.srv_fast_free_list = true ∧ n_iterations = 1) →
      search_limit P n_iterations want_block = 0) ∧
    (∀ tr1 p1 freed block ns q,
      buf_LRU_free_from_unzip_LRU_list c (P.evict_from_unzip_LRU p) p n_iterations b
        = some (false, tr1, p1) →
      buf_LRU_search_and_free_block c P p n_iterations want_block b
        = some (freed, block, ns, q) →
      ∃ sid tr q2, buf_LRU_free_from_common_LRU_list c p1 n_iterations
        (search_limit P n_iterations want_block) b = some (freed, sid, ns, tr, q2)) ∧
    (consts_ok c → pool_ok c p b →
      ∃ res, buf_LRU_free_from_common_LRU_list c p n_iterations limit b = some res) := by
  refine ⟨?_, ?_, ?_, ?_, ?_⟩
  · intro r sid ns tr q h
    unfold buf_LRU_free_from_common_LRU_list at h
    simp only at h
    obtain ⟨ext, e1, e2, ⟨pre2, vis2, e3a, e3b⟩, e4, e5, e6, _⟩ :=
      common_scan_trace c b _ _ _ _ _ p.LRU [] _ _ _ _ _ hnd (by simp) rfl h
    simp only [List.nil_append] at e1
    subst e1
    refine ⟨?_, ?_, ⟨pre2, vis2, e3a, e3b⟩, e4, e5, e6⟩
    · intro hne
      rw [if_neg hne] at e2
      exact e2
    · intro he
      rw [if_pos he] at e2
      have h1 : (100 + (n_iterations * p.curr_size) % 2 ^ 64 / 10) % 2 ^ 64
          ≤ 100 + (n_iterations * p.curr_size) % 2 ^ 64 / 10 := Nat.mod_le _ _
      have h2 : (n_iterations * p.curr_size) % 2 ^ 64 / 10
          ≤ n_iterations * p.curr_size / 10 :=
        Nat.div_le_div_right (Nat.mod_le _ _)
      omega
  · rintro ⟨h1, h2, h3⟩
    unfold search_limit
    simp [h1, h2, h3]
  · intro h
    unfold search_limit
    rw [if_neg]
    intro hc
    apply h
    simp only [Bool.and_eq_true, decide_eq_true_eq] at hc
    exact ⟨hc.1.1, hc.1.2, hc.2⟩
  · intro tr1 p1 freed block ns q hu hs
    unfold buf_LRU_search_and_free_block at hs
    rw [hu] at hs
    simp only [Bool.false_eq_true, if_false] at hs
    cases hcm : buf_LRU_free_from_common_LRU_list c p1 n_iterations
        (search_limit P n_iterations want_block) b with
    | none => rw [hcm] at hs; cases hs
    | some res =>
      obtain ⟨f, sid, ns2, tr, q2⟩ := res
      rw [hcm] at hs
      simp only at hs
      refine ⟨sid, tr, q2, ?_⟩
      cases f with
      | true =>
        simp only [if_true] at hs
        cases want_block with
        | true =>
          simp only [if_true] at hs
          split at hs
          · cases hs
          · simp only [Option.some.injEq, Prod.mk.injEq] at hs
            rw [← hs.1, ← hs.2.2.1]
        | false =>
          simp only [Bool.false_eq_true, if_false, Option.some.injEq, Prod.mk.injEq] at hs
          rw [← hs.1, ← hs.2.2.1]
      | false =>
        simp only [Bool.false_eq_true, if_false, Option.some.injEq, Prod.mk.injEq] at hs
        rw [← hs.1, ← hs.2.2.1]
  · intro hcs hok
    unfold buf_LRU_free_from_common_LRU_list
    apply common_scan_total c b _ p (M_of_consts c hcs) hok
    intro blk hblk
    exact List.mem_of_mem_getLast? hblk

/-- C18, evaluated: with `limit = 2` the scan of the three-page pool, whose
pages 3 and 2 are pinned, tries 3 and 2 and stops. -/
theorem free_from_common_LRU_bounds_witness :
    (buf_LRU_free_from_common_LRU_list plugin_consts
        { small_pool { plain_page 2 with buf_fix_count := 1 } with
          blocks := fun a => { plain_page a with buf_fix_count := 1 } } 1 2 9).map
      (fun r => (r.1, r.2.2.2.1)) = some (false, [(3, false), (2, false)]) ∧
    ∀ r sid ns tr q,
      buf_LRU_free_from_common_LRU_list plugin_consts
        { small_pool { plain_page 2 with buf_fix_count := 1 } with
          blocks := fun a => { plain_page a with buf_fix_count := 1 } } 1 2 9
        = some (r, sid, ns, tr, q) →
      (2 ≠ 0 → tr.length ≤ 2) :=
  ⟨by decide,
   fun r sid ns tr q h =>
     ((free_from_common_LRU_bounds plugin_consts
       { recv_recovery_on := false, srv_fast_free_list := true, BUF_LRU_FREE_SEARCH_LEN := 2,
         evict_from_unzip_LRU := fun _ => false }
       { small_pool { plain_page 2 with buf_fix_count := 1 } with
          blocks := fun a => { plain_page a with buf_fix_count := 1 } } 1 2 9 true
       (by decide)).1 r sid ns tr q h).1⟩

/-- C16: whenever `buf_LRU_get_free_block` returns, in a run where every
pass through `loop:` finds the pool in a state that `buf_LRU_validate`
accepts with hashed pages, the returned block is in state `READY_FOR_USE`,
in neither the free list nor the LRU list, and its compressed-page
descriptor is zero. If the free list is not empty at entry, and the pool
is in recovery or `free + LRU >= curr_size / 20`, the first pass returns
the former head of the free list and leaves the LRU list as it was. -/
theorem get_free_block_ready (c : buf_LRU_consts) (P : LRU_params)
    (env : Nat → buf_pool_t → buf_pool_t) (b : Nat → Nat)
    (hc : consts_ok c) (henv : ∀ k q k2, pool_ok c (env k q) (b k2)) :
    (∀ fuel n_iterations p blk q, (∀ k, pool_ok c p (b k)) →
      buf_LRU_get_free_block c P env b fuel n_iterations p = some (blk, q) →
      (q.blocks blk).state = .BUF_BLOCK_READY_FOR_USE ∧ blk ∉ q.free ∧ blk ∉ q.LRU ∧
      (q.blocks blk).zip_data = none ∧ (q.blocks blk).zip_size = 0) ∧
    (∀ fuel n_iterations p head rest, lists_valid p → p.free = head :: rest →
      (P.recv_recovery_on = true ∨ p.curr_size / 20 ≤ p.free.length + p.LRU.length) →
      ∃ q, buf_LRU_get_free_block c P env b (fuel + 1) n_iterations p = some (head, q) ∧
        q.LRU = p.LRU ∧ q.free = rest) := by
  have hM := M_of_consts c hc
  constructor
  · intro fuel
    induction fuel with
    | zero =>
      intro n p blk q _ h
      unfold buf_LRU_get_free_block at h
      cases h
    | succ fuel ih =>
      intro n p blk q hok h
      unfold buf_LRU_get_free_block at h
      split_ifs at h
      cases hg : buf_LRU_get_free_only p with
      | none => rw [hg] at h; cases h
      | some res =>
        obtain ⟨ob, q1⟩ := res
        rw [hg] at h
        cases ob with
        | some block =>
          simp only [Option.some.injEq, Prod.mk.injEq] at h
          obtain ⟨hb, hq⟩ := h
          subst hb
          subst hq
          obtain ⟨a1, a2, a3, a4, a5, _, _⟩ := get_free_only_block p block q1 (hok 0).2.1 hg
          exact ⟨a1, a2, a3, a4, a5⟩
        | none =>
          simp only at h
          obtain ⟨hq1, _⟩ := get_free_only_none p q1 hg
          subst hq1
          cases hs : buf_LRU_search_and_free_block c P q1 n true (b n) with
          | none => rw [hs] at h; cases h
          | some res =>
            obtain ⟨freed, ob2, ns, q2⟩ := res
            rw [hs] at h
            cases ob2 with
            | some block =>
              simp only at h
              split_ifs at h
              simp only [Option.some.injEq, Prod.mk.injEq] at h
              obtain ⟨hb, hq⟩ := h
              subst hb
              subst hq
              exact search_block_ready c P q1 n (b n) hM (hok n) freed block ns q2 hs
            | none =>
              simp only at h
              split_ifs at h
              · exact ih _ _ _ _ (fun k => henv _ _ k) h
              · exact ih _ _ _ _ (fun k => henv _ _ k) h
  · intro fuel n p head rest hlv hfr hsz
    have hmem : head ∈ p.free := by rw [hfr]; simp
    obtain ⟨_, _, hf⟩ := free_not_in_LRU p hlv head hmem
    have hg := (get_free_only_spec p).2 head rest hfr hf
    have hcond : (!P.recv_recovery_on &&
        decide (p.free.length + p.LRU.length < p.curr_size / 20)) = false := by
      rcases hsz with h | h
      · simp [h]
      · have : ¬ (p.free.length + p.LRU.length < p.curr_size / 20) := by omega
        simp [this]
    unfold buf_LRU_get_free_block
    rw [hcond, hg]
    exact ⟨_, rfl, rfl, rfl⟩

/-- C16, evaluated: the pool with the free blocks 5 and 6 hands out block
5. -/
theorem get_free_block_ready_witness :
    ∃ q, buf_LRU_get_free_block plugin_consts
        { recv_recovery_on := false, srv_fast_free_list := true, BUF_LRU_FREE_SEARCH_LEN := 2,
          evict_from_unzip_LRU := fun _ => false }
        (fun _ _ => free_pool) (fun _ => 9) (0 + 1) 1 free_pool = some (5, q) ∧
      q.LRU = free_pool.LRU ∧ q.free = [6] :=
  (get_free_block_ready plugin_consts
    { recv_recovery_on := false, srv_fast_free_list := true, BUF_LRU_FREE_SEARCH_LEN := 2,
      evict_from_unzip_LRU := fun _ => false }
    (fun _ _ => free_pool) (fun _ => 9) (by decide)
    (fun _ _ _ => (by decide : pool_ok plugin_consts free_pool 9))).2
    0 1 free_pool 5 [6] (by decide) (by decide) (Or.inr (by decide))

/-- C20: one pass of `buf_flush_or_remove_pages(id)` over a proper flush
list of dirty pages returns; the flush list is then the old one, in its
order, without the pages of space `id` that have `io_fix = NONE` and
`buf_fix_count = 0`; no page of another space leaves it; the LRU list is
unchanged; and the result is TRUE iff no page of space `id` is left on the
flush list. -/
theorem flush_or_remove_pages_pass (p : buf_pool_t) (id : Nat) (hfv : flush_valid p) :
    ∃ all_freed q, buf_flush_or_remove_pages p id = some (all_freed, q) ∧
      q.flush_list = p.flush_list.filter (fun x => !droppable id (p.blocks x)) ∧
      (∀ x, x ∈ q.flush_list ↔
        x ∈ p.flush_list ∧
        ¬ ((p.blocks x).space = id ∧ (p.blocks x).io_fix = .BUF_IO_NONE ∧
          (p.blocks x).buf_fix_count = 0)) ∧
      (∀ x ∈ p.flush_list, (p.blocks x).space ≠ id → x ∈ q.flush_list) ∧
      q.LRU = p.LRU ∧
      (all_freed = true ↔ ∀ x ∈ p.flush_list, (p.blocks x).space = id → x ∉ q.flush_list) := by
  obtain ⟨af2, q2, hq, k1, k2, k3, _⟩ :=
    flush_loop_spec id p.flush_list.length p.flush_list [] p true 0 (by simp) hfv.1
      (le_refl _) hfv.2
  simp only [List.append_nil, Bool.true_and] at k1 k2
  have hmem : ∀ x, x ∈ q2.flush_list ↔
      x ∈ p.flush_list ∧
      ¬ ((p.blocks x).space = id ∧ (p.blocks x).io_fix = .BUF_IO_NONE ∧
        (p.blocks x).buf_fix_count = 0) := by
    intro x
    rw [k1, List.mem_filter]
    unfold droppable
    simp only [Bool.not_eq_true', Bool.and_eq_false_iff, decide_eq_false_iff_not,
      Bool.and_eq_true, decide_eq_true_eq]
    tauto
  refine ⟨af2, q2, hq, k1, hmem, ?_, k3, ?_⟩
  · intro x hx hne
    exact (hmem x).mpr ⟨hx, fun h => hne h.1⟩
  · rw [k2, List.all_eq_true]
    constructor
    · intro h x hx hs hm
      have h1 := h x hx
      have h2 := ((hmem x).mp hm).2
      unfold droppable at h1
      simp only [Bool.or_eq_true, decide_eq_true_eq, Bool.and_eq_true] at h1
      rcases h1 with h1 | h1
      · exact h1 hs
      · exact h2 ⟨h1.1.1, h1.1.2, h1.2⟩
    · intro h x hx
      unfold droppable
      simp only [Bool.or_eq_true, decide_eq_true_eq, Bool.and_eq_true]
      by_cases hs : (p.blocks x).space = id
      · right
        have h1 := h x hx hs
        by_contra hc
        apply h1
        exact (hmem x).mpr ⟨hx, fun h3 => hc ⟨⟨h3.1, h3.2.1⟩, h3.2.2⟩⟩
      · exact Or.inl hs

/-- C20, evaluated: of the dirty pages 1 and 2 of space 4, page 1 is
dropped and the pinned page 2 stays; page 3 of space 0 stays. -/
theorem flush_or_remove_pages_pass_witness :
    flush_valid dirty_pool ∧
    (buf_flush_or_remove_pages dirty_pool 4).map (fun r => (r.1, r.2.flush_list, r.2.LRU))
      = some (false, [3, 2], [1, 2, 3]) ∧
    ∃ all_freed q, buf_flush_or_remove_pages dirty_pool 4 = some (all_freed, q) ∧
      q.flush_list = dirty_pool.flush_list.filter (fun x => !droppable 4 (dirty_pool.blocks x)) ∧
      (∀ x, x ∈ q.flush_list ↔
        x ∈ dirty_pool.flush_list ∧
        ¬ ((dirty_pool.blocks x).space = 4 ∧ (dirty_pool.blocks x).io_fix = .BUF_IO_NONE ∧
          (dirty_pool.blocks x).buf_fix_count = 0)) ∧
      (∀ x ∈ dirty_pool.flush_list, (dirty_pool.blocks x).space ≠ 4 → x ∈ q.flush_list) ∧
      q.LRU = dirty_pool.LRU ∧
      (all_freed = true ↔
        ∀ x ∈ dirty_pool.flush_list, (dirty_pool.blocks x).space = 4 → x ∉ q.flush_list) :=
  ⟨by decide, by decide, flush_or_remove_pages_pass dirty_pool 4 (by decide)⟩

theorem stat_run_inv (evs : List (buf_LRU_stat_t × Nat)) :
    ∀ (s : buf_LRU_stats) (snaps : List buf_LRU_stat_t), stat_inv s snaps →
      (∀ x ∈ snaps, x.io < 2 ^ 64 ∧ x.unzip < 2 ^ 64) →
      (∀ ev ∈ evs, ev.1.io < 2 ^ 64 ∧ ev.1.unzip < 2 ^ 64) →
      stat_inv (stat_run s evs) (snaps ++ snapshots evs) := by
  induction evs with
  | nil =>
    intro s snaps h _ _
    simpa [stat_run, snapshots] using h
  | cons ev rest ih =>
    intro s snaps h hs hev
    have hst := stat_step s snaps ev.1 ev.2 h hs (hev ev (by simp))
    unfold stat_run
    have hrest := ih _ _ hst (by
      intro x hx
      split_ifs at hx
      · rcases List.mem_append.mp hx with h1 | h1
        · exact hs x h1
        · have : x = ev.1 := by simpa using h1
          rw [this]
          exact hev ev (by simp)
      · exact hs x hx) (fun e he => hev e (by simp [he]))
    have e : (if ev.2 ≠ 0 then snaps ++ [ev.1] else snaps) ++ snapshots rest
        = snaps ++ snapshots (ev :: rest) := by
      unfold snapshots
      by_cases hf : ev.2 = 0
      · simp [hf]
      · simp [hf]
    rw [← e]
    exact hrest

theorem getD_replicate_self (n k : Nat) (z : buf_LRU_stat_t) :
    (List.replicate n z).getD k z = z := by
  induction n generalizing k with
  | zero => rfl
  | succ n ih =>
    cases k with
    | zero => rfl
    | succ k =>
      rw [List.replicate_succ, List.getD_cons_succ]
      exact ih k

theorem stat_inv_zero : stat_inv stats_zero [] := by
  unfold stat_inv stats_zero
  refine ⟨List.length_replicate _ _, ?_, ?_, ?_, ?_⟩
  · show 0 = 0 % BUF_LRU_STAT_N_INTERVAL
    rfl
  · show 0 = _
    rw [List.map_replicate, List.sum_replicate]
    simp
  · show 0 = _
    rw [List.map_replicate, List.sum_replicate]
    simp
  · intro k _
    show (List.replicate BUF_LRU_STAT_N_INTERVAL (⟨0, 0⟩ : buf_LRU_stat_t)).getD _ ⟨0, 0⟩ = _
    rw [getD_replicate_self]
    rfl

/-- C21: starting from all-zero statistics, after any sequence of
`buf_LRU_stat_update` calls, with arbitrary `ulint` counter values at each
call, `buf_LRU_stat_sum` is componentwise the sum of the entries of
`buf_LRU_stat_arr` modulo `2 ^ 64`; going back from the cursor, the entries
are the counter snapshots of the most recent calls that ran with
`freed_page_clock != 0`, at most 50 of them, the rest zero; the array keeps
its 50 entries and the cursor stays below 50. -/
theorem stat_sum_is_array_sum (evs : List (buf_LRU_stat_t × Nat))
    (hev : ∀ ev ∈ evs, ev.1.io < 2 ^ 64 ∧ ev.1.unzip < 2 ^ 64) :
    (stat_run stats_zero evs).buf_LRU_stat_sum.io
      = ((stat_run stats_zero evs).buf_LRU_stat_arr.map buf_LRU_stat_t.io).sum % 2 ^ 64 ∧
    (stat_run stats_zero evs).buf_LRU_stat_sum.unzip
      = ((stat_run stats_zero evs).buf_LRU_stat_arr.map buf_LRU_stat_t.unzip).sum % 2 ^ 64 ∧
    (stat_run stats_zero evs).buf_LRU_stat_arr.length = BUF_LRU_STAT_N_INTERVAL ∧
    (stat_run stats_zero evs).buf_LRU_stat_arr_ind < BUF_LRU_STAT_N_INTERVAL ∧
    (∀ k, k < BUF_LRU_STAT_N_INTERVAL →
      (stat_run stats_zero evs).buf_LRU_stat_arr.getD
          (((stat_run stats_zero evs).buf_LRU_stat_arr_ind + (BUF_LRU_STAT_N_INTERVAL - 1) - k)
            % BUF_LRU_STAT_N_INTERVAL) ⟨0, 0⟩
        = (snapshots evs).reverse.getD k ⟨0, 0⟩) := by
  have h := stat_run_inv evs stats_zero [] stat_inv_zero (by simp) hev
  simp only [List.nil_append] at h
  obtain ⟨h1, h2, h3, h4, h5⟩ := h
  refine ⟨h3, h4, h1, ?_, h5⟩
  rw [h2]
  exact Nat.mod_lt _ (by unfold BUF_LRU_STAT_N_INTERVAL; norm_num)

/-- C21, evaluated: three calls, the second one before any eviction. -/
theorem stat_sum_is_array_sum_witness :
    (stat_run stats_zero [(⟨3, 1⟩, 7), (⟨5, 5⟩, 0), (⟨2, 4⟩, 9)]).buf_LRU_stat_sum.io
      = ((stat_run stats_zero [(⟨3, 1⟩, 7), (⟨5, 5⟩, 0), (⟨2, 4⟩, 9)]).buf_LRU_stat_arr.map
          buf_LRU_stat_t.io).sum % 2 ^ 64 ∧
    (stat_run stats_zero [(⟨3, 1⟩, 7), (⟨5, 5⟩, 0), (⟨2, 4⟩, 9)]).buf_LRU_stat_sum
      = ⟨5, 5⟩ :=
  ⟨(stat_sum_is_array_sum [(⟨3, 1⟩, 7), (⟨5, 5⟩, 0), (⟨2, 4⟩, 9)] (by decide)).1, by decide⟩

/-- C22: every call of `buf_LRU_stat_update` leaves `buf_LRU_stat_cur` at
`(0, 0)`; with `freed_page_clock = 0` it leaves `buf_LRU_stat_sum`,
`buf_LRU_stat_arr` and `buf_LRU_stat_arr_ind` as they were. -/
theorem stat_update_clears_cur (freed_page_clock : Nat) (s : buf_LRU_stats) :
    (buf_LRU_stat_update freed_page_clock s).buf_LRU_stat_cur = ⟨0, 0⟩ ∧
    ((buf_LRU_stat_update 0 s).buf_LRU_stat_sum = s.buf_LRU_stat_sum ∧
      (buf_LRU_stat_update 0 s).buf_LRU_stat_arr = s.buf_LRU_stat_arr ∧
      (buf_LRU_stat_update 0 s).buf_LRU_stat_arr_ind = s.buf_LRU_stat_arr_ind) := by
  unfold buf_LRU_stat_update
  refine ⟨?_, by simp⟩
  split_ifs <;> rfl

theorem ratio_update_total (c : buf_LRU_consts) (p : buf_pool_t) (old_pct : Nat)
    (adjust : Bool) (hc : consts_ok c) (hv : adjust = true → LRU_valid c p) :
    ∃ pct q, buf_LRU_old_ratio_update c p old_pct adjust = some (pct, q) := by
  cases adjust with
  | true =>
    obtain ⟨r, q, hq, _⟩ := ratio_update_valid c p old_pct (M_of_consts c hc) (hv rfl)
    exact ⟨r, q, hq⟩
  | false =>
    unfold buf_LRU_old_ratio_update
    simp only [Bool.false_eq_true, if_false]
    exact ⟨_, _, rfl⟩

theorem ratio_update_same (c : buf_LRU_consts) (p : buf_pool_t) (old_pct : Nat)
    (pct : Nat) (q : buf_pool_t)
    (h : buf_LRU_old_ratio_update c p old_pct true = some (pct, q))
    (hsame : q.buf_LRU_old_ratio = p.buf_LRU_old_ratio) : q = p := by
  have hr := ratio_update_ratio c p old_pct true pct q h
  rw [hsame] at hr
  unfold buf_LRU_old_ratio_update at h
  simp only [if_true] at h
  rw [← hr] at h
  simp only [ne_eq, not_true_eq_false, if_false, Option.some.injEq, Prod.mk.injEq] at h
  exact h.2.symm

theorem ratio_update_pct (c : buf_LRU_consts) (p : buf_pool_t) (old_pct : Nat)
    (adjust : Bool) (pct : Nat) (q : buf_pool_t)
    (h : buf_LRU_old_ratio_update c p old_pct adjust = some (pct, q)) :
    pct = (q.buf_LRU_old_ratio * 100 * 2 + BUF_LRU_OLD_RATIO_DIV)
      / (2 * BUF_LRU_OLD_RATIO_DIV) := by
  have hr := ratio_update_ratio c p old_pct adjust pct q h
  unfold buf_LRU_old_ratio_update at h
  simp only at h
  split at h
  · cases h
  · simp only [Option.some.injEq, Prod.mk.injEq] at h
    rw [hr, ← h.1]

/-- C23, the claim fails for a large `old_pct`: `old_pct * 1024` is
computed in `uint`, so `old_pct = 4194304` gives the product 0 and the
ratio `BUF_LRU_OLD_RATIO_MIN = 51`, where `old_pct * 1024 / 100` clamped is
`BUF_LRU_OLD_RATIO_MAX = 1024`. -/
theorem ratio_update_overflow_counterexample :
    (buf_LRU_old_ratio_update plugin_consts (empty_pool (fun a => plain_page a) 384)
      4194304 false).map (fun r => r.2.buf_LRU_old_ratio) = some 51 ∧
    min (max (4194304 * 1024 / 100) plugin_consts.BUF_LRU_OLD_RATIO_MIN)
      plugin_consts.BUF_LRU_OLD_RATIO_MAX = 1024 := by
  decide

/-- C23, amended: for every `old_pct` with `old_pct * 1024 < 2 ^ 32` and
either value of `adjust` (the pool passing `buf_LRU_validate` when `adjust`
is TRUE), `buf_LRU_old_ratio_update` returns and leaves
`buf_LRU_old_ratio` equal to `old_pct * 1024 / 100` clamped into
`[BUF_LRU_OLD_RATIO_MIN, BUF_LRU_OLD_RATIO_MAX]`; with `adjust = TRUE` and
an unchanged ratio the pool is unchanged. -/
theorem ratio_update_clamps (c : buf_LRU_consts) (p : buf_pool_t) (old_pct : Nat)
    (adjust : Bool) (hc : consts_ok c) (hv : adjust = true → LRU_valid c p)
    (hp : old_pct * 1024 < 2 ^ 32) :
    ∃ pct q, buf_LRU_old_ratio_update c p old_pct adjust = some (pct, q) ∧
      q.buf_LRU_old_ratio
        = min (max (old_pct * 1024 / 100) c.BUF_LRU_OLD_RATIO_MIN) c.BUF_LRU_OLD_RATIO_MAX ∧
      (adjust = true → q.buf_LRU_old_ratio = p.buf_LRU_old_ratio → q = p) := by
  obtain ⟨pct, q, hq⟩ := ratio_update_total c p old_pct adjust hc hv
  refine ⟨pct, q, hq, ?_, ?_⟩
  · rw [ratio_update_ratio c p old_pct adjust pct q hq]
    unfold BUF_LRU_OLD_RATIO_DIV
    rw [Nat.mod_eq_of_lt hp]
    have := hc.2.2.1
    split_ifs <;> omega
  · intro ha hs
    subst ha
    exact ratio_update_same c p old_pct pct q hq hs

/-- C23 amended, evaluated: 37 percent on the pool of 600 pages. -/
theorem ratio_update_clamps_witness :
    ∃ pct q, buf_LRU_old_ratio_update plugin_consts (big_pool 600 220 384) 37 true
        = some (pct, q) ∧
      q.buf_LRU_old_ratio
        = min (max (37 * 1024 / 100) plugin_consts.BUF_LRU_OLD_RATIO_MIN)
            plugin_consts.BUF_LRU_OLD_RATIO_MAX ∧
      (true = true → q.buf_LRU_old_ratio = (big_pool 600 220 384).buf_LRU_old_ratio →
        q = big_pool 600 220 384) :=
  ratio_update_clamps plugin_consts (big_pool 600 220 384) 37 true (by decide)
    (fun _ => big_pool_valid plugin_consts 600 220 384 (by decide) (by decide) (by decide))
    (by decide)

/-- C24: `buf_LRU_old_ratio_update` returns (the pool passing
`buf_LRU_validate` when `adjust` is TRUE) the stored ratio as a percentage,
`ratio * 100 / 1024` rounded to the nearest integer; for an `old_pct` whose
unclamped ratio `old_pct * 1024 / 100` lies in
`[BUF_LRU_OLD_RATIO_MIN, BUF_LRU_OLD_RATIO_MAX]` the returned value is
`old_pct`. -/
theorem ratio_update_returns_pct (c : buf_LRU_consts) (p : buf_pool_t) (old_pct : Nat)
    (adjust : Bool) (hc : consts_ok c) (hv : adjust = true → LRU_valid c p) :
    ∃ pct q, buf_LRU_old_ratio_update c p old_pct adjust = some (pct, q) ∧
      pct * 1024 ≤ q.buf_LRU_old_ratio * 100 + 512 ∧
      q.buf_LRU_old_ratio * 100 + 512 < pct * 1024 + 1024 ∧
      ((c.BUF_LRU_OLD_RATIO_MIN ≤ old_pct * 1024 / 100 ∧
        old_pct * 1024 / 100 ≤ c.BUF_LRU_OLD_RATIO_MAX) → pct = old_pct) := by
  obtain ⟨pct, q, hq⟩ := ratio_update_total c p old_pct adjust hc hv
  have hpct := ratio_update_pct c p old_pct adjust pct q hq
  have hr := ratio_update_ratio c p old_pct adjust pct q hq
  unfold BUF_LRU_OLD_RATIO_DIV at hpct hr
  refine ⟨pct, q, hq, by omega, by omega, ?_⟩
  rintro ⟨h1, h2⟩
  have hmax := hc.2.2.2
  unfold BUF_LRU_OLD_RATIO_DIV at hmax
  have hle : old_pct ≤ 100 := by omega
  have hmod : (old_pct * 1024) % 2 ^ 32 = old_pct * 1024 := Nat.mod_eq_of_lt (by omega)
  rw [hmod] at hr
  rw [if_neg (by omega), if_neg (by omega)] at hr
  omega

/-- C24, evaluated: 37 percent is stored as 378 and returned as 37. -/
theorem ratio_update_returns_pct_witness :
    (buf_LRU_old_ratio_update plugin_consts (empty_pool (fun a => plain_page a) 384) 37
      false).map (fun r => (r.1, r.2.buf_LRU_old_ratio)) = some (37, 378) ∧
    ∃ pct q, buf_LRU_old_ratio_update plugin_consts (empty_pool (fun a => plain_page a) 384) 37
        false = some (pct, q) ∧
      pct * 1024 ≤ q.buf_LRU_old_ratio * 100 + 512 ∧
      q.buf_LRU_old_ratio * 100 + 512 < pct * 1024 + 1024 ∧
      ((plugin_consts.BUF_LRU_OLD_RATIO_MIN ≤ 37 * 1024 / 100 ∧
        37 * 1024 / 100 ≤ plugin_consts.BUF_LRU_OLD_RATIO_MAX) → pct = 37) :=
  ⟨by decide,
   ratio_update_returns_pct plugin_consts (empty_pool (fun a => plain_page a) 384) 37 false
     (by decide) (fun h => absurd h (by decide))⟩

/-- C25: when `buf_LRU_file_dump` returns TRUE, the file holds for the
pages the walk passed (`dumped_pages`, in LRU order from the head) the four
bytes of the space id and the four bytes of the page number, most
significant byte first, then the pair `0xFFFFFFFF, 0xFFFFFFFF`, then zero
bytes; its length is a positive multiple of `UNIV_PAGE_SIZE`; at most
`|LRU|` records are written; and when the number of records is a multiple
of `UNIV_PAGE_SIZE / 8`, the terminator is the first pair of the one block
that follows the blocks of records. The dump returns TRUE when every step
of it succeeds and the LRU list has no repeated descriptor. -/
theorem file_dump_format (u : univ_consts) (E : dump_env) (p : buf_pool_t) (hu : univ_ok u) :
    (∀ file, buf_LRU_file_dump u E p = some (true, file) →
      file = ((dumped_pages E p).map (fun bpage =>
            be4 (p.blocks bpage).space ++ be4 (p.blocks bpage).offset)).flatten
          ++ (be4 0xFFFFFFFF ++ be4 0xFFFFFFFF)
          ++ List.replicate
              (UNIV_PAGE_SIZE u - 8 - (dumped_pages E p).length * 8 % UNIV_PAGE_SIZE u) 0 ∧
      file.length
        = ((dumped_pages E p).length / (UNIV_PAGE_SIZE u / 8) + 1) * UNIV_PAGE_SIZE u ∧
      (dumped_pages E p).length ≤ p.LRU.length ∧
      ((dumped_pages E p).length % (UNIV_PAGE_SIZE u / 8) = 0 →
        (file.drop ((dumped_pages E p).length / (UNIV_PAGE_SIZE u / 8)
            * UNIV_PAGE_SIZE u)).take 8 = be4 0xFFFFFFFF ++ be4 0xFFFFFFFF)) ∧
    (E.name_in_use = false → E.buffer_ok = true → E.create_ok = true →
      (∀ k, E.write_ok k = true) → E.flush_ok = true → E.rename_ok = true → p.LRU.Nodup →
      ∃ file, buf_LRU_file_dump u E p = some (true, file)) := by
  obtain ⟨N, hN, hU⟩ := univ_facts u hu
  refine ⟨?_, file_dump_success u E p⟩
  intro file hfile
  have hb := file_dump_bytes u E p hu file hfile
  have hdiv : UNIV_PAGE_SIZE u / 8 = N := by
    rw [hU]
    omega
  have hlen := dump_bytes_length u N hN hU ((dumped_pages E p).map (page_record p))
  rw [← hb, List.length_map] at hlen
  have hform : file = ((dumped_pages E p).map (fun bpage =>
            be4 (p.blocks bpage).space ++ be4 (p.blocks bpage).offset)).flatten
          ++ (be4 0xFFFFFFFF ++ be4 0xFFFFFFFF)
          ++ List.replicate
              (UNIV_PAGE_SIZE u - 8 - (dumped_pages E p).length * 8 % UNIV_PAGE_SIZE u) 0 := by
    rw [hb]
    unfold dump_bytes
    rw [List.length_map, List.map_map]
    rfl
  refine ⟨hform, by rw [hdiv]; exact hlen, (List.takeWhile_prefix _).length_le, ?_⟩
  intro hmod
  rw [hdiv] at hmod ⊢
  have hA : (((dumped_pages E p).map (fun bpage =>
      be4 (p.blocks bpage).space ++ be4 (p.blocks bpage).offset)).flatten).length
      = (dumped_pages E p).length / N * UNIV_PAGE_SIZE u := by
    have e := records_bytes_length ((dumped_pages E p).map (page_record p))
    rw [List.map_map, List.length_map] at e
    have e2 : (record_bytes ∘ page_record p)
        = (fun bpage => be4 (p.blocks bpage).space ++ be4 (p.blocks bpage).offset) := rfl
    rw [e2] at e
    rw [e, hU]
    have := Nat.div_add_mod (dumped_pages E p).length N
    rw [hmod] at this
    have h3 : (dumped_pages E p).length / N * (8 * N)
        = 8 * (N * ((dumped_pages E p).length / N)) := by ring
    rw [h3]
    omega
  rw [hform, List.append_assoc, ← hA, List.drop_left]
  rfl

/-- C25, evaluated on the pool of three pages with the page size of the
plugin. -/
theorem file_dump_format_witness :
    univ_ok plugin_univ ∧
    ((∀ file, buf_LRU_file_dump plugin_univ dump_all_ok (small_pool (plain_page 2))
        = some (true, file) →
      file = ((dumped_pages dump_all_ok (small_pool (plain_page 2))).map (fun bpage =>
            be4 ((small_pool (plain_page 2)).blocks bpage).space
              ++ be4 ((small_pool (plain_page 2)).blocks bpage).offset)).flatten
          ++ (be4 0xFFFFFFFF ++ be4 0xFFFFFFFF)
          ++ List.replicate
              (UNIV_PAGE_SIZE plugin_univ - 8
                - (dumped_pages dump_all_ok (small_pool (plain_page 2))).length * 8
                    % UNIV_PAGE_SIZE plugin_univ) 0 ∧
      file.length
        = ((dumped_pages dump_all_ok (small_pool (plain_page 2))).length
            / (UNIV_PAGE_SIZE plugin_univ / 8) + 1) * UNIV_PAGE_SIZE plugin_univ ∧
      (dumped_pages dump_all_ok (small_pool (plain_page 2))).length
        ≤ (small_pool (plain_page 2)).LRU.length ∧
      ((dumped_pages dump_all_ok (small_pool (plain_page 2))).length
          % (UNIV_PAGE_SIZE plugin_univ / 8) = 0 →
        (file.drop ((dumped_pages dump_all_ok (small_pool (plain_page 2))).length
            / (UNIV_PAGE_SIZE plugin_univ / 8)
            * UNIV_PAGE_SIZE plugin_univ)).take 8 = be4 0xFFFFFFFF ++ be4 0xFFFFFFFF)) ∧
    (dump_all_ok.name_in_use = false → dump_all_ok.buffer_ok = true →
      dump_all_ok.create_ok = true →
      (∀ k, dump_all_ok.write_ok k = true) → dump_all_ok.flush_ok = true →
      dump_all_ok.rename_ok = true → (small_pool (plain_page 2)).LRU.Nodup →
      ∃ file, buf_LRU_file_dump plugin_univ dump_all_ok (small_pool (plain_page 2))
        = some (true, file))) :=
  ⟨by decide, file_dump_format plugin_univ dump_all_ok (small_pool (plain_page 2)) (by decide)⟩

set_option maxRecDepth 100000 in
theorem big_pool_young_dumped :
    (dumped_pages dump_young_ok (big_pool 600 220 384)).length = 380 ∧
    ∀ r ∈ (dumped_pages dump_young_ok (big_pool 600 220 384)).map
        (page_record (big_pool 600 220 384)),
      r.space_id < 0xFFFFFFFF ∧ r.page_no < 0xFFFFFFFF := by
  decide

/-- C26, the claim fails when `srv_lru_dump_old_pages` is unset: of the LRU
list of 600 pages whose last 220 are old, the dump holds the 380 pages in
front of the first old one, and the record-reading stage of the restore
yields `length = 380`, not 600. -/
theorem round_trip_young_counterexample :
    (big_pool 600 220 384).LRU.length = 600 ∧
    ∃ file, buf_LRU_file_dump plugin_univ dump_young_ok (big_pool 600 220 384)
        = some (true, file) ∧
      (restore_read_records plugin_univ file (file.length % 2 ^ 32) (file.length % 2 ^ 32)
        0 []).map (fun r => (r.1, r.2.1.length)) = some (true, 380) := by
  refine ⟨by simp [big_pool], ?_⟩
  obtain ⟨file, hfile⟩ := file_dump_success plugin_univ dump_young_ok (big_pool 600 220 384)
    rfl rfl rfl (fun _ => rfl) rfl rfl (List.nodup_range' 1 600)
  refine ⟨file, hfile, ?_⟩
  have hb := file_dump_bytes plugin_univ dump_young_ok (big_pool 600 220 384) (by decide) file
    hfile
  obtain ⟨h1, h2⟩ := big_pool_young_dumped
  have hr := (read_dump_bytes plugin_univ (by decide) _ h2 (by
    rw [List.length_map, h1]
    decide)).2
  rw [← hb] at hr
  rw [hr]
  simp only [Option.map_some', List.length_map, h1]

/-- C26, amended: if no page of the LRU list has space id or page number
`0xFFFFFFFF` (both are fields of 32 bits) and the dump is shorter than
4 GiB, the record-reading stage of `buf_LRU_file_restore` applied to the
bytes that a successful `buf_LRU_file_dump` wrote ends with `terminated`
set and `records[0..length)` equal to the (space id, page number) pairs of
the dumped pages in LRU order; the dumped pages are the whole LRU list when
`srv_lru_dump_old_pages` is set. The dump succeeds when every step of it
does and the list has no repeated descriptor. -/
theorem dump_restore_round_trip (u : univ_consts) (E : dump_env) (p : buf_pool_t)
    (hu : univ_ok u)
    (hid : ∀ bpage ∈ p.LRU,
      (p.blocks bpage).space < 0xFFFFFFFF ∧ (p.blocks bpage).offset < 0xFFFFFFFF)
    (hsize : ((dumped_pages E p).length / (UNIV_PAGE_SIZE u / 8) + 1) * UNIV_PAGE_SIZE u
      < 2 ^ 32) :
    (∀ file, buf_LRU_file_dump u E p = some (true, file) →
      restore_read_records u file (file.length % 2 ^ 32) (file.length % 2 ^ 32) 0 []
        = some (true, (dumped_pages E p).map (page_record p),
            (dumped_pages E p).length / (UNIV_PAGE_SIZE u / 8) + 1)) ∧
    (E.srv_lru_dump_old_pages = true → dumped_pages E p = p.LRU) ∧
    (E.name_in_use = false → E.buffer_ok = true → E.create_ok = true →
      (∀ k, E.write_ok k = true) → E.flush_ok = true → E.rename_ok = true → p.LRU.Nodup →
      ∃ file, buf_LRU_file_dump u E p = some (true, file)) := by
  refine ⟨?_, ?_, file_dump_success u E p⟩
  · intro file hfile
    have hb := file_dump_bytes u E p hu file hfile
    have hv : ∀ r ∈ (dumped_pages E p).map (page_record p),
        r.space_id < 0xFFFFFFFF ∧ r.page_no < 0xFFFFFFFF := by
      intro r hr
      obtain ⟨bpage, hbp, rfl⟩ := List.mem_map.mp hr
      exact hid bpage ((List.takeWhile_prefix _).subset hbp)
    have hr := (read_dump_bytes u hu _ hv (by rw [List.length_map]; exact hsize)).2
    rw [← hb, List.length_map] at hr
    exact hr
  · intro hold
    unfold dumped_pages
    rw [hold]
    simp

/-- C26 amended, evaluated on the pool of three pages with old pages
dumped. -/
theorem dump_restore_round_trip_witness :
    (∀ file, buf_LRU_file_dump plugin_univ dump_all_ok (small_pool (plain_page 2))
        = some (true, file) →
      restore_read_records plugin_univ file (file.length % 2 ^ 32) (file.length % 2 ^ 32) 0 []
        = some (true, (dumped_pages dump_all_ok (small_pool (plain_page 2))).map
              (page_record (small_pool (plain_page 2))),
            (dumped_pages dump_all_ok (small_pool (plain_page 2))).length
              / (UNIV_PAGE_SIZE plugin_univ / 8) + 1)) ∧
    (dump_all_ok.srv_lru_dump_old_pages = true →
      dumped_pages dump_all_ok (small_pool (plain_page 2)) = (small_pool (plain_page 2)).LRU) ∧
    (dump_all_ok.name_in_use = false → dump_all_ok.buffer_ok = true →
      dump_all_ok.create_ok = true →
      (∀ k, dump_all_ok.write_ok k = true) → dump_all_ok.flush_ok = true →
      dump_all_ok.rename_ok = true → (small_pool (plain_page 2)).LRU.Nodup →
      ∃ file, buf_LRU_file_dump plugin_univ dump_all_ok (small_pool (plain_page 2))
        = some (true, file)) :=
  dump_restore_round_trip plugin_univ dump_all_ok (small_pool (plain_page 2)) (by decide)
    (by decide) (by decide)

/-- C27: `buf_LRU_file_restore` returns FALSE, having read no block of the
file and no record and having requested no page, when the dump file cannot
be opened or its size is not a multiple of 8, is 0, or does not fit in 32
bits. -/
theorem file_restore_rejects_size (u : univ_consts) (E : restore_env) (file : List Nat)
    (h : file.length % 8 ≠ 0 ∨ file.length = 0 ∨ 2 ^ 32 ≤ file.length) :
    buf_LRU_file_restore u E (some file)
      = some { ret := false, blocks_read := 0, records := [], requests := [] } ∧
    buf_LRU_file_restore u E none
      = some { ret := false, blocks_read := 0, records := [], requests := [] } := by
  refine ⟨?_, rfl⟩
  unfold buf_LRU_file_restore
  simp only []
  rw [if_pos]
  have := Nat.div_add_mod file.length (2 ^ 32)
  omega

/-- C27, evaluated: a file of 12 bytes. -/
theorem file_restore_rejects_size_witness :
    buf_LRU_file_restore plugin_univ short_space_env (some (List.replicate 12 255))
      = some { ret := false, blocks_read := 0, records := [], requests := [] } ∧
    buf_LRU_file_restore plugin_univ short_space_env none
      = some { ret := false, blocks_read := 0, records := [], requests := [] } :=
  file_restore_rejects_size plugin_univ short_space_env (List.replicate 12 255)
    (Or.inl (by decide))

/-- C28, a failing input: the dump of the five pages 1, 4, 5, 2, 3 of one
space, restored when only the pages 0, 1, 2 of the space exist. The walk
along the run stops at page 3, so the records 4 and 5 stay unmarked, and
each of them starts the run again: pages 1 and 2 are requested three times,
six requests for five records. -/
theorem restore_repeats_requests :
    (buf_LRU_file_restore plugin_univ short_space_env
      (some (dump_bytes plugin_univ [⟨0, 1⟩, ⟨0, 4⟩, ⟨0, 5⟩, ⟨0, 2⟩, ⟨0, 3⟩]))).map
        (fun r => (r.ret, r.records, r.requests))
      = some (true, [⟨0, 1⟩, ⟨0, 4⟩, ⟨0, 5⟩, ⟨0, 2⟩, ⟨0, 3⟩],
          [⟨0, 1⟩, ⟨0, 2⟩, ⟨0, 1⟩, ⟨0, 2⟩, ⟨0, 1⟩, ⟨0, 2⟩]) := by
  rw [restore_dump_bytes plugin_univ short_space_env (by decide) _ (by decide) (by decide) rfl]
  decide

/-- C30, the claim fails: with `srv_lru_load_max_entries = 1` and a dump of
the three consecutive pages 1, 2, 3, the one record looked up starts a run
of three page read requests, more than `min(length, 1) = 1`. -/
theorem restore_cap_counterexample :
    (buf_LRU_file_restore plugin_univ one_entry_env
      (some (dump_bytes plugin_univ [⟨0, 1⟩, ⟨0, 2⟩, ⟨0, 3⟩]))).map
        (fun r => (r.ret, r.records.length, r.requests))
      = some (true, 3, [⟨0, 1⟩, ⟨0, 2⟩, ⟨0, 3⟩]) ∧
    min 3 one_entry_env.srv_lru_load_max_entries = 1 := by
  rw [restore_dump_bytes plugin_univ one_entry_env (by decide) _ (by decide) (by decide) rfl]
  decide

/-- C30, amended: `srv_lru_load_max_entries` bounds the records that are
looked up, not the page reads. `buf_LRU_file_restore` returns, and as it
looks up at most `min(length, srv_lru_load_max_entries)` records and
requests for each at most one run of at most `length` pages, it issues at
most `min(length, srv_lru_load_max_entries) * length` page read requests. -/
theorem restore_request_bound (u : univ_consts) (E : restore_env) (hu : univ_ok u)
    (dump_file : Option (List Nat)) :
    ∃ res, buf_LRU_file_restore u E dump_file = some res ∧
      res.requests.length
        ≤ min res.records.length E.srv_lru_load_max_entries * res.records.length :=
  file_restore_cases u E hu dump_file

/-- C30 amended, evaluated on the dump of three consecutive pages. -/
theorem restore_request_bound_witness :
    ∃ res, buf_LRU_file_restore plugin_univ one_entry_env
        (some (dump_bytes plugin_univ [⟨0, 1⟩, ⟨0, 2⟩, ⟨0, 3⟩])) = some res ∧
      res.requests.length
        ≤ min res.records.length one_entry_env.srv_lru_load_max_entries
          * res.records.length :=
  restore_request_bound plugin_univ one_entry_env (by decide)
    (some (dump_bytes plugin_univ [⟨0, 1⟩, ⟨0, 2⟩, ⟨0, 3⟩]))

/-- C29, the claim fails for a dump that lists a page twice: with
`srv_lru_load_max_entries = 1` and the records 7, 5, 5, 6, 6 of one space,
all existing, the sorted array is 5, 5, 6, 6, 7 and the run found for page 7
starts at the second 6, so pages 6 and 7 are requested and page 5 is not,
although its tablespace is known, it exists, and it is part of the
contiguous run 5, 6, 7 of the one record looked up. -/
theorem restore_duplicate_counterexample :
    (buf_LRU_file_restore plugin_univ one_entry_env
      (some (dump_bytes plugin_univ [⟨0, 7⟩, ⟨0, 5⟩, ⟨0, 5⟩, ⟨0, 6⟩, ⟨0, 6⟩]))).map
        (fun r => (r.ret, r.records, r.requests))
      = some (true, [⟨0, 7⟩, ⟨0, 5⟩, ⟨0, 5⟩, ⟨0, 6⟩, ⟨0, 6⟩], [⟨0, 6⟩, ⟨0, 7⟩]) ∧
    one_entry_env.fil_space_get_zip_size 0 ≠ none ∧
    one_entry_env.fil_area_is_exist 0 5 = true ∧
    (⟨0, 7⟩ : dump_record_t)
      ∈ [(⟨0, 7⟩ : dump_record_t), ⟨0, 5⟩, ⟨0, 5⟩, ⟨0, 6⟩, ⟨0, 6⟩].take
          one_entry_env.srv_lru_load_max_entries ∧
    in_run_of [⟨0, 7⟩, ⟨0, 5⟩, ⟨0, 5⟩, ⟨0, 6⟩, ⟨0, 6⟩] ⟨0, 7⟩ ⟨0, 5⟩ := by
  refine ⟨?_, by decide, by decide, by decide, rfl, ?_⟩
  · rw [restore_dump_bytes plugin_univ one_entry_env (by decide) _ (by decide) (by decide) rfl]
    decide
  · intro page_no h
    have h1 : page_no = 5 ∨ page_no = 6 ∨ page_no = 7 := by
      simp only at h
      omega
    rcases h1 with e | e | e <;> subst e <;> decide

/-- C29, amended: `buf_LRU_file_restore` returns, and when it returns TRUE
(it ran to the end, no shutdown seen) on a dump of distinct pages, with a
function `fil_area_is_exist` under which the pages of a space that exist
are the pages below some number, every record of the dump either has a read
requested for it, or its tablespace is unknown, or its own page does not
exist, or no record among the first `srv_lru_load_max_entries` has it in
its contiguous run. -/
theorem restore_reads_or_skips (u : univ_consts) (E : restore_env) (hu : univ_ok u)
    (hmono : ∀ space_id p q, q ≤ p → E.fil_area_is_exist space_id p = true →
      E.fil_area_is_exist space_id q = true)
    (dump_file : Option (List Nat)) :
    ∃ res, buf_LRU_file_restore u E dump_file = some res ∧
      (res.ret = true → res.records.Nodup →
        ∀ r ∈ res.records,
          r ∈ res.requests ∨ E.fil_space_get_zip_size r.space_id = none ∨
          E.fil_area_is_exist r.space_id r.page_no = false ∨
          ¬ ∃ w ∈ res.records.take E.srv_lru_load_max_entries, in_run_of res.records w r) := by
  obtain ⟨res, hres, _⟩ := file_restore_cases u E hu dump_file
  refine ⟨res, hres, ?_⟩
  intro hret hnd r hr
  obtain ⟨hv, hq⟩ := file_restore_true u E dump_file res hres hret
  by_cases hz : E.fil_space_get_zip_size r.space_id = none
  · exact Or.inr (Or.inl hz)
  by_cases hex : E.fil_area_is_exist r.space_id r.page_no = true
  swap
  · exact Or.inr (Or.inr (Or.inl (by simpa using hex)))
  by_cases hw : ∃ w ∈ res.records.take E.srv_lru_load_max_entries, in_run_of res.records w r
  swap
  · exact Or.inr (Or.inr (Or.inr hw))
  left
  obtain ⟨w, hwl, hsp, hall⟩ := hw
  have hS := qsort_strict res.records hnd
  have hmem : ∀ x, x ∈ qsort res.records ↔ x ∈ res.records :=
    fun x => (qsort_perm res.records).mem_iff
  have hvS : ∀ x ∈ qsort res.records, x.page_no < 2 ^ 32 :=
    fun x hx => hv x ((hmem x).mp hx)
  obtain ⟨_, hspec⟩ := restore_requests_spec E (qsort res.records) hS hmono _ 0
    (fun _ => false) [] res.requests
    (fun x hx => (hmem x).mpr (List.mem_of_mem_take hx))
    (fun i _ h => absurd h (by simp)) hq
  obtain ⟨i, hi, hiw, hcov⟩ := hspec w hwl (by rw [hsp]; exact hz)
  obtain ⟨k, hk, hkr⟩ := mem_getD (qsort res.records) r ((hmem r).mpr hr)
  have hrun : run_first (qsort res.records) k = run_first (qsort res.records) i := by
    rcases Nat.le_total w.page_no r.page_no with h1 | h1
    · refine run_of_pages _ hS hvS i hi (r.page_no - w.page_no) k hk (by rw [hiw, hkr, hsp])
        (by rw [hiw, hkr]; omega) ?_
      intro page_no h2 h3
      rw [hiw] at h2
      rw [hkr] at h3 ⊢
      exact (hmem _).mpr (hall page_no (Or.inl ⟨h2, h3⟩))
    · refine (run_of_pages _ hS hvS k hk (w.page_no - r.page_no) i hi
        (by rw [hiw, hkr, hsp]) (by rw [hiw, hkr]; omega) ?_).symm
      intro page_no h2 h3
      rw [hkr] at h2
      rw [hiw] at h3 ⊢
      rw [hsp]
      exact (hmem _).mpr (hall page_no (Or.inr ⟨h2, h3⟩))
  have := hcov k hk hrun (by rw [hkr]; exact hex)
  rw [hkr] at this
  exact this

/-- C29 amended, evaluated: with two entries looked up, page 1 of space 0 and its
run are requested as far as the space reaches, the record of the unknown
space 7 and the page of space 1 beyond the two entries are not. -/
theorem restore_reads_or_skips_witness :
    (buf_LRU_file_restore plugin_univ mixed_env
      (some (dump_bytes plugin_univ [⟨0, 1⟩, ⟨7, 5⟩, ⟨0, 2⟩, ⟨0, 3⟩, ⟨1, 9⟩]))).map
        (fun r => (r.ret, r.records, r.requests))
      = some (true, [⟨0, 1⟩, ⟨7, 5⟩, ⟨0, 2⟩, ⟨0, 3⟩, ⟨1, 9⟩], [⟨0, 1⟩, ⟨0, 2⟩]) ∧
    ∃ res, buf_LRU_file_restore plugin_univ mixed_env
        (some (dump_bytes plugin_univ [⟨0, 1⟩, ⟨7, 5⟩, ⟨0, 2⟩, ⟨0, 3⟩, ⟨1, 9⟩])) = some res ∧
      (res.ret = true → res.records.Nodup →
        ∀ r ∈ res.records,
          r ∈ res.requests ∨ mixed_env.fil_space_get_zip_size r.space_id = none ∨
          mixed_env.fil_area_is_exist r.space_id r.page_no = false ∨
          ¬ ∃ w ∈ res.records.take mixed_env.srv_lru_load_max_entries,
            in_run_of res.records w r) :=
  ⟨by
    rw [restore_dump_bytes plugin_univ mixed_env (by decide) _ (by decide) (by decide) rfl]
    decide,
   restore_reads_or_skips plugin_univ mixed_env (by decide) mixed_env_mono
    (some (dump_bytes plugin_univ [⟨0, 1⟩, ⟨7, 5⟩, ⟨0, 2⟩, ⟨0, 3⟩, ⟨1, 9⟩]))⟩

/-- C34, two failing inputs: on the three-page pool whose pages are all
dirty, `buf_LRU_free_from_common_LRU_list` hands the three blocks 3, 2, 1 to
`buf_LRU_free_block`, frees none and returns FALSE with `*nsearched = 4`;
on the empty pool it hands over no block and stores `*nsearched = 1`. The
return after the loop stores `init_distance - distance + 1` like the
return inside the loop, although `distance` has been decremented once for
every block then. -/
theorem common_LRU_nsearched_off_by_one :
    (buf_LRU_free_from_common_LRU_list plugin_consts dirty_pool 0 0 9).map
        (fun r => (r.1, r.2.2.1, r.2.2.2.1))
      = some (false, 4, [(3, false), (2, false), (1, false)]) ∧
    (buf_LRU_free_from_common_LRU_list plugin_consts
        (empty_pool (fun a => plain_page a) 384) 0 0 9).map
        (fun r => (r.1, r.2.2.1, r.2.2.2.1))
      = some (false, 1, []) := by
  decide

/-- C38, a failing input: in the LRU list 1, 2, 3 the blocks 1 and 3 are in
state `ZIP_PAGE`, and `zip_clean` holds block 1. Inserting block 3, which
has no successor in the LRU list, takes the branch `UT_LIST_ADD_FIRST`:
`zip_clean` becomes 3, 1 while the LRU order is 1, 3. Inserting block 1
into the list that holds block 3 gives 1, 3. -/
theorem insert_zip_clean_at_tail :
    LRU_zip_pages zip_clean_pool = [1, 3] ∧
    buf_LRU_insert_zip_clean zip_clean_pool [1] 3 = [3, 1] ∧
    buf_LRU_insert_zip_clean zip_clean_pool [3] 1 = [1, 3] := by
  decide

/-- C39: called on a pool whose LRU list (a proper list) has at least
`BUF_LRU_OLD_MIN_LEN` blocks, with `LRU_old` defined, the old flags set
exactly on the blocks from `LRU_old` on (`zs`) and `LRU_old_len` their
number, `buf_LRU_old_adjust_len` returns, for every value of
`buf_LRU_old_ratio`: no step finds `LRU_old`, its predecessor or its
successor `NULL`. Afterwards `LRU_old` is defined, the old sublist is again
a suffix of the same LRU list with `LRU_old_len` within the tolerance of
the target length, and nothing but `LRU_old`, `LRU_old_len` and old flags
has changed. -/
theorem old_adjust_len_terminates (c : buf_LRU_consts) (p : buf_pool_t) (ys zs : List Nat)
    (hc : consts_ok c) (hnd : p.LRU.Nodup) (hlen : c.BUF_LRU_OLD_MIN_LEN ≤ p.LRU.length)
    (hs : old_split p ys zs) (hne : zs ≠ []) :
    ∃ q ys2 zs2, buf_LRU_old_adjust_len p = some q ∧ q.LRU = p.LRU ∧
      old_split q ys2 zs2 ∧ zs2 ≠ [] ∧ q.LRU_old ≠ none ∧
      LRU_new_len p ≤ q.LRU_old_len + BUF_LRU_OLD_TOLERANCE ∧
      q.LRU_old_len ≤ LRU_new_len p + BUF_LRU_OLD_TOLERANCE ∧
      old_frame p.LRU p q := by
  have hM := M_of_consts c hc
  obtain ⟨q, ys2, zs2, h1, h2, h3, h4, h5, h6⟩ :=
    adjust_spec p ys zs hnd hs hne (by omega)
  refine ⟨q, ys2, zs2, h1, h3, h2, h5, ?_, ?_, ?_, h6⟩
  · rw [h2.2.1]
    cases zs2 with
    | nil => exact absurd rfl h5
    | cons z zs3 => simp
  · rw [h2.2.2.1, h4]
    unfold adjusted_len BUF_LRU_OLD_TOLERANCE
    split_ifs <;> omega
  · rw [h2.2.2.1, h4]
    unfold adjusted_len BUF_LRU_OLD_TOLERANCE
    split_ifs <;> omega

set_option maxRecDepth 100000 in
/-- C39, evaluated: a list of 600 blocks of which the last 300 are old,
with the ratio 384. -/
theorem old_adjust_len_terminates_witness :
    ∃ q ys2 zs2, buf_LRU_old_adjust_len (big_pool 600 300 384) = some q ∧
      q.LRU = (big_pool 600 300 384).LRU ∧
      old_split q ys2 zs2 ∧ zs2 ≠ [] ∧ q.LRU_old ≠ none ∧
      LRU_new_len (big_pool 600 300 384) ≤ q.LRU_old_len + BUF_LRU_OLD_TOLERANCE ∧
      q.LRU_old_len ≤ LRU_new_len (big_pool 600 300 384) + BUF_LRU_OLD_TOLERANCE ∧
      old_frame (big_pool 600 300 384).LRU (big_pool 600 300 384) q :=
  old_adjust_len_terminates plugin_consts (big_pool 600 300 384) (List.range' 1 300)
    (List.range' 301 300) (by decide) (List.nodup_range' 1 600) (by decide)
    (by unfold old_split; decide) (by decide)

theorem relocate_keeps_page (c : buf_LRU_consts) (p : buf_pool_t) (bpage b : Nat)
    (hM : 25 ≤ c.BUF_LRU_OLD_MIN_LEN) (hv : LRU_valid c p)
    (hpf : page_freeable p bpage)
    (hrel : buf_page_can_relocate (p.blocks bpage) = true)
    (hfresh : fresh_descriptor p b)
    (hst : (p.blocks bpage).state = .BUF_BLOCK_FILE_PAGE)
    (hz : (p.blocks bpage).zip_data.isSome = true) :
    ∃ q, buf_LRU_free_block c p bpage false b = some (true, false, q) ∧
      LRU_pages q = LRU_pages p ∧
      buf_page_hash_get q (p.blocks bpage).space (p.blocks bpage).offset = some b := by
  obtain ⟨A, B, hl, hbA, _⟩ := split_of_mem_nodup p.LRU bpage hpf.1 hv.1
  have hnot : bpage ∉ A ++ B := not_mem_middle A B bpage (hl ▸ hv.1)
  have hbAB : b ∉ A ++ B := by
    intro hm
    apply hfresh.1
    rw [hl]
    rcases List.mem_append.mp hm with h | h
    · exact List.mem_append_left _ h
    · exact List.mem_append_right _ (List.mem_cons_of_mem _ h)
  obtain ⟨q, hq, _, hlq, _, _, _, hph, _, _, _, _, _, _, kb, _, kx⟩ :=
    free_block_relocate_spec c p A B bpage b hM hv hl hpf hrel hfresh hst hz
  have e1 := congrArg buf_page_t.space kb
  have e2 := congrArg buf_page_t.offset kb
  simp only at e1 e2
  have hside : ∀ l : List Nat, (∀ x ∈ l, x ∈ A ++ B) →
      l.map (fun x => ((q.blocks x).space, (q.blocks x).offset))
        = l.map (fun x => ((p.blocks x).space, (p.blocks x).offset)) := by
    intro l hsub
    apply List.map_congr_left
    intro x hx
    have hxm := hsub x hx
    have hx1 : x ≠ b := fun e => hbAB (e ▸ hxm)
    have hx2 : x ≠ bpage := fun e => hnot (e ▸ hxm)
    have g1 := congrArg buf_page_t.space (kx x hx1 hx2)
    have g2 := congrArg buf_page_t.offset (kx x hx1 hx2)
    simp only at g1 g2
    rw [g1, g2]
  refine ⟨q, hq, ?_, ?_⟩
  · unfold LRU_pages
    rw [hlq, hl, List.map_append, List.map_append, List.map_cons, List.map_cons,
      hside A (fun x hx => List.mem_append_left _ hx),
      hside B (fun x hx => List.mem_append_right _ hx), e1, e2]
  · refine hash_get_append_new q _ b _ _ hph ?_ ⟨e1, e2⟩
    intro x hxm hs
    have hxne : x ≠ bpage := by
      intro e
      apply hpf.2.2.2.1 x hxm
      rw [e]
      exact ⟨rfl, rfl⟩
    have hxb : x ≠ b := fun e => hfresh.2.2.2.2 (e ▸ List.mem_of_mem_erase hxm)
    apply hpf.2.2.2.1 x hxm
    have g1 := congrArg buf_page_t.space (kx x hxb hxne)
    have g2 := congrArg buf_page_t.offset (kx x hxb hxne)
    simp only at g1 g2
    unfold same_page
    rw [← g1, ← g2]
    exact hs

/-- C40: for a block of the unzip_LRU list, in a pool that
`buf_LRU_validate` accepts and in which every page of the LRU list is found
in the page hash, `buf_LRU_free_block(block, FALSE, &removed)` returns with
`*removed = FALSE`, whether it frees the uncompressed frame or not (then
the pool is unchanged); the sequence of `(space, offset)` along the LRU list
is the same afterwards, and the page hash still finds the page. -/
theorem unzip_free_block_not_removed (c : buf_LRU_consts) (p : buf_pool_t) (block b : Nat)
    (hc : consts_ok c) (hok : pool_ok c p b) (hmem : block ∈ p.unzip_LRU) :
    ∃ freed q, buf_LRU_free_block c p block false b = some (freed, false, q) ∧
      LRU_pages q = LRU_pages p ∧ (freed = false → q = p) ∧
      (buf_page_hash_get q (p.blocks block).space (p.blocks block).offset).isSome = true := by
  obtain ⟨hv, hlv, hpf, hfresh⟩ := hok
  obtain ⟨hin, hbel⟩ := hlv.2.2.2.2.2 block hmem
  unfold buf_page_belongs_to_unzip_LRU at hbel
  simp only [Bool.and_eq_true, decide_eq_true_eq] at hbel
  by_cases hrel : buf_page_can_relocate (p.blocks block) = true
  · obtain ⟨q, h1, h2, h3⟩ := relocate_keeps_page c p block b (M_of_consts c hc) hv
      (hpf block hin) hrel hfresh hbel.2 hbel.1
    exact ⟨true, q, h1, h2, fun h => absurd h (by decide), by rw [h3]; rfl⟩
  · refine ⟨false, p, ?_, rfl, fun _ => rfl, ?_⟩
    · unfold buf_LRU_free_block
      simp [hrel]
    · rw [(hpf block hin).2.2.1]
      rfl

/-- C40, evaluated: block 2 of the pool with a free list, the one block of
its unzip_LRU list. -/
theorem unzip_free_block_not_removed_witness :
    ∃ freed q, buf_LRU_free_block plugin_consts free_pool 2 false 9 = some (freed, false, q) ∧
      LRU_pages q = LRU_pages free_pool ∧ (freed = false → q = free_pool) ∧
      (buf_page_hash_get q (free_pool.blocks 2).space (free_pool.blocks 2).offset).isSome
        = true :=
  unzip_free_block_not_removed plugin_consts free_pool 2 9 (by decide) (by decide)
    (by decide)

theorem takeWhile_filter_split (f : Nat → Bool) (ys zs : List Nat)
    (hy : ∀ x ∈ ys, f x = true) (hz : ∀ x ∈ zs, f x = false) :
    (ys ++ zs).takeWhile f = ys ∧ (ys ++ zs).filter f = ys := by
  induction ys with
  | nil =>
    simp only [List.nil_append]
    constructor
    · cases zs with
      | nil => rfl
      | cons z zs => rw [List.takeWhile_cons, hz z (List.mem_cons_self _ _)]; rfl
    · rw [List.filter_eq_nil_iff]
      intro x hx
      rw [hz x hx]
      decide
  | cons y ys ih =>
    obtain ⟨i1, i2⟩ := ih (fun x hx => hy x (List.mem_cons_of_mem _ hx))
    have h1 := hy y (List.mem_cons_self _ _)
    constructor
    · rw [List.cons_append, List.takeWhile_cons, h1, if_pos rfl, i1]
    · rw [List.cons_append, List.filter_cons, h1, if_pos rfl, i2]

/-- C35: for a pool whose LRU list is a proper list and satisfies the
old-sublist predicate, a dump that returns TRUE with
`srv_lru_dump_old_pages` off holds the records of exactly the pages whose
old flag is FALSE, in LRU order; with the option on it holds the records of
all pages of the LRU list. The dump returns TRUE when every step of it
succeeds. -/
theorem dump_skips_old_pages (u : univ_consts) (c : buf_LRU_consts) (E : dump_env)
    (p : buf_pool_t) (hu : univ_ok u) (hnd : p.LRU.Nodup) (hos : old_sublist c p) :
    (∀ file, buf_LRU_file_dump u E p = some (true, file) →
      file = dump_bytes u
        ((if E.srv_lru_dump_old_pages then p.LRU
          else p.LRU.filter (fun bpage => !(p.blocks bpage).old)).map (page_record p))) ∧
    (E.name_in_use = false → E.buffer_ok = true → E.create_ok = true →
      (∀ k, E.write_ok k = true) → E.flush_ok = true → E.rename_ok = true →
      ∃ file, buf_LRU_file_dump u E p = some (true, file)) := by
  refine ⟨?_, fun h1 h2 h3 h4 h5 h6 => file_dump_success u E p h1 h2 h3 h4 h5 h6 hnd⟩
  intro file hfile
  have hb := file_dump_bytes u E p hu file hfile
  rw [hb]
  congr 2
  unfold dumped_pages
  cases hold : E.srv_lru_dump_old_pages with
  | true =>
    simp
  | false =>
    obtain ⟨ys, zs, hs, _⟩ := split_of_old_sublist c p hnd hos
    obtain ⟨hl, _, _, hy, hz⟩ := hs
    simp only [Bool.false_or, Bool.false_eq_true, if_false]
    rw [hl]
    have := takeWhile_filter_split (fun bpage => !buf_page_is_old p bpage) ys zs
      (fun x hx => by simp [buf_page_is_old, hy x hx])
      (fun x hx => by simp [buf_page_is_old, hz x hx])
    rw [this.1]
    exact this.2.symm

set_option maxRecDepth 100000 in
/-- C35, evaluated: the list of 600 pages whose last 220 are old, dumped
with the option off. -/
theorem dump_skips_old_pages_witness :
    (∀ file, buf_LRU_file_dump plugin_univ dump_young_ok (big_pool 600 220 384)
        = some (true, file) →
      file = dump_bytes plugin_univ
        ((if dump_young_ok.srv_lru_dump_old_pages then (big_pool 600 220 384).LRU
          else (big_pool 600 220 384).LRU.filter
            (fun bpage => !((big_pool 600 220 384).blocks bpage).old)).map
          (page_record (big_pool 600 220 384)))) ∧
    (dump_young_ok.name_in_use = false → dump_young_ok.buffer_ok = true →
      dump_young_ok.create_ok = true →
      (∀ k, dump_young_ok.write_ok k = true) → dump_young_ok.flush_ok = true →
      dump_young_ok.rename_ok = true →
      ∃ file, buf_LRU_file_dump plugin_univ dump_young_ok (big_pool 600 220 384)
        = some (true, file)) :=
  dump_skips_old_pages plugin_univ plugin_consts dump_young_ok (big_pool 600 220 384)
    (by decide) (List.nodup_range' 1 600)
    (big_pool_valid plugin_consts 600 220 384 (by decide) (by decide) (by decide)).2.1

theorem dump_record_cmp_neg (a b : dump_record_t) :
    dump_record_cmp a b < 0
      ↔ a.space_id < b.space_id ∨ (a.space_id = b.space_id ∧ a.page_no < b.page_no) := by
  unfold dump_record_cmp
  split_ifs <;> simp <;> omega

theorem dump_record_cmp_pos (a b : dump_record_t) :
    dump_record_cmp a b > 0
      ↔ b.space_id < a.space_id ∨ (a.space_id = b.space_id ∧ b.page_no < a.page_no) := by
  unfold dump_record_cmp
  split_ifs <;> simp <;> omega

theorem sorted_le_at (S : List dump_record_t)
    (hS : S.Pairwise (fun a b => dump_record_cmp a b ≤ 0))
    (i j : Nat) (hij : i < j) (hj : j < S.length) :
    dump_record_cmp (S.getD i ⟨0, 0⟩) (S.getD j ⟨0, 0⟩) ≤ 0 := by
  rw [List.getD_eq_getElem _ _ (by omega : i < S.length), List.getD_eq_getElem _ _ hj]
  exact List.pairwise_iff_getElem.mp hS i j (by omega) hj hij

theorem binary_search_finds (key : dump_record_t) (S : List dump_record_t)
    (hS : S.Pairwise (fun a b => dump_record_cmp a b ≤ 0)) :
    ∀ (fuel l u : Nat), u ≤ S.length → u < l + fuel →
      (∃ i, l ≤ i ∧ i < u ∧ S.getD i ⟨0, 0⟩ = key) →
      ∃ i, binary_search key S fuel l u = some i ∧ i < S.length ∧ S.getD i ⟨0, 0⟩ = key := by
  intro fuel
  induction fuel with
  | zero =>
    intro l u _ h1 ⟨i, h2, h3, _⟩
    omega
  | succ fuel ih =>
    intro l u hu hf ⟨i, hli, hiu, hi⟩
    have hlu : l < u := by omega
    have hm1 : l ≤ (l + u) / 2 := by omega
    have hm2 : (l + u) / 2 < u := by omega
    rw [binary_search, if_pos hlu]
    by_cases hneg : dump_record_cmp key (S.getD ((l + u) / 2) ⟨0, 0⟩) < 0
    · rw [if_pos hneg]
      refine ih l ((l + u) / 2) (by omega) (by omega) ⟨i, hli, ?_, hi⟩
      by_contra hge
      rcases Nat.lt_or_ge ((l + u) / 2) i with h | h
      · have := sorted_le_at S hS ((l + u) / 2) i h (by omega)
        rw [hi, dump_record_cmp_le] at this
        rw [dump_record_cmp_neg] at hneg
        omega
      · have e : i = (l + u) / 2 := by omega
        rw [← e, hi, dump_record_cmp_self] at hneg
        exact absurd hneg (by decide)
    · rw [if_neg hneg]
      by_cases hpos : dump_record_cmp key (S.getD ((l + u) / 2) ⟨0, 0⟩) > 0
      · rw [if_pos hpos]
        refine ih ((l + u) / 2 + 1) u hu (by omega) ⟨i, ?_, hiu, hi⟩
        by_contra hge
        rcases Nat.lt_or_ge i ((l + u) / 2) with h | h
        · have := sorted_le_at S hS i ((l + u) / 2) h (by omega)
          rw [hi, dump_record_cmp_le] at this
          rw [dump_record_cmp_pos] at hpos
          omega
        · have e : i = (l + u) / 2 := by omega
          rw [← e, hi, dump_record_cmp_self] at hpos
          exact absurd hpos (by decide)
      · rw [if_neg hpos]
        refine ⟨(l + u) / 2, rfl, by omega, ?_⟩
        have : dump_record_cmp key (S.getD ((l + u) / 2) ⟨0, 0⟩) = 0 := by omega
        exact ((dump_record_cmp_eq _ _).mp this).symm

/-- C37: `dump_record_cmp` returns -1, 0 or 1; it returns -1 exactly when
the first record is below the second in the lexicographic order on
`(space_id, page_no)`, and 0 exactly when both fields are equal;
`cmp(a, b) = -cmp(b, a)`; and it is transitive. The array that sorting with
it leaves holds the same records in ascending order of space id and then
page number, and the binary search of `bsearch` finds every record of
`records` in it, so `current_record` is not `NULL`. -/
theorem dump_record_cmp_order (a b c : dump_record_t) (records : List dump_record_t) :
    (dump_record_cmp a b = -1 ∨ dump_record_cmp a b = 0 ∨ dump_record_cmp a b = 1) ∧
    (dump_record_cmp a b = -1
      ↔ a.space_id < b.space_id ∨ (a.space_id = b.space_id ∧ a.page_no < b.page_no)) ∧
    (dump_record_cmp a b = 0 ↔ a.space_id = b.space_id ∧ a.page_no = b.page_no) ∧
    dump_record_cmp a b = - dump_record_cmp b a ∧
    (dump_record_cmp a b ≤ 0 → dump_record_cmp b c ≤ 0 → dump_record_cmp a c ≤ 0) ∧
    (qsort records).Perm records ∧
    (qsort records).Pairwise (fun x y =>
      x.space_id < y.space_id ∨ (x.space_id = y.space_id ∧ x.page_no ≤ y.page_no)) ∧
    ∀ r ∈ records,
      (∃ i, binary_search r (qsort records) ((qsort records).length + 1) 0
          (qsort records).length = some i ∧
        i < (qsort records).length ∧ (qsort records).getD i ⟨0, 0⟩ = r) ∧
      ∃ cur, bsearch r (qsort records) = some cur ∧ cur < (qsort records).length ∧
        (qsort records).getD cur ⟨0, 0⟩ = r := by
  refine ⟨?_, ?_, ?_, ?_, ?_, qsort_perm records, ?_, ?_⟩
  · unfold dump_record_cmp
    split_ifs <;> simp
  · unfold dump_record_cmp
    split_ifs <;> simp <;> omega
  · unfold dump_record_cmp
    split_ifs <;> simp <;> omega
  · unfold dump_record_cmp
    split_ifs <;> simp <;> omega
  · rw [dump_record_cmp_le, dump_record_cmp_le, dump_record_cmp_le]
    omega
  · exact (qsort_sorted records).imp (fun h => (dump_record_cmp_le _ _).mp h)
  · intro r hr
    have hmem : r ∈ qsort records := (qsort_perm records).mem_iff.mpr hr
    obtain ⟨i, hi, e⟩ := mem_getD (qsort records) r hmem
    refine ⟨binary_search_finds r (qsort records) (qsort_sorted records) _ 0 _
      (Nat.le_refl _) (by omega) ⟨i, Nat.zero_le _, hi, e⟩, ?_⟩
    obtain ⟨cur, hcur, _⟩ := bsearch_found r (qsort records) hmem
    obtain ⟨h1, h2⟩ := bsearch_spec r (qsort records) cur hcur
    exact ⟨cur, hcur, h1, h2⟩

theorem mach_read_block (file : List Nat) (pos n k : Nat) (hk : k + 4 ≤ n) :
    mach_read_from_4 ((file.drop pos).take n) k = mach_read_from_4 file (pos + k) := by
  unfold mach_read_from_4
  have e : ∀ j, j < 4 → ((file.drop pos).take n).getD (k + j) 0 = file.getD (pos + k + j) 0 := by
    intro j hj
    rw [List.getD_eq_getElem?_getD, List.getD_eq_getElem?_getD,
      List.getElem?_take_of_lt (by omega), List.getElem?_drop]
    congr 2
    omega
  have e0 := e 0 (by omega)
  simp only [Nat.add_zero] at e0
  rw [e0, e 1 (by omega), e 2 (by omega), e 3 (by omega)]

theorem scan_pairs (buffer : List Nat) (size : Nat) :
    ∀ (m j : Nat) (acc : List dump_record_t),
      (∀ i, j ≤ i → i < j + m →
        mach_read_from_4 buffer (2 * i * 4) ≠ 0xFFFFFFFF ∧
        mach_read_from_4 buffer ((2 * i + 1) * 4) ≠ 0xFFFFFFFF) →
      (acc.length + m) * 8 ≤ size →
      restore_scan_block buffer size ((List.range' j m).map (fun k => 2 * k)) acc
        = (decide (0 < m ∧ (acc.length + m) * 8 = size),
            acc ++ (List.range' j m).map (fun i =>
              ({ space_id := mach_read_from_4 buffer (2 * i * 4),
                 page_no := mach_read_from_4 buffer ((2 * i + 1) * 4) } : dump_record_t))) := by
  intro m
  induction m with
  | zero =>
    intro j acc _ _
    simp [restore_scan_block]
  | succ m ih =>
    intro j acc hno hsize
    obtain ⟨h1, h2⟩ := hno j (Nat.le_refl _) (by omega)
    rw [List.range'_succ, List.map_cons, List.map_cons, scan_block_cons,
      if_neg (by rw [not_or]; exact ⟨h1, h2⟩)]
    by_cases hlast : (acc.length + 1) * 8 ≥ size
    · rw [if_pos hlast]
      have hm : m = 0 := by omega
      have he : (acc.length + (m + 1)) * 8 = size := by omega
      subst hm
      simp [he]
    · rw [if_neg hlast]
      rw [ih (j + 1) _ (fun i hi1 hi2 => hno i (by omega) (by omega))
        (by rw [List.length_append, List.length_singleton]; omega)]
      have e : (0 < m ∧ (acc.length + 1 + m) * 8 = size)
          ↔ (0 < m + 1 ∧ (acc.length + (m + 1)) * 8 = size) := by
        constructor <;> intro ⟨_, _⟩ <;> constructor <;> omega
      rw [List.length_append, List.length_singleton, List.append_assoc, List.singleton_append,
        decide_eq_decide.mpr e]

theorem range_map_block (f : Nat → dump_record_t) (N k : Nat) :
    (List.range (k * N)).map f ++ (List.range' 0 N).map (fun i => f (k * N + i))
      = (List.range ((k + 1) * N)).map f := by
  have e : (List.range' 0 N).map (fun i => f (k * N + i))
      = (List.range' (k * N) N).map f := by
    rw [List.range'_eq_map_range, List.range'_eq_map_range, List.map_map, List.map_map]
    apply List.map_congr_left
    intro i _
    simp
  rw [e, ← List.map_append, List.range_eq_range', List.range_eq_range']
  congr 1
  have := List.range'_append 0 (k * N) N 1
  simp only [Nat.zero_add, Nat.one_mul] at this
  rw [this]
  congr 1
  ring

theorem read_unterminated (u : univ_consts) (hu : univ_ok u) (file : List Nat) (N B : Nat)
    (hN : 0 < N) (hU : UNIV_PAGE_SIZE u = 8 * N) (hlen : file.length = B * UNIV_PAGE_SIZE u)
    (hno : ∀ i, i < file.length / 8 →
      mach_read_from_4 file (8 * i) ≠ 0xFFFFFFFF ∧
      mach_read_from_4 file (8 * i + 4) ≠ 0xFFFFFFFF) :
    ∀ (fuel k : Nat), k < B → B < k + fuel + 1 →
      restore_read_records u file file.length (fuel + 1) k
        ((List.range (k * N)).map (fun i =>
          ({ space_id := mach_read_from_4 file (8 * i),
             page_no := mach_read_from_4 file (8 * i + 4) } : dump_record_t)))
      = some (true, file_pairs file, B) := by
  have hdiv : file.length / 8 = B * N := by
    rw [hlen, hU]
    have : B * (8 * N) = 8 * (B * N) := by ring
    rw [this]
    omega
  intro fuel
  induction fuel with
  | zero =>
    intro k h1 h2
    omega
  | succ fuel ih =>
    intro k hk hf
    have hkB : (k + 1) * N ≤ B * N := Nat.mul_le_mul_right N (by omega)
    have hpos : k * UNIV_PAGE_SIZE u + UNIV_PAGE_SIZE u ≤ file.length := by
      rw [hlen]
      have : k * UNIV_PAGE_SIZE u + UNIV_PAGE_SIZE u = (k + 1) * UNIV_PAGE_SIZE u := by ring
      rw [this]
      exact Nat.mul_le_mul_right _ (by omega)
    rw [restore_read_records]
    unfold os_file_read
    rw [block_position_eq u hu, if_pos hpos]
    simp only []
    rw [block_offsets_eq u N hU]
    have hbuf : ∀ i, i < N →
        mach_read_from_4 ((file.drop (k * UNIV_PAGE_SIZE u)).take (UNIV_PAGE_SIZE u))
            (2 * i * 4) = mach_read_from_4 file (8 * (k * N + i)) ∧
        mach_read_from_4 ((file.drop (k * UNIV_PAGE_SIZE u)).take (UNIV_PAGE_SIZE u))
            ((2 * i + 1) * 4) = mach_read_from_4 file (8 * (k * N + i) + 4) := by
      intro i hi
      rw [mach_read_block _ _ _ _ (by rw [hU]; omega),
        mach_read_block _ _ _ _ (by rw [hU]; omega), hU]
      constructor <;> congr 1 <;> ring
    have hkN : k * N + N ≤ B * N := by
      have : (k + 1) * N = k * N + N := by ring
      omega
    rw [scan_pairs _ _ N 0 _ (by
        intro i _ hi
        rw [(hbuf i (by omega)).1, (hbuf i (by omega)).2]
        exact hno _ (by rw [hdiv]; omega))
      (by
        rw [List.length_map, List.length_range, hlen, hU]
        have : B * (8 * N) = 8 * (B * N) := by ring
        rw [this]
        omega)]
    have hrecs : (List.range (k * N)).map (fun i =>
          ({ space_id := mach_read_from_4 file (8 * i),
             page_no := mach_read_from_4 file (8 * i + 4) } : dump_record_t))
        ++ (List.range' 0 N).map (fun i =>
          ({ space_id := mach_read_from_4
                ((file.drop (k * UNIV_PAGE_SIZE u)).take (UNIV_PAGE_SIZE u)) (2 * i * 4),
             page_no := mach_read_from_4
                ((file.drop (k * UNIV_PAGE_SIZE u)).take (UNIV_PAGE_SIZE u))
                ((2 * i + 1) * 4) } : dump_record_t))
        = (List.range ((k + 1) * N)).map (fun i =>
          ({ space_id := mach_read_from_4 file (8 * i),
             page_no := mach_read_from_4 file (8 * i + 4) } : dump_record_t)) := by
      have hm : (List.range' 0 N).map (fun i =>
          ({ space_id := mach_read_from_4
                ((file.drop (k * UNIV_PAGE_SIZE u)).take (UNIV_PAGE_SIZE u)) (2 * i * 4),
             page_no := mach_read_from_4
                ((file.drop (k * UNIV_PAGE_SIZE u)).take (UNIV_PAGE_SIZE u))
                ((2 * i + 1) * 4) } : dump_record_t))
          = (List.range' 0 N).map (fun i =>
          ({ space_id := mach_read_from_4 file (8 * (k * N + i)),
             page_no := mach_read_from_4 file (8 * (k * N + i) + 4) } : dump_record_t)) := by
        apply List.map_congr_left
        intro i hi
        have hi2 : i < N := by
          have := (List.mem_range'_1.mp hi).2
          omega
        rw [(hbuf i hi2).1, (hbuf i hi2).2]
      rw [hm]
      exact range_map_block (fun i =>
          ({ space_id := mach_read_from_4 file (8 * i),
             page_no := mach_read_from_4 file (8 * i + 4) } : dump_record_t)) N k
    rw [hrecs]
    rw [List.length_map, List.length_range]
    by_cases hl : k + 1 = B
    · have hd : decide (0 < N ∧ (k * N + N) * 8 = file.length) = true := by
        rw [decide_eq_true_eq]
        refine ⟨hN, ?_⟩
        rw [hlen, hU, ← hl]
        ring
      rw [hd]
      simp only []
      unfold file_pairs
      rw [hdiv, ← hl]
    · have hd : decide (0 < N ∧ (k * N + N) * 8 = file.length) = false := by
        rw [decide_eq_false_iff_not]
        intro ⟨_, h⟩
        rw [hlen, hU] at h
        have h3 : (k * N + N) * 8 = (k + 1) * (8 * N) := by ring
        rw [h3] at h
        have h4 := Nat.eq_of_mul_eq_mul_right (by omega : 0 < 8 * N) h
        exact hl h4
      rw [hd]
      simp only []
      exact ih (k + 1) (by omega) (by omega)

theorem scan_block_bound (b : List Nat) (size : Nat) (h8 : size % 8 = 0) :
    ∀ (offsets : List Nat) (acc : List dump_record_t), acc.length * 8 < size →
      (restore_scan_block b size offsets acc).2.length * 8 ≤ size := by
  intro offsets
  induction offsets with
  | nil =>
    intro acc h
    rw [restore_scan_block]
    exact Nat.le_of_lt h
  | cons o os ih =>
    intro acc h
    rw [scan_block_cons]
    split_ifs with h1 h2
    · exact Nat.le_of_lt h
    · simp only [List.length_append, List.length_singleton]
      omega
    · exact ih _ (by rw [List.length_append, List.length_singleton]; omega)

theorem read_records_bound (u : univ_consts) (hu : univ_ok u) (file : List Nat) (size : Nat)
    (h8 : size % 8 = 0) :
    ∀ (fuel buffers : Nat) (acc : List dump_record_t) (ok : Bool)
      (records : List dump_record_t) (n : Nat), acc.length * 8 < size →
      restore_read_records u file size fuel buffers acc = some (ok, records, n) →
      records.length * 8 ≤ size := by
  intro fuel
  induction fuel with
  | zero =>
    intro buffers acc ok records n _ h
    rw [restore_read_records] at h
    cases h
  | succ fuel ih =>
    intro buffers acc ok records n hacc h
    unfold restore_read_records at h
    cases hrd : os_file_read file (block_position u buffers) (UNIV_PAGE_SIZE u) with
    | none =>
      rw [hrd] at h
      simp only [Option.some.injEq, Prod.mk.injEq] at h
      rw [← h.2.1]
      exact Nat.le_of_lt hacc
    | some buffer =>
      rw [hrd] at h
      simp only [] at h
      have hb := scan_block_bound buffer size h8 (block_offsets u) acc hacc
      obtain ⟨S, hS⟩ : ∃ S, S = restore_scan_block buffer size (block_offsets u) acc :=
        ⟨_, rfl⟩
      rw [← hS] at h hb
      obtain ⟨t, r1⟩ := S
      cases t with
      | true =>
        simp only [Option.some.injEq, Prod.mk.injEq] at h
        rw [← h.2.1]
        exact hb
      | false =>
        simp only [] at h
        exact ih _ _ _ _ _ ((scan_block_false buffer size _ _ _ hS.symm).2
          (block_offsets_ne u hu)) h

/-- C36: for every file that the size check accepts, the record-reading
stage of `buf_LRU_file_restore` returns and has stored at most `size / 8`
records, so every write `records[length]` (they go to the positions
`0 .. length - 1` in turn) is inside the allocated array. For a file whose
size is a positive multiple of `UNIV_PAGE_SIZE` and in which no pair holds
`0xFFFFFFFF`, the stage ends with `terminated` set after the last block,
with `records` equal to the pairs of the file in order and
`length = size / 8`. -/
theorem restore_reads_unterminated (u : univ_consts) (hu : univ_ok u) (file : List Nat) :
    (file.length % 2 ^ 32 ≠ 0 → file.length / 2 ^ 32 = 0 → file.length % 2 ^ 32 % 8 = 0 →
      ∃ ok records buffers,
        restore_read_records u file (file.length % 2 ^ 32) (file.length % 2 ^ 32) 0 []
          = some (ok, records, buffers) ∧
        records.length ≤ file.length % 2 ^ 32 / 8) ∧
    (0 < file.length → file.length % UNIV_PAGE_SIZE u = 0 → file.length < 2 ^ 32 →
      (∀ i, i < file.length / 8 →
        mach_read_from_4 file (8 * i) ≠ 0xFFFFFFFF ∧
        mach_read_from_4 file (8 * i + 4) ≠ 0xFFFFFFFF) →
      restore_read_records u file (file.length % 2 ^ 32) (file.length % 2 ^ 32) 0 []
        = some (true, file_pairs file, file.length / UNIV_PAGE_SIZE u) ∧
      (file_pairs file).length = file.length / 8) := by
  obtain ⟨N, hN, hU⟩ := univ_facts u hu
  constructor
  · intro h1 _ h3
    obtain ⟨res, hres⟩ := read_records_total u hu file (file.length % 2 ^ 32)
      (file.length % 2 ^ 32) 0 [] (by simp only [List.length_nil]; omega) (by simp)
    obtain ⟨ok, records, buffers⟩ := res
    refine ⟨ok, records, buffers, hres, ?_⟩
    have := read_records_bound u hu file _ h3 _ _ _ _ _ _
      (by simp only [List.length_nil]; omega) hres
    omega
  · intro hpos hmod hlt hno
    have hlen : file.length = file.length / UNIV_PAGE_SIZE u * UNIV_PAGE_SIZE u :=
      (Nat.div_mul_cancel (Nat.dvd_of_mod_eq_zero hmod)).symm
    have hB : 0 < file.length / UNIV_PAGE_SIZE u :=
      Nat.div_pos (Nat.le_of_dvd hpos (Nat.dvd_of_mod_eq_zero hmod)) (by rw [hU]; omega)
    have hBlt : file.length / UNIV_PAGE_SIZE u < file.length := by
      apply Nat.div_lt_self hpos
      rw [hU]
      omega
    rw [Nat.mod_eq_of_lt hlt]
    refine ⟨?_, by unfold file_pairs; rw [List.length_map, List.length_range]⟩
    have := read_unterminated u hu file N (file.length / UNIV_PAGE_SIZE u) hN hU hlen hno
      (file.length - 1) 0 hB (by omega)
    have e : file.length - 1 + 1 = file.length := by omega
    rw [e] at this
    simpa using this

/-- C36, evaluated for a file of one block of zero bytes. -/
theorem restore_reads_unterminated_witness :
    (List.replicate 16384 0).length % 2 ^ 32 ≠ 0 ∧
    (∀ i, i < (List.replicate 16384 0).length / 8 →
        mach_read_from_4 (List.replicate 16384 0) (8 * i) ≠ 0xFFFFFFFF ∧
        mach_read_from_4 (List.replicate 16384 0) (8 * i + 4) ≠ 0xFFFFFFFF) ∧
    ((List.replicate 16384 0).length % 2 ^ 32 ≠ 0 →
      (List.replicate 16384 0).length / 2 ^ 32 = 0 →
      (List.replicate 16384 0).length % 2 ^ 32 % 8 = 0 →
      ∃ ok records buffers,
        restore_read_records plugin_univ (List.replicate 16384 0)
          ((List.replicate 16384 0).length % 2 ^ 32)
          ((List.replicate 16384 0).length % 2 ^ 32) 0 []
          = some (ok, records, buffers) ∧
        records.length ≤ (List.replicate 16384 0).length % 2 ^ 32 / 8) ∧
    (0 < (List.replicate 16384 0).length →
      (List.replicate 16384 0).length % UNIV_PAGE_SIZE plugin_univ = 0 →
      (List.replicate 16384 0).length < 2 ^ 32 →
      (∀ i, i < (List.replicate 16384 0).length / 8 →
        mach_read_from_4 (List.replicate 16384 0) (8 * i) ≠ 0xFFFFFFFF ∧
        mach_read_from_4 (List.replicate 16384 0) (8 * i + 4) ≠ 0xFFFFFFFF) →
      restore_read_records plugin_univ (List.replicate 16384 0)
          ((List.replicate 16384 0).length % 2 ^ 32)
          ((List.replicate 16384 0).length % 2 ^ 32) 0 []
        = some (true, file_pairs (List.replicate 16384 0),
            (List.replicate 16384 0).length / UNIV_PAGE_SIZE plugin_univ) ∧
      (file_pairs (List.replicate 16384 0)).length = (List.replicate 16384 0).length / 8) :=
  ⟨by rw [List.length_replicate]; decide,
   fun i _ => by
    unfold mach_read_from_4
    simp only [List.getD_eq_getElem?_getD, List.getElem?_replicate]
    constructor <;> split_ifs <;> simp,
   restore_reads_unterminated plugin_univ (by decide) (List.replicate 16384 0)⟩

theorem modification_of_strip (a b : buf_page_t)
    (h : { a with old := false, freed_page_clock := 0 }
      = { b with old := false, freed_page_clock := 0 }) :
    a.oldest_modification = b.oldest_modification ∧ a.space = b.space ∧
      a.offset = b.offset := by
  have h1 := congrArg buf_page_t.oldest_modification h
  have h2 := congrArg buf_page_t.space h
  have h3 := congrArg buf_page_t.offset h
  simp only at h1 h2 h3
  exact ⟨h1, h2, h3⟩

theorem modification_of_strip_old (a b : buf_page_t)
    (h : { a with old := false } = { b with old := false }) :
    a.oldest_modification = b.oldest_modification := by
  have h1 := congrArg buf_page_t.oldest_modification h
  simp only at h1
  exact h1

theorem free_one_page_dirty (c : buf_LRU_consts) (p : buf_pool_t) (bpage : Nat)
    (hM : 25 ≤ c.BUF_LRU_OLD_MIN_LEN) (hv : LRU_valid c p) (hpf : page_freeable p bpage)
    (hdirty : (p.blocks bpage).oldest_modification ≠ 0) :
    buf_LRU_free_one_page c p bpage = none := by
  obtain ⟨q, hq, _, _, _, _, hfr⟩ := remove_block_valid c p bpage hM hv hpf.1 hpf.2.1
  have hom : (q.blocks bpage).oldest_modification ≠ 0 := by
    rw [modification_of_strip_old _ _ (hfr bpage)]; exact hdirty
  have hchk : remove_hashed_page_check
      { q with freed_page_clock := (q.freed_page_clock + 1) % 2 ^ 64 } bpage true = none := by
    unfold remove_hashed_page_check set_block
    cases hs : (q.blocks bpage).state <;> cases hz : (q.blocks bpage).zip_data <;>
      simp [hs, hz, hom]
  unfold buf_LRU_free_one_page buf_LRU_block_remove_hashed_page
  by_cases hio : (p.blocks bpage).io_fix = .BUF_IO_NONE ∧ (p.blocks bpage).buf_fix_count = 0
  · simp only [hio, and_self, if_true, hq, hchk]
  · simp only [hio, if_false]

/-- C31, a failing input: page 2 of the three-page pool is a dirty
compressed file page (`oldest_modification = 7`, on the flush list).
`buf_LRU_free_block(2, FALSE)` relocates it to descriptor 9 and puts block 2
on the free list in state `NOT_USED`; the field `oldest_modification` of
block 2 is still 7, while descriptor 9 (state `ZIP_DIRTY`,
`oldest_modification = 7`) has taken its place in the flush list. -/
theorem free_list_dirty_counterexample :
    (buf_LRU_free_block plugin_consts dirty_zip_pool 2 false 9).map
        (fun r => (r.1, r.2.1, r.2.2.free, r.2.2.flush_list))
      = some (true, false, [2], [9]) ∧
    (buf_LRU_free_block plugin_consts dirty_zip_pool 2 false 9).map
        (fun r => ((r.2.2.blocks 2).state, (r.2.2.blocks 2).oldest_modification))
      = some (.BUF_BLOCK_NOT_USED, 7) ∧
    (buf_LRU_free_block plugin_consts dirty_zip_pool 2 false 9).map
        (fun r => ((r.2.2.blocks 9).state, (r.2.2.blocks 9).oldest_modification))
      = some (.BUF_BLOCK_ZIP_DIRTY, 7) := by
  decide

theorem free_block_flush_facts (c : buf_LRU_consts) (p : buf_pool_t) (bpage b : Nat)
    (zip : Bool) (hM : 25 ≤ c.BUF_LRU_OLD_MIN_LEN) (hv : LRU_valid c p)
    (hpf : page_freeable p bpage) (hfresh : fresh_descriptor p b)
    (hfl : ∀ x ∈ p.flush_list, (p.blocks x).oldest_modification ≠ 0)
    (hfr : ∀ x ∈ p.free, x ∉ p.flush_list) :
    ∃ freed removed q, buf_LRU_free_block c p bpage zip b = some (freed, removed, q) ∧
      (∀ x ∈ q.flush_list, (q.blocks x).oldest_modification ≠ 0) ∧
      (∀ x ∈ q.free, x ∉ q.flush_list) ∧
      (∀ x ∈ q.free, x ∈ p.free ∨ x = bpage) ∧
      (∀ x, x ≠ b → (q.blocks x).oldest_modification = (p.blocks x).oldest_modification) ∧
      ((p.blocks bpage).oldest_modification ≠ 0 → freed = true →
        removed = false ∧ zip = false ∧ q.free = bpage :: p.free ∧
        (q.blocks bpage).state = .BUF_BLOCK_NOT_USED ∧
        (q.blocks b).state = .BUF_BLOCK_ZIP_DIRTY ∧
        (q.blocks b).oldest_modification = (p.blocks bpage).oldest_modification ∧
        (q.blocks b).space = (p.blocks bpage).space ∧
        (q.blocks b).offset = (p.blocks bpage).offset ∧
        b ∈ q.LRU ∧ (bpage ∈ p.flush_list → b ∈ q.flush_list)) := by
  obtain ⟨A, B, hl⟩ := List.append_of_mem hpf.1
  have hbne : b ≠ bpage := fun e => hfresh.1 (e ▸ hpf.1)
  have hrefuse : buf_LRU_free_block c p bpage zip b = some (false, false, p) →
      ∃ freed removed q, buf_LRU_free_block c p bpage zip b = some (freed, removed, q) ∧
      (∀ x ∈ q.flush_list, (q.blocks x).oldest_modification ≠ 0) ∧
      (∀ x ∈ q.free, x ∉ q.flush_list) ∧
      (∀ x ∈ q.free, x ∈ p.free ∨ x = bpage) ∧
      (∀ x, x ≠ b → (q.blocks x).oldest_modification = (p.blocks x).oldest_modification) ∧
      ((p.blocks bpage).oldest_modification ≠ 0 → freed = true →
        removed = false ∧ zip = false ∧ q.free = bpage :: p.free ∧
        (q.blocks bpage).state = .BUF_BLOCK_NOT_USED ∧
        (q.blocks b).state = .BUF_BLOCK_ZIP_DIRTY ∧
        (q.blocks b).oldest_modification = (p.blocks bpage).oldest_modification ∧
        (q.blocks b).space = (p.blocks bpage).space ∧
        (q.blocks b).offset = (p.blocks bpage).offset ∧
        b ∈ q.LRU ∧ (bpage ∈ p.flush_list → b ∈ q.flush_list)) := by
    intro h
    exact ⟨false, false, p, h, hfl, hfr, fun x hx => Or.inl hx, fun _ _ => rfl,
      fun _ hf => absurd hf (by simp)⟩
  rcases free_block_cases p bpage zip with h | h | h | h
  · apply hrefuse
    unfold buf_LRU_free_block
    simp [h]
  · exact hrefuse (free_block_refuse c p bpage b zip h.1 h.2)
  · obtain ⟨hrel, hzip, hst, hz⟩ := h
    subst hzip
    obtain ⟨q, hq, _, hql, _, hqfree, hqflush, _, _, _, _, _, _, _, hqb, hqbp, hqx⟩ :=
      free_block_relocate_spec c p A B bpage b hM hv hl hpf hrel hfresh hst hz
    have hom : ∀ x, x ≠ b →
        (q.blocks x).oldest_modification = (p.blocks x).oldest_modification := by
      intro x hx
      by_cases hxb : x = bpage
      · subst hxb
        have := (modification_of_strip _ _ hqbp).1
        rw [this]
        unfold page_after_free page_after_remove
        split_ifs <;> rfl
      · exact (modification_of_strip _ _ (hqx x hx hxb)).1
    have hb3 := modification_of_strip (q.blocks b)
      { p.blocks bpage with
        state := if (p.blocks bpage).oldest_modification ≠ 0
                 then .BUF_BLOCK_ZIP_DIRTY else .BUF_BLOCK_ZIP_PAGE,
        sticky := false } hqb
    have hbst := (strip_clock_facts (q.blocks b)
      { p.blocks bpage with
        state := if (p.blocks bpage).oldest_modification ≠ 0
                 then .BUF_BLOCK_ZIP_DIRTY else .BUF_BLOCK_ZIP_PAGE,
        sticky := false } hqb).1
    simp only at hb3 hbst
    refine ⟨true, false, q, hq, ?_, ?_, ?_, hom, ?_⟩
    · intro x hx
      rw [hqflush] at hx
      by_cases hd : (p.blocks bpage).oldest_modification ≠ 0
      · rw [if_pos hd, List.mem_map] at hx
        obtain ⟨y, hy, hyx⟩ := hx
        by_cases hyb : y = bpage
        · simp only [hyb, if_true] at hyx
          subst hyx
          rw [hb3.1]
          exact hd
        · simp only [hyb, if_false] at hyx
          subst hyx
          have hyn : y ≠ b := fun e => hfresh.2.2.2.1 (e ▸ hy)
          rw [hom y hyn]
          exact hfl y hy
      · rw [if_neg hd] at hx
        have hxn : x ≠ b := fun e => hfresh.2.2.2.1 (e ▸ hx)
        rw [hom x hxn]
        exact hfl x hx
    · intro x hx
      rw [hqfree] at hx
      rw [hqflush]
      have hxb : x ≠ b := by
        rcases List.mem_cons.1 hx with e | e
        · rw [e]; exact fun e2 => hbne e2.symm
        · exact fun e2 => hfresh.2.2.1 (e2 ▸ e)
      by_cases hd : (p.blocks bpage).oldest_modification ≠ 0
      · rw [if_pos hd, List.mem_map]
        simp only [not_exists, not_and]
        intro y hy hyx
        by_cases hyb : y = bpage
        · simp only [hyb, if_true] at hyx
          exact hxb hyx.symm
        · simp only [hyb, if_false] at hyx
          subst hyx
          rcases List.mem_cons.1 hx with e | e
          · exact hyb e
          · exact hfr y e hy
      · rw [if_neg hd]
        rcases List.mem_cons.1 hx with e | e
        · rw [e]
          intro hbf
          exact hfl bpage hbf (not_not.1 hd)
        · exact hfr x e
    · intro x hx
      rw [hqfree] at hx
      rcases List.mem_cons.1 hx with e | e
      · exact Or.inr e
      · exact Or.inl e
    · intro hd _
      have hbs : (q.blocks bpage).state = .BUF_BLOCK_NOT_USED := by
        rw [(strip_clock_facts _ _ hqbp).1]
        rfl
      refine ⟨rfl, rfl, hqfree, hbs, ?_, hb3.1, hb3.2.1, hb3.2.2, ?_, ?_⟩
      · rw [hbst]
        simp [hd]
      · rw [hql]
        simp
      · intro hin
        rw [hqflush]
        rw [if_pos hd, List.mem_map]
        exact ⟨bpage, hin, by simp⟩
  · obtain ⟨hrel, hclean, hfull⟩ := h
    obtain ⟨q, hq, _, _, _, _, hqfree, hqflush, _, _, _, hqbp, hqx⟩ :=
      free_block_evict_facts c p A B bpage b zip hM hv hl hpf hrel hclean hfull
    have hom : ∀ x, (q.blocks x).oldest_modification = (p.blocks x).oldest_modification := by
      intro x
      by_cases hxb : x = bpage
      · subst hxb
        rw [hqbp]
        unfold page_after_free page_after_remove
        split_ifs <;> rfl
      · exact modification_of_strip_old _ _ (hqx x hxb)
    have hnb : bpage ∉ p.flush_list := fun hbf => hfl bpage hbf hclean
    refine ⟨true, true, q, hq, ?_, ?_, ?_, fun x _ => hom x, ?_⟩
    · intro x hx
      rw [hqflush] at hx
      rw [hom x]
      exact hfl x hx
    · intro x hx
      rw [hqflush]
      rw [hqfree] at hx
      split_ifs at hx
      · exact hfr x hx
      · rcases List.mem_cons.1 hx with e | e
        · rw [e]; exact hnb
        · exact hfr x e
    · intro x hx
      rw [hqfree] at hx
      split_ifs at hx
      · exact Or.inl hx
      · rcases List.mem_cons.1 hx with e | e
        · exact Or.inr e
        · exact Or.inl e
    · intro hd
      exact absurd hclean hd

theorem find_unique (l : List Nat) (f : Nat → Bool) (x : Nat) (hx : x ∈ l) (hf : f x = true)
    (hu : ∀ y ∈ l, f y = true → y = x) : l.find? f = some x := by
  induction l with
  | nil => cases hx
  | cons a t ih =>
    by_cases ha : f a = true
    · have := hu a (List.mem_cons_self _ _) ha
      subst this
      simp [List.find?, ha]
    · have hne : x ≠ a := fun e => ha (e ▸ hf)
      have hxt : x ∈ t := by
        rcases List.mem_cons.1 hx with e | e
        · exact absurd e hne
        · exact e
      simp only [List.find?, ha]
      exact ih hxt (fun y hy => hu y (List.mem_cons_of_mem _ hy))

theorem pages_inj (p : buf_pool_t) (h : (LRU_pages p).Nodup) (x y : Nat) (hx : x ∈ p.LRU)
    (hy : y ∈ p.LRU)
    (he : (p.blocks x).space = (p.blocks y).space ∧ (p.blocks x).offset = (p.blocks y).offset) :
    x = y := by
  unfold LRU_pages at h
  exact List.inj_on_of_nodup_map h hx hy (by simp only [he.1, he.2])

theorem freeable_of_inv (c : buf_LRU_consts) (p : buf_pool_t) (h : fault_inv c p) (x : Nat)
    (hx : x ∈ p.LRU) : page_freeable p x := by
  obtain ⟨_, _, _, _, _, hcl, hhn, hhm, hpn, _, _⟩ := h
  obtain ⟨_, hst, hz, _, _, _, _⟩ := hcl x hx
  refine ⟨hx, ?_, ?_, ?_, ?_, ?_, ?_⟩
  · unfold buf_page_in_file
    rw [hst]
  · unfold buf_page_hash_get
    apply find_unique _ _ x ((hhm x).2 hx) (by simp)
    intro y hy hfy
    simp only [Bool.and_eq_true, decide_eq_true_eq] at hfy
    exact pages_inj p hpn y x ((hhm y).1 hy) hx hfy
  · intro y hy hsame
    have hyx : y ≠ x := fun e => (List.Nodup.not_mem_erase hhn) (e ▸ hy)
    exact hyx (pages_inj p hpn y x ((hhm y).1 (List.mem_of_mem_erase hy)) hx hsame)
  · intro h2
    rw [hst] at h2
    cases h2
  · intro h2
    exact absurd hst h2
  · intro _ h2
    rw [hz] at h2
    cases h2

theorem get_block_from_free (c : buf_LRU_consts) (p : buf_pool_t) (head : Nat) (rest : List Nat)
    (h : fault_inv c p) (hfree : p.free = head :: rest) :
    ∃ G, buf_LRU_get_free_block c plain_params (fun _ q => q) (fun _ => 0) 2 0 p
        = some (head, G) ∧
      G.LRU = p.LRU ∧ G.unzip_LRU = p.unzip_LRU ∧ G.flush_list = p.flush_list ∧
      G.free = rest ∧ G.page_hash = p.page_hash ∧ G.curr_size = p.curr_size ∧
      G.buf_LRU_old_ratio = p.buf_LRU_old_ratio ∧ G.LRU_old = p.LRU_old ∧
      G.LRU_old_len = p.LRU_old_len ∧
      (∀ x, x ≠ head → G.blocks x = p.blocks x) := by
  obtain ⟨_, _, _, _, hfr, _, _, _, _, hsz, _⟩ := h
  have hin : buf_page_in_file (p.blocks head) = false :=
    (hfr head (by rw [hfree]; exact List.mem_cons_self _ _)).2.2
  have hchk : ¬ (p.free.length + p.LRU.length < p.curr_size / 20) := by
    rw [hsz]
    exact Nat.not_lt.2 (Nat.div_le_self _ _)
  rw [hfree] at hchk
  refine ⟨buf_LRU_prepare_free_block
    (set_block { p with free := rest } head
      { p.blocks head with state := .BUF_BLOCK_READY_FOR_USE }) head, ?_, ?_⟩
  · unfold buf_LRU_get_free_block buf_LRU_get_free_only
    simp only [plain_params, Bool.not_false, Bool.true_and, decide_eq_true_eq, hchk, if_false,
      hfree, List.head?_cons, hin, Bool.false_eq_true, UT_LIST_REMOVE, List.erase_cons_head]
  · refine ⟨rfl, rfl, rfl, ?_, rfl, rfl, rfl, rfl, rfl, ?_⟩
    · simp [buf_LRU_prepare_free_block, set_block]
    · intro x hx
      simp [buf_LRU_prepare_free_block, set_block, Function.update_noteq hx]

theorem clean_relocate (bp : buf_page_t) (h : clean_page bp) :
    buf_page_can_relocate bp = true := by
  obtain ⟨_, _, _, h1, h2, h3⟩ := h
  unfold buf_page_can_relocate
  simp [h1, h2, h3]

theorem common_scan_evict (c : buf_LRU_consts) (p q : buf_pool_t) (t : Nat)
    (hlast : p.LRU.getLast? = some t)
    (hq : buf_LRU_free_block c p t true 0 = some (true, true, q)) :
    buf_LRU_free_from_common_LRU_list c p 0 0 0 =
      some (true, some (p.blocks t).space, 1, [(t, true)],
        if (p.blocks t).access_time = 0 then
          { q with n_ra_pages_evicted := (q.n_ra_pages_evicted + 1) % 2 ^ 64 }
        else q) := by
  unfold buf_LRU_free_from_common_LRU_list
  simp only [if_true, Nat.zero_mul, Nat.zero_mod, Nat.zero_div, Nat.add_zero, hlast]
  show common_LRU_scan c 0 (100 % 2 ^ 64) (99 + 1) (some t) p [] = _
  unfold common_LRU_scan
  simp only [hq, if_true, List.nil_append]
  rfl

theorem search_evict (c : buf_LRU_consts) (p q : buf_pool_t) (t : Nat)
    (hlast : p.LRU.getLast? = some t)
    (hq : buf_LRU_free_block c p t true 0 = some (true, true, q))
    (hqf : q.free = [t]) (hqs : buf_page_in_file (q.blocks t) = false) :
    ∃ G, buf_LRU_search_and_free_block c plain_params p 0 true 0 = some (true, some t, 1, G) ∧
      G.LRU = q.LRU ∧ G.unzip_LRU = q.unzip_LRU ∧ G.flush_list = q.flush_list ∧
      G.free = [] ∧ G.page_hash = q.page_hash ∧ G.curr_size = q.curr_size ∧
      G.buf_LRU_old_ratio = q.buf_LRU_old_ratio ∧ G.LRU_old = q.LRU_old ∧
      G.LRU_old_len = q.LRU_old_len ∧
      (∀ x, x ≠ t → G.blocks x = q.blocks x) := by
  obtain ⟨q1, hq1⟩ : ∃ q1, q1 = (if (p.blocks t).access_time = 0 then
      { q with n_ra_pages_evicted := (q.n_ra_pages_evicted + 1) % 2 ^ 64 } else q) := ⟨_, rfl⟩
  have hscan := common_scan_evict c p q t hlast hq
  rw [← hq1] at hscan
  obtain ⟨q2, hq2⟩ : ∃ q2, q2 = (if q1.LRU_flush_ended > 0 then
      { q1 with LRU_flush_ended := q1.LRU_flush_ended - 1 } else q1) := ⟨_, rfl⟩
  have e1 : q2.free = [t] ∧ q2.blocks = q.blocks ∧ q2.LRU = q.LRU ∧
      q2.unzip_LRU = q.unzip_LRU ∧ q2.flush_list = q.flush_list ∧
      q2.page_hash = q.page_hash ∧ q2.curr_size = q.curr_size ∧
      q2.buf_LRU_old_ratio = q.buf_LRU_old_ratio ∧ q2.LRU_old = q.LRU_old ∧
      q2.LRU_old_len = q.LRU_old_len := by
    rw [hq2, hq1]
    split_ifs <;> simp [hqf]
  obtain ⟨f1, f2, f3, f4, f5, f6, f7, f8, f9, f10⟩ := e1
  refine ⟨set_block { q2 with free := [] } t
      { q2.blocks t with state := .BUF_BLOCK_READY_FOR_USE }, ?_, ?_⟩
  · unfold buf_LRU_search_and_free_block buf_LRU_free_from_unzip_LRU_list
    simp only [plain_params, or_true, if_true, search_limit, Bool.and_false, Bool.false_and,
      Bool.false_eq_true, if_false, hscan, ← hq2]
    unfold buf_LRU_get_free_only
    have hin : buf_page_in_file (q2.blocks t) = false := by rw [f2]; exact hqs
    simp only [f1, List.head?_cons, hin, Bool.false_eq_true, if_false, UT_LIST_REMOVE,
      List.erase_cons_head]
  · refine ⟨f3, f4, f5, rfl, f6, f7, f8, f9, f10, ?_⟩
    intro x hx
    simp only [set_block, Function.update_noteq hx, f2]

theorem get_block_evict (c : buf_LRU_consts) (p : buf_pool_t)
    (hM : 25 ≤ c.BUF_LRU_OLD_MIN_LEN) (h : fault_inv c p) (hfree : p.free = []) :
    ∃ t G, p.LRU = p.LRU.dropLast ++ [t] ∧
      buf_LRU_get_free_block c plain_params (fun _ q => q) (fun _ => 0) 2 0 p = some (t, G) ∧
      LRU_valid c G ∧ G.LRU = p.LRU.dropLast ∧ G.unzip_LRU = [] ∧ G.flush_list = [] ∧
      G.free = [] ∧ G.page_hash = p.page_hash.erase t ∧ G.curr_size = p.curr_size ∧
      G.buf_LRU_old_ratio = p.buf_LRU_old_ratio ∧
      (∀ x, x ≠ t → { G.blocks x with old := false } = { p.blocks x with old := false }) := by
  have hinv := h
  obtain ⟨hv, hu, hfl, _, _, hcl, _, _, _, hsz, hpos⟩ := h
  have hne : p.LRU ≠ [] := by
    intro e
    rw [hfree, e] at hsz
    simp at hsz
    omega
  obtain ⟨t, ht⟩ : ∃ t, p.LRU.getLast? = some t := by
    cases hg : p.LRU.getLast? with
    | none => exact absurd (List.getLast?_eq_none_iff.1 hg) hne
    | some t => exact ⟨t, rfl⟩
  have hl : p.LRU = p.LRU.dropLast ++ [t] := by
    have := List.dropLast_append_getLast? t ht
    exact this.symm
  have htm : t ∈ p.LRU := List.mem_of_getLast?_eq_some ht
  have hclt := (hcl t htm).2
  have hpf := freeable_of_inv c p hinv t htm
  obtain ⟨q, hq, _, hvq, hql, hqu, hqf, hqfl, hqh, _, hqr, hqb, hqx⟩ :=
    free_block_evict_facts c p p.LRU.dropLast [] t 0 true hM hv hl hpf
      (clean_relocate _ hclt) hclt.2.2.1 (Or.inl rfl)
  have hst : (p.blocks t).state ≠ .BUF_BLOCK_ZIP_PAGE := by
    rw [hclt.1]
    decide
  have hnb : buf_page_belongs_to_unzip_LRU (p.blocks t) = false := by
    unfold buf_page_belongs_to_unzip_LRU
    rw [hclt.2.1]
    rfl
  rw [if_neg hst, hfree] at hqf
  rw [if_neg hst] at hqb
  simp only [hnb, Bool.false_eq_true, if_false] at hqu
  have hqs : buf_page_in_file (q.blocks t) = false := by
    rw [hqb]
    rfl
  obtain ⟨G, hG, g1, g2, g3, g4, g5, g6, g7, g8, g9, g10⟩ :=
    search_evict c p q t ht hq hqf hqs
  have hchk : ¬ (p.free.length + p.LRU.length < p.curr_size / 20) := by
    rw [hsz]
    exact Nat.not_lt.2 (Nat.div_le_self _ _)
  rw [hfree] at hchk
  have hcurr : q.curr_size = p.curr_size := by
    obtain ⟨q1, _, _, _, hf1, _, hq2⟩ :=
      free_block_evict_spec c p p.LRU.dropLast [] t 0 true hM hv hl hpf
        (clean_relocate _ hclt) hclt.2.2.1 (Or.inl rfl)
    rw [hq, if_neg hst] at hq2
    have e := congrArg buf_pool_t.curr_size hf1.1
    simp only [Option.some.injEq, Prod.mk.injEq, true_and] at hq2
    rw [hq2]
    exact e
  refine ⟨t, buf_LRU_prepare_free_block G t, hl, ?_, ?_, ?_, ?_, ?_, ?_, ?_, ?_, ?_, ?_⟩
  · unfold buf_LRU_get_free_block buf_LRU_get_free_only
    simp only [plain_params, Bool.not_false, Bool.true_and, decide_eq_true_eq, hchk, if_false,
      hfree, List.head?_nil]
    simp only [plain_params] at hG
    simp only [hG, if_true]
  · have hvG : LRU_valid c G := by
      refine LRU_valid_congr c q G g1 g8 g9 g7 ?_ hvq
      intro x hx
      have : x ≠ t := by
        intro e
        rw [e, hql] at hx
        simp only [List.append_nil] at hx
        have hnd := hv.1
        rw [hl] at hnd
        exact (List.nodup_append.1 hnd).2.2 hx (List.mem_singleton_self t)
      rw [g10 x this]
    exact LRU_valid_update c G _ t _ (by
      rw [g1, hql]
      simp only [List.append_nil]
      have hnd := hv.1
      rw [hl] at hnd
      exact fun hx => (List.nodup_append.1 hnd).2.2 hx (List.mem_singleton_self t))
      hvG rfl rfl rfl rfl rfl
  · show G.LRU = _
    rw [g1, hql]
    simp
  · show G.unzip_LRU = _
    rw [g2, hqu, hu]
  · show G.flush_list = _
    rw [g3, hqfl, hfl]
  · exact g4
  · show G.page_hash = _
    rw [g5, hqh]
  · show G.curr_size = _
    rw [g6, hcurr]
  · show G.buf_LRU_old_ratio = _
    rw [g7, hqr]
  · intro x hx
    show { (Function.update G.blocks t _ x) with old := false } = _
    rw [Function.update_noteq hx, g10 x hx]
    exact hqx x hx

theorem split_tail_unique (x : Nat) : ∀ (a a2 b b2 : List Nat), (a ++ x :: b).Nodup →
    a ++ x :: b = a2 ++ x :: b2 → b = b2 := by
  intro a
  induction a with
  | nil =>
    intro a2 b b2 hnd he
    cases a2 with
    | nil =>
      simp only [List.nil_append, List.cons.injEq, true_and] at he
      exact he
    | cons y a3 =>
      simp only [List.nil_append, List.cons_append, List.cons.injEq] at he
      have hx : x ∈ b := by
        rw [he.2]
        simp
      simp only [List.nil_append, List.nodup_cons] at hnd
      exact absurd hx hnd.1
  | cons y a ih =>
    intro a2 b b2 hnd he
    cases a2 with
    | nil =>
      simp only [List.nil_append, List.cons_append, List.cons.injEq] at he
      simp only [List.cons_append, List.nodup_cons] at hnd
      exact absurd (by rw [he.1]; simp) hnd.1
    | cons z a3 =>
      simp only [List.cons_append, List.cons.injEq] at he
      simp only [List.cons_append, List.nodup_cons] at hnd
      exact ih a3 b b2 hnd.2 he.2

theorem erase_inserted (ys zs : List Nat) (o blk : Nat) (h1 : blk ∉ ys) (h2 : blk ≠ o) :
    (ys ++ o :: blk :: zs).erase blk = ys ++ o :: zs := by
  rw [List.erase_append_right _ h1, List.erase_cons_tail (by simpa using h2.symm),
    List.erase_cons_head]

theorem init_add_spec (c : buf_LRU_consts) (G : buf_pool_t) (blk offset : Nat) (old : Bool)
    (hM : 25 ≤ c.BUF_LRU_OLD_MIN_LEN) (hv : LRU_valid c G) (hb : blk ∉ G.LRU) :
    ∃ q, buf_LRU_add_block c (buf_page_init G 0 offset blk) blk old = some q ∧ LRU_valid c q ∧
      q.LRU.erase blk = G.LRU ∧ blk ∈ q.LRU ∧ q.unzip_LRU = G.unzip_LRU ∧ q.free = G.free ∧
      q.flush_list = G.flush_list ∧ q.page_hash = G.page_hash ++ [blk] ∧
      q.curr_size = G.curr_size ∧ q.buf_LRU_old_ratio = G.buf_LRU_old_ratio ∧
      { q.blocks blk with old := false, freed_page_clock := 0 } = plain_page offset ∧
      (∀ x, x ≠ blk → { q.blocks x with old := false } = { G.blocks x with old := false }) ∧
      ((old = false ∨ G.LRU.length < c.BUF_LRU_OLD_MIN_LEN) → q.LRU = blk :: G.LRU) ∧
      (old = true → c.BUF_LRU_OLD_MIN_LEN ≤ G.LRU.length → 2 ≤ G.LRU_old_len →
        q.LRU.getLast? = G.LRU.getLast?) := by
  obtain ⟨R, hR⟩ : ∃ R, R = buf_page_init G 0 offset blk := ⟨_, rfl⟩
  have r1 : R.LRU = G.LRU := by rw [hR]; rfl
  have r2 : R.blocks = Function.update G.blocks blk (plain_page offset) := by rw [hR]; rfl
  have r3 : R.unzip_LRU = G.unzip_LRU := by rw [hR]; rfl
  have r4 : R.free = G.free := by rw [hR]; rfl
  have r5 : R.flush_list = G.flush_list := by rw [hR]; rfl
  have r6 : R.page_hash = G.page_hash ++ [blk] := by rw [hR]; rfl
  have r7 : R.curr_size = G.curr_size := by rw [hR]; rfl
  have r8 : R.buf_LRU_old_ratio = G.buf_LRU_old_ratio := by rw [hR]; rfl
  have r9 : R.LRU_old_len = G.LRU_old_len := by rw [hR]; rfl
  have r10 : R.LRU_old = G.LRU_old := by rw [hR]; rfl
  have rb : R.blocks blk = plain_page offset := by rw [r2, Function.update_same]
  have hvR : LRU_valid c R := LRU_valid_update c G R blk _ hb hv r1 r10 r9 r8 r2
  have hbR : blk ∉ R.LRU := by rw [r1]; exact hb
  have hfR : buf_page_in_file (R.blocks blk) = true := by rw [rb]; rfl
  have hnb : buf_page_belongs_to_unzip_LRU (R.blocks blk) = false := by rw [rb]; rfl
  rw [← hR]
  unfold buf_LRU_add_block
  by_cases hcond : old = false ∨ G.LRU.length < c.BUF_LRU_OLD_MIN_LEN
  · obtain ⟨q, hq, hvq, hl, hqu, hfr⟩ :=
      add_head_spec c R blk old hM hvR hbR hfR (by rw [r1]; exact hcond)
    simp only [hnb, Bool.false_eq_true, if_false] at hqu
    obtain ⟨_, _, f3, f4, f5, _, _, f8⟩ := old_frame_fields _ _ _ hfr
    have f9 := congrArg buf_pool_t.curr_size hfr.1
    simp only at f3 f4 f5 f8 f9
    refine ⟨q, hq, hvq, ?_, ?_, ?_, ?_, ?_, ?_, ?_, ?_, ?_, ?_, ?_, ?_⟩
    · rw [hl, List.erase_cons_head, r1]
    · rw [hl]; exact List.mem_cons_self _ _
    · rw [hqu, r3]
    · rw [f3, r4]
    · rw [f4, r5]
    · rw [f5, r6]
    · rw [f9, r7]
    · rw [f8, r8]
    · have := congrArg (fun (b : buf_page_t) => { b with freed_page_clock := 0 }) (hfr.2.2 blk)
      simp only [Function.update_same, rb] at this
      rw [this]
      rfl
    · intro x hx
      have := hfr.2.2 x
      simp only [Function.update_noteq hx, r2] at this
      exact this
    · intro _
      rw [hl, r1]
    · intro ho hn
      rcases hcond with e | e
      · rw [e] at ho
        cases ho
      · omega
  · have ho : old = true := by
      cases old
      · exact absurd (Or.inl rfl) hcond
      · rfl
    have hn : c.BUF_LRU_OLD_MIN_LEN ≤ R.LRU.length := by
      rw [r1]
      by_contra h
      exact hcond (Or.inr (by omega))
    subst ho
    obtain ⟨o, q, ys, zs0, hRo, hpl, hq, hvq, hl, _, _, hqu, hfr, _⟩ :=
      add_old_spec c R blk hM hvR hbR hfR hn
    simp only [hnb, Bool.false_eq_true, if_false] at hqu
    obtain ⟨_, _, f3, f4, f5, _, _, f8⟩ := old_frame_fields _ _ _ hfr
    have f9 := congrArg buf_pool_t.curr_size hfr.1
    simp only at f3 f4 f5 f8 f9
    have hby : blk ∉ ys := fun hx => hbR (by rw [hpl]; simp [hx])
    have hbo : blk ≠ o := fun e => hbR (by rw [hpl, e]; simp)
    refine ⟨q, hq, hvq, ?_, ?_, ?_, ?_, ?_, ?_, ?_, ?_, ?_, ?_, ?_, ?_⟩
    · rw [hl, erase_inserted ys zs0 o blk hby hbo, ← hpl, r1]
    · rw [hl]; simp
    · rw [hqu, r3]
    · rw [f3, r4]
    · rw [f4, r5]
    · rw [f5, r6]
    · rw [f9, r7]
    · rw [f8, r8]
    · have := congrArg (fun (b : buf_page_t) => { b with freed_page_clock := 0 }) (hfr.2.2 blk)
      simp only [rb] at this
      rw [this]
      rfl
    · intro x hx
      have := hfr.2.2 x
      simp only [r2, Function.update_noteq hx] at this
      exact this
    · intro h
      exact absurd h hcond
    · intro _ _ h2
      obtain ⟨ys2, zs2, hs, _⟩ := split_of_old_sublist c R hvR.1 hvR.2.1
      obtain ⟨s1, s2, s3, _, _⟩ := hs
      rw [hRo] at s2
      cases zs2 with
      | nil => cases s2
      | cons o2 r =>
        simp only [List.head?_cons, Option.some.injEq] at s2
        subst s2
        have hnd := hvR.1
        rw [hpl] at hnd
        have e := split_tail_unique o ys ys2 zs0 r hnd (by rw [← hpl, s1])
        have hr : zs0 ≠ [] := by
          rw [e]
          intro hr
          rw [r9, hr] at s3
          simp at s3
          omega
        rw [hl, ← r1, hpl]
        cases zs0 with
        | nil => exact absurd rfl hr
        | cons z zs1 => simp [List.getLast?_append, List.getLast?_cons_cons]

theorem clean_of_strip (a b : buf_page_t)
    (h : { a with old := false } = { b with old := false }) (hb : clean_page b) :
    clean_page a ∧ a.space = b.space ∧ a.offset = b.offset := by
  have h1 := congrArg buf_page_t.state h
  have h2 := congrArg buf_page_t.zip_data h
  have h3 := congrArg buf_page_t.oldest_modification h
  have h4 := congrArg buf_page_t.io_fix h
  have h5 := congrArg buf_page_t.buf_fix_count h
  have h6 := congrArg buf_page_t.sticky h
  have h7 := congrArg buf_page_t.space h
  have h8 := congrArg buf_page_t.offset h
  simp only at h1 h2 h3 h4 h5 h6 h7 h8
  unfold clean_page at *
  rw [h1, h2, h3, h4, h5, h6]
  exact ⟨hb, h7, h8⟩

theorem identity_of_strip (a b : buf_page_t)
    (h : { a with old := false } = { b with old := false }) :
    a.space = b.space ∧ a.offset = b.offset := by
  have h7 := congrArg buf_page_t.space h
  have h8 := congrArg buf_page_t.offset h
  simp only at h7 h8
  exact ⟨h7, h8⟩

theorem clean_of_plain (a : buf_page_t) (offset : Nat)
    (h : { a with old := false, freed_page_clock := 0 } = plain_page offset) :
    clean_page a ∧ a.space = 0 ∧ a.offset = offset := by
  have h1 := congrArg buf_page_t.state h
  have h2 := congrArg buf_page_t.zip_data h
  have h3 := congrArg buf_page_t.oldest_modification h
  have h4 := congrArg buf_page_t.io_fix h
  have h5 := congrArg buf_page_t.buf_fix_count h
  have h6 := congrArg buf_page_t.sticky h
  have h7 := congrArg buf_page_t.space h
  have h8 := congrArg buf_page_t.offset h
  simp only [plain_page] at h1 h2 h3 h4 h5 h6 h7 h8
  exact ⟨⟨h1, h2, h3, h4, h5, h6⟩, h7, h8⟩

theorem fault_finish (c : buf_LRU_consts) (p G : buf_pool_t) (blk offset : Nat) (old : Bool)
    (base : List Nat) (hM : 25 ≤ c.BUF_LRU_OLD_MIN_LEN) (h : fault_inv c p)
    (hnew : (0, offset) ∉ LRU_pages p)
    (hvG : LRU_valid c G) (gl : G.LRU = base) (hsub : base.Sublist p.LRU)
    (gu : G.unzip_LRU = []) (gfl : G.flush_list = []) (gf : G.free = p.free.tail)
    (gh : G.page_hash.Nodup) (ghm : ∀ x, x ∈ G.page_hash ↔ x ∈ base)
    (gb : blk ∉ base) (gb0 : blk ≠ 0) (gbf : blk ∉ p.free.tail)
    (gc : G.curr_size = p.curr_size)
    (gsz : p.free.tail.length + base.length + 1 = p.curr_size)
    (gx : ∀ x, x ≠ blk → { G.blocks x with old := false } = { p.blocks x with old := false }) :
    ∃ q, buf_LRU_add_block c (buf_page_init G 0 offset blk) blk old = some q ∧ fault_inv c q ∧
      q.curr_size = p.curr_size ∧ q.buf_LRU_old_ratio = G.buf_LRU_old_ratio ∧
      q.free = p.free.tail ∧ blk ∈ q.LRU ∧
      (q.blocks blk).space = 0 ∧ (q.blocks blk).offset = offset ∧
      q.LRU.erase blk = base ∧
      (∀ x, x ≠ blk → (q.blocks x).space = (p.blocks x).space ∧
        (q.blocks x).offset = (p.blocks x).offset) ∧
      ((old = false ∨ base.length < c.BUF_LRU_OLD_MIN_LEN) → q.LRU = blk :: base) ∧
      (old = true → c.BUF_LRU_OLD_MIN_LEN ≤ base.length → 2 ≤ G.LRU_old_len →
        q.LRU.getLast? = base.getLast?) := by
  obtain ⟨hv, hu, hfl, hfn, hfr, hcl, hhn, hhm, hpn, hsz, hpos⟩ := h
  obtain ⟨q, hq, hvq, qe, qm, qu, qf, qfl, qh, qc, qr, qb, qx, qhead, qlast⟩ :=
    init_add_spec c G blk offset old hM hvG (by rw [gl]; exact gb)
  rw [gl] at qe qhead qlast
  have hstrip : ∀ x, x ≠ blk →
      { q.blocks x with old := false } = { p.blocks x with old := false } := by
    intro x hx
    rw [qx x hx, gx x hx]
  have hblk := clean_of_plain _ _ qb
  have hmemq : ∀ x, x ∈ q.LRU ↔ x = blk ∨ x ∈ base := by
    intro x
    constructor
    · intro hx
      by_cases e : x = blk
      · exact Or.inl e
      · right
        rw [← qe]
        exact (List.mem_erase_of_ne e).2 hx
    · rintro (e | e)
      · rw [e]; exact qm
      · rw [← qe] at e
        exact List.mem_of_mem_erase e
  have hbase_ne : ∀ x ∈ base, x ≠ blk := fun x hx e => gb (e ▸ hx)
  have hperm : q.LRU.Perm (blk :: base) := by
    rw [← qe]
    exact List.perm_cons_erase qm
  have hpages : (blk :: base).map (fun x => ((q.blocks x).space, (q.blocks x).offset))
      = (0, offset) :: base.map (fun x => ((p.blocks x).space, (p.blocks x).offset)) := by
    simp only [List.map_cons, hblk.2.1, hblk.2.2, List.cons.injEq, true_and]
    apply List.map_congr_left
    intro x hx
    have := clean_of_strip _ _ (hstrip x (hbase_ne x hx)) (hcl x (hsub.subset hx)).2
    rw [this.2.1, this.2.2]
  have hsubp : (base.map (fun x => ((p.blocks x).space, (p.blocks x).offset))).Sublist
      (LRU_pages p) := hsub.map _
  refine ⟨q, hq, ⟨hvq, ?_, ?_, ?_, ?_, ?_, ?_, ?_, ?_, ?_, ?_⟩, ?_, qr, ?_, qm, hblk.2.1,
    hblk.2.2, qe, ?_, qhead, qlast⟩
  · rw [qu, gu]
  · rw [qfl, gfl]
  · rw [qf, gf]
    exact hfn.sublist (List.tail_sublist _)
  · intro x hx
    rw [qf, gf] at hx
    have hxp := hfr x (List.mem_of_mem_tail hx)
    have hxb : x ≠ blk := fun e => gbf (e ▸ hx)
    refine ⟨?_, hxp.2.1, ?_⟩
    · intro hxq
      rcases (hmemq x).1 hxq with e | e
      · exact hxb e
      · exact hxp.1 (hsub.subset e)
    · rw [(strip_old_facts _ _ (hstrip x hxb)).2.2.1]
      exact hxp.2.2
  · intro x hx
    rcases (hmemq x).1 hx with e | e
    · rw [e]
      exact ⟨gb0, hblk.1⟩
    · have hxp := hcl x (hsub.subset e)
      exact ⟨hxp.1, (clean_of_strip _ _ (hstrip x (hbase_ne x e)) hxp.2).1⟩
  · rw [qh]
    apply List.Nodup.append gh (List.nodup_singleton _)
    intro x hx1 hx2
    rw [List.mem_singleton] at hx2
    rw [hx2] at hx1
    exact gb ((ghm blk).1 hx1)
  · intro x
    rw [qh, List.mem_append, List.mem_singleton, ghm x, hmemq x]
    exact Or.comm
  · unfold LRU_pages
    rw [(hperm.map _).nodup_iff, hpages, List.nodup_cons]
    exact ⟨fun hx => hnew (hsubp.subset hx), hpn.sublist hsubp⟩
  · rw [qf, gf, hperm.length_eq, qc, gc, List.length_cons]
    omega
  · rw [qc, gc]
    exact hpos
  · rw [qc, gc]
  · rw [qf, gf]
  · intro x hx
    exact identity_of_strip _ _ (hstrip x hx)

theorem fault_step (c : buf_LRU_consts) (p : buf_pool_t) (offset : Nat) (old : Bool)
    (hM : 25 ≤ c.BUF_LRU_OLD_MIN_LEN) (h : fault_inv c p)
    (hnew : (0, offset) ∉ LRU_pages p) :
    ∃ blk q, fault_in c p offset old = some q ∧ fault_inv c q ∧
      q.curr_size = p.curr_size ∧ q.buf_LRU_old_ratio = p.buf_LRU_old_ratio ∧
      q.free = p.free.tail ∧ blk ∈ q.LRU ∧
      (q.blocks blk).space = 0 ∧ (q.blocks blk).offset = offset ∧
      q.LRU.erase blk = (if p.free = [] then p.LRU.dropLast else p.LRU) ∧
      (∀ x, x ≠ blk → (q.blocks x).space = (p.blocks x).space ∧
        (q.blocks x).offset = (p.blocks x).offset) ∧
      (p.free = [] → p.LRU.getLast? = some blk) ∧
      (p.free ≠ [] →
        ((old = false ∨ p.LRU.length < c.BUF_LRU_OLD_MIN_LEN) → q.LRU = blk :: p.LRU) ∧
        (old = true → c.BUF_LRU_OLD_MIN_LEN ≤ p.LRU.length → 2 ≤ p.LRU_old_len →
          q.LRU.getLast? = p.LRU.getLast?)) := by
  have hinv := h
  obtain ⟨hv, hu, hfl, hfn, hfr, hcl, hhn, hhm, hpn, hsz, hpos⟩ := h
  unfold fault_in
  cases hfree : p.free with
  | cons head rest =>
    obtain ⟨G, hG, g1, g2, g3, g4, g5, g6, g7, g8, g9, g10⟩ :=
      get_block_from_free c p head rest hinv hfree
    have hhead := hfr head (by rw [hfree]; exact List.mem_cons_self _ _)
    have hvG : LRU_valid c G := by
      refine LRU_valid_congr c p G g1 g8 g9 g7 ?_ hv
      intro x hx
      rw [g10 x (fun e => hhead.1 (e ▸ hx))]
    have hnd := hfn
    rw [hfree, List.nodup_cons] at hnd
    obtain ⟨q, hq, hiq, q1, q2, q3, q4, q5, q6, q7, q8, q9, q10⟩ :=
      fault_finish c p G head offset old p.LRU hM hinv hnew hvG g1 (List.Sublist.refl _)
        (by rw [g2, hu]) (by rw [g3, hfl]) (by rw [g4, hfree]; rfl) (by rw [g5]; exact hhn)
        (by intro x; rw [g5]; exact hhm x) hhead.1 hhead.2.1 (by rw [hfree]; exact hnd.1) g6
        (by rw [hfree] at hsz ⊢; simp only [List.tail_cons, List.length_cons] at hsz ⊢; omega)
        (by intro x hx; rw [g10 x hx])
    rw [hfree] at q3
    rw [hG]
    refine ⟨head, q, hq, hiq, q1, by rw [q2, g7], q3, q4, q5, q6, ?_, q8, ?_, ?_⟩
    · simp only [reduceCtorEq, if_false]
      exact q7
    · intro e
      cases e
    · intro _
      exact ⟨q9, fun a b hb2 => q10 a b (by rw [g9]; exact hb2)⟩
  | nil =>
    obtain ⟨t, G, hl, hG, hvG, g1, g2, g3, g4, g5, g6, g7, g10⟩ :=
      get_block_evict c p hM hinv hfree
    have hnd := hv.1
    rw [hl] at hnd
    have htn : t ∉ p.LRU.dropLast :=
      fun hx => (List.nodup_append.1 hnd).2.2 hx (List.mem_singleton_self t)
    have htm : t ∈ p.LRU := by rw [hl]; simp
    have hlen : p.LRU.length = p.LRU.dropLast.length + 1 := by
      conv_lhs => rw [hl]
      simp
    obtain ⟨q, hq, hiq, q1, q2, q3, q4, q5, q6, q7, q8, q9, q10⟩ :=
      fault_finish c p G t offset old p.LRU.dropLast hM hinv hnew hvG g1
        (List.dropLast_sublist _) g2 g3 (by rw [g4, hfree]; rfl)
        (by rw [g5]; exact hhn.erase t)
        (by
          intro x
          rw [g5, hhn.mem_erase_iff, hhm x]
          constructor
          · rintro ⟨hne, hx⟩
            rw [hl] at hx
            rcases List.mem_append.1 hx with e | e
            · exact e
            · exact absurd (List.mem_singleton.1 e) hne
          · intro hx
            exact ⟨fun e => htn (e ▸ hx), (List.dropLast_sublist _).subset hx⟩)
        htn (hcl t htm).1 (by rw [hfree]; simp) g6
        (by rw [hfree] at hsz ⊢; simp only [List.tail_nil, List.length_nil] at hsz ⊢; omega)
        g10
    rw [hfree] at q3
    rw [hG]
    refine ⟨t, q, hq, hiq, q1, by rw [q2, g7], q3, q4, q5, q6, ?_, q8, ?_, ?_⟩
    · simp only [if_true]
      exact q7
    · intro _
      rw [hl]
      simp
    · intro e
      exact absurd rfl e

theorem fault_step_pages (c : buf_LRU_consts) (p : buf_pool_t) (offset : Nat) (old : Bool)
    (hM : 25 ≤ c.BUF_LRU_OLD_MIN_LEN) (h : fault_inv c p)
    (hnew : (0, offset) ∉ LRU_pages p) :
    ∃ q, fault_in c p offset old = some q ∧ fault_inv c q ∧
      q.curr_size = p.curr_size ∧ q.buf_LRU_old_ratio = p.buf_LRU_old_ratio ∧
      q.free = p.free.tail ∧ (0, offset) ∈ LRU_pages q ∧
      (∀ pg ∈ LRU_pages q, pg = (0, offset) ∨ pg ∈ LRU_pages p) ∧
      (p.free = [] → ∀ t, p.LRU.getLast? = some t →
        ((p.blocks t).space, (p.blocks t).offset) ∉ LRU_pages q) ∧
      (p.LRU = [] → ∃ t, q.LRU.getLast? = some t ∧
        (q.blocks t).space = 0 ∧ (q.blocks t).offset = offset) ∧
      (p.free ≠ [] → ∀ t, p.LRU.getLast? = some t →
        (c.BUF_LRU_OLD_MIN_LEN ≤ p.LRU.length → 2 ≤ p.LRU_old_len) →
        q.LRU.getLast? = some t ∧ (q.blocks t).space = (p.blocks t).space ∧
          (q.blocks t).offset = (p.blocks t).offset) := by
  obtain ⟨blk, q, hq, hiq, q1, q2, q3, q4, q5, q6, q7, q8, q9, q10⟩ :=
    fault_step c p offset old hM h hnew
  have hndq : q.LRU.Nodup := hiq.1.1
  have hbn : blk ∉ q.LRU.erase blk := hndq.not_mem_erase
  have hbase : ∀ x ∈ q.LRU.erase blk, x ∈ p.LRU := by
    intro x hx
    rw [q7] at hx
    split_ifs at hx
    · exact (List.dropLast_sublist _).subset hx
    · exact hx
  have hsplit : ∀ pg ∈ LRU_pages q, pg = (0, offset) ∨
      ∃ x ∈ q.LRU.erase blk, ((p.blocks x).space, (p.blocks x).offset) = pg := by
    intro pg hpg
    unfold LRU_pages at hpg
    obtain ⟨x, hx, hxp⟩ := List.mem_map.1 hpg
    by_cases e : x = blk
    · left
      rw [← hxp, e, q5, q6]
    · right
      refine ⟨x, (List.mem_erase_of_ne e).2 hx, ?_⟩
      rw [← hxp, (q8 x e).1, (q8 x e).2]
  refine ⟨q, hq, hiq, q1, q2, q3, ?_, ?_, ?_, ?_, ?_⟩
  · unfold LRU_pages
    exact List.mem_map.2 ⟨blk, q4, by rw [q5, q6]⟩
  · intro pg hpg
    rcases hsplit pg hpg with e | ⟨x, hx, hxp⟩
    · exact Or.inl e
    · right
      unfold LRU_pages
      exact List.mem_map.2 ⟨x, hbase x hx, hxp⟩
  · intro hfree t ht hmem
    have hbt : blk = t := by
      have := q9 hfree
      rw [ht] at this
      exact (Option.some.inj this).symm
    subst hbt
    have htm : blk ∈ p.LRU := List.mem_of_getLast?_eq_some ht
    rcases hsplit _ hmem with e | ⟨x, hx, hxp⟩
    · apply hnew
      rw [← e]
      unfold LRU_pages
      exact List.mem_map.2 ⟨blk, htm, rfl⟩
    · have hxb : x = blk := by
        apply pages_inj p h.2.2.2.2.2.2.2.2.1 x blk (hbase x hx) htm
        simp only [Prod.mk.injEq] at hxp
        exact hxp
      exact hbn (hxb ▸ hx)
  · intro hl
    have hfne : p.free ≠ [] := by
      intro e
      have := h.2.2.2.2.2.2.2.2.2.1
      rw [e, hl] at this
      have hp := h.2.2.2.2.2.2.2.2.2.2
      simp at this
      omega
    have := (q10 hfne).1 (Or.inr (by rw [hl]; exact Nat.lt_of_lt_of_le (by decide) hM))
    rw [hl] at this
    exact ⟨blk, by rw [this]; rfl, q5, q6⟩
  · intro hfne t ht hold
    have htm : t ∈ p.LRU := List.mem_of_getLast?_eq_some ht
    rw [if_neg hfne] at q7
    have hbp : blk ∉ p.LRU := by
      rw [← q7]
      exact hbn
    have htb : t ≠ blk := fun e => hbp (e ▸ htm)
    refine ⟨?_, (q8 t htb).1, (q8 t htb).2⟩
    by_cases hcond : old = false ∨ p.LRU.length < c.BUF_LRU_OLD_MIN_LEN
    · rw [(q10 hfne).1 hcond]
      cases hp : p.LRU with
      | nil => rw [hp] at htm; cases htm
      | cons a l =>
        rw [List.getLast?_cons_cons, ← hp]
        exact ht
    · have ho : old = true := by
        cases old
        · exact absurd (Or.inl rfl) hcond
        · rfl
      have hn : c.BUF_LRU_OLD_MIN_LEN ≤ p.LRU.length := by
        by_contra hlt
        exact hcond (Or.inr (by omega))
      rw [(q10 hfne).2 ho hn (hold hn)]
      exact ht

theorem fault_all_spec (c : buf_LRU_consts) (hM : 25 ≤ c.BUF_LRU_OLD_MIN_LEN) :
    ∀ (pages : List (Nat × Bool)) (p : buf_pool_t), fault_inv c p →
    (pages.map Prod.fst).Nodup → (∀ o ∈ pages.map Prod.fst, (0, o) ∉ LRU_pages p) →
    ∃ q, fault_all c p pages = some q ∧ fault_inv c q ∧
      q.curr_size = p.curr_size ∧ q.buf_LRU_old_ratio = p.buf_LRU_old_ratio ∧
      q.free.length = p.free.length - pages.length ∧
      (∀ pg ∈ LRU_pages q, pg ∈ LRU_pages p ∨ ∃ o ∈ pages.map Prod.fst, pg = (0, o)) ∧
      (pages.length ≤ p.free.length →
        (∀ r, LRU_valid c r → r.buf_LRU_old_ratio = p.buf_LRU_old_ratio →
          c.BUF_LRU_OLD_MIN_LEN ≤ r.LRU.length → 2 ≤ r.LRU_old_len) →
        ∀ o1, (∃ t, p.LRU.getLast? = some t ∧ (p.blocks t).space = 0 ∧
            (p.blocks t).offset = o1) →
          ∃ t, q.LRU.getLast? = some t ∧ (q.blocks t).space = 0 ∧
            (q.blocks t).offset = o1) := by
  intro pages
  induction pages with
  | nil =>
    intro p h _ _
    exact ⟨p, rfl, h, rfl, rfl, rfl, fun pg hpg => Or.inl hpg, fun _ _ _ ht => ht⟩
  | cons a rest ih =>
    intro p h hnd hfresh
    obtain ⟨o, old⟩ := a
    simp only [List.map_cons, List.nodup_cons] at hnd
    obtain ⟨q1, hq1, hi1, c1, r1, f1, m1, s1, _, _, t1⟩ :=
      fault_step_pages c p o old hM h
        (hfresh o (by simp only [List.map_cons]; exact List.mem_cons_self _ _))
    have hfresh1 : ∀ o2 ∈ rest.map Prod.fst, (0, o2) ∉ LRU_pages q1 := by
      intro o2 ho2 hmem
      rcases s1 _ hmem with e | e
      · simp only [Prod.mk.injEq, true_and] at e
        exact hnd.1 (e ▸ ho2)
      · exact hfresh o2 (by simp only [List.map_cons]; exact List.mem_cons_of_mem _ ho2) e
    obtain ⟨q, hq, hi, c2, r2, f2, s2, t2⟩ := ih q1 hi1 hnd.2 hfresh1
    refine ⟨q, ?_, hi, by rw [c2, c1], by rw [r2, r1], ?_, ?_, ?_⟩
    · show (match fault_in c p o old with
        | none => none
        | some q => fault_all c q rest) = some q
      rw [hq1]
      exact hq
    · rw [f2, f1, List.length_tail, List.length_cons]
      omega
    · intro pg hpg
      rcases s2 pg hpg with e | ⟨o2, ho2, e⟩
      · rcases s1 pg e with e2 | e2
        · exact Or.inr ⟨o, by simp only [List.map_cons]; exact List.mem_cons_self _ _, e2⟩
        · exact Or.inl e2
      · exact Or.inr ⟨o2, by simp only [List.map_cons]; exact List.mem_cons_of_mem _ ho2, e⟩
    · intro hlen hbig o1 ⟨t, ht, hs, ho⟩
      simp only [List.length_cons] at hlen
      have hfne : p.free ≠ [] := by
        intro e
        rw [e] at hlen
        simp at hlen
      obtain ⟨g1, g2, g3⟩ := t1 hfne t ht (hbig p h.1 rfl)
      apply t2
      · rw [f1, List.length_tail]
        omega
      · intro r hr hrr
        exact hbig r hr (by rw [hrr, r1])
      · exact ⟨t, g1, by rw [g2, hs], by rw [g3, ho]⟩

theorem frame_pool_inv (c : buf_LRU_consts) (n ratio : Nat) (hM : 25 ≤ c.BUF_LRU_OLD_MIN_LEN)
    (hn : 0 < n) : fault_inv c (frame_pool n ratio) := by
  refine ⟨?_, rfl, rfl, ?_, ?_, ?_, List.nodup_nil, ?_, List.nodup_nil, ?_, hn⟩
  · exact LRU_valid_congr c (empty_pool _ ratio) (frame_pool n ratio) rfl rfl rfl rfl
      (fun _ _ => rfl) (empty_valid c _ ratio hM)
  · exact List.nodup_range' 1 n
  · intro x hx
    have hx2 : x ∈ List.range' 1 n := hx
    rw [List.mem_range'_1] at hx2
    exact ⟨List.not_mem_nil x, by omega, rfl⟩
  · intro x hx
    cases hx
  · intro x
    exact Iff.rfl
  · show (List.range' 1 n).length + 0 = n
    simp

theorem old_len_two (c : buf_LRU_consts) (r : buf_pool_t) (ratio : Nat)
    (h47 : 47 ≤ c.BUF_LRU_OLD_MIN_LEN) (hr : 22 * 1024 ≤ c.BUF_LRU_OLD_MIN_LEN * ratio)
    (hv : LRU_valid c r) (hrr : r.buf_LRU_old_ratio = ratio)
    (hlen : c.BUF_LRU_OLD_MIN_LEN ≤ r.LRU.length) : 2 ≤ r.LRU_old_len := by
  have h1 := (hv.2.2 hlen).1
  rw [hrr] at h1
  have h2 : 22 ≤ r.LRU.length * ratio / 1024 := by
    rw [Nat.le_div_iff_mul_le (by decide)]
    exact Nat.le_trans hr (Nat.mul_le_mul_right _ hlen)
  have h3 : 22 ≤ r.LRU.length - (20 + 5) := by omega
  have h4 : 22 ≤ min (r.LRU.length * ratio / 1024) (r.LRU.length - (20 + 5)) :=
    Nat.le_min.2 ⟨h2, h3⟩
  omega

theorem fault_all_append (c : buf_LRU_consts) : ∀ (a b : List (Nat × Bool)) (p : buf_pool_t),
    fault_all c p (a ++ b) =
      (match fault_all c p a with
       | none => none
       | some q => fault_all c q b) := by
  intro a
  induction a with
  | nil => intro b p; rfl
  | cons x a ih =>
    intro b p
    obtain ⟨o, old⟩ := x
    show (match fault_in c p o old with
      | none => none
      | some q => fault_all c q (a ++ b)) = _
    cases h : fault_in c p o old with
    | none =>
      simp only [fault_all, h]
    | some q =>
      simp only [fault_all, h]
      exact ih b q

theorem first_page_evicted (c : buf_LRU_consts) (n ratio : Nat) (o1 : Nat) (old1 : Bool)
    (rest : List (Nat × Bool)) (h47 : 47 ≤ c.BUF_LRU_OLD_MIN_LEN)
    (hr : 22 * 1024 ≤ c.BUF_LRU_OLD_MIN_LEN * ratio) (hn : 0 < n) (hlen : n ≤ rest.length)
    (hnd : (((o1, old1) :: rest).map Prod.fst).Nodup) :
    ∃ q, fault_all c (frame_pool n ratio) ((o1, old1) :: rest) = some q ∧ fault_inv c q ∧
      q.buf_LRU_old_ratio = ratio ∧ q.LRU.length = n ∧ (0, o1) ∉ LRU_pages q ∧
      ∀ pg ∈ LRU_pages q, ∃ o ∈ ((o1, old1) :: rest).map Prod.fst, pg = (0, o) := by
  have hM : 25 ≤ c.BUF_LRU_OLD_MIN_LEN := by omega
  have h0 := frame_pool_inv c n ratio hM hn
  simp only [List.map_cons, List.nodup_cons] at hnd
  obtain ⟨q1, hq1, hi1, c1, r1, f1, _, s1, _, t1, _⟩ :=
    fault_step_pages c (frame_pool n ratio) o1 old1 hM h0 (by
      show (0, o1) ∉ LRU_pages (frame_pool n ratio)
      simp [LRU_pages, frame_pool, empty_pool])
  have htail := t1 rfl
  have hf1 : q1.free.length = n - 1 := by
    rw [f1, List.length_tail]
    show (List.range' 1 n).length - 1 = n - 1
    simp
  have hr1 : q1.buf_LRU_old_ratio = ratio := r1
  obtain ⟨A, x, B, hsplit, hA⟩ : ∃ A x B, rest = A ++ x :: B ∧ A.length = n - 1 := by
    have hd : rest.drop (n - 1) ≠ [] := by
      intro e
      have := congrArg List.length e
      simp only [List.length_drop, List.length_nil] at this
      omega
    cases hdd : rest.drop (n - 1) with
    | nil => exact absurd hdd hd
    | cons x B =>
      refine ⟨rest.take (n - 1), x, B, ?_, ?_⟩
      · rw [← hdd, List.take_append_drop]
      · rw [List.length_take]
        omega
  obtain ⟨ox, oldx⟩ := x
  have hndr := hnd.2
  rw [hsplit] at hndr
  simp only [List.map_append, List.map_cons] at hndr
  have hndA := (List.nodup_append.1 hndr).1
  have hndxB := (List.nodup_append.1 hndr).2.1
  have hdisj := (List.nodup_append.1 hndr).2.2
  have ho1 : o1 ∉ rest.map Prod.fst := hnd.1
  rw [hsplit] at ho1
  simp only [List.map_append, List.map_cons, List.mem_append, List.mem_cons, not_or] at ho1
  have hpages1 : ∀ pg ∈ LRU_pages q1, pg = (0, o1) := by
    intro pg hpg
    rcases s1 pg hpg with e | e
    · exact e
    · exact absurd e (by simp [LRU_pages, frame_pool, empty_pool])
  obtain ⟨q2, hq2, hi2, c2, r2, f2, s2, t2⟩ := fault_all_spec c hM A q1 hi1 hndA (by
    intro o ho hmem
    have := hpages1 _ hmem
    simp only [Prod.mk.injEq, true_and] at this
    exact ho1.1 (this ▸ ho))
  have htail2 := t2 (by rw [hf1, hA])
    (fun r hv hrr => old_len_two c r ratio h47 hr hv (by rw [hrr, hr1])) o1 htail
  have hfree2 : q2.free = [] := by
    apply List.eq_nil_of_length_eq_zero
    rw [f2, hf1, hA]
    omega
  have hpages2 : ∀ pg ∈ LRU_pages q2, pg = (0, o1) ∨ ∃ o ∈ A.map Prod.fst, pg = (0, o) := by
    intro pg hpg
    rcases s2 pg hpg with e | e
    · exact Or.inl (hpages1 pg e)
    · exact Or.inr e
  simp only [List.nodup_cons] at hndxB
  obtain ⟨q3, hq3, hi3, c3, r3, f3, _, s3, e3, _, _⟩ :=
    fault_step_pages c q2 ox oldx hM hi2 (by
      intro hmem
      rcases hpages2 _ hmem with e | ⟨o, ho, e⟩
      · simp only [Prod.mk.injEq, true_and] at e
        exact ho1.2.1 e.symm
      · simp only [Prod.mk.injEq, true_and] at e
        exact hdisj ho (by rw [← e]; exact List.mem_cons_self _ _))
  obtain ⟨t, ht, hts, hto⟩ := htail2
  have hgone := e3 hfree2 t ht
  rw [hts, hto] at hgone
  have hpages3 : ∀ pg ∈ LRU_pages q3,
      ∃ o ∈ A.map Prod.fst ++ [ox], pg = (0, o) := by
    intro pg hpg
    rcases s3 pg hpg with e | e
    · exact ⟨ox, by simp, e⟩
    · rcases hpages2 pg e with e2 | ⟨o, ho, e2⟩
      · rw [e2] at hpg
        exact absurd hpg hgone
      · exact ⟨o, by simp [ho], e2⟩
  obtain ⟨q4, hq4, hi4, c4, r4, f4, s4, _⟩ := fault_all_spec c hM B q3 hi3 hndxB.2 (by
    intro o ho hmem
    obtain ⟨o2, ho2, e⟩ := hpages3 _ hmem
    simp only [Prod.mk.injEq, true_and] at e
    rcases List.mem_append.1 ho2 with e2 | e2
    · exact hdisj e2 (by rw [← e]; exact List.mem_cons_of_mem _ ho)
    · rw [List.mem_singleton] at e2
      exact hndxB.1 (by rw [← e2, ← e]; exact ho))
  have hfree4 : q4.free.length = 0 := by
    rw [f4, f3, hfree2]
    simp
  refine ⟨q4, ?_, hi4, by rw [r4, r3, r2, hr1], ?_, ?_, ?_⟩
  · show (match fault_in c (frame_pool n ratio) o1 old1 with
      | none => none
      | some q => fault_all c q rest) = some q4
    rw [hq1]
    show fault_all c q1 rest = some q4
    rw [hsplit, fault_all_append, hq2]
    show (match fault_in c q2 ox oldx with
      | none => none
      | some q => fault_all c q B) = some q4
    rw [hq3]
    exact hq4
  · have := hi4.2.2.2.2.2.2.2.2.2.1
    rw [hfree4, c4, c3, c2, c1] at this
    show q4.LRU.length = n
    have hc : (frame_pool n ratio).curr_size = n := rfl
    omega
  · intro hmem
    rcases s4 _ hmem with e | ⟨o, ho, e⟩
    · exact hgone e
    · simp only [Prod.mk.injEq, true_and] at e
      exact ho1.2.2 (e ▸ ho)
  · intro pg hpg
    rw [hsplit]
    rcases s4 pg hpg with e | ⟨o, ho, e⟩
    · obtain ⟨o2, ho2, e2⟩ := hpages3 pg e
      refine ⟨o2, ?_, e2⟩
      rcases List.mem_append.1 ho2 with e3 | e3
      · simp [e3]
      · rw [List.mem_singleton] at e3
        simp [e3]
    · exact ⟨o, by simp [ho], e⟩

theorem scan_pages_offsets (n : Nat) : (scan_pages n).map Prod.fst = List.range' 1001 n := by
  unfold scan_pages
  rw [List.map_map]
  exact List.map_id _

theorem hot_pages_offsets (n : Nat) : (hot_pages n).map Prod.fst = List.range' 1 n := by
  unfold hot_pages
  rw [List.map_map]
  exact List.map_id _

theorem scan_run (c : buf_LRU_consts) (N n ratio : Nat) (hM : 25 ≤ c.BUF_LRU_OLD_MIN_LEN)
    (hn : n ≤ N) (hN : 0 < N) :
    ∃ q, fault_all c (frame_pool N ratio) (scan_pages n) = some q ∧ LRU_valid c q ∧
      q.LRU.length = n ∧ q.buf_LRU_old_ratio = ratio := by
  obtain ⟨q, hq, hi, c1, r1, f1, _, _⟩ :=
    fault_all_spec c hM (scan_pages n) (frame_pool N ratio) (frame_pool_inv c N ratio hM hN)
      (by rw [scan_pages_offsets]; exact List.nodup_range' 1001 n)
      (by intro o _; simp [LRU_pages, frame_pool, empty_pool])
  refine ⟨q, hq, hi.1, ?_, r1⟩
  have h1 := hi.2.2.2.2.2.2.2.2.2.1
  have h2 : (frame_pool N ratio).free.length = N := by
    show (List.range' 1 N).length = N
    simp
  have h3 : (scan_pages n).length = n := by
    unfold scan_pages
    simp
  have h4 : (frame_pool N ratio).curr_size = N := rfl
  rw [f1, h2, h3, c1, h4] at h1
  omega

/-- C32, failing inputs: the scenario as stated, an empty pool of 1000
frames with ratio 384 into which the 500 pages `P1 .. P500` are faulted
with `old = TRUE`. With `BUF_LRU_OLD_MIN_LEN = 80` the run ends with 500
blocks in the LRU list and `LRU_old_len <= 207`, which is not within 20 of
375; with the plugin's `BUF_LRU_OLD_MIN_LEN = 512` the old sublist is not
defined at all, `LRU_old = NULL` and `LRU_old_len = 0`. -/
theorem scan_old_len_counterexample :
    (∃ q, fault_all scan_consts (frame_pool 1000 384) (scan_pages 500) = some q ∧
      q.LRU.length = 500 ∧ q.LRU_old_len ≤ 207 ∧ ¬ (375 ≤ q.LRU_old_len + 20)) ∧
    (∃ q, fault_all plugin_consts (frame_pool 1000 384) (scan_pages 500) = some q ∧
      q.LRU.length = 500 ∧ q.LRU_old = none ∧ q.LRU_old_len = 0 ∧
      ¬ (375 ≤ q.LRU_old_len + 20)) := by
  constructor
  · obtain ⟨q, hq, hv, hl, hr⟩ :=
      scan_run scan_consts 1000 500 384 (by decide) (by decide) (by decide)
    have h := (hv.2.2 (by rw [hl]; decide)).2
    rw [hl, hr] at h
    have h2 : min (500 * 384 / 1024) (500 - (20 + 5)) = 187 := by decide
    rw [h2] at h
    exact ⟨q, hq, hl, h, by omega⟩
  · obtain ⟨q, hq, hv, hl, hr⟩ :=
      scan_run plugin_consts 1000 500 384 (by decide) (by decide) (by decide)
    obtain ⟨h1, h2, _⟩ := cleared_of_small plugin_consts q hv (by rw [hl]; decide)
    exact ⟨q, hq, hl, h1, h2, by omega⟩

/-- C32, amended: after `n <= N` distinct pages have been faulted with
`old = TRUE` into an empty pool of `N` frames, the LRU list holds `n`
blocks; if `n < BUF_LRU_OLD_MIN_LEN` the old sublist is not defined
(`LRU_old = NULL`, `LRU_old_len = 0`), otherwise `LRU_old_len` is within
`BUF_LRU_OLD_TOLERANCE = 20` of
`min(n * buf_LRU_old_ratio / 1024, n - 25)`: the target follows the length
of the LRU list (187 for 500 pages at ratio 384), not the size of the pool;
it is 375 once all 1000 frames are in the list. -/
theorem scan_old_len (c : buf_LRU_consts) (N n ratio : Nat) (hc : consts_ok c)
    (hn : n ≤ N) (hN : 0 < N) :
    ∃ q, fault_all c (frame_pool N ratio) (scan_pages n) = some q ∧ q.LRU.length = n ∧
      (n < c.BUF_LRU_OLD_MIN_LEN → q.LRU_old = none ∧ q.LRU_old_len = 0) ∧
      (c.BUF_LRU_OLD_MIN_LEN ≤ n →
        min (n * ratio / 1024) (n - 25) ≤ q.LRU_old_len + BUF_LRU_OLD_TOLERANCE ∧
        q.LRU_old_len ≤ min (n * ratio / 1024) (n - 25) + BUF_LRU_OLD_TOLERANCE) := by
  obtain ⟨q, hq, hv, hl, hr⟩ := scan_run c N n ratio (M_of_consts c hc) hn hN
  refine ⟨q, hq, hl, ?_, ?_⟩
  · intro hlt
    obtain ⟨h1, h2, _⟩ := cleared_of_small c q hv (by rw [hl]; exact hlt)
    exact ⟨h1, h2⟩
  · intro hge
    have h := hv.2.2 (by rw [hl]; exact hge)
    rw [hl, hr] at h
    exact h

/-- C32, witness: 1000 pages faulted into the pool of 1000 frames at ratio
384 with `BUF_LRU_OLD_MIN_LEN = 80`. -/
theorem scan_old_len_witness :
    ∃ q, fault_all scan_consts (frame_pool 1000 384) (scan_pages 1000) = some q ∧
      q.LRU.length = 1000 ∧
      (1000 < scan_consts.BUF_LRU_OLD_MIN_LEN → q.LRU_old = none ∧ q.LRU_old_len = 0) ∧
      (scan_consts.BUF_LRU_OLD_MIN_LEN ≤ 1000 →
        min (1000 * 384 / 1024) (1000 - 25) ≤ q.LRU_old_len + BUF_LRU_OLD_TOLERANCE ∧
        q.LRU_old_len ≤ min (1000 * 384 / 1024) (1000 - 25) + BUF_LRU_OLD_TOLERANCE) :=
  scan_old_len scan_consts 1000 1000 384 (by decide) (by decide) (by decide)

theorem working_set_pages (n : Nat) :
    hot_pages 20 ++ scan_pages n = (1, false) :: ((hot_pages 20).tail ++ scan_pages n) ∧
    ((hot_pages 20 ++ scan_pages n).map Prod.fst).Nodup ∧
    n + 19 ≤ ((hot_pages 20).tail ++ scan_pages n).length := by
  refine ⟨rfl, ?_, ?_⟩
  · rw [List.map_append, scan_pages_offsets, hot_pages_offsets, List.nodup_append]
    refine ⟨List.nodup_range' 1 20, List.nodup_range' 1001 n, ?_⟩
    intro a h1 h2
    rw [List.mem_range'_1] at h1 h2
    omega
  · rw [List.length_append, List.length_tail]
    unfold hot_pages scan_pages
    simp only [List.length_map, List.length_range']
    omega

theorem working_set_run (c : buf_LRU_consts) (n : Nat) (h80 : c.BUF_LRU_OLD_MIN_LEN = 80)
    (hn : 81 ≤ n) :
    ∃ q, fault_all c (frame_pool 100 384) (hot_pages 20 ++ scan_pages n) = some q ∧
      fault_inv c q ∧ q.LRU.length = 100 ∧ (0, 1) ∉ LRU_pages q ∧
      ∀ pg ∈ LRU_pages q, ∃ o ∈ (hot_pages 20 ++ scan_pages n).map Prod.fst, pg = (0, o) := by
  obtain ⟨e, hnd, hlen⟩ := working_set_pages n
  rw [e] at hnd ⊢
  obtain ⟨q, hq, hi, _, hl, hg, hs⟩ :=
    first_page_evicted c 100 384 1 false ((hot_pages 20).tail ++ scan_pages n)
      (by rw [h80]; decide) (by rw [h80]; decide) (by decide) (by omega) hnd
  exact ⟨q, hq, hi, hl, hg, hs⟩

/-- C33, a failing input: the scenario as stated, a pool of 100 frames with
`BUF_LRU_OLD_MIN_LEN = 80` and ratio 384, `H1 .. H20` (pages 1 .. 20)
inserted with `old = FALSE`, then `Q1 .. Q500` faulted with `old = TRUE`.
At the end the LRU list holds 100 blocks and page `H1` is not among them:
it was at the tail of the list when the free list ran empty, and
`buf_LRU_free_from_common_LRU_list` evicted it. -/
theorem working_set_counterexample :
    ∃ q, fault_all scan_consts (frame_pool 100 384) (hot_pages 20 ++ scan_pages 500) = some q ∧
      q.LRU.length = 100 ∧ (0, 1) ∉ LRU_pages q ∧
      ¬ (∀ pg ∈ hot_pages 20, (0, pg.1) ∈ LRU_pages q) := by
  obtain ⟨q, hq, _, hl, hg, _⟩ := working_set_run scan_consts 500 rfl (by decide)
  exact ⟨q, hq, hl, hg, fun h => hg (h (1, false) (by decide))⟩

/-- C33, amended: in a pool of 100 frames with `BUF_LRU_OLD_MIN_LEN = 80`
and ratio 384, after `H1 .. H20` are inserted with `old = FALSE` and then
`Q1 .. Qn`, `n >= 81`, are each faulted once with `old = TRUE`, none of
them accessed again, every fault succeeds, the LRU list holds 100 blocks,
all of them pages of the run, and `H1` is not in the list: a page that is
not made young again moves to the tail and is evicted, whatever its
placement was. At least `n - 100` of the `Q` pages are not in the list. -/
theorem working_set_not_retained (c : buf_LRU_consts) (n : Nat)
    (h80 : c.BUF_LRU_OLD_MIN_LEN = 80) (hn : 81 ≤ n) :
    ∃ q, fault_all c (frame_pool 100 384) (hot_pages 20 ++ scan_pages n) = some q ∧
      q.LRU.length = 100 ∧ (0, 1) ∉ LRU_pages q ∧
      (∀ pg ∈ LRU_pages q, ∃ o ∈ (hot_pages 20 ++ scan_pages n).map Prod.fst, pg = (0, o)) ∧
      n - 100 ≤ ((scan_pages n).filter
        (fun pg => decide ((0, pg.1) ∉ LRU_pages q))).length := by
  obtain ⟨q, hq, hi, hl, hg, hs⟩ := working_set_run c n h80 hn
  refine ⟨q, hq, hl, hg, hs, ?_⟩
  have hpn : (LRU_pages q).Nodup := hi.2.2.2.2.2.2.2.2.1
  have hpl : (LRU_pages q).length = 100 := by
    unfold LRU_pages
    rw [List.length_map, hl]
  have hin : (((scan_pages n).filter (fun pg => decide ((0, pg.1) ∈ LRU_pages q))).map
      (fun pg => ((0 : Nat), pg.1))).length ≤ (LRU_pages q).length := by
    apply List.Subperm.length_le
    apply List.subperm_of_subset
    · apply List.Nodup.map_on
      · intro x hx y hy he
        simp only [Prod.mk.injEq, true_and] at he
        have hx2 := (List.mem_filter.1 hx).1
        have hy2 := (List.mem_filter.1 hy).1
        unfold scan_pages at hx2 hy2
        obtain ⟨a, _, ha⟩ := List.mem_map.1 hx2
        obtain ⟨b, _, hb⟩ := List.mem_map.1 hy2
        rw [← ha, ← hb] at he ⊢
        simp only at he
        rw [he]
      · apply List.Nodup.filter
        have := List.nodup_range' 1001 n
        rw [← scan_pages_offsets] at this
        exact List.Nodup.of_map _ this
    · intro pg hpg
      obtain ⟨x, hx, e⟩ := List.mem_map.1 hpg
      rw [← e]
      simpa using (List.mem_filter.1 hx).2
  rw [List.length_map, hpl] at hin
  have hsum := List.length_eq_countP_add_countP (fun pg => decide ((0, pg.1) ∈ LRU_pages q))
    (scan_pages n)
  rw [List.countP_eq_length_filter, List.countP_eq_length_filter] at hsum
  have hlen : (scan_pages n).length = n := by
    unfold scan_pages
    simp
  have hf : (scan_pages n).filter (fun pg => decide ((0, pg.1) ∉ LRU_pages q))
      = (scan_pages n).filter (fun a => decide ¬ (decide ((0, a.1) ∈ LRU_pages q)) = true) := by
    congr 1
    funext a
    simp
  rw [hf]
  omega

/-- C33, witness: the scenario with the 500 pages `Q1 .. Q500`. -/
theorem working_set_not_retained_witness :
    ∃ q, fault_all scan_consts (frame_pool 100 384) (hot_pages 20 ++ scan_pages 500) = some q ∧
      q.LRU.length = 100 ∧ (0, 1) ∉ LRU_pages q ∧
      (∀ pg ∈ LRU_pages q, ∃ o ∈ (hot_pages 20 ++ scan_pages 500).map Prod.fst, pg = (0, o)) ∧
      500 - 100 ≤ ((scan_pages 500).filter
        (fun pg => decide ((0, pg.1) ∉ LRU_pages q))).length :=
  working_set_not_retained scan_consts 500 rfl (by decide)

theorem find_erase (f : Nat → Bool) (x b : Nat) (hne : b ≠ x) : ∀ (l : List Nat),
    l.find? f = some x → (l.erase b).find? f = some x := by
  intro l
  induction l with
  | nil => intro h; cases h
  | cons a t ih =>
    intro h
    by_cases hab : a = b
    · subst hab
      rw [List.erase_cons_head]
      by_cases hfa : f a = true
      · simp only [List.find?, hfa, Option.some.injEq] at h
        exact absurd h hne
      · simp only [List.find?, hfa] at h
        exact h
    · rw [List.erase_cons_tail (by simpa using hab)]
      by_cases hfa : f a = true
      · simp only [List.find?, hfa] at h ⊢
        exact h
      · simp only [List.find?, hfa] at h ⊢
        exact ih h

theorem freeable_transfer (p q : buf_pool_t) (x : Nat) (hpf : page_freeable p x)
    (hx : x ∈ q.LRU)
    (hh : q.page_hash = p.page_hash ∨ ∃ b, b ≠ x ∧ q.page_hash = p.page_hash.erase b)
    (hid : ∀ y, (q.blocks y).space = (p.blocks y).space ∧
      (q.blocks y).offset = (p.blocks y).offset)
    (hin : buf_page_in_file (q.blocks x) = true)
    (h5 : (q.blocks x).state = .BUF_BLOCK_ZIP_DIRTY → (q.blocks x).oldest_modification ≠ 0)
    (h6 : (q.blocks x).state ≠ .BUF_BLOCK_FILE_PAGE →
      (q.blocks x).zip_data.isSome = true ∧ (q.blocks x).zip_size ≠ 0)
    (h7 : (q.blocks x).state = .BUF_BLOCK_FILE_PAGE → (q.blocks x).zip_data.isSome = true →
      (q.blocks x).frame_type ≠ .FIL_PAGE_TYPE_OTHER) :
    page_freeable q x := by
  obtain ⟨_, _, p3, p4, _, _, _⟩ := hpf
  refine ⟨hx, hin, ?_, ?_, h5, h6, h7⟩
  · unfold buf_page_hash_get at p3 ⊢
    have hf : (fun y => decide ((q.blocks y).space = (q.blocks x).space) &&
        decide ((q.blocks y).offset = (q.blocks x).offset))
        = (fun y => decide ((p.blocks y).space = (p.blocks x).space) &&
        decide ((p.blocks y).offset = (p.blocks x).offset)) := by
      funext y
      rw [(hid y).1, (hid y).2, (hid x).1, (hid x).2]
    rw [hf]
    rcases hh with e | ⟨b, hb, e⟩
    · rw [e]
      exact p3
    · rw [e]
      exact find_erase _ x b hb _ p3
  · intro y hy hsame
    have hy2 : y ∈ p.page_hash.erase x := by
      rcases hh with e | ⟨b, _, e⟩
      · rw [e] at hy
        exact hy
      · rw [e, List.erase_comm] at hy
        exact List.mem_of_mem_erase hy
    apply p4 y hy2
    unfold same_page at hsame ⊢
    rw [← (hid y).1, ← (hid y).2, ← (hid x).1, ← (hid x).2]
    exact hsame

theorem remove_loop_drop (c : buf_LRU_consts) (id : Nat) (fuel : Nat) (bpage : Nat)
    (p p1 q : buf_pool_t) (af : Bool)
    (hin : buf_page_in_file (p.blocks bpage) = true)
    (hd : droppable id (p.blocks bpage) = true)
    (hahi : (p.blocks bpage).index = false)
    (h1 : (if (p.blocks bpage).oldest_modification ≠ 0 then buf_flush_remove p bpage
      else some p) = some p1)
    (h2 : buf_LRU_free_one_page c p1 bpage = some q) :
    remove_all_pages_loop c id (fuel + 1) (some bpage) p af
      = remove_all_pages_loop c id fuel (UT_LIST_GET_PREV p.LRU bpage) q af := by
  unfold droppable at hd
  simp only [Bool.and_eq_true, decide_eq_true_eq] at hd
  obtain ⟨⟨hs, hio⟩, hfix⟩ := hd
  conv_lhs => unfold remove_all_pages_loop
  simp only [hin, if_true, hs, ne_eq, not_true_eq_false, if_false, hio, hfix, gt_iff_lt,
    Nat.lt_irrefl, hahi, Bool.false_eq_true, and_false]
  simp only [ne_eq] at h1
  rw [h1]
  simp only
  unfold buf_LRU_free_one_page at h2
  cases hr : buf_LRU_block_remove_hashed_page c p1 bpage true with
  | none =>
    rw [hr] at h2
    cases h2
  | some r =>
    obtain ⟨st, p2⟩ := r
    rw [hr] at h2
    cases st <;> simp only at h2 ⊢
    all_goals first
      | (rw [Option.some.injEq] at h2; rw [h2])
      | (rw [h2])

theorem file_states (bp : buf_page_t) (h : buf_page_in_file bp = true) :
    bp.state = .BUF_BLOCK_ZIP_PAGE ∨ bp.state = .BUF_BLOCK_ZIP_DIRTY ∨
      bp.state = .BUF_BLOCK_FILE_PAGE := by
  unfold buf_page_in_file at h
  cases hs : bp.state <;> rw [hs] at h <;> simp at h ⊢

theorem flush_remove_part (c : buf_LRU_consts) (q : buf_pool_t) (bpage : Nat)
    (hok : discard_ok c q) (hmem : bpage ∈ q.LRU) :
    ∃ p1, (if (q.blocks bpage).oldest_modification ≠ 0 then buf_flush_remove q bpage
        else some q) = some p1 ∧
      p1.LRU = q.LRU ∧ p1.page_hash = q.page_hash ∧
      p1.flush_list = q.flush_list.erase bpage ∧ p1.LRU_old = q.LRU_old ∧
      p1.LRU_old_len = q.LRU_old_len ∧ p1.buf_LRU_old_ratio = q.buf_LRU_old_ratio ∧
      (∀ x, x ≠ bpage → p1.blocks x = q.blocks x) ∧
      p1.blocks bpage = { q.blocks bpage with
        state := (if (q.blocks bpage).state = .BUF_BLOCK_ZIP_DIRTY then .BUF_BLOCK_ZIP_PAGE
          else (q.blocks bpage).state),
        oldest_modification := 0 } := by
  obtain ⟨_, hpf, _, hfl, hzp, _⟩ := hok
  have hpfb := hpf bpage hmem
  by_cases hom : (q.blocks bpage).oldest_modification = 0
  · refine ⟨q, by simp [hom], rfl, rfl, ?_, rfl, rfl, rfl, fun _ _ => rfl, ?_⟩
    · rw [List.erase_of_not_mem]
      intro hx
      exact (hfl bpage hx).2 hom
    · have hnd : (q.blocks bpage).state ≠ .BUF_BLOCK_ZIP_DIRTY :=
        fun e => hpfb.2.2.2.2.1 e hom
      rw [if_neg hnd]
      conv_lhs => rw [show q.blocks bpage = { q.blocks bpage with
        oldest_modification := (q.blocks bpage).oldest_modification } from rfl]
      rw [hom]
  · have hstates := file_states _ hpfb.2.1
    rw [if_pos hom]
    unfold buf_flush_remove
    rcases hstates with e | e | e
    · exact absurd (hzp bpage hmem e) hom
    · simp only [e, if_true]
      refine ⟨_, rfl, rfl, rfl, rfl, rfl, rfl, rfl, ?_, ?_⟩
      · intro x hx
        simp only [set_block, Function.update_noteq hx]
      · simp only [set_block, Function.update_same]
    · simp only [e]
      refine ⟨_, rfl, rfl, rfl, rfl, rfl, rfl, rfl, ?_, ?_⟩
      · intro x hx
        simp only [set_block, Function.update_noteq hx]
      · simp only [set_block, Function.update_same, reduceCtorEq, if_false]

theorem page_fields_of_strip (a b : buf_page_t)
    (h : { a with old := false } = { b with old := false }) :
    a.state = b.state ∧ a.oldest_modification = b.oldest_modification ∧
    a.zip_data = b.zip_data ∧ a.zip_size = b.zip_size ∧ a.frame_type = b.frame_type ∧
    a.space = b.space ∧ a.offset = b.offset ∧ a.io_fix = b.io_fix ∧
    a.buf_fix_count = b.buf_fix_count ∧ a.index = b.index := by
  have h1 := congrArg buf_page_t.state h
  have h2 := congrArg buf_page_t.oldest_modification h
  have h3 := congrArg buf_page_t.zip_data h
  have h4 := congrArg buf_page_t.zip_size h
  have h5 := congrArg buf_page_t.frame_type h
  have h6 := congrArg buf_page_t.space h
  have h7 := congrArg buf_page_t.offset h
  have h8 := congrArg buf_page_t.io_fix h
  have h9 := congrArg buf_page_t.buf_fix_count h
  have h10 := congrArg buf_page_t.index h
  simp only at h1 h2 h3 h4 h5 h6 h7 h8 h9 h10
  exact ⟨h1, h2, h3, h4, h5, h6, h7, h8, h9, h10⟩

theorem flush_remove_free (q p1 : buf_pool_t) (bpage : Nat)
    (h : (if (q.blocks bpage).oldest_modification ≠ 0 then buf_flush_remove q bpage
        else some q) = some p1) : p1.free = q.free := by
  split_ifs at h with h0
  · unfold buf_flush_remove at h
    cases hs : (q.blocks bpage).state <;> simp only [hs] at h <;> cases h <;> rfl
  · simp only [Option.some.injEq] at h
    rw [← h]

theorem discard_step (c : buf_LRU_consts) (id : Nat) (q : buf_pool_t) (A B : List Nat)
    (bpage : Nat) (hM : 25 ≤ c.BUF_LRU_OLD_MIN_LEN) (hok : discard_ok c q)
    (hl : q.LRU = A ++ bpage :: B) (hd : droppable id (q.blocks bpage) = true)
    (hahi : (q.blocks bpage).index = false) (fuel : Nat) (af : Bool) :
    ∃ q3, remove_all_pages_loop c id (fuel + 1) (some bpage) q af
        = remove_all_pages_loop c id fuel (UT_LIST_GET_PREV q.LRU bpage) q3 af ∧
      discard_ok c q3 ∧ q3.LRU = A ++ B ∧
      (∀ x, x ∈ q3.page_hash ↔ x ∈ q.page_hash ∧ x ≠ bpage) ∧
      (∀ x, x ∈ q3.flush_list ↔ x ∈ q.flush_list ∧ x ≠ bpage) ∧
      (∀ x, x ≠ bpage → { q3.blocks x with old := false } = { q.blocks x with old := false }) ∧
      (∀ x ∈ q3.free, x ∈ q.free ∨ x = bpage) ∧
      (q3.blocks bpage).oldest_modification = 0 := by
  have hmem : bpage ∈ q.LRU := by rw [hl]; simp
  obtain ⟨p1, hp1, e1, e2, e3, e4, e5, e6, e7, e8⟩ := flush_remove_part c q bpage hok hmem
  have hfree1 := flush_remove_free q p1 bpage hp1
  obtain ⟨hv, hpf, hfn, hfl, hzp, hhl⟩ := hok
  have hpfb := hpf bpage hmem
  have hd2 := hd
  unfold droppable at hd2
  simp only [Bool.and_eq_true, decide_eq_true_eq] at hd2
  obtain ⟨⟨hs, hio⟩, hfix⟩ := hd2
  have hid1 : ∀ y, (p1.blocks y).space = (q.blocks y).space ∧
      (p1.blocks y).offset = (q.blocks y).offset := by
    intro y
    by_cases hy : y = bpage
    · rw [hy, e8]
      exact ⟨rfl, rfl⟩
    · rw [e7 y hy]
      exact ⟨rfl, rfl⟩
  have hv1 : LRU_valid c p1 := by
    refine LRU_valid_congr c q p1 e1 e4 e5 e6 ?_ hv
    intro x _
    by_cases hx : x = bpage
    · rw [hx, e8]
    · rw [e7 x hx]
  have hst1 : (p1.blocks bpage).state = (if (q.blocks bpage).state = .BUF_BLOCK_ZIP_DIRTY
      then .BUF_BLOCK_ZIP_PAGE else (q.blocks bpage).state) := by rw [e8]
  have hz1 : (p1.blocks bpage).zip_data = (q.blocks bpage).zip_data := by rw [e8]
  have hzs1 : (p1.blocks bpage).zip_size = (q.blocks bpage).zip_size := by rw [e8]
  have hft1 : (p1.blocks bpage).frame_type = (q.blocks bpage).frame_type := by rw [e8]
  have hom1 : (p1.blocks bpage).oldest_modification = 0 := by rw [e8]
  have hio1 : (p1.blocks bpage).io_fix = .BUF_IO_NONE := by rw [e8]; exact hio
  have hfix1 : (p1.blocks bpage).buf_fix_count = 0 := by rw [e8]; exact hfix
  have hstates := file_states _ hpfb.2.1
  have hpf1 : page_freeable p1 bpage := by
    refine freeable_transfer q p1 bpage hpfb (by rw [e1]; exact hmem) (Or.inl e2) hid1 ?_ ?_ ?_ ?_
    · unfold buf_page_in_file
      rw [hst1]
      rcases hstates with e | e | e <;> simp [e]
    · intro h
      rw [hst1] at h
      rcases hstates with e | e | e <;> simp [e] at h
    · intro h
      rw [hz1, hzs1]
      apply hpfb.2.2.2.2.2.1
      intro e
      apply h
      rw [hst1, e]
      simp
    · intro h hz
      rw [hft1]
      rw [hz1] at hz
      apply hpfb.2.2.2.2.2.2 _ hz
      rw [hst1] at h
      rcases hstates with e | e | e <;> simp [e] at h ⊢
  obtain ⟨q3, hq3, hv3, hl3, _, gfree, g5, g6, _, g8, g9⟩ :=
    free_one_page_facts c p1 A B bpage hM hv1 (by rw [e1]; exact hl) hpf1 hio1 hfix1 hom1
  have hnd := hv.1
  rw [hl] at hnd
  obtain ⟨_, hbA, hbB⟩ := nodup_remove_middle A B bpage hnd
  have hbAB : bpage ∉ A ++ B := by
    intro h
    rcases List.mem_append.1 h with e | e
    · exact hbA e
    · exact hbB e
  have hmemq : ∀ x, x ∈ A ++ B → x ∈ q.LRU ∧ x ≠ bpage := by
    intro x hx
    refine ⟨?_, fun e => hbAB (e ▸ hx)⟩
    rw [hl]
    rcases List.mem_append.1 hx with e | e
    · simp [e]
    · simp [e]
  have hstrip : ∀ x, x ≠ bpage →
      { q3.blocks x with old := false } = { q.blocks x with old := false } := by
    intro x hx
    rw [g9 x hx, e7 x hx]
  have hbonce : bpage ∉ q.page_hash.erase bpage := by
    intro h
    exact hpfb.2.2.2.1 bpage h ⟨rfl, rfl⟩
  have hhash : ∀ x, x ∈ q3.page_hash ↔ x ∈ q.page_hash ∧ x ≠ bpage := by
    intro x
    rw [g6, e2]
    constructor
    · intro h
      exact ⟨List.mem_of_mem_erase h, fun e => hbonce (e ▸ h)⟩
    · rintro ⟨h, hne⟩
      exact (List.mem_erase_of_ne hne).2 h
  have hflush : ∀ x, x ∈ q3.flush_list ↔ x ∈ q.flush_list ∧ x ≠ bpage := by
    intro x
    rw [g5, e3, hfn.mem_erase_iff]
    exact And.comm
  have hid3 : ∀ y, (q3.blocks y).space = (q.blocks y).space ∧
      (q3.blocks y).offset = (q.blocks y).offset := by
    intro y
    by_cases hy : y = bpage
    · rw [hy, g8, ← (hid1 bpage).1, ← (hid1 bpage).2]
      unfold page_after_free page_after_remove
      split_ifs <;> exact ⟨rfl, rfl⟩
    · have := page_fields_of_strip _ _ (hstrip y hy)
      exact ⟨this.2.2.2.2.2.1, this.2.2.2.2.2.2.1⟩
  refine ⟨q3, remove_loop_drop c id fuel bpage q p1 q3 af hpfb.2.1 hd hahi hp1 hq3,
    ⟨hv3, ?_, ?_, ?_, ?_, ?_⟩, hl3, hhash, hflush, hstrip, ?_, ?_⟩
  · intro x hx
    rw [hl3] at hx
    obtain ⟨hxq, hxne⟩ := hmemq x hx
    have hf := page_fields_of_strip _ _ (hstrip x hxne)
    have hpx := hpf x hxq
    refine freeable_transfer q q3 x hpx (by rw [hl3]; exact hx)
      (Or.inr ⟨bpage, fun e => hxne e.symm, by rw [g6, e2]⟩) hid3 ?_ ?_ ?_ ?_
    · unfold buf_page_in_file
      rw [hf.1]
      exact hpx.2.1
    · rw [hf.1, hf.2.1]
      exact hpx.2.2.2.2.1
    · rw [hf.1, hf.2.2.1, hf.2.2.2.1]
      exact hpx.2.2.2.2.2.1
    · rw [hf.1, hf.2.2.1, hf.2.2.2.2.1]
      exact hpx.2.2.2.2.2.2
  · rw [g5, e3]
    exact hfn.erase bpage
  · intro x hx
    obtain ⟨hxf, hxne⟩ := (hflush x).1 hx
    have hxq := hfl x hxf
    refine ⟨?_, ?_⟩
    · rw [hl3]
      have := hxq.1
      rw [hl] at this
      rcases List.mem_append.1 this with e | e
      · exact List.mem_append_left _ e
      · rcases List.mem_cons.1 e with e2 | e2
        · exact absurd e2 hxne
        · exact List.mem_append_right _ e2
    · rw [(page_fields_of_strip _ _ (hstrip x hxne)).2.1]
      exact hxq.2
  · intro x hx
    rw [hl3] at hx
    obtain ⟨hxq, hxne⟩ := hmemq x hx
    have hf := page_fields_of_strip _ _ (hstrip x hxne)
    rw [hf.1, hf.2.1]
    exact hzp x hxq
  · intro x hx
    obtain ⟨hxh, hxne⟩ := (hhash x).1 hx
    have := hhl x hxh
    rw [hl3]
    rw [hl] at this
    rcases List.mem_append.1 this with e | e
    · exact List.mem_append_left _ e
    · rcases List.mem_cons.1 e with e2 | e2
      · exact absurd e2 hxne
      · exact List.mem_append_right _ e2
  · intro x hx
    rw [gfree, hfree1] at hx
    split_ifs at hx
    · exact Or.inl hx
    · rcases List.mem_cons.1 hx with e | e
      · exact Or.inr e
      · exact Or.inl e
  · refine Eq.trans ?_ hom1
    rw [g8]
    unfold page_after_free page_after_remove
    split_ifs <;> rfl

theorem droppable_of_strip (id : Nat) (a b : buf_page_t)
    (h : { a with old := false } = { b with old := false }) :
    droppable id a = droppable id b ∧ a.space = b.space ∧ a.index = b.index := by
  have hf := page_fields_of_strip a b h
  unfold droppable
  refine ⟨?_, hf.2.2.2.2.2.1, hf.2.2.2.2.2.2.2.2.2⟩
  rw [hf.2.2.2.2.2.1, hf.2.2.2.2.2.2.2.1, hf.2.2.2.2.2.2.2.2.1]

theorem remove_loop_skip (c : buf_LRU_consts) (id : Nat) (fuel : Nat) (bpage : Nat)
    (p : buf_pool_t) (af : Bool) (hin : buf_page_in_file (p.blocks bpage) = true)
    (hd : droppable id (p.blocks bpage) = false) :
    remove_all_pages_loop c id (fuel + 1) (some bpage) p af
      = remove_all_pages_loop c id fuel (UT_LIST_GET_PREV p.LRU bpage) p
          (af && decide ((p.blocks bpage).space ≠ id)) := by
  conv_lhs => unfold remove_all_pages_loop
  simp only [hin, if_true]
  by_cases hs : (p.blocks bpage).space = id
  · simp only [hs, ne_eq, not_true_eq_false, if_false, decide_False, Bool.and_false]
    unfold droppable at hd
    by_cases hio : (p.blocks bpage).io_fix = .BUF_IO_NONE
    · have hfix : (p.blocks bpage).buf_fix_count ≠ 0 := by
        intro e
        simp [hs, hio, e] at hd
      have hpos : (p.blocks bpage).buf_fix_count > 0 := Nat.pos_of_ne_zero hfix
      simp only [hio, not_true_eq_false, if_false, hpos, if_true]
    · simp only [hio, not_false_eq_true, if_true]
  · simp only [ne_eq, hs, not_false_eq_true, if_true, decide_True, Bool.and_true]

theorem remove_loop_spec (c : buf_LRU_consts) (id : Nat) (hM : 25 ≤ c.BUF_LRU_OLD_MIN_LEN)
    (fuel : Nat) :
    ∀ (pre kept : List Nat) (q : buf_pool_t) (af : Bool),
      q.LRU = pre ++ kept → discard_ok c q → pre.length ≤ fuel →
      (∀ x ∈ pre, (q.blocks x).space = id → (q.blocks x).index = false) →
      ∃ af2 q2, remove_all_pages_loop c id fuel pre.getLast? q af = some (.done af2, q2) ∧
        discard_ok c q2 ∧
        q2.LRU = pre.filter (fun x => !droppable id (q.blocks x)) ++ kept ∧
        af2 = (af && pre.all (fun x =>
          decide ((q.blocks x).space ≠ id) || droppable id (q.blocks x))) ∧
        (∀ x, x ∈ q2.page_hash ↔
          x ∈ q.page_hash ∧ ¬ (x ∈ pre ∧ droppable id (q.blocks x) = true)) ∧
        (∀ x, x ∈ q2.flush_list ↔
          x ∈ q.flush_list ∧ ¬ (x ∈ pre ∧ droppable id (q.blocks x) = true)) ∧
        (∀ x, ¬ (x ∈ pre ∧ droppable id (q.blocks x) = true) →
          { q2.blocks x with old := false } = { q.blocks x with old := false }) ∧
        (∀ x ∈ q2.free, x ∈ q.free ∨ (x ∈ pre ∧ droppable id (q.blocks x) = true ∧
          (q2.blocks x).oldest_modification = 0)) := by
  induction fuel with
  | zero =>
    intro pre kept q af hl hok hlen _
    have : pre = [] := List.length_eq_zero.mp (by omega)
    subst this
    refine ⟨af, q, ?_, hok, by simpa using hl, by simp, by simp, by simp, fun _ _ => rfl,
      fun _ hx => Or.inl hx⟩
    simp [remove_all_pages_loop]
  | succ fuel ih =>
    intro pre kept q af hl hok hlen hahi
    rcases List.eq_nil_or_concat pre with hp | ⟨pre0, bpage, hp⟩
    · subst hp
      refine ⟨af, q, ?_, hok, by simpa using hl, by simp, by simp, by simp, fun _ _ => rfl,
      fun _ hx => Or.inl hx⟩
      simp [remove_all_pages_loop]
    · rw [List.concat_eq_append] at hp
      subst hp
      have hl2 : q.LRU = pre0 ++ bpage :: kept := by
        rw [hl]
        simp
      have hnd2 : (pre0 ++ bpage :: kept).Nodup := hl2 ▸ hok.1.1
      obtain ⟨_, hb0, _⟩ := nodup_remove_middle pre0 kept bpage hnd2
      have hmem : bpage ∈ q.LRU := by rw [hl2]; simp
      have hinf : buf_page_in_file (q.blocks bpage) = true := (hok.2.1 bpage hmem).2.1
      have hprev : UT_LIST_GET_PREV q.LRU bpage = pre0.getLast? := by
        rw [hl2, prev_of_split _ _ _ hb0]
      rw [List.getLast?_concat]
      by_cases hd : droppable id (q.blocks bpage) = true
      · have hsp : (q.blocks bpage).space = id := by
          unfold droppable at hd
          simp only [Bool.and_eq_true, decide_eq_true_eq] at hd
          exact hd.1.1
        obtain ⟨q3, hq3, hok3, hl3, hh3, hf3, hs3, hfree3, hom3⟩ :=
          discard_step c id q pre0 kept bpage hM hok hl2 hd (hahi bpage (by simp) hsp) fuel af
        have hconv : ∀ x ∈ pre0, droppable id (q3.blocks x) = droppable id (q.blocks x) ∧
            (q3.blocks x).space = (q.blocks x).space ∧
            (q3.blocks x).index = (q.blocks x).index := by
          intro x hx
          exact droppable_of_strip id _ _ (hs3 x (fun e => hb0 (e ▸ hx)))
        obtain ⟨af2, q2, hq2, hok2, k1, k2, k3, k4, k5, k6⟩ :=
          ih pre0 kept q3 af hl3 hok3 (by simp at hlen; omega) (by
            intro x hx h1
            rw [(hconv x hx).2.2]
            rw [(hconv x hx).2.1] at h1
            exact hahi x (by simp [hx]) h1)
        have hfilt : pre0.filter (fun x => !droppable id (q3.blocks x))
            = pre0.filter (fun x => !droppable id (q.blocks x)) := by
          apply List.filter_congr
          intro x hx
          rw [(hconv x hx).1]
        have hall : pre0.all (fun x =>
            decide ((q3.blocks x).space ≠ id) || droppable id (q3.blocks x))
            = pre0.all (fun x =>
              decide ((q.blocks x).space ≠ id) || droppable id (q.blocks x)) := by
          apply all_congr_mem
          intro x hx
          rw [(hconv x hx).1, (hconv x hx).2.1]
        have hiff : ∀ x, (x ∈ pre0 ∧ droppable id (q3.blocks x) = true) ↔
            (x ∈ pre0 ∧ droppable id (q.blocks x) = true) := by
          intro x
          constructor
          · rintro ⟨h1, h2⟩
            exact ⟨h1, by rw [← (hconv x h1).1]; exact h2⟩
          · rintro ⟨h1, h2⟩
            exact ⟨h1, by rw [(hconv x h1).1]; exact h2⟩
        have hsplit : ∀ x, (x ∈ pre0 ++ [bpage] ∧ droppable id (q.blocks x) = true) ↔
            (x = bpage ∨ (x ∈ pre0 ∧ droppable id (q.blocks x) = true)) := by
          intro x
          constructor
          · rintro ⟨h1, h2⟩
            rcases List.mem_append.1 h1 with e | e
            · exact Or.inr ⟨e, h2⟩
            · exact Or.inl (List.mem_singleton.1 e)
          · rintro (e | ⟨h1, h2⟩)
            · rw [e]
              exact ⟨by simp, hd⟩
            · exact ⟨by simp [h1], h2⟩
        refine ⟨af2, q2, ?_, hok2, ?_, ?_, ?_, ?_, ?_, ?_⟩
        · rw [hq3, hprev]
          exact hq2
        · rw [k1, hfilt, List.filter_append]
          simp [hd]
        · rw [k2, hall, List.all_append]
          simp [hd]
        · intro x
          rw [k3 x, hh3 x, hiff x, hsplit x]
          tauto
        · intro x
          rw [k4 x, hf3 x, hiff x, hsplit x]
          tauto
        · intro x hx
          rw [hsplit x] at hx
          have hxb : x ≠ bpage := fun e => hx (Or.inl e)
          rw [k5 x (by rw [hiff x]; exact fun h => hx (Or.inr h)), hs3 x hxb]
        · intro x hx
          rcases k6 x hx with h | ⟨h1, h2, h3⟩
          · rcases hfree3 x h with e | e
            · exact Or.inl e
            · refine Or.inr ⟨by simp [e], by rw [e]; exact hd, ?_⟩
              rw [e, modification_of_strip_old _ _ (k5 bpage (fun h => hb0 h.1))]
              exact hom3
          · exact Or.inr ⟨by simp [h1], by rw [← (hconv x h1).1]; exact h2, h3⟩
      · have hd2 : droppable id (q.blocks bpage) = false := by
          cases h : droppable id (q.blocks bpage)
          · rfl
          · exact absurd h hd
        obtain ⟨af2, q2, hq2, hok2, k1, k2, k3, k4, k5, k6⟩ :=
          ih pre0 (bpage :: kept) q (af && decide ((q.blocks bpage).space ≠ id)) hl2 hok
            (by simp at hlen; omega) (fun x hx => hahi x (by simp [hx]))
        have hsplit : ∀ x, (x ∈ pre0 ++ [bpage] ∧ droppable id (q.blocks x) = true) ↔
            (x ∈ pre0 ∧ droppable id (q.blocks x) = true) := by
          intro x
          constructor
          · rintro ⟨h1, h2⟩
            rcases List.mem_append.1 h1 with e | e
            · exact ⟨e, h2⟩
            · rw [List.mem_singleton.1 e, hd2] at h2
              cases h2
          · rintro ⟨h1, h2⟩
            exact ⟨by simp [h1], h2⟩
        refine ⟨af2, q2, ?_, hok2, ?_, ?_, ?_, ?_, ?_, ?_⟩
        · rw [remove_loop_skip c id fuel bpage q af hinf hd2, hprev]
          exact hq2
        · rw [k1, List.filter_append]
          simp [hd2]
        · rw [k2, List.all_append]
          simp only [hd2, Bool.or_false, List.all_cons, List.all_nil, Bool.and_true]
          cases af <;> cases decide ((q.blocks bpage).space ≠ id) <;>
            cases (pre0.all fun x =>
              decide ((q.blocks x).space ≠ id) || droppable id (q.blocks x)) <;> rfl
        · intro x
          rw [k3 x, hsplit x]
        · intro x
          rw [k4 x, hsplit x]
        · intro x hx
          rw [hsplit x] at hx
          exact k5 x hx
        · intro x hx
          rcases k6 x hx with h | ⟨h1, h2, h3⟩
          · exact Or.inl h
          · exact Or.inr ⟨by simp [h1], h2, h3⟩

/-- C19: let the pool be in a state in which the LRU list passes
`buf_LRU_validate`, its pages are hashed under their identities, and the
flush list holds dirty pages of the LRU list, and let no page of space `id`
carry an adaptive hash index. Then one pass of `buf_LRU_remove_all_pages`
reaches the head of the list; it removes from the LRU list, the page hash
and the flush list exactly the pages of space `id` that are neither
I/O-fixed nor buffer-fixed, dirty or clean; the other blocks keep their
relative order in the LRU list and everything but their old flags. If no
page of space `id` is I/O-fixed or pinned, the pass ends with `all_freed`
set, the function returns after this one pass, and no page of space `id` is
left in the LRU list, the page hash or the flush list. A page of space `id`
that is I/O-fixed or pinned stays in the LRU list, the pass ends with
`all_freed = FALSE`, and the function starts another pass. -/
theorem remove_all_pages_one_pass (c : buf_LRU_consts) (p : buf_pool_t) (id : Nat)
    (env : scan_end → buf_pool_t → buf_pool_t) (hc : consts_ok c) (hok : discard_ok c p)
    (hahi : ∀ x ∈ p.LRU, (p.blocks x).space = id → (p.blocks x).index = false) :
    ∃ all_freed q,
      remove_all_pages_loop c id p.LRU.length p.LRU.getLast? p true
        = some (.done all_freed, q) ∧
      q.LRU = p.LRU.filter (fun x => !droppable id (p.blocks x)) ∧
      (∀ x, x ∈ q.page_hash ↔ x ∈ p.page_hash ∧ droppable id (p.blocks x) = false) ∧
      (∀ x, x ∈ q.flush_list ↔ x ∈ p.flush_list ∧ droppable id (p.blocks x) = false) ∧
      (∀ x ∈ q.LRU, { q.blocks x with old := false } = { p.blocks x with old := false }) ∧
      (∀ x ∈ p.LRU, (p.blocks x).space ≠ id → x ∈ q.LRU) ∧
      ((∀ x ∈ p.LRU, (p.blocks x).space = id →
          (p.blocks x).io_fix = .BUF_IO_NONE ∧ (p.blocks x).buf_fix_count = 0) →
        all_freed = true ∧
        (∀ passes, buf_LRU_remove_all_pages c id env (passes + 1) p = some q) ∧
        q.LRU = p.LRU.filter (fun x => decide ((p.blocks x).space ≠ id)) ∧
        (∀ x ∈ q.LRU, (q.blocks x).space ≠ id) ∧
        (∀ x ∈ q.page_hash, (q.blocks x).space ≠ id) ∧
        (∀ x ∈ q.flush_list, (q.blocks x).space ≠ id)) ∧
      (∀ x ∈ p.LRU, (p.blocks x).space = id →
        ((p.blocks x).io_fix ≠ .BUF_IO_NONE ∨ (p.blocks x).buf_fix_count ≠ 0) →
        x ∈ q.LRU ∧ all_freed = false ∧
        ∀ passes, buf_LRU_remove_all_pages c id env (passes + 1) p
          = buf_LRU_remove_all_pages c id env passes (env (.done false) q)) := by
  have hM := M_of_consts c hc
  obtain ⟨af, q, hq, _, k1, k2, k3, k4, k5, _⟩ :=
    remove_loop_spec c id hM p.LRU.length p.LRU [] p true (by simp) hok (Nat.le_refl _) hahi
  simp only [List.append_nil, Bool.true_and] at k1 k2
  have hdrop : ∀ x, droppable id (p.blocks x) = false ↔ ¬ droppable id (p.blocks x) = true := by
    intro x
    cases droppable id (p.blocks x) <;> simp
  have hmemq : ∀ x, x ∈ q.LRU ↔ x ∈ p.LRU ∧ droppable id (p.blocks x) = false := by
    intro x
    rw [k1, List.mem_filter]
    simp
  have hstrip : ∀ x ∈ q.LRU,
      { q.blocks x with old := false } = { p.blocks x with old := false } := by
    intro x hx
    apply k5 x
    rintro ⟨_, h2⟩
    rw [((hmemq x).1 hx).2] at h2
    cases h2
  have hnd : ∀ x, (p.blocks x).space ≠ id → droppable id (p.blocks x) = false := by
    intro x hx
    unfold droppable
    simp [hx]
  have hhash : ∀ x, x ∈ q.page_hash ↔ x ∈ p.page_hash ∧ droppable id (p.blocks x) = false := by
    intro x
    rw [k3 x, hdrop x]
    constructor
    · rintro ⟨h1, h2⟩
      exact ⟨h1, fun h => h2 ⟨hok.2.2.2.2.2 x h1, h⟩⟩
    · rintro ⟨h1, h2⟩
      exact ⟨h1, fun h => h2 h.2⟩
  have hflush : ∀ x, x ∈ q.flush_list ↔
      x ∈ p.flush_list ∧ droppable id (p.blocks x) = false := by
    intro x
    rw [k4 x, hdrop x]
    constructor
    · rintro ⟨h1, h2⟩
      exact ⟨h1, fun h => h2 ⟨(hok.2.2.2.1 x h1).1, h⟩⟩
    · rintro ⟨h1, h2⟩
      exact ⟨h1, fun h => h2 h.2⟩
  refine ⟨af, q, hq, k1, hhash, hflush, hstrip, ?_, ?_, ?_⟩
  · intro x hx hs
    exact (hmemq x).2 ⟨hx, hnd x hs⟩
  · intro hall
    have hdr : ∀ x ∈ p.LRU, (p.blocks x).space = id → droppable id (p.blocks x) = true := by
      intro x hx hs
      unfold droppable
      simp [hs, (hall x hx hs).1, (hall x hx hs).2]
    have haf : af = true := by
      rw [k2, List.all_eq_true]
      intro x hx
      by_cases hs : (p.blocks x).space = id
      · simp [hdr x hx hs]
      · simp [hs]
    have hsp : ∀ x ∈ q.LRU, (q.blocks x).space ≠ id := by
      intro x hx
      obtain ⟨h1, h2⟩ := (hmemq x).1 hx
      rw [(droppable_of_strip id _ _ (hstrip x hx)).2.1]
      intro hs
      rw [hdr x h1 hs] at h2
      cases h2
    refine ⟨haf, ?_, ?_, hsp, ?_, ?_⟩
    · intro passes
      unfold buf_LRU_remove_all_pages
      rw [hq, haf]
    · rw [k1]
      apply List.filter_congr
      intro x hx
      by_cases hs : (p.blocks x).space = id
      · simp [hdr x hx hs, hs]
      · simp [hnd x hs, hs]
    · intro x hx
      obtain ⟨h1, h2⟩ := (hhash x).1 hx
      exact hsp x ((hmemq x).2 ⟨hok.2.2.2.2.2 x h1, h2⟩)
    · intro x hx
      obtain ⟨h1, h2⟩ := (hflush x).1 hx
      exact hsp x ((hmemq x).2 ⟨(hok.2.2.2.1 x h1).1, h2⟩)
  · intro x hx hs hpin
    have hd : droppable id (p.blocks x) = false := by
      unfold droppable
      rcases hpin with e | e
      · simp [e]
      · simp [e]
    have haf : af = false := by
      rw [k2]
      apply Bool.eq_false_iff.2
      intro h
      rw [List.all_eq_true] at h
      have := h x hx
      simp [hs, hd] at this
    refine ⟨(hmemq x).2 ⟨hx, hd⟩, haf, ?_⟩
    intro passes
    conv_lhs => unfold buf_LRU_remove_all_pages
    rw [hq, haf]

/-- C19, witness: the three-page pool whose pages are all dirty, pages 1
and 2 in space 4 and page 2 buffer-fixed; the space removed is 4. -/
theorem remove_all_pages_one_pass_witness :
    ∃ all_freed q,
      remove_all_pages_loop plugin_consts 4 dirty_pool.LRU.length dirty_pool.LRU.getLast?
        dirty_pool true = some (.done all_freed, q) ∧
      q.LRU = dirty_pool.LRU.filter (fun x => !droppable 4 (dirty_pool.blocks x)) ∧
      (∀ x, x ∈ q.page_hash ↔
        x ∈ dirty_pool.page_hash ∧ droppable 4 (dirty_pool.blocks x) = false) ∧
      (∀ x, x ∈ q.flush_list ↔
        x ∈ dirty_pool.flush_list ∧ droppable 4 (dirty_pool.blocks x) = false) ∧
      (∀ x ∈ q.LRU,
        { q.blocks x with old := false } = { dirty_pool.blocks x with old := false }) ∧
      (∀ x ∈ dirty_pool.LRU, (dirty_pool.blocks x).space ≠ 4 → x ∈ q.LRU) ∧
      ((∀ x ∈ dirty_pool.LRU, (dirty_pool.blocks x).space = 4 →
          (dirty_pool.blocks x).io_fix = .BUF_IO_NONE ∧
          (dirty_pool.blocks x).buf_fix_count = 0) →
        all_freed = true ∧
        (∀ passes, buf_LRU_remove_all_pages plugin_consts 4 (fun _ r => r) (passes + 1)
          dirty_pool = some q) ∧
        q.LRU = dirty_pool.LRU.filter (fun x => decide ((dirty_pool.blocks x).space ≠ 4)) ∧
        (∀ x ∈ q.LRU, (q.blocks x).space ≠ 4) ∧
        (∀ x ∈ q.page_hash, (q.blocks x).space ≠ 4) ∧
        (∀ x ∈ q.flush_list, (q.blocks x).space ≠ 4)) ∧
      (∀ x ∈ dirty_pool.LRU, (dirty_pool.blocks x).space = 4 →
        ((dirty_pool.blocks x).io_fix ≠ .BUF_IO_NONE ∨
          (dirty_pool.blocks x).buf_fix_count ≠ 0) →
        x ∈ q.LRU ∧ all_freed = false ∧
        ∀ passes, buf_LRU_remove_all_pages plugin_consts 4 (fun _ r => r) (passes + 1)
            dirty_pool
          = buf_LRU_remove_all_pages plugin_consts 4 (fun _ r => r) passes
              ((fun _ r => r) (scan_end.done false) q)) :=
  remove_all_pages_one_pass plugin_consts dirty_pool 4 (fun _ r => r) (by decide) (by decide)
    (by decide)

theorem dirt_set_block (p : buf_pool_t) (b : Nat) (v : buf_page_t)
    (hv : v.oldest_modification = (p.blocks b).oldest_modification) :
    dirt (set_block p b v) = dirt p := by
  unfold dirt set_block
  simp only [Prod.mk.injEq, true_and]
  funext x
  by_cases hx : x = b
  · rw [hx, Function.update_same, hv]
  · rw [Function.update_noteq hx]

theorem dirt_set_old (p : buf_pool_t) (b : Nat) (v : Bool) :
    dirt (buf_page_set_old p b v) = dirt p :=
  dirt_set_block p b _ rfl

theorem dirt_set_old_all (v : Bool) : ∀ (l : List Nat) (blocks : Nat → buf_page_t) (x : Nat),
    (set_old_all v l blocks x).oldest_modification = (blocks x).oldest_modification := by
  intro l
  induction l with
  | nil => intro blocks x; rfl
  | cons a l ih =>
    intro blocks x
    show (set_old_all v l (Function.update blocks a { blocks a with old := v }) x).oldest_modification
      = _
    rw [ih]
    by_cases hx : x = a
    · rw [hx, Function.update_same]
    · rw [Function.update_noteq hx]

theorem dirt_adjust_loop (new_len : Nat) (fuel : Nat) (p q : buf_pool_t)
    (h : buf_LRU_old_adjust_len_loop new_len fuel p = some q) : dirt q = dirt p := by
  induction fuel generalizing p with
  | zero => simp [buf_LRU_old_adjust_len_loop] at h
  | succ fuel ih =>
    unfold buf_LRU_old_adjust_len_loop at h
    cases ho : p.LRU_old with
    | none => simp [ho] at h
    | some o =>
      simp only [ho] at h
      split_ifs at h with h1 h2
      · cases hp : UT_LIST_GET_PREV p.LRU o with
        | none => simp [hp] at h
        | some prev =>
          simp only [hp] at h
          rw [ih _ h, dirt_set_old]
          rfl
      · rw [ih _ h, dirt_set_old]
        rfl
      · simp only [Option.some.injEq] at h
        rw [← h]

theorem dirt_adjust (p q : buf_pool_t) (h : buf_LRU_old_adjust_len p = some q) :
    dirt q = dirt p := by
  unfold buf_LRU_old_adjust_len at h
  cases ho : p.LRU_old with
  | none => simp [ho] at h
  | some o =>
    simp only [ho] at h
    exact dirt_adjust_loop _ _ p q h

theorem dirt_blocks (p : buf_pool_t) (blocks : Nat → buf_page_t)
    (h : ∀ x, (blocks x).oldest_modification = (p.blocks x).oldest_modification) :
    dirt { p with blocks := blocks } = dirt p := by
  unfold dirt
  simp only [Prod.mk.injEq, true_and]
  funext x
  exact h x

theorem dirt_old_init (c : buf_LRU_consts) (p q : buf_pool_t)
    (h : buf_LRU_old_init c p = some q) : dirt q = dirt p := by
  unfold buf_LRU_old_init at h
  split_ifs at h
  rw [dirt_adjust _ _ h]
  exact dirt_blocks { p with LRU_old := p.LRU.head?, LRU_old_len := p.LRU.length } _
    (fun x => dirt_set_old_all true _ _ x)

theorem dirt_unzip_add (p q : buf_pool_t) (bpage : Nat) (old : Bool)
    (h : add_to_unzip_LRU_if_needed p bpage old = some q) : dirt q = dirt p := by
  unfold add_to_unzip_LRU_if_needed buf_unzip_LRU_add_block at h
  split_ifs at h <;> simp only [Option.some.injEq] at h <;> rw [← h] <;> rfl

theorem dirt_remove_block (c : buf_LRU_consts) (p q : buf_pool_t) (bpage : Nat)
    (h : buf_LRU_remove_block c p bpage = some q) : dirt q = dirt p := by
  unfold buf_LRU_remove_block at h
  split_ifs at h with h0 h1
  · cases hp : UT_LIST_GET_PREV p.LRU bpage with
    | none => simp [hp] at h
    | some prev =>
      simp only [hp] at h
      have e1 : dirt (buf_unzip_LRU_remove_block_if_needed
          { (let q := buf_page_set_old { p with LRU_old := some prev } prev true
             { q with LRU_old_len := q.LRU_old_len + 1 }) with
            LRU := UT_LIST_REMOVE
              (let q := buf_page_set_old { p with LRU_old := some prev } prev true
               { q with LRU_old_len := q.LRU_old_len + 1 }).LRU bpage } bpage) = dirt p := by
        unfold buf_unzip_LRU_remove_block_if_needed
        split_ifs <;> exact dirt_set_old { p with LRU_old := some prev } prev true
      split_ifs at h with h2 h3
      · simp only [Option.some.injEq] at h
        rw [← h, ← e1]
        exact dirt_blocks _ _ (fun x => dirt_set_old_all false _ _ x)
      · rw [dirt_adjust _ _ h, ← e1]
        rfl
      · rw [dirt_adjust _ _ h, ← e1]
  · simp only at h
    have e1 : dirt (buf_unzip_LRU_remove_block_if_needed
          { p with LRU := UT_LIST_REMOVE p.LRU bpage } bpage) = dirt p := by
      unfold buf_unzip_LRU_remove_block_if_needed
      split_ifs <;> rfl
    split_ifs at h with h2 h3
    · simp only [Option.some.injEq] at h
      rw [← h, ← e1]
      exact dirt_blocks _ _ (fun x => dirt_set_old_all false _ _ x)
    · rw [dirt_adjust _ _ h, ← e1]
      rfl
    · rw [dirt_adjust _ _ h, ← e1]

theorem dirt_add_tail (c : buf_LRU_consts) (p1 q : buf_pool_t) (bpage : Nat) (old old2 : Bool)
    (h : (match (if p1.LRU.length > c.BUF_LRU_OLD_MIN_LEN then
          buf_LRU_old_adjust_len (buf_page_set_old p1 bpage old)
        else if p1.LRU.length = c.BUF_LRU_OLD_MIN_LEN then
          buf_LRU_old_init c p1
        else
          some (buf_page_set_old p1 bpage p1.LRU_old.isSome)) with
      | none => none
      | some p2 => add_to_unzip_LRU_if_needed p2 bpage old2) = some q) :
    dirt q = dirt p1 := by
  split_ifs at h with h1 h2
  · cases ha : buf_LRU_old_adjust_len (buf_page_set_old p1 bpage old) with
    | none => simp [ha] at h
    | some p2 =>
      simp only [ha] at h
      rw [dirt_unzip_add _ _ _ _ h, dirt_adjust _ _ ha, dirt_set_old]
  · cases ha : buf_LRU_old_init c p1 with
    | none => simp [ha] at h
    | some p2 =>
      simp only [ha] at h
      rw [dirt_unzip_add _ _ _ _ h, dirt_old_init _ _ _ ha]
  · simp only at h
    rw [dirt_unzip_add _ _ _ _ h, dirt_set_old]

theorem dirt_add_low (c : buf_LRU_consts) (p q : buf_pool_t) (bpage : Nat) (old : Bool)
    (h : buf_LRU_add_block_low c p bpage old = some q) : dirt q = dirt p := by
  unfold buf_LRU_add_block_low at h
  split_ifs at h with h0 h1
  · simp only at h
    rw [dirt_add_tail c _ q bpage old old h]
    exact dirt_set_block { p with LRU := UT_LIST_ADD_FIRST p.LRU bpage } bpage _ rfl
  · cases ho : p.LRU_old with
    | none => simp [ho] at h
    | some o =>
      simp only [ho] at h
      have hd := dirt_add_tail c
        ({ p with LRU := UT_LIST_INSERT_AFTER p.LRU o bpage, LRU_old := some o,
                  LRU_old_len := p.LRU_old_len + 1 } : buf_pool_t) q bpage old old h
      rw [hd]
      rfl

theorem dirt_add_to_end (c : buf_LRU_consts) (p q : buf_pool_t) (bpage : Nat)
    (h : buf_LRU_add_block_to_end_low c p bpage = some q) : dirt q = dirt p := by
  unfold buf_LRU_add_block_to_end_low at h
  split_ifs at h with h0
  simp only at h
  split_ifs at h with h1 h2
  · cases ha : buf_LRU_old_adjust_len
        { buf_page_set_old { p with LRU := UT_LIST_ADD_LAST p.LRU bpage } bpage true with
          LRU_old_len := (buf_page_set_old { p with LRU := UT_LIST_ADD_LAST p.LRU bpage }
            bpage true).LRU_old_len + 1 } with
    | none => simp [ha] at h
    | some p2 =>
      simp only [ha] at h
      rw [dirt_unzip_add _ _ _ _ h, dirt_adjust _ _ ha]
      exact dirt_set_old { p with LRU := UT_LIST_ADD_LAST p.LRU bpage } bpage true
  · cases ha : buf_LRU_old_init c { p with LRU := UT_LIST_ADD_LAST p.LRU bpage } with
    | none => simp [ha] at h
    | some p2 =>
      simp only [ha] at h
      rw [dirt_unzip_add _ _ _ _ h, dirt_old_init _ _ _ ha]
      rfl
  · simp only at h
    rw [dirt_unzip_add _ _ _ _ h, dirt_set_old]
    rfl

theorem dirt_make_young (c : buf_LRU_consts) (p q : buf_pool_t) (bpage : Nat)
    (h : buf_LRU_make_block_young c p bpage = some q) : dirt q = dirt p := by
  unfold buf_LRU_make_block_young at h
  obtain ⟨p0, hp0⟩ : ∃ p0, p0 = (if (p.blocks bpage).old then
      { p with n_pages_made_young := (p.n_pages_made_young + 1) % 2 ^ 64 } else p) := ⟨_, rfl⟩
  have hd0 : dirt p0 = dirt p := by
    rw [hp0]; split_ifs <;> rfl
  change (match buf_LRU_remove_block c (if (p.blocks bpage).old then
      { p with n_pages_made_young := (p.n_pages_made_young + 1) % 2 ^ 64 } else p) bpage with
    | none => none
    | some p1 => buf_LRU_add_block_low c p1 bpage false) = some q at h
  rw [← hp0] at h
  cases hr : buf_LRU_remove_block c p0 bpage with
  | none => simp [hr] at h
  | some p1 =>
    simp only [hr] at h
    rw [dirt_add_low _ _ _ _ _ h, dirt_remove_block _ _ _ _ hr, hd0]

theorem dirt_make_old (c : buf_LRU_consts) (p q : buf_pool_t) (bpage : Nat)
    (h : buf_LRU_make_block_old c p bpage = some q) : dirt q = dirt p := by
  unfold buf_LRU_make_block_old at h
  cases hr : buf_LRU_remove_block c p bpage with
  | none => simp [hr] at h
  | some p1 =>
    simp only [hr] at h
    rw [dirt_add_to_end _ _ _ _ h, dirt_remove_block _ _ _ _ hr]

theorem dirt_ratio_update (c : buf_LRU_consts) (p q : buf_pool_t) (old_pct r : Nat)
    (adjust : Bool) (h : buf_LRU_old_ratio_update c p old_pct adjust = some (r, q)) :
    dirt q = dirt p := by
  unfold buf_LRU_old_ratio_update at h
  obtain ⟨ratio, hratio⟩ : ∃ ratio, ratio =
      (if (old_pct * BUF_LRU_OLD_RATIO_DIV) % 2 ^ 32 / 100 < c.BUF_LRU_OLD_RATIO_MIN then
        c.BUF_LRU_OLD_RATIO_MIN
      else if (old_pct * BUF_LRU_OLD_RATIO_DIV) % 2 ^ 32 / 100 > c.BUF_LRU_OLD_RATIO_MAX then
        c.BUF_LRU_OLD_RATIO_MAX
      else (old_pct * BUF_LRU_OLD_RATIO_DIV) % 2 ^ 32 / 100) := ⟨_, rfl⟩
  simp only [← hratio] at h
  cases adjust with
  | false =>
    simp only [Bool.false_eq_true, if_false, Option.some.injEq, Prod.mk.injEq] at h
    rw [← h.2]; rfl
  | true =>
    simp only [if_true] at h
    by_cases h2 : ratio ≠ p.buf_LRU_old_ratio
    · rw [if_pos h2] at h
      by_cases h3 : ({ p with buf_LRU_old_ratio := ratio } : buf_pool_t).LRU.length
          ≥ c.BUF_LRU_OLD_MIN_LEN
      · rw [if_pos h3] at h
        cases ha : buf_LRU_old_adjust_len { p with buf_LRU_old_ratio := ratio } with
        | none => simp [ha] at h
        | some p2 =>
          simp only [ha, Option.some.injEq, Prod.mk.injEq] at h
          rw [← h.2, dirt_adjust _ _ ha]; rfl
      · rw [if_neg h3] at h
        simp only [Option.some.injEq, Prod.mk.injEq] at h
        rw [← h.2]; rfl
    · rw [if_neg h2] at h
      simp only [Option.some.injEq, Prod.mk.injEq] at h
      rw [← h.2]

theorem dirt_fields (p q : buf_pool_t) (h : dirt q = dirt p) :
    q.free = p.free ∧ q.flush_list = p.flush_list ∧
    ∀ x, (q.blocks x).oldest_modification = (p.blocks x).oldest_modification := by
  unfold dirt at h
  simp only [Prod.mk.injEq] at h
  exact ⟨h.1, h.2.1, fun x => congrFun h.2.2 x⟩

theorem flush_clean_of_dirt (p q : buf_pool_t) (h : dirt q = dirt p) (hcl : flush_clean p) :
    flush_clean q := by
  obtain ⟨h1, h2, h3⟩ := dirt_fields p q h
  unfold flush_clean at hcl ⊢
  rw [h1, h2]
  exact ⟨fun x hx => by rw [h3 x]; exact hcl.1 x hx, hcl.2⟩

theorem op_dirt (c : buf_LRU_consts) (p q : buf_pool_t) (o : LRU_op)
    (h : op_apply c p o = some q)
    (hfb : ∀ bpage zip b, o ≠ .free_block bpage zip b)
    (hfo : ∀ bpage, o ≠ .free_one_page bpage) : dirt q = dirt p := by
  cases o with
  | add_block bpage old => exact dirt_add_low c p q bpage old h
  | remove_block bpage => exact dirt_remove_block c p q bpage h
  | make_block_young bpage => exact dirt_make_young c p q bpage h
  | make_block_old bpage => exact dirt_make_old c p q bpage h
  | free_block bpage zip b => exact absurd rfl (hfb bpage zip b)
  | free_one_page bpage => exact absurd rfl (hfo bpage)
  | old_ratio_update old_pct =>
    unfold op_apply at h
    cases hr : buf_LRU_old_ratio_update c p old_pct true with
    | none => simp [hr] at h
    | some r =>
      obtain ⟨r1, r2⟩ := r
      simp only [hr, Option.map_some', Option.some.injEq] at h
      subst h
      exact dirt_ratio_update c p r2 old_pct r1 true hr

theorem free_non_file_page_facts (p q : buf_pool_t) (block : Nat)
    (h : buf_LRU_block_free_non_file_page p block = some q) :
    ((p.blocks block).state = .BUF_BLOCK_MEMORY ∨
      (p.blocks block).state = .BUF_BLOCK_READY_FOR_USE) ∧
    q.free = block :: p.free ∧ q.flush_list = p.flush_list ∧
    (q.blocks block).state = .BUF_BLOCK_NOT_USED ∧
    (∀ x, (q.blocks x).oldest_modification = (p.blocks x).oldest_modification) := by
  unfold buf_LRU_block_free_non_file_page at h
  have hmain : ∀ q, some
      { (match ((set_block p block
            { p.blocks block with state := .BUF_BLOCK_NOT_USED }).blocks block).zip_data with
        | some _ => set_block (set_block p block
            { p.blocks block with state := .BUF_BLOCK_NOT_USED }) block
            { (set_block p block
                { p.blocks block with state := .BUF_BLOCK_NOT_USED }).blocks block with
              zip_data := none, zip_size := 0 }
        | none => set_block p block { p.blocks block with state := .BUF_BLOCK_NOT_USED }) with
        free := UT_LIST_ADD_FIRST
          (match ((set_block p block
              { p.blocks block with state := .BUF_BLOCK_NOT_USED }).blocks block).zip_data with
          | some _ => set_block (set_block p block
              { p.blocks block with state := .BUF_BLOCK_NOT_USED }) block
              { (set_block p block
                  { p.blocks block with state := .BUF_BLOCK_NOT_USED }).blocks block with
                zip_data := none, zip_size := 0 }
          | none => set_block p block
              { p.blocks block with state := .BUF_BLOCK_NOT_USED }).free block } = some q →
      q.free = block :: p.free ∧ q.flush_list = p.flush_list ∧
      (q.blocks block).state = .BUF_BLOCK_NOT_USED ∧
      (∀ x, (q.blocks x).oldest_modification = (p.blocks x).oldest_modification) := by
    intro q hq
    simp only [Option.some.injEq] at hq
    subst hq
    cases hz : (p.blocks block).zip_data <;>
      simp only [set_block, Function.update_same, hz, UT_LIST_ADD_FIRST, true_and] <;>
      (intro x
       by_cases hx : x = block
       · subst hx
         simp only [Function.update_same]
       · simp only [Function.update_noteq hx])
  cases hs : (p.blocks block).state <;> simp only [hs] at h <;>
    first
      | exact ⟨by simp, hmain q h⟩
      | cases h

theorem free_block_step (c : buf_LRU_consts) (p : buf_pool_t) (bpage b : Nat) (zip : Bool)
    (hM : 25 ≤ c.BUF_LRU_OLD_MIN_LEN) (hv : LRU_valid c p) (hpf : page_freeable p bpage)
    (hfresh : fresh_descriptor p b) (hcl : flush_clean p) :
    ∃ freed removed q, buf_LRU_free_block c p bpage zip b = some (freed, removed, q) ∧
      flush_clean q ∧
      (∀ x, x ≠ b → (q.blocks x).oldest_modification = (p.blocks x).oldest_modification) ∧
      (∀ x ∈ q.free, x ∈ p.free ∨ (q.blocks x).oldest_modification = 0 ∨
        (x = bpage ∧ zip = false ∧ relocated_dirty p q x b)) ∧
      (freed = false → q = p) := by
  obtain ⟨freed, removed, q, hq, f1, f2, f3, f4, f5⟩ :=
    free_block_flush_facts c p bpage b zip hM hv hpf hfresh hcl.1 hcl.2
  have hbne : b ≠ bpage := fun e => hfresh.1 (e ▸ hpf.1)
  refine ⟨freed, removed, q, hq, ⟨f1, f2⟩, f4, ?_, ?_⟩
  · intro x hx
    by_cases hrel : (p.blocks bpage).oldest_modification ≠ 0 ∧ freed = true
    · obtain ⟨_, r2, _, r4, r5, r6, r7, r8, r9, r10⟩ := f5 hrel.1 hrel.2
      rcases f3 x hx with e | e
      · exact Or.inl e
      · subst e
        exact Or.inr (Or.inr ⟨rfl, r2, hrel.1, f4 x (fun e => hbne e.symm),
          r4, r5, r6, r7, r8, r9, r10⟩)
    · by_cases h0 : (p.blocks bpage).oldest_modification = 0
      · rcases f3 x hx with e | e
        · exact Or.inl e
        · refine Or.inr (Or.inl ?_)
          rw [e, f4 bpage (fun e => hbne e.symm)]
          exact h0
      · have hf : freed = false := by
          cases freed
          · rfl
          · exact absurd ⟨h0, rfl⟩ hrel
        subst hf
        have hqp := (free_block_false_same c p bpage b zip removed q hq).1
        rw [hqp] at hx
        exact Or.inl hx
  · intro hf
    subst hf
    exact (free_block_false_same c p bpage b zip removed q hq).1

theorem op_keeps_clean (c : buf_LRU_consts) (p : buf_pool_t) (o : LRU_op)
    (hc : consts_ok c) (hv : LRU_valid c p) (hr : ratio_ok c p) (hcl : flush_clean p)
    (hpre : op_pre p o) :
    ∃ q, op_apply c p o = some q ∧ LRU_valid c q ∧ ratio_ok c q ∧ flush_clean q ∧
      (∀ x, (q.blocks x).oldest_modification = (p.blocks x).oldest_modification ∨
        ∃ bpage zip, o = .free_block bpage zip x) ∧
      (∀ x ∈ q.free, x ∈ p.free ∨ (q.blocks x).oldest_modification = 0 ∨
        ∃ b, o = .free_block x false b ∧ relocated_dirty p q x b) := by
  have hM := M_of_consts c hc
  obtain ⟨q, hq, hvq, hrq⟩ := op_valid c p o hc hv hr hpre
  refine ⟨q, hq, hvq, hrq, ?_⟩
  have hsame : dirt q = dirt p → flush_clean q ∧
      (∀ x, (q.blocks x).oldest_modification = (p.blocks x).oldest_modification ∨
        ∃ bpage zip, o = .free_block bpage zip x) ∧
      (∀ x ∈ q.free, x ∈ p.free ∨ (q.blocks x).oldest_modification = 0 ∨
        ∃ b, o = .free_block x false b ∧ relocated_dirty p q x b) := by
    intro hd
    obtain ⟨h1, _, h3⟩ := dirt_fields p q hd
    exact ⟨flush_clean_of_dirt p q hd hcl, fun x => Or.inl (h3 x),
      fun x hx => Or.inl (h1 ▸ hx)⟩
  cases o with
  | add_block bpage old =>
    exact hsame (op_dirt c p q _ hq (fun _ _ _ h => by cases h) (fun _ h => by cases h))
  | remove_block bpage =>
    exact hsame (op_dirt c p q _ hq (fun _ _ _ h => by cases h) (fun _ h => by cases h))
  | make_block_young bpage =>
    exact hsame (op_dirt c p q _ hq (fun _ _ _ h => by cases h) (fun _ h => by cases h))
  | make_block_old bpage =>
    exact hsame (op_dirt c p q _ hq (fun _ _ _ h => by cases h) (fun _ h => by cases h))
  | old_ratio_update old_pct =>
    exact hsame (op_dirt c p q _ hq (fun _ _ _ h => by cases h) (fun _ h => by cases h))
  | free_one_page bpage =>
    obtain ⟨A, B, hl⟩ := List.append_of_mem hpre.1.1
    obtain ⟨q1, hq1, _, _, _, gfree, gflush, _, _, gb, gx⟩ :=
      free_one_page_facts c p A B bpage hM hv hl hpre.1 hpre.2.1 hpre.2.2.1 hpre.2.2.2
    have hqq : q1 = q := by
      have : some q1 = some q := by rw [← hq1, ← hq]; rfl
      exact Option.some.inj this
    subst hqq
    have hom : ∀ x, (q1.blocks x).oldest_modification = (p.blocks x).oldest_modification := by
      intro x
      by_cases hxb : x = bpage
      · subst hxb
        rw [gb]
        unfold page_after_free page_after_remove
        split_ifs <;> rfl
      · exact modification_of_strip_old _ _ (gx x hxb)
    have hnb : bpage ∉ p.flush_list := fun hbf => hcl.1 bpage hbf hpre.2.2.2
    refine ⟨⟨?_, ?_⟩, fun x => Or.inl (hom x), ?_⟩
    · intro x hx
      rw [gflush] at hx
      rw [hom x]
      exact hcl.1 x hx
    · intro x hx
      rw [gflush]
      rw [gfree] at hx
      split_ifs at hx
      · exact hcl.2 x hx
      · rcases List.mem_cons.1 hx with e | e
        · rw [e]; exact hnb
        · exact hcl.2 x e
    · intro x hx
      rw [gfree] at hx
      split_ifs at hx
      · exact Or.inl hx
      · rcases List.mem_cons.1 hx with e | e
        · refine Or.inr (Or.inl ?_)
          rw [e, hom bpage]
          exact hpre.2.2.2
        · exact Or.inl e
  | free_block bpage zip b =>
    obtain ⟨freed, removed, q1, hq1, f1, f2, f3, _⟩ :=
      free_block_step c p bpage b zip hM hv hpre.1 hpre.2 hcl
    have hqq : q1 = q := by
      have h2 : (buf_LRU_free_block c p bpage zip b).map (fun r => r.2.2) = some q := hq
      rw [hq1] at h2
      exact Option.some.inj h2
    subst hqq
    refine ⟨f1, ?_, ?_⟩
    · intro x
      by_cases hxb : x = b
      · exact Or.inr ⟨bpage, zip, by rw [hxb]⟩
      · exact Or.inl (f2 x hxb)
    · intro x hx
      rcases f3 x hx with e | e | ⟨e1, e2, e3⟩
      · exact Or.inl e
      · exact Or.inr (Or.inl e)
      · exact Or.inr (Or.inr ⟨b, by rw [e1, e2], e3⟩)

theorem run_keeps_clean (c : buf_LRU_consts) (ops : List LRU_op) (p : buf_pool_t)
    (hc : consts_ok c) (hv : LRU_valid c p) (hr : ratio_ok c p) (hcl : flush_clean p)
    (hpre : ops_pre c p ops = true) :
    ∃ q, run_ops c p ops = some q ∧ flush_clean q := by
  induction ops generalizing p with
  | nil => exact ⟨p, rfl, hcl⟩
  | cons o os ih =>
    unfold ops_pre at hpre
    simp only [Bool.and_eq_true, decide_eq_true_eq] at hpre
    obtain ⟨q, hq, hvq, hrq, hclq, _⟩ := op_keeps_clean c p o hc hv hr hcl hpre.1
    have h2 := hpre.2
    rw [hq] at h2
    obtain ⟨q2, hq2, hcl2⟩ := ih q hvq hrq hclq h2
    refine ⟨q2, ?_, hcl2⟩
    unfold run_ops
    rw [hq]
    exact hq2

theorem remove_pass_clean (c : buf_LRU_consts) (p : buf_pool_t) (id : Nat)
    (env : scan_end → buf_pool_t → buf_pool_t) (hc : consts_ok c) (hok : discard_ok c p)
    (hcl : flush_clean p)
    (hahi : ∀ x ∈ p.LRU, (p.blocks x).space = id → (p.blocks x).index = false) :
    ∃ all_freed q,
      remove_all_pages_loop c id p.LRU.length p.LRU.getLast? p true
        = some (.done all_freed, q) ∧
      flush_clean q ∧
      (∀ x ∈ q.free, x ∈ p.free ∨
        (x ∈ p.LRU ∧ (p.blocks x).space = id ∧ (q.blocks x).oldest_modification = 0)) ∧
      (all_freed = true →
        ∀ passes, buf_LRU_remove_all_pages c id env (passes + 1) p = some q) := by
  have hM := M_of_consts c hc
  obtain ⟨af, q, hq, hokq, _, _, _, k4, _, k6⟩ :=
    remove_loop_spec c id hM p.LRU.length p.LRU [] p true (by simp) hok (Nat.le_refl _) hahi
  refine ⟨af, q, hq, ⟨?_, ?_⟩, ?_, ?_⟩
  · intro x hx
    exact (hokq.2.2.2.1 x hx).2
  · intro x hx hxf
    rcases k6 x hx with h | ⟨h1, h2, _⟩
    · exact hcl.2 x h ((k4 x).1 hxf).1
    · exact ((k4 x).1 hxf).2 ⟨h1, h2⟩
  · intro x hx
    rcases k6 x hx with h | ⟨h1, h2, h3⟩
    · exact Or.inl h
    · refine Or.inr ⟨h1, ?_, h3⟩
      unfold droppable at h2
      simp only [Bool.and_eq_true, decide_eq_true_eq] at h2
      exact h2.1.1
  · intro haf passes
    subst haf
    unfold buf_LRU_remove_all_pages
    rw [hq]

theorem unzip_scan_step (c : buf_LRU_consts) (b : Nat) (p : buf_pool_t)
    (hM : 25 ≤ c.BUF_LRU_OLD_MIN_LEN) (hok : pool_ok c p b) (hcl : flush_clean p) (d : Nat) :
    ∀ (cur : Option Nat) (tr : List (Nat × Bool)) (r : Bool) (tr2 : List (Nat × Bool))
      (q : buf_pool_t),
      (∀ blk, cur = some blk → blk ∈ p.unzip_LRU) →
      unzip_LRU_scan c b d cur p tr = some (r, tr2, q) →
      flush_clean q ∧
      ∀ x ∈ q.free, x ∈ p.free ∨ (q.blocks x).oldest_modification = 0 ∨
        relocated_dirty p q x b := by
  obtain ⟨hv, hlv, hpf, hfresh⟩ := hok
  induction d with
  | zero =>
    intro cur tr r tr2 q _ h
    unfold unzip_LRU_scan at h
    simp only [Option.some.injEq, Prod.mk.injEq] at h
    rw [← h.2.2]
    exact ⟨hcl, fun x hx => Or.inl hx⟩
  | succ d ih =>
    intro cur tr r tr2 q hcur h
    cases cur with
    | none =>
      unfold unzip_LRU_scan at h
      simp only [Option.some.injEq, Prod.mk.injEq] at h
      rw [← h.2.2]
      exact ⟨hcl, fun x hx => Or.inl hx⟩
    | some blk =>
      have hm := hcur blk rfl
      have hl := (hlv.2.2.2.2.2 blk hm).1
      obtain ⟨r1, rm, q1, hq, s1, _, s3, s4⟩ :=
        free_block_step c p blk b false hM hv (hpf blk hl) hfresh hcl
      unfold unzip_LRU_scan at h
      rw [hq] at h
      simp only at h
      cases r1 with
      | true =>
        simp only [if_true, Option.some.injEq, Prod.mk.injEq] at h
        rw [← h.2.2]
        refine ⟨s1, fun x hx => ?_⟩
        rcases s3 x hx with e | e | ⟨_, _, e3⟩
        · exact Or.inl e
        · exact Or.inr (Or.inl e)
        · exact Or.inr (Or.inr e3)
      | false =>
        simp only [Bool.false_eq_true, if_false] at h
        rw [s4 rfl] at h
        exact ih _ _ _ _ _ (fun y hy => prev_mem _ _ _ hy) h

theorem common_scan_step (c : buf_LRU_consts) (b : Nat) (init : Nat) (p : buf_pool_t)
    (hM : 25 ≤ c.BUF_LRU_OLD_MIN_LEN) (hok : pool_ok c p b) (hcl : flush_clean p) (d : Nat) :
    ∀ (cur : Option Nat) (tr : List (Nat × Bool)) (r : Bool) (sid : Option Nat) (ns : Nat)
      (tr2 : List (Nat × Bool)) (q : buf_pool_t),
      (∀ blk, cur = some blk → blk ∈ p.LRU) →
      common_LRU_scan c b init d cur p tr = some (r, sid, ns, tr2, q) →
      flush_clean q ∧
      ∀ x ∈ q.free, x ∈ p.free ∨ (q.blocks x).oldest_modification = 0 ∨
        relocated_dirty p q x b := by
  obtain ⟨hv, hlv, hpf, hfresh⟩ := hok
  induction d with
  | zero =>
    intro cur tr r sid ns tr2 q _ h
    unfold common_LRU_scan at h
    simp only [Option.some.injEq, Prod.mk.injEq] at h
    rw [← h.2.2.2.2]
    exact ⟨hcl, fun x hx => Or.inl hx⟩
  | succ d ih =>
    intro cur tr r sid ns tr2 q hcur h
    cases cur with
    | none =>
      unfold common_LRU_scan at h
      simp only [Option.some.injEq, Prod.mk.injEq] at h
      rw [← h.2.2.2.2]
      exact ⟨hcl, fun x hx => Or.inl hx⟩
    | some blk =>
      have hl := hcur blk rfl
      obtain ⟨r1, rm, q1, hq, s1, _, s3, s4⟩ :=
        free_block_step c p blk b true hM hv (hpf blk hl) hfresh hcl
      have hgoal : flush_clean q1 ∧
          ∀ x ∈ q1.free, x ∈ p.free ∨ (q1.blocks x).oldest_modification = 0 ∨
            relocated_dirty p q1 x b := by
        refine ⟨s1, fun x hx => ?_⟩
        rcases s3 x hx with e | e | ⟨_, e2, _⟩
        · exact Or.inl e
        · exact Or.inr (Or.inl e)
        · cases e2
      unfold common_LRU_scan at h
      rw [hq] at h
      simp only at h
      cases r1 with
      | true =>
        simp only [if_true, Option.some.injEq, Prod.mk.injEq] at h
        rw [← h.2.2.2.2]
        split_ifs
        · exact hgoal
        · exact hgoal
      | false =>
        simp only [Bool.false_eq_true, if_false] at h
        rw [s4 rfl] at h
        exact ih _ _ _ _ _ _ _ (fun y hy => prev_mem _ _ _ hy) h

theorem get_free_only_step (p : buf_pool_t) (h : lists_valid p) :
    ∃ r q, buf_LRU_get_free_only p = some (r, q) ∧
      q.flush_list = p.flush_list ∧ q.LRU = p.LRU ∧
      (∀ x ∈ q.free, x ∈ p.free ∧ q.blocks x = p.blocks x) ∧
      (∀ x, (q.blocks x).oldest_modification = (p.blocks x).oldest_modification) ∧
      (∀ x ∈ q.LRU, q.blocks x = p.blocks x) := by
  cases hfr : p.free with
  | nil =>
    refine ⟨none, p, (get_free_only_spec p).1 hfr, rfl, rfl, ?_, fun _ => rfl, fun _ _ => rfl⟩
    intro x hx
    rw [hfr] at hx
    cases hx
  | cons block rest =>
    have hmem : block ∈ p.free := by rw [hfr]; simp
    obtain ⟨hl, _, hf⟩ := free_not_in_LRU p h block hmem
    have hnd := h.1
    rw [hfr] at hnd
    have hbr : block ∉ rest := (List.nodup_cons.mp hnd).1
    refine ⟨_, _, (get_free_only_spec p).2 block rest hfr hf, rfl, rfl, ?_, ?_, ?_⟩
    · intro x hx
      have hxb : x ≠ block := fun e => hbr (e ▸ hx)
      exact ⟨List.mem_cons_of_mem _ hx, by simp only [Function.update_noteq hxb]⟩
    · intro x
      by_cases hxb : x = block
      · subst hxb
        simp only [Function.update_same]
      · simp only [Function.update_noteq hxb]
    · intro x hx
      have hxb : x ≠ block := fun e => hl (e ▸ hx)
      simp only [Function.update_noteq hxb]

theorem search_step (c : buf_LRU_consts) (P : LRU_params) (p : buf_pool_t)
    (n_iterations b : Nat) (want_block : Bool) (hM : 25 ≤ c.BUF_LRU_OLD_MIN_LEN)
    (hok : pool_ok c p b) (hcl : flush_clean p) :
    ∃ freed blk ns q,
      buf_LRU_search_and_free_block c P p n_iterations want_block b
        = some (freed, blk, ns, q) ∧
      flush_clean q ∧
      ∀ x ∈ q.free, x ∈ p.free ∨ (q.blocks x).oldest_modification = 0 ∨
        relocated_dirty p q x b := by
  have key : ∀ (f : Bool) (ns2 : Nat) (p2 : buf_pool_t), lists_valid p2 →
      (flush_clean p2 ∧ ∀ x ∈ p2.free, x ∈ p.free ∨ (p2.blocks x).oldest_modification = 0 ∨
        relocated_dirty p p2 x b) →
      ∃ freed blk ns q,
        (if f = true then
          (if want_block = true then
            (match buf_LRU_get_free_only
                (if p2.LRU_flush_ended > 0 then
                  { p2 with LRU_flush_ended := p2.LRU_flush_ended - 1 } else p2) with
              | none => none
              | some (block, p4) => some (true, block, ns2, p4))
           else some (true, none, ns2,
             (if p2.LRU_flush_ended > 0 then
               { p2 with LRU_flush_ended := p2.LRU_flush_ended - 1 } else p2)))
         else some (false, none, ns2, { p2 with LRU_flush_ended := 0 }))
          = some (freed, blk, ns, q) ∧
        flush_clean q ∧
        ∀ x ∈ q.free, x ∈ p.free ∨ (q.blocks x).oldest_modification = 0 ∨
          relocated_dirty p q x b := by
    intro f ns2 p2 hl2 hs2
    obtain ⟨p3, hp3⟩ : ∃ p3, p3 = (if p2.LRU_flush_ended > 0 then
        { p2 with LRU_flush_ended := p2.LRU_flush_ended - 1 } else p2) := ⟨_, rfl⟩
    have hl3 : lists_valid p3 := by
      rw [hp3]
      split_ifs
      · exact lists_valid_congr p2 _ hl2 rfl rfl rfl rfl
      · exact hl2
    have hs3 : flush_clean p3 ∧ ∀ x ∈ p3.free, x ∈ p.free ∨
        (p3.blocks x).oldest_modification = 0 ∨ relocated_dirty p p3 x b := by
      rw [hp3]
      split_ifs
      · exact hs2
      · exact hs2
    rw [← hp3]
    cases f with
    | false =>
      exact ⟨false, none, ns2, { p2 with LRU_flush_ended := 0 }, by simp, hs2⟩
    | true =>
      cases want_block with
      | false => exact ⟨true, none, ns2, p3, by simp, hs3⟩
      | true =>
        obtain ⟨r, q, hg, g1, g2, g3, g4, g5⟩ := get_free_only_step p3 hl3
        refine ⟨true, r, ns2, q, by simp [hg], ⟨?_, ?_⟩, ?_⟩
        · intro x hx
          rw [g1] at hx
          rw [g4 x]
          exact hs3.1.1 x hx
        · intro x hx
          rw [g1]
          exact hs3.1.2 x (g3 x hx).1
        · intro x hx
          obtain ⟨hx3, hxb⟩ := g3 x hx
          rcases hs3.2 x hx3 with e | e | ⟨e1, e2, e3, e4, e5, e6, e7, e8, e9⟩
          · exact Or.inl e
          · exact Or.inr (Or.inl (by rw [g4 x]; exact e))
          · have hb : q.blocks b = p3.blocks b := g5 b (by rw [g2]; exact e8)
            refine Or.inr (Or.inr ⟨e1, ?_, ?_, ?_, ?_, ?_, ?_, ?_, ?_⟩)
            · rw [hxb]; exact e2
            · rw [hxb]; exact e3
            · rw [hb]; exact e4
            · rw [hb]; exact e5
            · rw [hb]; exact e6
            · rw [hb]; exact e7
            · rw [g2]; exact e8
            · rw [g1]; exact e9
  have hu : ∃ r1 tr1 p1, buf_LRU_free_from_unzip_LRU_list c (P.evict_from_unzip_LRU p) p
      n_iterations b = some (r1, tr1, p1) := by
    unfold buf_LRU_free_from_unzip_LRU_list
    split_ifs
    · exact ⟨_, _, _, rfl⟩
    · obtain ⟨res, h⟩ := unzip_scan_total c b p hM hok _ p.unzip_LRU.getLast? []
        (fun blk hblk => List.mem_of_mem_getLast? hblk)
      exact ⟨res.1, res.2.1, res.2.2, h⟩
  obtain ⟨r1, tr1, p1, hu1⟩ := hu
  obtain ⟨hl1, hsame⟩ := unzip_list_lists c p _ n_iterations b hM hok _ _ _ hu1
  have hs1 : flush_clean p1 ∧ ∀ x ∈ p1.free, x ∈ p.free ∨
      (p1.blocks x).oldest_modification = 0 ∨ relocated_dirty p p1 x b := by
    have h := hu1
    unfold buf_LRU_free_from_unzip_LRU_list at h
    split_ifs at h
    · simp only [Option.some.injEq, Prod.mk.injEq] at h
      rw [← h.2.2]
      exact ⟨hcl, fun x hx => Or.inl hx⟩
    · exact unzip_scan_step c b p hM hok hcl _ _ _ _ _ _
        (fun blk hblk => List.mem_of_mem_getLast? hblk) h
  unfold buf_LRU_search_and_free_block
  rw [hu1]
  simp only
  cases r1 with
  | true =>
    simp only [if_true]
    exact key true 0 p1 hl1 hs1
  | false =>
    simp only [Bool.false_eq_true, if_false]
    have hp1 := hsame rfl
    subst hp1
    have hcm : ∃ f sid ns2 tr p2, buf_LRU_free_from_common_LRU_list c p1 n_iterations
        (search_limit P n_iterations want_block) b = some (f, sid, ns2, tr, p2) := by
      unfold buf_LRU_free_from_common_LRU_list
      obtain ⟨res, h⟩ := common_scan_total c b _ p1 hM hok _ p1.LRU.getLast? []
        (fun blk hblk => List.mem_of_mem_getLast? hblk)
      exact ⟨res.1, res.2.1, res.2.2.1, res.2.2.2.1, res.2.2.2.2, h⟩
    obtain ⟨f, sid, ns2, tr, p2, hcm1⟩ := hcm
    have hl2 := common_list_lists c p1 n_iterations _ b hM hok _ _ _ _ _ hcm1
    have hs2 : flush_clean p2 ∧ ∀ x ∈ p2.free, x ∈ p1.free ∨
        (p2.blocks x).oldest_modification = 0 ∨ relocated_dirty p1 p2 x b := by
      have h := hcm1
      unfold buf_LRU_free_from_common_LRU_list at h
      exact common_scan_step c b _ p1 hM hok hcl _ _ _ _ _ _ _ _
        (fun blk hblk => List.mem_of_mem_getLast? hblk) h
    rw [hcm1]
    simp only
    exact key f ns2 p2 hl2 hs2

/-- C31, amended: under the compile-time constraints on the constants, let
the LRU list pass `buf_LRU_validate` with `buf_LRU_old_ratio` within its
limits, and let the flush list hold dirty blocks only and no block of the
free list (`flush_clean`). Then

* each of `buf_LRU_add_block`, `buf_LRU_remove_block`,
  `buf_LRU_make_block_young`, `buf_LRU_make_block_old`, `buf_LRU_free_block`,
  `buf_LRU_free_one_page` and `buf_LRU_old_ratio_update`, called as its
  caller has to, returns and keeps `flush_clean`; it leaves
  `oldest_modification` of every descriptor as it was, but for the
  descriptor handed to `buf_LRU_free_block` for a relocation; and a block
  that it puts on the free list has `oldest_modification = 0`, with one
  exception: a relocating `buf_LRU_free_block(x, zip = FALSE)` of a dirty
  page puts the uncompressed block `x` on the free list in state `NOT_USED`
  with its `oldest_modification` still non-zero, while the descriptor `b`
  is in state `ZIP_DIRTY` with the identity and `oldest_modification` of
  the page, is in the LRU list, and takes the place of `x` in the flush
  list (`relocated_dirty`);
* every state that a sequence of these operations reaches satisfies
  `flush_clean`: no block of the free list is in the flush list;
* `buf_LRU_free_one_page` on a dirty page fails its assertion;
* `buf_LRU_search_and_free_block`, entered in a state `pool_ok` with the
  unused descriptor `b`, returns, keeps `flush_clean`, and a block that it
  leaves on the free list was there before, has `oldest_modification = 0`,
  or is such a relocated uncompressed block;
* one pass of `buf_LRU_remove_all_pages`, entered in a state `discard_ok`
  without adaptive hash index on the pages of the tablespace, ends, keeps
  `flush_clean`, and every block it puts on the free list is a page of the
  tablespace with `oldest_modification = 0`; if the pass ends with
  `all_freed` set the function returns this state;
* `buf_LRU_block_free_non_file_page` on a block in state `MEMORY` or
  `READY_FOR_USE` returns and puts the block at the head of the free list
  in state `NOT_USED` without looking at `oldest_modification`, which stays
  as it was in every descriptor; `flush_clean` is kept if the block is not
  in the flush list. -/
theorem free_list_not_flushable (c : buf_LRU_consts) (p : buf_pool_t)
    (hc : consts_ok c) (hv : LRU_valid c p) (hr : ratio_ok c p) (hcl : flush_clean p) :
    (∀ o, op_pre p o →
      ∃ q, op_apply c p o = some q ∧ flush_clean q ∧
        (∀ x, (q.blocks x).oldest_modification = (p.blocks x).oldest_modification ∨
          ∃ bpage zip, o = .free_block bpage zip x) ∧
        (∀ x ∈ q.free, x ∈ p.free ∨ (q.blocks x).oldest_modification = 0 ∨
          ∃ b, o = .free_block x false b ∧ relocated_dirty p q x b)) ∧
    (∀ ops, ops_pre c p ops = true → ∃ q, run_ops c p ops = some q ∧ flush_clean q) ∧
    (∀ bpage, page_freeable p bpage → (p.blocks bpage).oldest_modification ≠ 0 →
      buf_LRU_free_one_page c p bpage = none) ∧
    (∀ P n_iterations want_block b, pool_ok c p b →
      ∃ freed blk ns q,
        buf_LRU_search_and_free_block c P p n_iterations want_block b
          = some (freed, blk, ns, q) ∧
        flush_clean q ∧
        ∀ x ∈ q.free, x ∈ p.free ∨ (q.blocks x).oldest_modification = 0 ∨
          relocated_dirty p q x b) ∧
    (∀ id env, discard_ok c p →
      (∀ x ∈ p.LRU, (p.blocks x).space = id → (p.blocks x).index = false) →
      ∃ all_freed q,
        remove_all_pages_loop c id p.LRU.length p.LRU.getLast? p true
          = some (.done all_freed, q) ∧
        flush_clean q ∧
        (∀ x ∈ q.free, x ∈ p.free ∨
          (x ∈ p.LRU ∧ (p.blocks x).space = id ∧ (q.blocks x).oldest_modification = 0)) ∧
        (all_freed = true →
          ∀ passes, buf_LRU_remove_all_pages c id env (passes + 1) p = some q)) ∧
    (∀ block, ((p.blocks block).state = .BUF_BLOCK_MEMORY ∨
        (p.blocks block).state = .BUF_BLOCK_READY_FOR_USE) →
      ∃ q, buf_LRU_block_free_non_file_page p block = some q ∧
        q.free = block :: p.free ∧ (q.blocks block).state = .BUF_BLOCK_NOT_USED ∧
        (∀ x, (q.blocks x).oldest_modification = (p.blocks x).oldest_modification) ∧
        (block ∉ p.flush_list → flush_clean q)) := by
  have hM := M_of_consts c hc
  refine ⟨?_, ?_, ?_, ?_, ?_, ?_⟩
  · intro o hpre
    obtain ⟨q, hq, _, _, h1, h2, h3⟩ := op_keeps_clean c p o hc hv hr hcl hpre
    exact ⟨q, hq, h1, h2, h3⟩
  · intro ops hpre
    exact run_keeps_clean c ops p hc hv hr hcl hpre
  · intro bpage hpf hd
    exact free_one_page_dirty c p bpage hM hv hpf hd
  · intro P n_iterations want_block b hok
    exact search_step c P p n_iterations b want_block hM hok hcl
  · intro id env hok hahi
    exact remove_pass_clean c p id env hc hok hcl hahi
  · intro block hst
    have hex : ∃ q, buf_LRU_block_free_non_file_page p block = some q := by
      unfold buf_LRU_block_free_non_file_page
      rcases hst with e | e <;> simp only [e] <;> exact ⟨_, rfl⟩
    obtain ⟨q, hq⟩ := hex
    obtain ⟨_, f1, f2, f3, f4⟩ := free_non_file_page_facts p q block hq
    refine ⟨q, hq, f1, f3, f4, fun hb => ⟨?_, ?_⟩⟩
    · intro x hx
      rw [f2] at hx
      rw [f4 x]
      exact hcl.1 x hx
    · intro x hx
      rw [f2]
      rw [f1] at hx
      rcases List.mem_cons.1 hx with e | e
      · rw [e]; exact hb
      · exact hcl.2 x e

set_option maxRecDepth 100000 in
/-- C31 amended, evaluated: the three-page pool whose compressed page 2 is
dirty and in the flush list, under the constants of the plugin. The pool
also is one in which page 2 can be freed with descriptor 9, in which the
searches are entered, and in which `buf_LRU_remove_all_pages` is entered. -/
theorem free_list_not_flushable_witness :
    (consts_ok plugin_consts ∧ LRU_valid plugin_consts dirty_zip_pool ∧
      ratio_ok plugin_consts dirty_zip_pool ∧ flush_clean dirty_zip_pool ∧
      op_pre dirty_zip_pool (.free_block 2 false 9) ∧
      pool_ok plugin_consts dirty_zip_pool 9 ∧ discard_ok plugin_consts dirty_zip_pool) ∧
    ((∀ o, op_pre dirty_zip_pool o →
      ∃ q, op_apply plugin_consts dirty_zip_pool o = some q ∧ flush_clean q ∧
        (∀ x, (q.blocks x).oldest_modification
            = (dirty_zip_pool.blocks x).oldest_modification ∨
          ∃ bpage zip, o = .free_block bpage zip x) ∧
        (∀ x ∈ q.free, x ∈ dirty_zip_pool.free ∨ (q.blocks x).oldest_modification = 0 ∨
          ∃ b, o = .free_block x false b ∧ relocated_dirty dirty_zip_pool q x b)) ∧
    (∀ ops, ops_pre plugin_consts dirty_zip_pool ops = true →
      ∃ q, run_ops plugin_consts dirty_zip_pool ops = some q ∧ flush_clean q) ∧
    (∀ bpage, page_freeable dirty_zip_pool bpage →
      (dirty_zip_pool.blocks bpage).oldest_modification ≠ 0 →
      buf_LRU_free_one_page plugin_consts dirty_zip_pool bpage = none) ∧
    (∀ P n_iterations want_block b, pool_ok plugin_consts dirty_zip_pool b →
      ∃ freed blk ns q,
        buf_LRU_search_and_free_block plugin_consts P dirty_zip_pool n_iterations
          want_block b = some (freed, blk, ns, q) ∧
        flush_clean q ∧
        ∀ x ∈ q.free, x ∈ dirty_zip_pool.free ∨ (q.blocks x).oldest_modification = 0 ∨
          relocated_dirty dirty_zip_pool q x b) ∧
    (∀ id env, discard_ok plugin_consts dirty_zip_pool →
      (∀ x ∈ dirty_zip_pool.LRU, (dirty_zip_pool.blocks x).space = id →
        (dirty_zip_pool.blocks x).index = false) →
      ∃ all_freed q,
        remove_all_pages_loop plugin_consts id dirty_zip_pool.LRU.length
          dirty_zip_pool.LRU.getLast? dirty_zip_pool true = some (.done all_freed, q) ∧
        flush_clean q ∧
        (∀ x ∈ q.free, x ∈ dirty_zip_pool.free ∨
          (x ∈ dirty_zip_pool.LRU ∧ (dirty_zip_pool.blocks x).space = id ∧
            (q.blocks x).oldest_modification = 0)) ∧
        (all_freed = true →
          ∀ passes, buf_LRU_remove_all_pages plugin_consts id env (passes + 1)
            dirty_zip_pool = some q)) ∧
    (∀ block, ((dirty_zip_pool.blocks block).state = .BUF_BLOCK_MEMORY ∨
        (dirty_zip_pool.blocks block).state = .BUF_BLOCK_READY_FOR_USE) →
      ∃ q, buf_LRU_block_free_non_file_page dirty_zip_pool block = some q ∧
        q.free = block :: dirty_zip_pool.free ∧
        (q.blocks block).state = .BUF_BLOCK_NOT_USED ∧
        (∀ x, (q.blocks x).oldest_modification
          = (dirty_zip_pool.blocks x).oldest_modification) ∧
        (block ∉ dirty_zip_pool.flush_list → flush_clean q))) :=
  ⟨⟨by decide, by decide, by decide, by decide, by decide, by decide, by decide⟩,
   free_list_not_flushable plugin_consts dirty_zip_pool (by decide) (by decide) (by decide)
     (by decide)⟩

end BufLRU
